import Mathlib

/-! primecount: LoadBalancer, Sieve, PhiTiny, PhiCache, Pk, S1 and pi_meissel

A shallow embedding of the parts of primecount that hand out sieve work
(`LoadBalancer.cpp`), count unsieved numbers (`Sieve.hpp`), evaluate the
partial sieve function (`PhiTiny.cpp`, `phi_vector.cpp`), count the integers
with two or three prime factors (`Pk.cpp`), add up the ordinary leaves
(`S1.cpp`) and combine them in Meissel's formula (`pi_meissel.cpp`),
followed by the theorems about them.

Conventions of the embedding
* `int64_t`, `uint64_t` and `maxint_t` values are unbounded `Int` or `Nat`:
  every quantity below is bounded by the sieving limit, far below `2^63`;
  where the source narrows a value (`int16_t`, `uint32_t`) the narrowing is
  modelled explicitly.
* Mutable objects are explicit states; a member function returns its result
  together with the new state.
* Floating-point timing heuristics are inputs of the model, not computed.
* Loops whose number of iterations is not evident carry a `fuel` argument
  and return `none` when it runs out; the theorems show how much suffices.
* A loop under `omp parallel for` is run in an arbitrary order, or in
  arbitrary chunks, of its iterations.
-/

set_option autoImplicit false

/-! ## Definitions -/

namespace Sieve

/-- Modelled from the spec: `Sieve::get_segment_size` (defined in Sieve.cpp),
which "rounds up to next multiple of 240". -/
def get_segment_size (size : Int) : Int :=
  (size + 239) / 240 * 240

end Sieve

/-! ### The wheel of 240 and 64-bit words -/

/-- The offsets `{ 1, 7, 11, 13, 17, 19, 23, 29 }` the 8 bits of a sieve
byte correspond to. -/
def wheel_offsets : List Nat := [1, 7, 11, 13, 17, 19, 23, 29]

/-- The integer of `[0, 240)` that bit `j` of a 64-bit sieve word stands
for: byte `j / 8` of the word covers `30 * (j / 8) + [0, 30)`, and bit
`j % 8` of that byte is the offset `wheel_offsets[j % 8]`. Bit `j` of word
`q` of the sieve thus stands for `240 * q + bit_value j`. -/
def bit_value (j : Nat) : Nat :=
  30 * (j / 8) + wheel_offsets.getD (j % 8) 0

/-- The word whose bit `j`, for `j < n`, is set exactly when `p j`. -/
def maskOf (p : Nat → Bool) : Nat → Nat
  | 0 => 0
  | n + 1 => maskOf p n + (if p n then 2 ^ n else 0)

/-- The number of 1 bits of a 64-bit word (`popcnt64` of popcnt.hpp). -/
def popcnt64 (w : Nat) : Nat :=
  ((Finset.range 64).filter (fun j => w.testBit j = true)).card

/-- The integer square root `isqrt` of imath.hpp. -/
def isqrt (n : Nat) : Nat :=
  Nat.sqrt n

/-- `ceil_div(a, b)` of imath.hpp. -/
def ceil_div (a b : Nat) : Nat :=
  (a + b - 1) / b

namespace BitSieve240

/-- Modelled from the spec: the table `BitSieve240::unset_bit_`, "mask with
exactly one bit cleared, the bit representing `r` itself (for `r` not
coprime to 30 it is an all-ones no-op)". -/
def unset_bit_ (r : Nat) : Nat :=
  maskOf (fun j => decide (bit_value j ≠ r)) 64

/-- Modelled from the spec: the table `BitSieve240::unset_larger_`, "mask
with all bits cleared that represent residues `> r`". -/
def unset_larger_ (r : Nat) : Nat :=
  maskOf (fun j => decide (bit_value j ≤ r)) 64

end BitSieve240

namespace Sieve

/-- Modelled from the spec: the table `Sieve::unset_smaller` (defined in
Sieve.cpp), "mask with all bits cleared that represent residues `< r`". -/
def unset_smaller (r : Nat) : Nat :=
  maskOf (fun j => decide (r ≤ bit_value j)) 64

/-- Modelled from the spec: the table `Sieve::unset_larger` (defined in
Sieve.cpp), "mask with all bits cleared that represent residues `> r`". -/
def unset_larger (r : Nat) : Nat :=
  maskOf (fun j => decide (bit_value j ≤ r)) 64

/-- `Sieve::count_default(start, stop)`. `sieve64` is the sieve array read
as 64-bit words, `(const uint64_t*) sieve_.data()`. -/
def count_default (sieve64 : List Nat) (start stop : Nat) : Nat :=
  if start > stop then 0
  else
    let start_idx := start / 240
    let stop_idx := stop / 240
    let m1 := unset_smaller (start % 240)
    let m2 := unset_larger (stop % 240)
    let m1 := (m1 * (if start_idx ≠ stop_idx then 1 else 0)) |||
      ((m1 &&& m2) * (if start_idx = stop_idx then 1 else 0))
    let m2 := m2 * (if start_idx ≠ stop_idx then 1 else 0)
    let start_bits := sieve64.getD start_idx 0 &&& m1
    let stop_bits := sieve64.getD stop_idx 0 &&& m2
    let cnt := popcnt64 start_bits
    let cnt := cnt + popcnt64 stop_bits
    (List.range' (start_idx + 1) (stop_idx - (start_idx + 1))).foldl
      (fun cnt i => cnt + popcnt64 (sieve64.getD i 0)) cnt

/-- The number of set bits of the sieve that stand for an integer `n` with
`lo ≤ n ≤ hi`. -/
def set_bits (sieve64 : List Nat) (lo hi : Nat) : Nat :=
  ∑ q in Finset.range sieve64.length,
    ((Finset.range 64).filter (fun j =>
      (sieve64.getD q 0).testBit j = true ∧
        lo ≤ 240 * q + bit_value j ∧ 240 * q + bit_value j ≤ hi)).card

/-- `Sieve::count(start, stop)` in a build without vector extensions
(`ENABLE_DEFAULT` only): it forwards to `count_default`. -/
def count_range (sieve64 : List Nat) (start stop : Nat) : Nat :=
  count_default sieve64 start stop

/-- `Sieve::Counter`. -/
structure Counter where
  stop : Nat
  dist : Nat
  log2_dist : Nat
  sum : Nat
  i : Nat
  counter : List Nat

/-- `Sieve::Wheel`: `multiple` is kept as the offset, counted in integers
from the first position of the segment, of the next multiple to strike. -/
structure Wheel where
  multiple : Nat
  index : Nat

/-- The data members of `Sieve`; `sieve64` is the array `sieve_` read as
64-bit words. -/
structure State where
  start_ : Nat
  prev_stop_ : Nat
  count_ : Nat
  total_count_ : Nat
  sieve64 : List Nat
  wheel_ : List Wheel
  counter_ : Counter

/-- The `while (counter_.stop <= stop)` loop of `Sieve::count(stop)`; the
result is the local `start` and the state at loop exit, `none` when `fuel`
iterations were not enough. -/
def count_loop : Nat → Nat → Nat → State → Option (Nat × State)
  | 0, _, _, _ => none
  | fuel + 1, stop, start, s =>
    if s.counter_.stop ≤ stop then
      let start := s.counter_.stop
      let c := s.counter_
      let c := { c with stop := c.stop + c.dist }
      let c := { c with sum := c.sum + c.counter.getD c.i 0, i := c.i + 1 }
      count_loop fuel stop start { s with counter_ := c, count_ := c.sum }
    else
      some (start, s)

/-- `Sieve::count(stop)`: the returned count and the new state. The loop
is given `stop + 2` iterations, which it exceeds only when
`counter_.dist = 0`, where the source does not terminate; `none` stands for
that case. -/
def count (s : State) (stop : Nat) : Option (Nat × State) :=
  let start := s.prev_stop_ + 1
  let s := { s with prev_stop_ := stop }
  match count_loop (stop + 2) stop start s with
  | none => none
  | some (start, s) =>
    let s := { s with count_ := s.count_ + count_range s.sieve64 start stop }
    some (s.count_, s)

/-- The calls `count(s₁)`, `count(s₂)`, … made one after the other with no
other access to the sieve in between: the returned counts. -/
def count_each (s : State) : List Nat → Option (List Nat)
  | [] => some []
  | stop :: stops =>
    match count s stop with
    | none => none
    | some (r, s) =>
      match count_each s stops with
      | none => none
      | some rs => some (r :: rs)

/-- The cursor of `count(stop)` as `reset_counter` leaves it. -/
def FreshCursor (s : State) : Prop :=
  s.prev_stop_ = 0 ∧ s.count_ = 0 ∧ s.counter_.sum = 0 ∧ s.counter_.i = 0 ∧
    s.counter_.stop = s.counter_.dist

/-- The counter array holds the per-block counts: `counter[k]` is the
number of set bits in `[k * dist, (k + 1) * dist)`, for every block that
lies inside the segment. -/
def CounterFilled (s : State) : Prop :=
  ∀ k, (k + 1) * s.counter_.dist ≤ 240 * s.sieve64.length →
    s.counter_.counter.getD k 0 =
      set_bits s.sieve64 (k * s.counter_.dist) ((k + 1) * s.counter_.dist - 1)

/-! ### The vectorised counting paths

A vector register is the list of its 64-bit lanes, lane 0 first. The
intrinsics are modelled lane by lane after their documented semantics. -/

/-- `_mm512_set_epi64(e7, …, e0)`. -/
def mm512_set_epi64 (e7 e6 e5 e4 e3 e2 e1 e0 : Nat) : List Nat :=
  [e0, e1, e2, e3, e4, e5, e6, e7]

/-- `_mm512_popcnt_epi64`. -/
def mm512_popcnt_epi64 (v : List Nat) : List Nat :=
  v.map popcnt64

/-- `_mm512_loadu_epi64(&mem[i])`: 8 consecutive words. -/
def mm512_loadu_epi64 (mem : List Nat) (i : Nat) : List Nat :=
  (List.range 8).map (fun k => mem.getD (i + k) 0)

/-- `_mm512_maskz_loadu_epi64(mask, &mem[i])`: lane `k` is loaded when bit
`k` of the mask is set and is zero otherwise. -/
def mm512_maskz_loadu_epi64 (mask : Nat) (mem : List Nat) (i : Nat) : List Nat :=
  (List.range 8).map (fun k => if mask.testBit k then mem.getD (i + k) 0 else 0)

/-- `_mm512_add_epi64`. -/
def mm512_add_epi64 (a b : List Nat) : List Nat :=
  List.zipWith (fun x y => x + y) a b

/-- `_mm512_reduce_add_epi64`. -/
def mm512_reduce_add_epi64 (v : List Nat) : Nat :=
  v.sum

/-- The loop `for (; i + 8 < stop_idx; i += 8)` of `count_avx512`: the
values of `i` and `vcnt` at loop exit. -/
def count_avx512_loop (sieve64 : List Nat) (stop_idx : Nat) (i : Nat) (vcnt : List Nat) :
    Nat × List Nat :=
  if i + 8 < stop_idx then
    let vec := mm512_loadu_epi64 sieve64 i
    let vec := mm512_popcnt_epi64 vec
    count_avx512_loop sieve64 stop_idx (i + 8) (mm512_add_epi64 vcnt vec)
  else
    (i, vcnt)
termination_by stop_idx - i

/-- `Sieve::count_avx512(start, stop)`. -/
def count_avx512 (sieve64 : List Nat) (start stop : Nat) : Nat :=
  if start > stop then 0
  else
    let start_idx := start / 240
    let stop_idx := stop / 240
    let m1 := unset_smaller (start % 240)
    let m2 := unset_larger (stop % 240)
    let m1 := (m1 * (if start_idx ≠ stop_idx then 1 else 0)) |||
      ((m1 &&& m2) * (if start_idx = stop_idx then 1 else 0))
    let m2 := m2 * (if start_idx ≠ stop_idx then 1 else 0)
    let start_bits := sieve64.getD start_idx 0 &&& m1
    let stop_bits := sieve64.getD stop_idx 0 &&& m2
    let vec := mm512_set_epi64 0 0 0 0 0 0 stop_bits start_bits
    let vcnt := mm512_popcnt_epi64 vec
    let i := start_idx + 1
    let r := count_avx512_loop sieve64 stop_idx i vcnt
    let i := r.1
    let vcnt := r.2
    let mask := (0xff >>> (i + 8 - stop_idx)) % 256
    let vec := mm512_maskz_loadu_epi64 mask sieve64 i
    let vec := mm512_popcnt_epi64 vec
    let vcnt := mm512_add_epi64 vcnt vec
    mm512_reduce_add_epi64 vcnt

/-- `svdup_u64(x)` on a machine with `vl = svcntd()` lanes. -/
def svdup_u64 (vl x : Nat) : List Nat :=
  List.replicate vl x

/-- `svinsr_n_u64(v, x)`: every lane moves up by one, the last one is
dropped and `x` becomes lane 0. -/
def svinsr_n_u64 (v : List Nat) (x : Nat) : List Nat :=
  if v = [] then [] else x :: v.dropLast

/-- `svwhilelt_b64(a, b)`: lane `k` is active when `a + k < b`. -/
def svwhilelt_b64 (vl a b : Nat) : List Bool :=
  (List.range vl).map (fun k => decide (a + k < b))

/-- `svptrue_b64()`. -/
def svptrue_b64 (vl : Nat) : List Bool :=
  List.replicate vl true

/-- `svcnt_u64_z(pg, v)`: the population count of the active lanes, zero in
the others. -/
def svcnt_u64_z (pg : List Bool) (v : List Nat) : List Nat :=
  List.zipWith (fun p x => if p then popcnt64 x else 0) pg v

/-- `svcnt_u64_x(pg, v)`; the source only calls it with an all-true
predicate, the lanes left unspecified by the `_x` form are taken as zero. -/
def svcnt_u64_x (pg : List Bool) (v : List Nat) : List Nat :=
  List.zipWith (fun p x => if p then popcnt64 x else 0) pg v

/-- `svld1_u64(pg, &mem[i])`: active lanes are loaded, the others are zero. -/
def svld1_u64 (pg : List Bool) (mem : List Nat) (i : Nat) : List Nat :=
  (List.range pg.length).map (fun k => if pg.getD k false then mem.getD (i + k) 0 else 0)

/-- `svadd_u64_x(pg, a, b)` with an all-true predicate. -/
def svadd_u64_x (_pg : List Bool) (a b : List Nat) : List Nat :=
  List.zipWith (fun x y => x + y) a b

/-- `svaddv_u64(pg, v)`: the sum of the active lanes. -/
def svaddv_u64 (pg : List Bool) (v : List Nat) : Nat :=
  (List.zipWith (fun p x => if p then x else 0) pg v).sum

/-- The loop `for (; i + svcntd() < stop_idx; i += svcntd())` of
`count_arm_sve`; it is only entered with `svcntd() ≥ 1`. -/
def count_arm_sve_loop (vl : Nat) (sieve64 : List Nat) (stop_idx : Nat) (i : Nat)
    (vcnt : List Nat) : Nat × List Nat :=
  if _h : i + vl < stop_idx ∧ 0 < vl then
    let vec := svld1_u64 (svptrue_b64 vl) sieve64 i
    let vec := svcnt_u64_x (svptrue_b64 vl) vec
    count_arm_sve_loop vl sieve64 stop_idx (i + vl) (svadd_u64_x (svptrue_b64 vl) vcnt vec)
  else
    (i, vcnt)
termination_by stop_idx - i
decreasing_by omega

/-- `Sieve::count_arm_sve(start, stop)` on a machine whose vectors have
`vl = svcntd()` 64-bit lanes (the source asserts `svcntd() >= 2`). -/
def count_arm_sve (vl : Nat) (sieve64 : List Nat) (start stop : Nat) : Nat :=
  if start > stop then 0
  else
    let start_idx := start / 240
    let stop_idx := stop / 240
    let m1 := unset_smaller (start % 240)
    let m2 := unset_larger (stop % 240)
    let m1 := (m1 * (if start_idx ≠ stop_idx then 1 else 0)) |||
      ((m1 &&& m2) * (if start_idx = stop_idx then 1 else 0))
    let m2 := m2 * (if start_idx ≠ stop_idx then 1 else 0)
    let start_bits := sieve64.getD start_idx 0 &&& m1
    let stop_bits := sieve64.getD stop_idx 0 &&& m2
    let vec := svinsr_n_u64 (svdup_u64 vl start_bits) stop_bits
    let vcnt := svcnt_u64_z (svwhilelt_b64 vl 0 2) vec
    let i := start_idx + 1
    let r := count_arm_sve_loop vl sieve64 stop_idx i vcnt
    let i := r.1
    let vcnt := r.2
    let pg := svwhilelt_b64 vl i stop_idx
    let vec := svld1_u64 pg sieve64 i
    let vec := svcnt_u64_z pg vec
    let vcnt := svadd_u64_x (svptrue_b64 vl) vcnt vec
    svaddv_u64 (svptrue_b64 vl) vcnt

/-- `Sieve::segment_size()`: 30 numbers per byte, 240 per word. -/
def segment_size (s : State) : Nat :=
  240 * s.sieve64.length

/-- Modelled from the spec: `Sieve::reset_sieve(low, high)` (defined in
Sieve.cpp), "resets sieve for the segment `[low, high]`, sets all bits":
afterwards the sieve is that of the segment which starts at `low`, so that
`start`, "the integer aligned to the bit at offset 0 of `sieve`", is `low`,
and exactly the bits that stand for an integer of `[low, high]` are set. -/
def reset_sieve (s : State) (low high : Nat) : State :=
  { s with
    start_ := low
    sieve64 := (List.range s.sieve64.length).map (fun q =>
      maskOf (fun j => decide (low + 240 * q + bit_value j ≤ high)) 64) }

/-- Modelled from the spec: the striking loop of `Sieve::cross_off`
(defined in Sieve.cpp), "starting from `wheel[i].multiple`, advancing by
`p` while respecting the wheel (skipping multiples divisible by 2,3,5)".
`m` is the offset of a multiple of `prime` from the first position `start`
of the segment. A multiple that is divisible by 2, 3 or 5 has no bit and
is skipped; the bit of any other multiple inside the segment is cleared;
the loop ends at the first multiple with a bit that lies past the segment
and returns its offset into the next segment. `none` when `fuel`
iterations were not enough. -/
def cross_off_loop : Nat → Nat → Nat → Nat → List Nat → Option (List Nat × Nat)
  | 0, _, _, _, _ => none
  | fuel + 1, start, prime, m, sieve =>
    if Nat.gcd (start + m) 30 = 1 then
      if m < 240 * sieve.length then
        cross_off_loop fuel start prime (m + prime)
          (sieve.set (m / 240) (sieve.getD (m / 240) 0 &&& BitSieve240.unset_bit_ (m % 240)))
      else some (sieve, m - 240 * sieve.length)
    else cross_off_loop fuel start prime (m + prime) sieve

/-- Modelled from the spec: `Sieve::cross_off(prime, i)` (defined in
Sieve.cpp), "strikes off multiples of `p` within the current segment,
starting from `wheel[i].multiple`", and "updates `wheel[i]` to point into
the next segment"; `total_count_` is not touched. -/
def cross_off (s : State) (prime i : Nat) : Option State :=
  match cross_off_loop (segment_size s + 30) s.start_ prime
      (s.wheel_.getD i ⟨0, 0⟩).multiple s.sieve64 with
  | none => none
  | some (sieve, multiple) =>
    some { s with
      sieve64 := sieve
      wheel_ := s.wheel_.set i { s.wheel_.getD i ⟨0, 0⟩ with multiple := multiple } }

/-- `Sieve::pre_sieve(primes, c, low, high)`. `init_counter` (defined in
Sieve.cpp) is a parameter. -/
def pre_sieve (init_counter : State → Nat → Nat → State) (s : State) (primes : List Nat)
    (c low high : Nat) : Option State :=
  ((List.range' 4 (c + 1 - 4)).foldlM (fun s i => cross_off s (primes.getD i 0) i)
    (reset_sieve s low high)).map (fun s => init_counter s low high)

/-- The bit that stands for the integer `n` is set in the sieve. -/
def is_set (s : State) (n : Nat) : Prop :=
  ∃ q j, q < s.sieve64.length ∧ j < 64 ∧ n = s.start_ + 240 * q + bit_value j ∧
    (s.sieve64.getD q 0).testBit j = true

/-- The wheel entry `i` holds the next multiple of `prime` to strike in
the segment that starts at `low`, the striking of the multiples of `prime`
beginning at `least`: `wheel[i].multiple` is the offset from `low` of the
first multiple of `prime` that is at least `least`, lies at or after `low`
and has a bit in the sieve. -/
def WheelEntry (s : State) (low prime i least : Nat) : Prop :=
  (prime ∣ low + (s.wheel_.getD i ⟨0, 0⟩).multiple ∧
    Nat.gcd (low + (s.wheel_.getD i ⟨0, 0⟩).multiple) 30 = 1 ∧
    least ≤ low + (s.wheel_.getD i ⟨0, 0⟩).multiple) ∧
  ∀ m < (s.wheel_.getD i ⟨0, 0⟩).multiple,
    ¬ (prime ∣ low + m ∧ Nat.gcd (low + m) 30 = 1 ∧ least ≤ low + m)

/-- Every prime `primes[4..c]` has its wheel entry ready for the segment
that starts at `low`, the striking beginning at the prime itself: the entry
is the first multiple of the prime in the segment that has a bit, and that
is the prime when it lies in the segment (Sieve.hpp: "this sieve removes
primes as well as multiples of primes"). -/
def WheelReady (s : State) (primes : List Nat) (c low : Nat) : Prop :=
  ∀ i ∈ Finset.Icc (4 : Nat) c, WheelEntry s low (primes.getD i 0) i (primes.getD i 0)

/-- Modelled from the spec: the wheel entries in the wording of the data
model, "`wheel[i].multiple` is the offset, relative to the segment origin,
of the least unstruck multiple of p ≥ p²": the striking begins at the
square of the prime. -/
def WheelReadyFromSquares (s : State) (primes : List Nat) (c low : Nat) : Prop :=
  ∀ i ∈ Finset.Icc (4 : Nat) c,
    WheelEntry s low (primes.getD i 0) i (primes.getD i 0 * primes.getD i 0)

end Sieve

namespace Sieve

/-- The cursor invariant of `count(stop)` as the code keeps it, positions
being counted from the first position of the segment: `counter.sum` is the
sum of the `counter.i` blocks consumed so far, `counter.stop` is the end of
block `counter.i`, and `count_` is the number of set bits in
`[0, prev_stop]`. -/
def Cursor (s : State) : Prop :=
  s.counter_.sum = ∑ k in Finset.range s.counter_.i, s.counter_.counter.getD k 0 ∧
  s.counter_.stop = (s.counter_.i + 1) * s.counter_.dist ∧
  s.count_ = set_bits s.sieve64 0 s.prev_stop_

/-- The cursor invariant in the wording of the data model, with
`counter.stop = counter.i * D`. -/
def CursorAtBlockStart (s : State) : Prop :=
  s.counter_.sum = ∑ k in Finset.range s.counter_.i, s.counter_.counter.getD k 0 ∧
  s.counter_.stop = s.counter_.i * s.counter_.dist ∧
  s.count_ = set_bits s.sieve64 0 s.prev_stop_

end Sieve

namespace Sieve

/-- The branch-free computation of the two masks in `count_default`:
`m1 = (m1 * (start_idx != stop_idx)) | ((m1 & m2) * (start_idx == stop_idx))`
and `m2 *= (start_idx != stop_idx)`, a comparison being 1 or 0. -/
def count_default_masks (m1 m2 start_idx stop_idx : Nat) : Nat × Nat :=
  let m1 := (m1 * (if start_idx ≠ stop_idx then 1 else 0)) |||
    ((m1 &&& m2) * (if start_idx = stop_idx then 1 else 0))
  let m2 := m2 * (if start_idx ≠ stop_idx then 1 else 0)
  (m1, m2)

/-- The masks in conditional form:
`m1 = (start_idx != stop_idx) ? m1 : m1 & m2` and
`m2 = (start_idx != stop_idx) ? m2 : 0`. -/
def conditional_masks (m1 m2 start_idx stop_idx : Nat) : Nat × Nat :=
  (if start_idx ≠ stop_idx then m1 else m1 &&& m2,
   if start_idx ≠ stop_idx then m2 else 0)

/-- The residual ranges of the calls `count(s₁)`, `count(s₂)`, … made one
after the other: for each call the pair `(start, stop)` that is handed to
`count(start, stop)` after the while loop. -/
def count_residuals (s : State) : List Nat → Option (List (Nat × Nat))
  | [] => some []
  | stop :: stops =>
    match count_loop (stop + 2) stop (s.prev_stop_ + 1) { s with prev_stop_ := stop },
        count s stop with
    | some (start, _), some (_, s) =>
      match count_residuals s stops with
      | none => none
      | some rs => some ((start, stop) :: rs)
    | _, _ => none

end Sieve

/-- The partial sieve function by its definition: the number of integers in
`[1, x]` that are divisible by none of `primes[1], …, primes[a]`. -/
def phi_naive (primes : List Nat) (x a : Nat) : Nat :=
  ((Finset.Icc 1 x).filter
    (fun n : Nat => ∀ i ∈ Finset.Icc (1 : Nat) a, ¬ primes.getD i 0 ∣ n)).card

namespace PhiTiny

/-- `PhiTiny::MAX_A`. -/
def MAX_A : Nat := 6

/-- `PhiTiny::max_a()`. -/
def max_a : Nat := MAX_A

/-- `PhiTiny::primes_`. -/
def primes_ : List Nat := [0, 2, 3, 5, 7, 11, 13]

/-- `PhiTiny::prime_products_`. -/
def prime_products_ : List Nat := [1, 2, 6, 30, 210, 2310, 30030]

/-- `PhiTiny::totients_`. -/
def totients_ : List Nat := [1, 1, 2, 8, 48, 480, 5760]

/-- `static_cast<int16_t>`: reduction into `[-2^15, 2^15)`. -/
def to_int16 (v : Int) : Int :=
  (v + 2 ^ 15) % 2 ^ 16 - 2 ^ 15

/-- Modelled from the spec: the member function `PhiTiny::phi(x, a)` (defined
in PhiTiny.hpp), "`(x / prime_products[a]) · totients[a] +
phi_cache[a][x mod prime_products[a]]` for a ≤ 6", evaluated on the lookup
tables `cache`. -/
def phi (cache : List (List Int)) (x a : Nat) : Int :=
  let pp := prime_products_.getD a 0
  ((x / pp : Nat) : Int) * (totients_.getD a 0 : Nat) + (cache.getD a []).getD (x % pp) 0

/-- The inner loop of the constructor for one `a`: the values pushed to
`phi_cache_[a]`, computed from the tables filled so far. -/
def cache_row (cache : List (List Int)) (a : Nat) : List Int :=
  (List.range (prime_products_.getD a 0)).map (fun x =>
    to_int16 (phi cache x (a - 1) - phi cache (x / primes_.getD a 0) (a - 1)))

/-- The constructor `PhiTiny::PhiTiny()`: the seven lookup tables
`phi_cache_[0..6]` it leaves behind. -/
def phi_cache_ : List (List Int) :=
  (List.range' 1 MAX_A).foldl (fun cache a => cache.set a (cache_row cache a))
    ((List.replicate 7 []).set 0 [0])

/-- Modelled from the spec: `is_phi_tiny(a)` (PhiTiny.hpp), `a <= max_a()`. -/
def is_phi_tiny (a : Nat) : Bool :=
  decide (a ≤ max_a)

/-- Modelled from the spec: `phi_tiny(x, a)` (PhiTiny.hpp), the member
function `phi` of the one `PhiTiny` object of the program. -/
def phi_tiny (x a : Nat) : Int :=
  phi phi_cache_ x a

/-- Table `cache[j]` has `prime_products[j]` entries and entry `r` is
`φ(r, j)`. -/
def RowOK (cache : List (List Int)) (j : Nat) : Prop :=
  (cache.getD j []).length = prime_products_.getD j 0 ∧
  ∀ r < prime_products_.getD j 0,
    (cache.getD j []).getD r 0 = (phi_naive primes_ r j : Int)

end PhiTiny

/-- The list `primes` is the ascending list of the primes, with
`primes[0] = 0`, `primes[1] = 2`, …: entry `i ≥ 1` is a prime and exactly
`i` primes are at most that large. -/
def IsPrimeTable (primes : List Nat) : Prop :=
  primes.getD 0 0 = 0 ∧
  ∀ i, 1 ≤ i → i < primes.length →
    (primes.getD i 0).Prime ∧ Nat.primeCounting (primes.getD i 0) = i

/-- The list `pi` is a correct pi-table: `pi[x]` is the number of primes
`≤ x` for every `x` below its size. -/
def IsPiTable (pi : List Nat) : Prop :=
  ∀ x, x < pi.length → pi.getD x 0 = Nat.primeCounting x

namespace PhiCache

/-- The struct `sieve_t`: `count` is a `uint32_t`, `bits` a `uint64_t`;
packed, it occupies 12 bytes. -/
structure sieve_t where
  count : Nat
  bits : Nat

/-- `sizeof(sieve_t)` under `#pragma pack(push, 1)`. -/
def sizeof_sieve_t : Nat := 12

/-- The data members of `PhiCache`; `primes_` and `pi_` are the vector of
primes and the `PiTable` the constructor was given, the latter as the list
of its values `pi[0], pi[1], …`, whose length is `pi_.size()`. -/
structure State where
  max_x_ : Nat
  max_x_size_ : Nat
  max_a_cached_ : Nat
  max_a_ : Nat
  sieve_ : List (List sieve_t)
  primes_ : List Nat
  pi_ : List Nat

/-- The constructor `PhiCache(x, a, primes, pi)`. -/
def new (x a : Nat) (primes pi : List Nat) : State :=
  let s : State :=
    { max_x_ := 0, max_x_size_ := 0, max_a_cached_ := 0, max_a_ := 0, sieve_ := [],
      primes_ := primes, pi_ := pi }
  let max_a := 100
  let a := a - min a 30
  let max_a := min a max_a
  if max_a ≤ PhiTiny.max_a then s
  else
    let max_x := isqrt x
    let max_megabytes := 16
    let indexes := max_a - PhiTiny.max_a
    let max_bytes := max_megabytes <<< 20
    let max_bytes_per_index := max_bytes / indexes
    let numbers_per_byte := 240 / sizeof_sieve_t
    let cache_limit := max_bytes_per_index * numbers_per_byte
    let max_x := min max_x cache_limit
    let s := { s with max_x_size_ := ceil_div max_x 240 }
    if s.max_x_size_ < 8 then s
    else { s with max_x_ := s.max_x_size_ * 240 - 1, max_a_ := max_a }

/-- `PhiCache::is_pix(x, a)`; `isquare(p)` of imath.hpp is `p * p`. -/
def is_pix (s : State) (x a : Nat) : Bool :=
  decide (x < s.pi_.length) && decide (x < s.primes_.getD (a + 1) 0 * s.primes_.getD (a + 1) 0)

/-- `PhiCache::is_cached(x, a)`. -/
def is_cached (s : State) (x a : Nat) : Bool :=
  decide (x ≤ s.max_x_) && decide (a ≤ s.max_a_cached_) && decide (a > PhiTiny.max_a)

/-- `PhiCache::phi_cache(x, a)`. -/
def phi_cache (s : State) (x a : Nat) : Int :=
  let count := ((s.sieve_.getD a []).getD (x / 240) ⟨0, 0⟩).count
  let bits := ((s.sieve_.getD a []).getD (x / 240) ⟨0, 0⟩).bits
  let bitmask := BitSieve240.unset_larger_ (x % 240)
  ((count + popcnt64 (bits &&& bitmask) : Nat) : Int)

/-- The statement `row[n / 240].bits &= unset_bit_[n % 240]`. -/
def unset (row : List sieve_t) (n : Nat) : List sieve_t :=
  row.set (n / 240)
    { row.getD (n / 240) ⟨0, 0⟩ with
      bits := (row.getD (n / 240) ⟨0, 0⟩).bits &&& BitSieve240.unset_bit_ (n % 240) }

/-- The loop `for (n = prime * prime; n <= max_x_; n += prime * 2)` of
`init_cache`, started at `n`; `none` when `fuel` iterations were not
enough. -/
def cross_off_loop : Nat → Nat → Nat → Nat → List sieve_t → Option (List sieve_t)
  | 0, _, _, _, _ => none
  | fuel + 1, prime, max_x, n, row =>
    if n ≤ max_x then cross_off_loop fuel prime max_x (n + prime * 2) (unset row n)
    else some row

/-- The loop `for (auto& sieve : sieve_[i])` of `init_cache` that fills in
the cumulative counts, entered with the running `count`. -/
def fill_counts : Nat → List sieve_t → List sieve_t
  | _, [] => []
  | count, e :: es =>
    { e with count := count % 2 ^ 32 } :: fill_counts (count + popcnt64 e.bits) es

/-- One iteration of the loop `for (; i <= a; i++)` of `init_cache`. A
moved-from row is left empty. The inner loop gets `max_x_ + 2` iterations,
which it exceeds only if `prime = 0`, where the source does not terminate. -/
def init_cache_step (s : State) (i : Nat) : Option State :=
  let sieve :=
    if i - 1 ≤ PhiTiny.max_a then
      (s.sieve_.set i (s.sieve_.getD (i - 1) [])).set (i - 1) []
    else
      s.sieve_.set i (s.sieve_.getD (i - 1) [])
  let prime := s.primes_.getD i 0
  let row := sieve.getD i []
  let row := if prime ≤ s.max_x_ then unset row prime else row
  match cross_off_loop (s.max_x_ + 2) prime s.max_x_ (prime * prime) row with
  | none => none
  | some row =>
    let row := if i > PhiTiny.max_a then fill_counts 0 row else row
    some { s with sieve_ := sieve.set i row }

/-- The loop `for (; i <= a; i++)` of `init_cache`. -/
def init_cache_loop : Nat → Nat → Nat → State → Option State
  | 0, _, _, _ => none
  | n + 1, i, a, s =>
    if i ≤ a then
      match init_cache_step s i with
      | none => none
      | some s => init_cache_loop n (i + 1) a s
    else some s

/-- `PhiCache::init_cache(a)`. -/
def init_cache (s : State) (a : Nat) : Option State :=
  let s :=
    if s.sieve_.isEmpty then
      let sieve : List (List sieve_t) := List.replicate (s.max_a_ + 1) []
      let sieve := sieve.set 3 (List.replicate s.max_x_size_ ⟨0, 2 ^ 64 - 1⟩)
      { s with sieve_ := sieve, max_a_cached_ := 3 }
    else s
  let i := s.max_a_cached_ + 1
  let s := { s with max_a_cached_ := a }
  init_cache_loop (a + 1) i a s

/-- The second loop `for (; i <= a; i++)` of `phi` followed by the code at
the label `phi_1`: the value returned. -/
def phi_loop2 (s : State) (sign : Int) (x a sqrtx : Nat) : Nat → Nat → Int → Option Int
  | 0, _, _ => none
  | n + 1, i, sum =>
    if i ≤ a then
      if s.primes_.getD i 0 > sqrtx then
        some (sum + ((a : Int) + 1 - i) * -sign)
      else
        let xp := x / s.primes_.getD i 0
        phi_loop2 s sign x a sqrtx n (i + 1)
          (sum + ((s.pi_.getD xp 0 : Int) - i + 2) * -sign)
    else
      some (sum + ((a : Int) + 1 - i) * -sign)

/-- The first loop `for (i = c + 1; i <= a; i++)` of `phi` and all that
follows it; `rec` is `phi<-SIGN>`. -/
def phi_loop1 (rec : Nat → Nat → State → Option (Int × State)) (sign : Int)
    (x a sqrtx : Nat) : Nat → Nat → Int → State → Option (Int × State)
  | 0, _, _, _ => none
  | n + 1, i, sum, s =>
    if i ≤ a then
      if s.primes_.getD i 0 > sqrtx then
        some (sum + ((a : Int) + 1 - i) * -sign, s)
      else
        let xp := x / s.primes_.getD i 0
        if is_pix s xp (i - 1) then
          let sum := sum + ((s.pi_.getD xp 0 : Int) - i + 2) * -sign
          match phi_loop2 s sign x a sqrtx (a + 1) (i + 1) sum with
          | none => none
          | some r => some (r, s)
        else if is_cached s xp (i - 1) then
          phi_loop1 rec sign x a sqrtx n (i + 1) (sum + phi_cache s xp (i - 1) * -sign) s
        else
          match rec xp (i - 1) s with
          | none => none
          | some (r, s) => phi_loop1 rec sign x a sqrtx n (i + 1) (sum + r) s
    else
      some (sum + ((a : Int) + 1 - i) * -sign, s)

/-- `PhiCache::phi<SIGN>(x, a)` with a bound `fuel` on the depth of the
recursion: the value returned and the cache it leaves behind, `none` when
the bound is exceeded or a loop does not terminate. -/
def phi_fuel : Nat → Int → Nat → Nat → State → Option (Int × State)
  | 0, _, _, _, _ => none
  | fuel + 1, sign, x, a, s =>
    if x ≤ s.primes_.getD a 0 then some (sign, s)
    else if PhiTiny.is_phi_tiny a then some (PhiTiny.phi_tiny x a * sign, s)
    else if is_pix s x a then some (((s.pi_.getD x 0 : Int) - a + 1) * sign, s)
    else
      match (if s.max_a_cached_ < min a s.max_a_ ∧ x ≤ s.max_x_ then
              init_cache s (min a s.max_a_) else some s) with
      | none => none
      | some s =>
        if is_cached s x a then some (phi_cache s x a * sign, s)
        else
          let c := PhiTiny.max_a
          let larger_c := min s.max_a_cached_ a
          let larger_c := max c larger_c
          let sum := if is_cached s x larger_c then phi_cache s x larger_c * sign
            else PhiTiny.phi_tiny x c * sign
          let c := if is_cached s x larger_c then larger_c else c
          let sqrtx := isqrt x
          phi_loop1 (phi_fuel fuel (-sign)) sign x a sqrtx (a + 1) (c + 1) sum s

/-- `PhiCache::phi<SIGN>(x, a)`: every recursive call lowers `a`, so a
recursion depth of `a + 1` is never exceeded. -/
def phi (sign : Int) (x a : Nat) (s : State) : Option (Int × State) :=
  phi_fuel (a + 1) sign x a s

end PhiCache

/-- The first loop of `phi_vector`,
`for (; i <= a && primes[i - 1] <= sqrtx; i++)`, followed by the other two:
the vector `phi` at the end. -/
def phi_vector_loop1 (x a size sqrtx : Nat) (primes : List Nat) :
    Nat → Nat → PhiCache.State → List Int → Option (List Int)
  | 0, _, _, _ => none
  | n + 1, i, cache, phi =>
    if i ≤ a ∧ primes.getD (i - 1) 0 ≤ sqrtx then
      match PhiCache.phi (-1) (x / primes.getD (i - 1) 0) (i - 2) cache with
      | none => none
      | some (r, cache) =>
        phi_vector_loop1 x a size sqrtx primes n (i + 1) cache
          (phi.set i (phi.getD (i - 1) 0 + r))
    else
      -- pi(sqrt(x)) + 1 < i <= a
      let phi := (List.range' i (a + 1 - i)).foldl
        (fun phi i => phi.set i (phi.getD (i - 1) 0 - (if x > 0 then 1 else 0))) phi
      -- a < i < size
      let i := max i (a + 1)
      let phi := (List.range' i (size - i)).foldl
        (fun phi i => phi.set i (if x > 0 then 1 else 0)) phi
      some phi

/-- `phi_vector(x, a, primes, pi)`. -/
def phi_vector (x a : Nat) (primes pi : List Nat) : Option (List Int) :=
  let size := a + 1
  let phi : List Int := List.replicate size 0
  let phi := phi.set 0 0
  if size > 1 then
    let a := if primes.getD a 0 > x then pi.getD x 0 else a
    let phi := phi.set 1 (x : Int)
    let i := 2
    let sqrtx := isqrt x
    let cache := PhiCache.new x a primes pi
    phi_vector_loop1 x a size sqrtx primes (a + 1) i cache phi
  else
    some phi

namespace PhiCache

/-- The bits of a cache row are those of the integers that survive the
first `t` primes: bit `j` of word `k` is set exactly when
`240 * k + bit_value j` is divisible by none of `primes[1], …, primes[t]`. -/
def RowBits (primes : List Nat) (row : List sieve_t) (t : Nat) : Prop :=
  ∀ k, k < row.length → ∀ j, j < 64 →
    ((row.getD k ⟨0, 0⟩).bits.testBit j = true ↔
      ∀ i ∈ Finset.Icc (1 : Nat) t, ¬ primes.getD i 0 ∣ 240 * k + bit_value j)

/-- The `count` of entry `k` of a cache row is the number of set bits of
the entries before it. -/
def RowCounts (row : List sieve_t) : Prop :=
  ∀ k, k < row.length →
    (row.getD k ⟨0, 0⟩).count = ∑ q in Finset.range k, popcnt64 (row.getD q ⟨0, 0⟩).bits

/-- The invariant of a `PhiCache`: its tables are a table of primes and a
pi-table, the cache is either disabled (`max_a_ = 0`, nothing allocated) or
has the geometry the constructor chose, and every cached row `6 < t ≤
max_a_cached_` has `max_x_size_` entries with the right bits and counts. -/
structure Valid (s : State) : Prop where
  primes : IsPrimeTable s.primes_
  pi : IsPiTable s.pi_
  geom : (s.max_a_ = 0 ∧ s.max_a_cached_ = 0 ∧ s.sieve_ = []) ∨
    (6 < s.max_a_ ∧ s.max_x_ + 1 = s.max_x_size_ * 240 ∧ s.max_x_size_ * 64 < 2 ^ 32)
  cached : s.max_a_cached_ ≤ s.max_a_
  alloc : (s.sieve_ = [] ∧ s.max_a_cached_ = 0) ∨
    (s.sieve_.length = s.max_a_ + 1 ∧ 6 < s.max_a_cached_)
  known : s.max_a_cached_ < s.primes_.length
  rows : ∀ t, 6 < t → t ≤ s.max_a_cached_ →
    (s.sieve_.getD t []).length = s.max_x_size_ ∧
    RowBits s.primes_ (s.sieve_.getD t []) t ∧ RowCounts (s.sieve_.getD t [])

/-- The invariant of the loop `for (; i <= a; i++)` of `init_cache` when
iteration `i` is about to start: row `i - 1` holds the survivors of the
first `i - 1` primes and every row `6 < t ≤ i - 1` is complete. -/
def Building (s : State) (i : Nat) : Prop :=
  IsPrimeTable s.primes_ ∧ s.sieve_.length = s.max_a_ + 1 ∧
  s.max_x_ + 1 = s.max_x_size_ * 240 ∧ s.max_x_size_ * 64 < 2 ^ 32 ∧ 4 ≤ i ∧
  (s.sieve_.getD (i - 1) []).length = s.max_x_size_ ∧
  RowBits s.primes_ (s.sieve_.getD (i - 1) []) (i - 1) ∧
  ∀ t, 6 < t → t ≤ i - 1 →
    (s.sieve_.getD t []).length = s.max_x_size_ ∧
    RowBits s.primes_ (s.sieve_.getD t []) t ∧ RowCounts (s.sieve_.getD t [])

end PhiCache

namespace PhiCache

/-- The local variable `max_a` of the constructor after
`a = a - min(a, 30); max_a = min(a, max_a)`. -/
def new_max_a (a : Nat) : Nat :=
  min (a - min a 30) 100

/-- The local variable `cache_limit` of the constructor. -/
def new_cache_limit (a : Nat) : Nat :=
  (16 <<< 20) / (new_max_a a - PhiTiny.max_a) * (240 / sizeof_sieve_t)

/-- The local variable `max_x` of the constructor after
`max_x = min(max_x, cache_limit)`. -/
def new_max_x (x a : Nat) : Nat :=
  min (isqrt x) (new_cache_limit a)

/-- The number of bytes of the rows `7, …, max_a_` of the cache, each of
`max_x_size_` elements. -/
def cache_bytes (s : State) : Nat :=
  (s.max_a_ - PhiTiny.max_a) * s.max_x_size_ * sizeof_sieve_t

end PhiCache

namespace PhiCache

/-- The assertions `ASSERT(is_pix(xp, i - 1))` of the second loop
`for (; i <= a; i++)` of `phi`, entered at `i`: `true` when none of the
iterations that the loop makes fails its assertion. -/
def phi_loop2_asserts (s : State) (x a sqrtx : Nat) : Nat → Nat → Bool
  | 0, _ => true
  | n + 1, i =>
    if i ≤ a then
      if s.primes_.getD i 0 > sqrtx then true
      else
        let xp := x / s.primes_.getD i 0
        is_pix s xp (i - 1) && phi_loop2_asserts s x a sqrtx n (i + 1)
    else true

end PhiCache

namespace LoadBalancer

/-- The `Runtime` argument of `get_work`. `update_segments` derives from it,
from the wall clock and from the status percentage the floating-point value
`round(segments_ * factor)`; the model takes that rounded value as an input:
`scaled s` is the value obtained when `segments_ = s`. -/
structure Runtime where
  scaled : Int → Int

/-- The data members of `LoadBalancer` that take part in the assignment of
work (`time_`, `status_` and `s2_approx_` only feed the timing heuristic and
the status output). -/
structure State where
  low_ : Int
  max_low_ : Int
  z_ : Int
  segments_ : Int
  segment_size_ : Int
  max_size_ : Int
  smallest_hard_leaf_ : Int
  s2_total_ : Int

/-- The integer square root `isqrt` of imath.hpp on a non-negative `int64_t`. -/
def isqrt (n : Int) : Int :=
  (Nat.sqrt n.toNat : Nat)

/-- `LoadBalancer::init_size`. `ilog` is the integer logarithm of imath.hpp,
taken as a parameter. -/
def init_size (ilog : Int → Int) (s : State) : State :=
  let sqrtz := isqrt s.z_
  let log := max (ilog sqrtz) 1
  let segment_size := sqrtz / log
  let min_size : Int := 2 ^ 9
  let segment_size := max segment_size min_size
  let segment_size := Sieve.get_segment_size segment_size
  let l1_dcache_size : Int := 2 ^ 15
  let max_size := l1_dcache_size * 30
  let max_size := max max_size sqrtz
  let max_size := Sieve.get_segment_size max_size
  { s with segment_size_ := segment_size, max_size_ := max_size }

/-- The constructor `LoadBalancer::LoadBalancer(x, y, z, s2_approx)`.
`hard_leaf` is the value of `(int64_t) (x / (y * sqrt(alpha) * x16))`, a
floating-point expression of `x` and `y`. -/
def new (ilog : Int → Int) (hard_leaf : Int) (z : Int) : State :=
  init_size ilog
    { low_ := 0, max_low_ := 0, z_ := z, segments_ := 1, segment_size_ := 0,
      max_size_ := 0, smallest_hard_leaf_ := hard_leaf, s2_total_ := 0 }

/-- `LoadBalancer::get_result`. -/
def get_result (s : State) : Int :=
  s.s2_total_

/-- `LoadBalancer::update_segments`: `segments_ = (int64_t) new_segments`,
then `segments_ = max(segments_, 1)`. -/
def update_segments (s : State) (runtime : Runtime) : State :=
  let segments := runtime.scaled s.segments_
  { s with segments_ := max segments 1 }

/-- `LoadBalancer::update(low, segments, runtime)`; `low` and `segments` are
the values the caller's variables hold on entry. -/
def update (s : State) (low segments : Int) (runtime : Runtime) : State :=
  let s :=
    if low > s.max_low_ then
      let s := { s with max_low_ := low, segments_ := segments }
      if s.segment_size_ < s.max_size_ then
        { s with segment_size_ := min (s.segment_size_ * 2) s.max_size_ }
      else
        update_segments s runtime
    else s
  let high := s.low_ + s.segments_ * s.segment_size_
  if s.smallest_hard_leaf_ ≥ s.low_ ∧ s.smallest_hard_leaf_ ≤ high then
    { s with segments_ := 1 }
  else s

/-- What one `get_work` call receives: the caller's `*low` and `*segments`
on entry, its finished contribution `s2` and its `runtime`. -/
structure Call where
  low : Int
  segments : Int
  s2 : Int
  runtime : Runtime

/-- What one `get_work` call hands back: the three out-parameters and the
returned `bool`. -/
structure Assignment where
  low : Int
  segments : Int
  segment_size : Int
  more : Bool

/-- `LoadBalancer::get_work`. -/
def get_work (s : State) (c : Call) : Assignment × State :=
  let s := { s with s2_total_ := s.s2_total_ + c.s2 }
  let s := update s c.low c.segments c.runtime
  let low := s.low_
  let segments := s.segments_
  let segment_size := s.segment_size_
  let s := { s with low_ := s.low_ + s.segments_ * s.segment_size_ }
  ({ low := low, segments := segments, segment_size := segment_size,
     more := decide (low ≤ s.z_) }, s)

/-- A sequence of `get_work` calls, executed one after the other (the
critical section serialises them): the assignments in call order and the
final state. -/
def run (s : State) : List Call → List Assignment × State
  | [] => ([], s)
  | c :: cs =>
    let r := get_work s c
    let rest := run r.2 cs
    (r.1 :: rest.1, rest.2)

/-- The calls follow the worker protocol with respect to the assignments
`hist` handed out before: every call passes back a `low` and `segments`
pair that was assigned earlier, or, for a worker that has not been served
yet, its initial `low = 0`. -/
def PassesBack (s : State) : List Assignment → List Call → Prop
  | _, [] => True
  | hist, c :: cs =>
    (c.low = 0 ∨ ∃ a ∈ hist, a.low = c.low ∧ a.segments = c.segments) ∧
    PassesBack (get_work s c).2 ((get_work s c).1 :: hist) cs

/-- The integers of the interval `[low, low + segments * segment_size)` of
an assignment. -/
def Assignment.Covers (a : Assignment) (n : Int) : Prop :=
  a.low ≤ n ∧ n < a.low + a.segments * a.segment_size

/-- The sizes a LoadBalancer works with are positive and `max_low_` is not
negative. -/
def Sized (s : State) : Prop :=
  0 ≤ s.max_low_ ∧ 1 ≤ s.segments_ ∧ 1 ≤ s.segment_size_

/-- The assignments of `as` that were handed out with return value `true`. -/
def granted (as : List Assignment) : List Assignment :=
  as.filter (fun a => a.more)

end LoadBalancer

namespace LoadBalancer

/-- The first statement of `update`, the block `if (*low > max_low_) { … }`
that doubles the segment size or rescales the number of segments: the state
it leaves for the hard-leaf override. -/
def update_resize (s : State) (low segments : Int) (runtime : Runtime) : State :=
  if low > s.max_low_ then
    let s := { s with max_low_ := low, segments_ := segments }
    if s.segment_size_ < s.max_size_ then
      { s with segment_size_ := min (s.segment_size_ * 2) s.max_size_ }
    else
      update_segments s runtime
  else s

/-- The forthcoming interval `[low_, high]` of `update`, with
`high = low_ + segments_ * segment_size_`, contains `smallest_hard_leaf_`. -/
@[reducible]
def straddles_hard_leaf (s : State) : Prop :=
  s.smallest_hard_leaf_ ≥ s.low_ ∧
    s.smallest_hard_leaf_ ≤ s.low_ + s.segments_ * s.segment_size_

/-- What the `Sieve` constructor requires of a segment size, for the
`segment_size_` of a LoadBalancer that may grow up to `max_size_`. -/
def SegmentSized (s : State) : Prop :=
  240 ∣ s.segment_size_ ∧ 240 ≤ s.segment_size_ ∧ s.segment_size_ ≤ s.max_size_ ∧
    240 ∣ s.max_size_

end LoadBalancer

/-- The number of integers in `[1, x]` that have exactly `k` prime factors,
counted with multiplicity, each exceeding the `a`-th prime `primes[a]`
(`primes[0] = 0`, so that `a = 0` puts no condition on the factors). -/
def Pk_naive (primes : List Nat) (k x a : Nat) : Nat :=
  ((Finset.Icc 1 x).filter (fun n : Nat =>
    n.primeFactorsList.length = k ∧ ∀ p ∈ n.primeFactorsList, primes.getD a 0 < p)).card

namespace primesieve

/-- Modelled from the spec: the external interface `generate_primes(limit,
out)` of the primesieve library, which appends the primes `≤ limit` to
`out` in increasing order: the list of the primes appended. -/
def generate_primes (limit : Nat) : List Nat :=
  (List.range (limit + 1)).filter (fun n => decide n.Prime)

/-- The function `count_primes(start, stop)` of the primesieve library:
the number of primes in `[start, stop]`. -/
def count_primes (start stop : Nat) : Nat :=
  ((List.range' start (stop + 1 - start)).filter (fun n => decide n.Prime)).length

/-- The member `previous_prime()` of a `primesieve::iterator` positioned at
`n`: the largest prime below `n`, or 0 when there is none. -/
def previous_prime (n : Nat) : Nat :=
  Nat.findGreatest (fun p => p.Prime ∧ p < n) n

end primesieve

/-- Modelled from the spec: `pi_bsearch(primes, n)` (pi_bsearch.hpp), the
number of primes `≤ n` found in the 1-indexed vector `primes`, whose
element 0 is the placeholder 0. -/
def pi_bsearch (primes : List Nat) (n : Nat) : Nat :=
  (primes.tail.filter (fun p => decide (p ≤ n))).length

/-- Modelled from the spec: the integer cube root `iroot<3>(x)` of
pmath.hpp. -/
def iroot3 (x : Nat) : Nat :=
  Nat.findGreatest (fun r => r ^ 3 ≤ x) x

/-- Modelled from the spec: `pi_legendre(x, threads)`, the number of primes
`≤ x`. -/
def pi_legendre (x : Nat) : Nat :=
  Nat.primeCounting x

/-- The first loop of `P2_lehmer`, `for (i = b; i > a; i--)` under
`omp parallel for`: `order` lists the iterations, numbered `0, 1, …` from
`i = b` downwards, in the order in which the threads execute them; the
vector `counts` at the end. -/
def P2_lehmer_counts (x b : Nat) (primes order counts : List Nat) : List Nat :=
  order.foldl (fun counts t =>
    let i := b - t
    let prev := if i = b then 0 else x / primes.getD (i + 1) 0 + 1
    let xi := x / primes.getD i 0
    counts.set i (primesieve.count_primes prev xi)) counts

/-- The second loop of `P2_lehmer`, `for (i = b; i > a; i--)`, entered with
`pix` and `sum`: the pair `(pix, sum)` at the end. -/
def P2_lehmer_sum (a b : Nat) (counts : List Nat) (pix sum : Int) : Int × Int :=
  (List.range' (a + 1) (b - a)).reverse.foldl (fun (ps : Int × Int) i =>
    let pix := ps.1 + counts.getD i 0
    (pix, ps.2 + (pix - ((i : Int) - 1)))) (pix, sum)

/-- `P2_lehmer(x, a, threads)`. The number of threads only decides how the
iterations of the first loop are distributed; `order` is the order in
which they are executed. -/
def P2_lehmer (x a : Nat) (order : List Nat) : Int :=
  let primes := 0 :: primesieve.generate_primes (isqrt x)
  let counts := List.replicate primes.length 0
  let b := pi_bsearch primes (isqrt x)
  let sum : Int := 0
  let pix : Int := 0
  let counts := P2_lehmer_counts x b primes order counts
  (P2_lehmer_sum a b counts pix sum).2

/-- The number of iterations of the parallel loop of `P2_lehmer`. -/
def P2_lehmer_iterations (x a : Nat) : Nat :=
  let primes := 0 :: primesieve.generate_primes (isqrt x)
  let b := pi_bsearch primes (isqrt x)
  b - a

/-- The body of the loop `for (i = a + 1; i <= pi_y; i++)` of `P3`: what
iteration `i` adds to `sum`. -/
def P3_body (x : Nat) (primes : List Nat) (i : Nat) : Int :=
  let xi := x / primes.getD i 0
  let bi := pi_bsearch primes (isqrt xi)
  (List.range' i (bi + 1 - i)).foldl (fun (sum : Int) j =>
    sum + ((pi_bsearch primes (xi / primes.getD j 0) : Int) - ((j : Int) - 1))) 0

/-- `P3(x, a, threads)`. The loop runs under
`omp parallel for reduction(+: sum)`: `chunks` lists, thread by thread, the
iterations that the thread executes, numbered `0, 1, …` from `i = a + 1`
upwards; each thread adds up its own iterations and the partial sums are
added at the end. -/
def P3 (x a : Nat) (chunks : List (List Nat)) : Int :=
  let primes := 0 :: primesieve.generate_primes (isqrt x)
  (chunks.map (fun chunk =>
    chunk.foldl (fun (sum : Int) t => sum + P3_body x primes (a + 1 + t)) 0)).sum

/-- The number of iterations of the parallel loop of `P3`. -/
def P3_iterations (x a : Nat) : Nat :=
  let primes := 0 :: primesieve.generate_primes (isqrt x)
  let y := iroot3 x
  let pi_y := pi_bsearch primes y
  pi_y - a

/-- `pi_meissel(x, threads)`; `phi` and `P2` are the functions
`phi(x, a, threads)` and `P2(x, a, x13)` that it calls. -/
def pi_meissel (phi : Nat → Nat → Int) (P2 : Nat → Nat → Nat → Int) (x : Int) : Int :=
  if x < 2 then 0
  else
    let x13 := iroot3 x.toNat
    let a := pi_legendre x13
    let sum : Int := 0
    let sum := sum + (phi x.toNat a + a - 1)
    let sum := sum - P2 x.toNat a x13
    sum

/-- The sum of the ordinary leaves by its definition:
`Σ μ(n) · φ(x / n, c)` over the square-free `n ≤ y` whose prime factors all
exceed the `c`-th prime, `n = 1` included. -/
def S1_naive (primes : List Nat) (x y c : Nat) : Int :=
  ∑ n in (Finset.Icc 1 y).filter (fun n : Nat =>
      Squarefree n ∧ ∀ p ∈ n.primeFactorsList, primes.getD c 0 < p),
    ArithmeticFunction.moebius n * (phi_naive primes (x / n) c : Int)

/-- The loop `for (b += 1; b < primes.size(); b++)` of `S1_thread<MU>`,
entered at the index `b` with the partial sum `s1`; `fuel` bounds the depth
of the recursion. -/
def S1_thread_loop : Nat → Int → Nat → Nat → Nat → Nat → Nat → List Nat → Int → Option Int
  | 0, _, _, _, _, _, _, _, _ => none
  | fuel + 1, MU, x, y, b, c, square_free, primes, s1 =>
    if b < primes.length then
      let next := square_free * primes.getD b 0
      if next > y then some s1
      else
        let s1 := s1 + MU * PhiTiny.phi_tiny (x / next) c
        match S1_thread_loop fuel (-MU) x y (b + 1) c next primes 0 with
        | none => none
        | some r => S1_thread_loop fuel MU x y (b + 1) c square_free primes (s1 + r)
    else some s1

/-- `S1_thread<MU>(x, y, b, c, square_free, primes)`. -/
def S1_thread (fuel : Nat) (MU : Int) (x y b c square_free : Nat) (primes : List Nat) :
    Option Int :=
  S1_thread_loop fuel MU x y (b + 1) c square_free primes 0

/-- The body of the parallel loop of `S1_OpenMP` for the index `b`, run on
the private copy `s1` of a thread. -/
def S1_OpenMP_body (fuel x y c : Nat) (primes : List Nat) (s1 : Option Int) (b : Nat) :
    Option Int :=
  match s1 with
  | none => none
  | some s1 =>
    let s1 := s1 - PhiTiny.phi_tiny (x / primes.getD b 0) c
    match S1_thread fuel 1 x y b c (primes.getD b 0) primes with
    | none => none
    | some r => some (s1 + r)

/-- `S1_OpenMP(x, y, c, threads)`, `threads` being the number of threads of
the parallel region (the value of `ideal_num_threads`). Under
`schedule(static, 1)` the thread `t` runs the iterations
`b = c + 1 + t, c + 1 + t + threads, …` on a private `s1` that starts at 0,
and `reduction(+: s1)` adds the private sums to the initial value. -/
def S1_OpenMP (fuel x y c threads : Nat) : Option Int :=
  let primes := 0 :: primesieve.generate_primes y
  let pi_y := primes.length
  let s1 : Int := PhiTiny.phi_tiny x c
  (List.range threads).foldl (fun (total : Option Int) t =>
    let mine := (List.range (pi_y - (c + 1))).filter (fun k => k % threads = t)
    match total, mine.foldl (fun s k => S1_OpenMP_body fuel x y c primes s (c + 1 + k)) (some 0) with
    | some total, some s => some (total + s)
    | _, _ => none) (some s1)

/-- The sum `Σ μ(n) · g(x / n)` over the square-free `n ≤ y` whose prime
factors all exceed `primes[b]`: the sum of the ordinary leaves, with the
prime index and the leaf value left free. -/
def S1_leaves (g : Nat → Int) (primes : List Nat) (x y b : Nat) : Int :=
  ∑ n in (Finset.Icc 1 y).filter (fun n : Nat =>
      Squarefree n ∧ ∀ p ∈ n.primeFactorsList, primes.getD b 0 < p),
    ArithmeticFunction.moebius n * g (x / n)

/-- Modelled from the spec: `isquare(x)` of pmath.hpp, the square of `x`
as a 64-bit integer. -/
def isquare (x : Nat) : Nat :=
  x * x

/-- Modelled from the spec: `next_power_of_2(x)` of pmath.hpp, the smallest
power of 2 that is at least `x`. -/
def next_power_of_2 (x : Nat) : Nat :=
  2 ^ Nat.clog 2 x

/-- The loop `for (p2 = primes[i] * 2; k < segment_size; k += p2)
sieve[k] = 0;` of `P2`: the sieve and `k` at the end. -/
def P2_cross_off : Nat → Nat → Nat → Nat → List Nat → Option (List Nat × Nat)
  | 0, _, _, _, _ => none
  | fuel + 1, segment_size, p2, k, sieve =>
    if k < segment_size then
      P2_cross_off fuel segment_size p2 (k + p2) (sieve.set k 0)
    else some (sieve, k)

/-- The loop `for (i = 2; i < primes.size(); i++)` of `P2` that sieves the
current segment, over the list of the indices `i` still to come: the sieve
and the vector `next` at the end. The values of `k` are never negative:
`next[i]` starts at a remainder and the inner loop ends with
`k ≥ segment_size`. -/
def P2_sieve_primes (fuel segment_size sqrt_high : Nat) (primes : List Nat) :
    List Nat → List Nat → List Nat → Option (List Nat × List Nat)
  | [], sieve, next => some (sieve, next)
  | i :: rest, sieve, next =>
    if primes.getD i 0 > sqrt_high then some (sieve, next)
    else
      let k := next.getD i 0
      match P2_cross_off fuel segment_size (primes.getD i 0 * 2) k sieve with
      | none => none
      | some (sieve, k) =>
        P2_sieve_primes fuel segment_size sqrt_high primes rest sieve
          (next.set i (k - segment_size))

/-- The loops `for (; j <= t; j += 2) pix += sieve[j];` of `P2`, with
`t = stop - low` or `t = high - low`: the pair `(j, pix)` at the end.
Reading outside the sieve gives no result. -/
def P2_count : Nat → List Nat → Int → Int → Int → Option (Int × Int)
  | 0, _, _, _, _ => none
  | fuel + 1, sieve, t, j, pix =>
    if j ≤ t then
      if 0 ≤ j ∧ j < sieve.length then
        P2_count fuel sieve t (j + 2) (pix + (sieve.getD j.toNat 0 : Nat))
      else none
    else some (j, pix)

/-- The variables that the loops of `P2` over the stops carry along: `iter`
is the position of the `primesieve::iterator`. -/
structure P2_vars where
  stop : Nat
  iter : Nat
  b : Int
  j : Int
  pix : Int
  sum : Int

/-- How the loop over the stops ends: with `return sum`, or with
`stop > high` and the variables as they are then. -/
inductive P2_flow where
  | ret (sum : Int)
  | next_segment (v : P2_vars)

/-- The loop `for (; stop <= high; stop = x / iter.previous_prime())` of
`P2`. Dividing by a `previous_prime()` of 0 gives no result. -/
def P2_stops : Nat → Nat → Nat → Nat → Nat → List Nat → P2_vars → Option P2_flow
  | 0, _, _, _, _, _, _ => none
  | fuel + 1, x, a, low, high, sieve, v =>
    if v.stop ≤ high then
      match P2_count (fuel + 1) sieve ((v.stop : Int) - (low : Int)) v.j v.pix with
      | none => none
      | some (j, pix) =>
        let sum := v.sum + (pix - (v.b - 1))
        let b := v.b - 1
        if b ≤ (a : Int) then some (P2_flow.ret sum)
        else
          let p := primesieve.previous_prime v.iter
          if p = 0 then none
          else P2_stops fuel x a low high sieve ⟨x / p, p, b, j, pix, sum⟩
    else some (P2_flow.next_segment v)

/-- The loop `for (low = 3; low <= limit; low += segment_size)` of `P2`,
the segmented sieve of Eratosthenes; `~low % 2` is the remainder of
`-low - 1` in the division that truncates. -/
def P2_segments : Nat → Nat → Nat → Nat → Nat → List Nat → Nat → List Nat → P2_vars →
    Option Int
  | 0, _, _, _, _, _, _, _, _ => none
  | fuel + 1, x, a, limit, segment_size, primes, low, next, v =>
    if low ≤ limit then
      let sieve := List.replicate segment_size 1
      let high := min (low + segment_size - 1) limit
      let sqrt_high := isqrt high
      match P2_sieve_primes (fuel + 1) segment_size sqrt_high primes
          (List.range' 2 (primes.length - 2)) sieve next with
      | none => none
      | some (sieve, next) =>
        let j : Int := Int.tmod (-(low : Int) - 1) 2
        match P2_stops (fuel + 1) x a low high sieve ⟨v.stop, v.iter, v.b, j, v.pix, v.sum⟩ with
        | none => none
        | some (P2_flow.ret sum) => some sum
        | some (P2_flow.next_segment v) =>
          match P2_count (fuel + 1) sieve ((high : Int) - (low : Int)) v.j v.pix with
          | none => none
          | some (j, pix) =>
            P2_segments fuel x a limit segment_size primes (low + segment_size) next
              ⟨v.stop, v.iter, v.b, j, pix, v.sum⟩
    else some v.sum

/-- `P2(x, a)`; `primes` is the vector that `generate_n_primes(a, &primes)`
leaves behind, 0 followed by the first `a` primes, and `fuel` bounds the
number of iterations of each loop. -/
def P2 (fuel x a : Nat) (primes : List Nat) : Option Int :=
  let limit := if a > 0 then x / primes.getD a 0 else x
  let sqrt_limit := isqrt limit
  let sum : Int := 0
  let pix : Int := 1
  let sqrtx := isqrt x
  let b := pi_legendre sqrtx
  let segment_size := next_power_of_2 sqrt_limit
  if b ≤ a then some sum
  else
    let iter := sqrtx + 1
    let p := primesieve.previous_prime iter
    if p = 0 then none
    else
      let stop := x / p
      let next := (List.range' 1 (primes.length - 1)).foldl (fun (next : List Nat) i =>
        next.set i ((isquare (primes.getD i 0) - 3) % segment_size))
        (List.replicate primes.length 0)
      P2_segments fuel x a limit segment_size primes 3 next ⟨stop, p, b, 0, pix, sum⟩

/-- An odd number `n` that the sieve of `P2` crosses off: an odd multiple
`≥ p²` of one of the primes `p = primes[i]`, `i ≥ 2`. -/
def P2_crossed (primes : List Nat) (n : Nat) : Prop :=
  ∃ i, 2 ≤ i ∧ i < primes.length ∧ primes.getD i 0 ∣ n ∧ primes.getD i 0 * primes.getD i 0 ≤ n

/-- The index `k` is the first one, from `low` on, at which the sieve of
`P2` crosses off a multiple of `p`. -/
def P2_first_hit (p low k : Nat) : Prop :=
  p ∣ low + k ∧ k % 2 = 0 ∧ p * p ≤ low + k ∧ (k < 2 * p ∨ low + k = p * p)

/-- The vector `next` at the start of the segment that begins at `low`. -/
def P2_next_ok (primes : List Nat) (segment_size low : Nat) (next : List Nat) : Prop :=
  next.length = primes.length ∧
  ∀ i, 2 ≤ i → i < primes.length →
    (primes.getD i 0 * primes.getD i 0 < low → P2_first_hit (primes.getD i 0) low (next.getD i 0)) ∧
    (low ≤ primes.getD i 0 * primes.getD i 0 →
      next.getD i 0 = (primes.getD i 0 * primes.getD i 0 - 3) % segment_size)

namespace PhiCache

/-- The cache states that a program reaches: the state of a newly
constructed `PhiCache` over the tables `primes` and `pi`, and the state
that a call `phi<SIGN>(x, a)` with `primes[a + 1]` in the table leaves
behind when made in a state that is reached. -/
inductive Reachable (primes pi : List Nat) : State → Prop
  | init (x a : Nat) : Reachable primes pi (PhiCache.new x a primes pi)
  | step (s s' : State) (sign : Int) (x a : Nat) (r : Int) :
      Reachable primes pi s → a + 1 < primes.length →
      PhiCache.phi sign x a s = some (r, s') → Reachable primes pi s'

end PhiCache

namespace Sieve

/-- The indices `counter_.i` at which the `while` loop of `count(stop)`
reads `counter_[counter_.i]`, in the order of the reads. -/
def count_loop_reads : Nat → Nat → State → List Nat
  | 0, _, _ => []
  | fuel + 1, stop, s =>
    if s.counter_.stop ≤ stop then
      let c := s.counter_
      let c := { c with stop := c.stop + c.dist }
      let c := { c with sum := c.sum + c.counter.getD c.i 0, i := c.i + 1 }
      s.counter_.i :: count_loop_reads fuel stop { s with counter_ := c, count_ := c.sum }
    else []

/-- The indices of the words `sieve64[…]` that `count_default(start, stop)`
reads: none when `start > stop`, else `start_idx`, `stop_idx` and the
indices of the loop. -/
def count_default_reads (start stop : Nat) : List Nat :=
  if start > stop then []
  else
    let start_idx := start / 240
    let stop_idx := stop / 240
    start_idx :: stop_idx :: List.range' (start_idx + 1) (stop_idx - (start_idx + 1))

/-- The reads of the calls `count(s₁)`, `count(s₂)`, … made one after the
other: for each call the indices read in the counter array by the `while`
loop and the indices of the words read by `count(start, stop)`. -/
def count_reads (s : State) : List Nat → Option (List (List Nat × List Nat))
  | [] => some []
  | stop :: stops =>
    match count_loop (stop + 2) stop (s.prev_stop_ + 1) { s with prev_stop_ := stop },
        count s stop with
    | some (start, _), some (_, s') =>
      match count_reads s' stops with
      | none => none
      | some rs =>
        some ((count_loop_reads (stop + 2) stop { s with prev_stop_ := stop },
          count_default_reads start stop) :: rs)
    | _, _ => none

end Sieve

/-! ## Theorems -/

/-! ### Bit masks and population counts -/

theorem maskOf_lt (p : Nat → Bool) (n : Nat) : maskOf p n < 2 ^ n := by
  induction n with
  | zero => simp [maskOf]
  | succ n ih =>
    simp only [maskOf]
    split_ifs <;> rw [pow_succ] <;> omega

theorem testBit_maskOf (p : Nat → Bool) (n j : Nat) :
    (maskOf p n).testBit j = (decide (j < n) && p j) := by
  induction n with
  | zero => simp [maskOf]
  | succ n ih =>
    simp only [maskOf]
    by_cases hp : p n
    · simp only [hp, if_true]
      rw [add_comm]
      rcases lt_trichotomy j n with h | h | h
      · rw [Nat.testBit_two_pow_add_gt h, ih]
        simp [h, Nat.lt_succ_of_lt h]
      · subst h
        rw [Nat.testBit_two_pow_add_eq, Nat.testBit_lt_two_pow (maskOf_lt p j)]
        simp [hp]
      · have h1 : ¬ j < n + 1 := by omega
        have h2 : 2 ^ n + maskOf p n < 2 ^ j := by
          have := maskOf_lt p n
          have : 2 ^ (n + 1) ≤ 2 ^ j := Nat.pow_le_pow_right (by norm_num) h
          rw [pow_succ] at this
          omega
        rw [Nat.testBit_lt_two_pow h2]
        simp [h1]
    · simp only [hp, Bool.false_eq_true, if_false, add_zero, ih]
      by_cases hj : j = n
      · subst hj
        simp [hp]
      · have : (j < n + 1) ↔ j < n := by omega
        simp [this]

theorem popcnt64_and_maskOf (w : Nat) (p : Nat → Bool) :
    popcnt64 (w &&& maskOf p 64) =
      ((Finset.range 64).filter (fun j => w.testBit j = true ∧ p j = true)).card := by
  unfold popcnt64
  congr 1
  apply Finset.filter_congr
  intro j hj
  rw [Nat.testBit_and, testBit_maskOf]
  simp [Finset.mem_range.1 hj]

theorem popcnt64_zero : popcnt64 0 = 0 := by
  simp [popcnt64]

theorem bit_value_lt : ∀ j < 64, bit_value j < 240 := by decide

theorem bit_value_pos : ∀ j < 64, 1 ≤ bit_value j := by decide

namespace Sieve

/-! ### `count_default` counts the set bits of a range -/

theorem foldl_popcnt (sieve64 : List Nat) (n a cnt : Nat) :
    (List.range' a n).foldl (fun cnt i => cnt + popcnt64 (sieve64.getD i 0)) cnt =
      cnt + ∑ q in Finset.Ico a (a + n), popcnt64 (sieve64.getD q 0) := by
  induction n generalizing a cnt with
  | zero => simp
  | succ n ih =>
    rw [List.range'_succ, List.foldl_cons, ih,
      Finset.sum_eq_sum_Ico_succ_bot (by omega : a < a + (n + 1))]
    have : a + 1 + n = a + (n + 1) := by omega
    rw [this]
    omega

/-- The contribution of one word to `set_bits`. -/
theorem set_bits_eq_sum_Icc (sieve64 : List Nat) (start stop : Nat)
    (hstop : stop < 240 * sieve64.length) :
    set_bits sieve64 start stop =
      ∑ q in Finset.Icc (start / 240) (stop / 240),
        ((Finset.range 64).filter (fun j =>
          (sieve64.getD q 0).testBit j = true ∧
            start ≤ 240 * q + bit_value j ∧ 240 * q + bit_value j ≤ stop)).card := by
  unfold set_bits
  symm
  apply Finset.sum_subset
  · intro q hq
    rw [Finset.mem_Icc] at hq
    rw [Finset.mem_range]
    have := Nat.div_mul_le_self stop 240
    omega
  · intro q _ hq
    rw [Finset.mem_Icc] at hq
    rw [Finset.card_eq_zero, Finset.filter_eq_empty_iff]
    intro j hj ⟨_, h1, h2⟩
    have := bit_value_lt j (Finset.mem_range.1 hj)
    have := Nat.div_add_mod start 240
    have := Nat.div_add_mod stop 240
    have := Nat.mod_lt start (by norm_num : 240 > 0)
    have := Nat.mod_lt stop (by norm_num : 240 > 0)
    apply hq
    constructor <;> omega

theorem count_default_eq_set_bits_aux (sieve64 : List Nat) (start stop : Nat)
    (hstop : stop < 240 * sieve64.length) :
    count_default sieve64 start stop = set_bits sieve64 start stop := by
  by_cases hgt : start > stop
  · -- both sides are 0
    simp only [count_default, hgt, if_true]
    unfold set_bits
    symm
    apply Finset.sum_eq_zero
    intro q _
    rw [Finset.card_eq_zero, Finset.filter_eq_empty_iff]
    intro j _ ⟨_, h1, h2⟩
    omega
  · have hle : start ≤ stop := by omega
    have hidx : start / 240 ≤ stop / 240 := Nat.div_le_div_right hle
    have hs := Nat.div_add_mod start 240
    have he := Nat.div_add_mod stop 240
    have hsm := Nat.mod_lt start (by norm_num : 240 > 0)
    have hem := Nat.mod_lt stop (by norm_num : 240 > 0)
    rw [set_bits_eq_sum_Icc sieve64 start stop hstop]
    simp only [count_default, hgt, if_false]
    rw [foldl_popcnt]
    by_cases heq : start / 240 = stop / 240
    · -- one word: the two masks are intersected
      simp only [heq, ne_eq, not_true_eq_false, if_false, if_true, mul_zero, mul_one,
        Nat.zero_or, Nat.and_zero, popcnt64_zero, add_zero]
      rw [Finset.Icc_self, Finset.sum_singleton]
      have hempty : Finset.Ico (stop / 240 + 1) (stop / 240 + 1 + (stop / 240 - (stop / 240 + 1)))
          = ∅ := by
        apply Finset.Ico_eq_empty
        omega
      rw [hempty, Finset.sum_empty, add_zero]
      unfold unset_smaller unset_larger
      have hand : maskOf (fun j => decide (start % 240 ≤ bit_value j)) 64 &&&
          maskOf (fun j => decide (bit_value j ≤ stop % 240)) 64 =
          maskOf (fun j => decide (start % 240 ≤ bit_value j) &&
            decide (bit_value j ≤ stop % 240)) 64 := by
        apply Nat.eq_of_testBit_eq
        intro j
        rw [Nat.testBit_and, testBit_maskOf, testBit_maskOf, testBit_maskOf]
        cases decide (j < 64) <;> simp
      rw [hand, popcnt64_and_maskOf]
      congr 1
      apply Finset.filter_congr
      intro j hj
      have := bit_value_lt j (Finset.mem_range.1 hj)
      simp only [Bool.and_eq_true, decide_eq_true_eq]
      constructor
      · rintro ⟨h0, h1, h2⟩
        exact ⟨h0, by omega, by omega⟩
      · rintro ⟨h0, h1, h2⟩
        exact ⟨h0, by omega, by omega⟩
    · -- several words: first word, last word, full words in between
      have hlt : start / 240 < stop / 240 := lt_of_le_of_ne hidx heq
      simp only [heq, ne_eq, not_false_eq_true, if_true, if_false, mul_one, mul_zero,
        Nat.or_zero]
      have hIcc : Finset.Icc (start / 240) (stop / 240) =
          Finset.Ico (start / 240) (stop / 240 + 1) := by
        ext q
        simp only [Finset.mem_Icc, Finset.mem_Ico]
        omega
      rw [hIcc, Finset.sum_Ico_succ_top (by omega),
        Finset.sum_eq_sum_Ico_succ_bot hlt]
      have hb : start / 240 + 1 + (stop / 240 - (start / 240 + 1)) = stop / 240 := by omega
      rw [hb]
      unfold unset_smaller unset_larger
      rw [popcnt64_and_maskOf, popcnt64_and_maskOf]
      have e1 : ((Finset.range 64).filter (fun j =>
          (sieve64.getD (start / 240) 0).testBit j = true ∧
            decide (start % 240 ≤ bit_value j) = true)).card =
          ((Finset.range 64).filter (fun j =>
          (sieve64.getD (start / 240) 0).testBit j = true ∧
            start ≤ 240 * (start / 240) + bit_value j ∧
            240 * (start / 240) + bit_value j ≤ stop)).card := by
        congr 1
        apply Finset.filter_congr
        intro j hj
        have := bit_value_lt j (Finset.mem_range.1 hj)
        simp only [decide_eq_true_eq]
        constructor
        · rintro ⟨h0, h1⟩
          exact ⟨h0, by omega, by omega⟩
        · rintro ⟨h0, h1, h2⟩
          exact ⟨h0, by omega⟩
      have e2 : ((Finset.range 64).filter (fun j =>
          (sieve64.getD (stop / 240) 0).testBit j = true ∧
            decide (bit_value j ≤ stop % 240) = true)).card =
          ((Finset.range 64).filter (fun j =>
          (sieve64.getD (stop / 240) 0).testBit j = true ∧
            start ≤ 240 * (stop / 240) + bit_value j ∧
            240 * (stop / 240) + bit_value j ≤ stop)).card := by
        congr 1
        apply Finset.filter_congr
        intro j hj
        have := bit_value_lt j (Finset.mem_range.1 hj)
        simp only [decide_eq_true_eq]
        constructor
        · rintro ⟨h0, h1⟩
          exact ⟨h0, by omega, by omega⟩
        · rintro ⟨h0, h1, h2⟩
          exact ⟨h0, by omega⟩
      have e3 : ∑ q in Finset.Ico (start / 240 + 1) (stop / 240),
          popcnt64 (sieve64.getD q 0) =
          ∑ q in Finset.Ico (start / 240 + 1) (stop / 240),
          ((Finset.range 64).filter (fun j =>
            (sieve64.getD q 0).testBit j = true ∧
              start ≤ 240 * q + bit_value j ∧ 240 * q + bit_value j ≤ stop)).card := by
        apply Finset.sum_congr rfl
        intro q hq
        rw [Finset.mem_Ico] at hq
        unfold popcnt64
        congr 1
        apply Finset.filter_congr
        intro j hj
        have := bit_value_lt j (Finset.mem_range.1 hj)
        constructor
        · intro h0
          exact ⟨h0, by omega, by omega⟩
        · rintro ⟨h0, _, _⟩
          exact h0
      rw [e1, e2, e3]
      omega

/-- C5: for `stop` inside the segment, `count_default(start, stop)` is
exactly the number of set bits of the sieve that stand for an integer `n`
with `start ≤ n ≤ stop`; and it is 0 when `start > stop`. -/
theorem count_default_eq_set_bits (sieve64 : List Nat) (start stop : Nat)
    (hstop : stop < 240 * sieve64.length) :
    count_default sieve64 start stop = set_bits sieve64 start stop ∧
    (start > stop → count_default sieve64 start stop = 0) :=
  ⟨count_default_eq_set_bits_aux sieve64 start stop hstop,
    fun h => by simp [count_default, h]⟩

theorem count_default_eq_set_bits_witness :
    250 < 240 * ([18446744073709551615, 5] : List Nat).length ∧
    count_default [18446744073709551615, 5] 230 250 =
      set_bits [18446744073709551615, 5] 230 250 ∧
    (230 > 250 → count_default [18446744073709551615, 5] 230 250 = 0) :=
  ⟨by decide, count_default_eq_set_bits [18446744073709551615, 5] 230 250 (by decide)⟩

/-! ### The vectorised paths agree with `count_default` -/

theorem sum_zipWith_add (a b : List Nat) (h : a.length = b.length) :
    (List.zipWith (fun x y => x + y) a b).sum = a.sum + b.sum := by
  induction a generalizing b with
  | nil =>
    cases b with
    | nil => simp
    | cons y ys => simp at h
  | cons x xs ih =>
    cases b with
    | nil => simp at h
    | cons y ys =>
      simp only [List.zipWith_cons_cons, List.sum_cons]
      rw [ih ys (by simpa using h)]
      omega

theorem sum_map_range (f : Nat → Nat) (n : Nat) :
    ((List.range n).map f).sum = ∑ k in Finset.range n, f k := by
  induction n with
  | zero => simp
  | succ n ih =>
    rw [List.range_succ, List.map_append, List.sum_append, ih, Finset.sum_range_succ]
    simp

theorem sum_range_if_lt (g : Nat → Nat) (i e n : Nat) (h : e ≤ i + n) :
    ∑ k in Finset.range n, (if i + k < e then g (i + k) else 0) =
      ∑ q in Finset.Ico i e, g q := by
  rw [Finset.sum_Ico_eq_sum_range, ← Finset.sum_filter]
  congr 1
  ext k
  simp only [Finset.mem_filter, Finset.mem_range]
  omega

theorem sum_range_shift (g : Nat → Nat) (i n : Nat) :
    ∑ k in Finset.range n, g (i + k) = ∑ q in Finset.Ico i (i + n), g q := by
  rw [Finset.sum_Ico_eq_sum_range]
  simp

theorem count_avx512_loop_spec (sieve64 : List Nat) (stop_idx : Nat) :
    ∀ (d i : Nat) (vcnt : List Nat), stop_idx - i = d → vcnt.length = 8 →
      (count_avx512_loop sieve64 stop_idx i vcnt).2.length = 8 ∧
      i ≤ (count_avx512_loop sieve64 stop_idx i vcnt).1 ∧
      stop_idx ≤ (count_avx512_loop sieve64 stop_idx i vcnt).1 + 8 ∧
      ((count_avx512_loop sieve64 stop_idx i vcnt).1 = i ∨
        (count_avx512_loop sieve64 stop_idx i vcnt).1 < stop_idx) ∧
      (count_avx512_loop sieve64 stop_idx i vcnt).2.sum =
        vcnt.sum + ∑ q in Finset.Ico i (count_avx512_loop sieve64 stop_idx i vcnt).1,
          popcnt64 (sieve64.getD q 0) := by
  intro d
  induction d using Nat.strong_induction_on with
  | _ d ih =>
    intro i vcnt hd hlen
    rw [count_avx512_loop]
    split_ifs with hlt
    · dsimp only
      have hlen' : (mm512_add_epi64 vcnt
          (mm512_popcnt_epi64 (mm512_loadu_epi64 sieve64 i))).length = 8 := by
        simp [mm512_add_epi64, mm512_popcnt_epi64, mm512_loadu_epi64, hlen]
      obtain ⟨h1, h2, h3, h4, h5⟩ := ih (stop_idx - (i + 8)) (by omega) (i + 8) _ rfl hlen'
      refine ⟨h1, by omega, h3, Or.inr ?_, ?_⟩
      · rcases h4 with h4 | h4
        · rw [h4]
          exact hlt
        · exact h4
      · rw [h5]
        have hs : (mm512_add_epi64 vcnt
            (mm512_popcnt_epi64 (mm512_loadu_epi64 sieve64 i))).sum =
            vcnt.sum + ∑ q in Finset.Ico i (i + 8), popcnt64 (sieve64.getD q 0) := by
          unfold mm512_add_epi64
          rw [sum_zipWith_add _ _ (by
            simp [mm512_popcnt_epi64, mm512_loadu_epi64, hlen])]
          unfold mm512_popcnt_epi64 mm512_loadu_epi64
          rw [List.map_map, sum_map_range, ← sum_range_shift]
          rfl
        rw [hs, add_assoc, Finset.sum_Ico_consecutive _ (by omega) h2]
    · refine ⟨hlen, le_refl _, by omega, Or.inl rfl, ?_⟩
      simp

theorem testBit_tail_mask (d k : Nat) (hk : k < 8) :
    ((0xff >>> d) % 256).testBit k = decide (d + k < 8) := by
  have h256 : (256 : Nat) = 2 ^ 8 := by norm_num
  have hff : (0xff : Nat) = 2 ^ 8 - 1 := by norm_num
  rw [h256, Nat.testBit_mod_two_pow, Nat.testBit_shiftRight, hff,
    Nat.testBit_two_pow_sub_one]
  simp [hk]

theorem count_avx512_eq (sieve64 : List Nat) (start stop : Nat) :
    count_avx512 sieve64 start stop = count_default sieve64 start stop := by
  unfold count_avx512 count_default
  split_ifs with hgt
  · rfl
  · dsimp only
    generalize hsb : sieve64.getD (start / 240) 0 &&&
      (unset_smaller (start % 240) * (if start / 240 ≠ stop / 240 then 1 else 0) |||
        (unset_smaller (start % 240) &&& unset_larger (stop % 240)) *
          (if start / 240 = stop / 240 then 1 else 0)) = sb
    generalize heb : sieve64.getD (stop / 240) 0 &&&
      (unset_larger (stop % 240) * (if start / 240 ≠ stop / 240 then 1 else 0)) = eb
    have hlen0 : (mm512_popcnt_epi64 (mm512_set_epi64 0 0 0 0 0 0 eb sb)).length = 8 := rfl
    obtain ⟨h1, h2, h3, h4, h5⟩ := count_avx512_loop_spec sieve64 (stop / 240) _
      (start / 240 + 1) _ rfl hlen0
    generalize count_avx512_loop sieve64 (stop / 240) (start / 240 + 1)
      (mm512_popcnt_epi64 (mm512_set_epi64 0 0 0 0 0 0 eb sb)) = r at h1 h2 h3 h4 h5
    have hidx : start / 240 ≤ stop / 240 := Nat.div_le_div_right (by omega)
    rw [foldl_popcnt]
    unfold mm512_reduce_add_epi64 mm512_add_epi64
    rw [sum_zipWith_add _ _ (by
      simp [mm512_popcnt_epi64, mm512_maskz_loadu_epi64, h1]), h5]
    have hinit : (mm512_popcnt_epi64 (mm512_set_epi64 0 0 0 0 0 0 eb sb)).sum =
        popcnt64 sb + popcnt64 eb := by
      simp [mm512_popcnt_epi64, mm512_set_epi64, popcnt64_zero]
    have htail : (mm512_popcnt_epi64 (mm512_maskz_loadu_epi64
        ((0xff >>> (r.1 + 8 - stop / 240)) % 256) sieve64 r.1)).sum =
        ∑ q in Finset.Ico r.1 (stop / 240), popcnt64 (sieve64.getD q 0) := by
      unfold mm512_popcnt_epi64 mm512_maskz_loadu_epi64
      rw [List.map_map, sum_map_range, ← sum_range_if_lt _ r.1 (stop / 240) 8 h3]
      apply Finset.sum_congr rfl
      intro k hk
      rw [Finset.mem_range] at hk
      simp only [Function.comp, testBit_tail_mask _ k hk, decide_eq_true_eq]
      have hiff : (r.1 + 8 - stop / 240 + k < 8) ↔ (r.1 + k < stop / 240) := by omega
      by_cases hc : r.1 + k < stop / 240
      · rw [if_pos (hiff.2 hc), if_pos hc]
      · rw [if_neg (fun h => hc (hiff.1 h)), if_neg hc, popcnt64_zero]
    rw [hinit, htail]
    have hb : start / 240 + 1 + (stop / 240 - (start / 240 + 1)) =
        max (start / 240 + 1) (stop / 240) := by omega
    rw [hb]
    have hsplit : ∑ q in Finset.Ico (start / 240 + 1) (max (start / 240 + 1) (stop / 240)),
        popcnt64 (sieve64.getD q 0) =
        ∑ q in Finset.Ico (start / 240 + 1) r.1, popcnt64 (sieve64.getD q 0) +
        ∑ q in Finset.Ico r.1 (stop / 240), popcnt64 (sieve64.getD q 0) := by
      rcases h4 with h4 | h4
      · rw [h4]
        simp only [Finset.Ico_self, Finset.sum_empty, zero_add]
        by_cases hc : start / 240 + 1 ≤ stop / 240
        · rw [max_eq_right hc]
        · rw [max_eq_left (by omega), Finset.Ico_self, Finset.sum_empty,
            Finset.Ico_eq_empty (by omega), Finset.sum_empty]
      · rw [max_eq_right (by omega), Finset.sum_Ico_consecutive _ h2 (by omega)]
    rw [hsplit]
    omega

theorem getD_map_range (g : Nat → Bool) (n k : Nat) (hk : k < n) :
    ((List.range n).map g).getD k false = g k := by
  simp [List.getD_eq_getElem?_getD, List.getElem?_range hk]

theorem sum_svcnt_svld1 (vl : Nat) (g : Nat → Bool) (mem : List Nat) (i : Nat) :
    (svcnt_u64_z ((List.range vl).map g) (svld1_u64 ((List.range vl).map g) mem i)).sum =
      ∑ k in Finset.range vl, (if g k then popcnt64 (mem.getD (i + k) 0) else 0) := by
  unfold svcnt_u64_z svld1_u64
  rw [List.length_map, List.length_range, List.zipWith_map, List.zipWith_same, sum_map_range]
  apply Finset.sum_congr rfl
  intro k hk
  rw [getD_map_range g vl k (Finset.mem_range.1 hk)]
  by_cases hg : g k <;> simp [hg]

theorem length_svcnt_svld1 (vl : Nat) (g : Nat → Bool) (mem : List Nat) (i : Nat) :
    (svcnt_u64_z ((List.range vl).map g) (svld1_u64 ((List.range vl).map g) mem i)).length
      = vl := by
  simp [svcnt_u64_z, svld1_u64]

theorem svptrue_eq_map (vl : Nat) :
    svptrue_b64 vl = (List.range vl).map (fun _ => true) := by
  simp [svptrue_b64, List.map_const']

theorem sum_zipWith_inactive (f : Nat → Nat) (l : List Nat) (g : Nat → Bool)
    (hg : ∀ k ∈ l, g k = false) (v : List Nat) :
    (List.zipWith (fun p x => if p then f x else 0) (l.map g) v).sum = 0 := by
  induction l generalizing v with
  | nil => simp
  | cons a l ih =>
    cases v with
    | nil => simp
    | cons x v =>
      simp only [List.map_cons, List.zipWith_cons_cons, List.sum_cons]
      rw [hg a (List.mem_cons_self _ _), ih (fun k hk => hg k (List.mem_cons_of_mem _ hk))]
      simp

theorem sve_first_vector (n sb eb : Nat) :
    (svcnt_u64_z (svwhilelt_b64 (n + 2) 0 2)
      (svinsr_n_u64 (svdup_u64 (n + 2) sb) eb)).length = n + 2 ∧
    (svcnt_u64_z (svwhilelt_b64 (n + 2) 0 2)
      (svinsr_n_u64 (svdup_u64 (n + 2) sb) eb)).sum = popcnt64 sb + popcnt64 eb := by
  have hv : svinsr_n_u64 (svdup_u64 (n + 2) sb) eb = eb :: sb :: List.replicate n sb := by
    unfold svinsr_n_u64 svdup_u64
    rw [if_neg (by simp [List.replicate_succ]), List.dropLast_replicate]
    simp [List.replicate_succ]
  have hp : svwhilelt_b64 (n + 2) 0 2 =
      true :: true :: (List.range n).map (fun k => decide (0 + (k + 2) < 2)) := by
    unfold svwhilelt_b64
    rw [List.range_succ_eq_map, List.range_succ_eq_map]
    simp only [List.map_cons, List.map_map]
    rfl
  rw [hv, hp]
  unfold svcnt_u64_z
  constructor
  · simp
  · simp only [List.zipWith_cons_cons, List.sum_cons, if_true]
    rw [sum_zipWith_inactive popcnt64 (List.range n) _ (by intro k _; simp)]
    omega

theorem count_arm_sve_loop_spec (vl : Nat) (hvl : 0 < vl) (sieve64 : List Nat)
    (stop_idx : Nat) :
    ∀ (d i : Nat) (vcnt : List Nat), stop_idx - i = d → vcnt.length = vl →
      (count_arm_sve_loop vl sieve64 stop_idx i vcnt).2.length = vl ∧
      i ≤ (count_arm_sve_loop vl sieve64 stop_idx i vcnt).1 ∧
      stop_idx ≤ (count_arm_sve_loop vl sieve64 stop_idx i vcnt).1 + vl ∧
      ((count_arm_sve_loop vl sieve64 stop_idx i vcnt).1 = i ∨
        (count_arm_sve_loop vl sieve64 stop_idx i vcnt).1 < stop_idx) ∧
      (count_arm_sve_loop vl sieve64 stop_idx i vcnt).2.sum =
        vcnt.sum + ∑ q in Finset.Ico i (count_arm_sve_loop vl sieve64 stop_idx i vcnt).1,
          popcnt64 (sieve64.getD q 0) := by
  intro d
  induction d using Nat.strong_induction_on with
  | _ d ih =>
    intro i vcnt hd hlen
    rw [count_arm_sve_loop]
    split_ifs with hlt
    · dsimp only
      have hvec : svcnt_u64_x (svptrue_b64 vl) (svld1_u64 (svptrue_b64 vl) sieve64 i) =
          svcnt_u64_z ((List.range vl).map (fun _ => true))
            (svld1_u64 ((List.range vl).map (fun _ => true)) sieve64 i) := by
        rw [svptrue_eq_map]
        rfl
      rw [hvec]
      have hlen' : (svadd_u64_x (svptrue_b64 vl) vcnt
          (svcnt_u64_z ((List.range vl).map (fun _ => true))
            (svld1_u64 ((List.range vl).map (fun _ => true)) sieve64 i))).length = vl := by
        unfold svadd_u64_x
        rw [List.length_zipWith, length_svcnt_svld1, hlen, min_self]
      obtain ⟨h1, h2, h3, h4, h5⟩ := ih (stop_idx - (i + vl)) (by omega) (i + vl) _ rfl hlen'
      refine ⟨h1, by omega, h3, Or.inr ?_, ?_⟩
      · rcases h4 with h4 | h4
        · rw [h4]
          exact hlt.1
        · exact h4
      · rw [h5]
        have hs : (svadd_u64_x (svptrue_b64 vl) vcnt
            (svcnt_u64_z ((List.range vl).map (fun _ => true))
              (svld1_u64 ((List.range vl).map (fun _ => true)) sieve64 i))).sum =
            vcnt.sum + ∑ q in Finset.Ico i (i + vl), popcnt64 (sieve64.getD q 0) := by
          unfold svadd_u64_x
          rw [sum_zipWith_add _ _ (by rw [length_svcnt_svld1, hlen]), sum_svcnt_svld1,
            ← sum_range_shift]
          simp
        rw [hs, add_assoc, Finset.sum_Ico_consecutive _ (by omega) h2]
    · refine ⟨hlen, le_refl _, by omega, Or.inl rfl, ?_⟩
      simp

theorem svaddv_all (vl : Nat) (v : List Nat) (h : v.length = vl) :
    svaddv_u64 (svptrue_b64 vl) v = v.sum := by
  unfold svaddv_u64 svptrue_b64
  subst h
  induction v with
  | nil => simp
  | cons x xs ih =>
    simp only [List.length_cons, List.replicate_succ, List.zipWith_cons_cons, List.sum_cons,
      if_true]
    rw [ih]

theorem count_arm_sve_eq (vl : Nat) (hvl : 2 ≤ vl) (sieve64 : List Nat) (start stop : Nat) :
    count_arm_sve vl sieve64 start stop = count_default sieve64 start stop := by
  obtain ⟨n, rfl⟩ : ∃ n, vl = n + 2 := ⟨vl - 2, by omega⟩
  unfold count_arm_sve count_default
  split_ifs with hgt
  · rfl
  · dsimp only
    generalize hsb : sieve64.getD (start / 240) 0 &&&
      (unset_smaller (start % 240) * (if start / 240 ≠ stop / 240 then 1 else 0) |||
        (unset_smaller (start % 240) &&& unset_larger (stop % 240)) *
          (if start / 240 = stop / 240 then 1 else 0)) = sb
    generalize heb : sieve64.getD (stop / 240) 0 &&&
      (unset_larger (stop % 240) * (if start / 240 ≠ stop / 240 then 1 else 0)) = eb
    obtain ⟨hlen0, hinit⟩ := sve_first_vector n sb eb
    obtain ⟨h1, h2, h3, h4, h5⟩ := count_arm_sve_loop_spec (n + 2) (by omega) sieve64
      (stop / 240) _ (start / 240 + 1) _ rfl hlen0
    generalize count_arm_sve_loop (n + 2) sieve64 (stop / 240) (start / 240 + 1)
      (svcnt_u64_z (svwhilelt_b64 (n + 2) 0 2)
        (svinsr_n_u64 (svdup_u64 (n + 2) sb) eb)) = r at h1 h2 h3 h4 h5
    have hidx : start / 240 ≤ stop / 240 := Nat.div_le_div_right (by omega)
    rw [foldl_popcnt]
    have hpg : svwhilelt_b64 (n + 2) r.1 (stop / 240) =
        (List.range (n + 2)).map (fun k => decide (r.1 + k < stop / 240)) := rfl
    rw [hpg]
    have hlt : (svadd_u64_x (svptrue_b64 (n + 2)) r.2
        (svcnt_u64_z ((List.range (n + 2)).map (fun k => decide (r.1 + k < stop / 240)))
          (svld1_u64 ((List.range (n + 2)).map (fun k => decide (r.1 + k < stop / 240)))
            sieve64 r.1))).length = n + 2 := by
      unfold svadd_u64_x
      rw [List.length_zipWith, length_svcnt_svld1, h1, min_self]
    rw [svaddv_all _ _ hlt]
    unfold svadd_u64_x
    rw [sum_zipWith_add _ _ (by rw [length_svcnt_svld1, h1]), h5, sum_svcnt_svld1, hinit]
    have htail : ∑ k in Finset.range (n + 2),
        (if decide (r.1 + k < stop / 240) = true then popcnt64 (sieve64.getD (r.1 + k) 0)
          else 0) = ∑ q in Finset.Ico r.1 (stop / 240), popcnt64 (sieve64.getD q 0) := by
      rw [← sum_range_if_lt _ r.1 (stop / 240) (n + 2) h3]
      apply Finset.sum_congr rfl
      intro k _
      simp
    rw [htail]
    have hb : start / 240 + 1 + (stop / 240 - (start / 240 + 1)) =
        max (start / 240 + 1) (stop / 240) := by omega
    rw [hb]
    have hsplit : ∑ q in Finset.Ico (start / 240 + 1) (max (start / 240 + 1) (stop / 240)),
        popcnt64 (sieve64.getD q 0) =
        ∑ q in Finset.Ico (start / 240 + 1) r.1, popcnt64 (sieve64.getD q 0) +
        ∑ q in Finset.Ico r.1 (stop / 240), popcnt64 (sieve64.getD q 0) := by
      rcases h4 with h4 | h4
      · rw [h4]
        simp only [Finset.Ico_self, Finset.sum_empty, zero_add]
        by_cases hc : start / 240 + 1 ≤ stop / 240
        · rw [max_eq_right hc]
        · rw [max_eq_left (by omega), Finset.Ico_self, Finset.sum_empty,
            Finset.Ico_eq_empty (by omega), Finset.sum_empty]
      · rw [max_eq_right (by omega), Finset.sum_Ico_consecutive _ h2 (by omega)]
    rw [hsplit]
    omega

/-- C7: for every sieve content and all `start`, `stop`, the AVX-512 path
`count_avx512` (8-lane loop and final masked load) and the ARM SVE path
`count_arm_sve` (on any vector length of at least 2 lanes, with its
predicated tail) return the same value as the scalar `count_default`. -/
theorem count_simd_eq_count_default (vl : Nat) (hvl : 2 ≤ vl) (sieve64 : List Nat)
    (start stop : Nat) :
    count_avx512 sieve64 start stop = count_default sieve64 start stop ∧
    count_arm_sve vl sieve64 start stop = count_default sieve64 start stop :=
  ⟨count_avx512_eq sieve64 start stop, count_arm_sve_eq vl hvl sieve64 start stop⟩

theorem count_simd_eq_count_default_witness :
    2 ≤ 4 ∧
    count_avx512 [18446744073709551615, 5, 77, 1023] 230 900 =
      count_default [18446744073709551615, 5, 77, 1023] 230 900 ∧
    count_arm_sve 4 [18446744073709551615, 5, 77, 1023] 230 900 =
      count_default [18446744073709551615, 5, 77, 1023] 230 900 :=
  ⟨by decide, count_simd_eq_count_default 4 (by decide) _ 230 900⟩

/-! ### `count(stop)` with a cursor -/

theorem set_bits_split (sieve64 : List Nat) (a b c : Nat) (hab : a ≤ b + 1) (hbc : b ≤ c) :
    set_bits sieve64 a b + set_bits sieve64 (b + 1) c = set_bits sieve64 a c := by
  unfold set_bits
  rw [← Finset.sum_add_distrib]
  apply Finset.sum_congr rfl
  intro q _
  rw [← Finset.filter_card_add_filter_neg_card_eq_card
    (s := (Finset.range 64).filter (fun j => (sieve64.getD q 0).testBit j = true ∧
      a ≤ 240 * q + bit_value j ∧ 240 * q + bit_value j ≤ c))
    (fun j => 240 * q + bit_value j ≤ b)]
  rw [Finset.filter_filter, Finset.filter_filter]
  congr 2
  · apply Finset.filter_congr
    intro j _
    constructor
    · rintro ⟨h0, h1, h2⟩
      exact ⟨⟨h0, h1, by omega⟩, h2⟩
    · rintro ⟨⟨h0, h1, _⟩, h2⟩
      exact ⟨h0, h1, h2⟩
  · apply Finset.filter_congr
    intro j _
    constructor
    · rintro ⟨h0, h1, h2⟩
      exact ⟨⟨h0, by omega, h2⟩, by omega⟩
    · rintro ⟨⟨h0, _, h2⟩, h3⟩
      exact ⟨h0, by omega, h2⟩

theorem set_bits_zero (sieve64 : List Nat) : set_bits sieve64 0 0 = 0 := by
  unfold set_bits
  apply Finset.sum_eq_zero
  intro q _
  rw [Finset.card_eq_zero, Finset.filter_eq_empty_iff]
  intro j hj ⟨_, _, h2⟩
  have := bit_value_pos j (Finset.mem_range.1 hj)
  omega

/-- The set bits below `n` together with those of `[n, m]` are those of
`[0, m]`. -/
theorem set_bits_below_add (sieve64 : List Nat) (n m : Nat) (h : n ≤ m + 1) :
    set_bits sieve64 0 (n - 1) + set_bits sieve64 n m = set_bits sieve64 0 m := by
  rcases Nat.eq_zero_or_pos n with h0 | h0
  · subst h0
    rw [Nat.zero_sub, set_bits_zero, zero_add]
  · have := set_bits_split sieve64 0 (n - 1) m (by omega) (by omega)
    rwa [Nat.sub_add_cancel h0] at this

/-- The state of the cursor between two calls of `count(stop)`. -/
theorem count_loop_spec (fuel stop start : Nat) (s : State)
    (hfuel : 1 ≤ fuel ∧ (s.counter_.stop ≤ stop → stop + 2 ≤ fuel + s.counter_.stop))
    (hdist : 0 < s.counter_.dist) (hfill : CounterFilled s)
    (hstop : stop < 240 * s.sieve64.length)
    (hcs : s.counter_.stop = (s.counter_.i + 1) * s.counter_.dist)
    (hsum : s.counter_.sum = set_bits s.sieve64 0 (s.counter_.i * s.counter_.dist - 1)) :
    ∃ start' s', count_loop fuel stop start s = some (start', s') ∧
      s'.sieve64 = s.sieve64 ∧ s'.prev_stop_ = s.prev_stop_ ∧
      s'.counter_.dist = s.counter_.dist ∧ s'.counter_.counter = s.counter_.counter ∧
      s'.counter_.stop = (s'.counter_.i + 1) * s'.counter_.dist ∧
      s'.counter_.sum = set_bits s'.sieve64 0 (s'.counter_.i * s'.counter_.dist - 1) ∧
      stop < s'.counter_.stop ∧
      ((start' = start ∧ s'.count_ = s.count_ ∧ s.counter_.stop = s'.counter_.stop) ∨
        (start' = s'.counter_.i * s'.counter_.dist ∧ start' ≤ stop ∧
          s'.count_ = s'.counter_.sum)) := by
  induction fuel generalizing start s with
  | zero => omega
  | succ fuel ih =>
    rw [count_loop]
    split_ifs with hle
    · dsimp only
      have hk : (s.counter_.i + 1) * s.counter_.dist ≤ 240 * s.sieve64.length := by
        rw [← hcs]
        omega
      have hc := hfill s.counter_.i hk
      have hsum' : s.counter_.sum + s.counter_.counter.getD s.counter_.i 0 =
          set_bits s.sieve64 0 ((s.counter_.i + 1) * s.counter_.dist - 1) := by
        rw [hsum, hc]
        apply set_bits_below_add
        have : s.counter_.i * s.counter_.dist ≤ (s.counter_.i + 1) * s.counter_.dist :=
          Nat.mul_le_mul_right _ (Nat.le_succ _)
        omega
      obtain ⟨start', s', h1, h2, h3, h4, h5, h6, h7, h8, h9⟩ :=
        ih s.counter_.stop
          { s with
            counter_ := { s.counter_ with
              stop := s.counter_.stop + s.counter_.dist
              sum := s.counter_.sum + s.counter_.counter.getD s.counter_.i 0
              i := s.counter_.i + 1 }
            count_ := s.counter_.sum + s.counter_.counter.getD s.counter_.i 0 }
          (by
            have := hfuel.2 hle
            dsimp only
            constructor <;> omega)
          hdist hfill hstop
          (by
            dsimp only
            rw [hcs]
            ring)
          hsum'
      refine ⟨start', s', h1, h2, h3, h4, h5, h6, h7, h8, Or.inr ?_⟩
      rcases h9 with ⟨h9a, h9b, h9c⟩ | h9
      · dsimp only at h9a h9b h9c
        have hi : (s'.counter_.i + 1) * s'.counter_.dist =
            (s.counter_.i + 1 + 1) * s.counter_.dist := by
          rw [← h6, ← h9c, hcs]
          ring
        rw [h4] at hi
        have hi' : s'.counter_.i = s.counter_.i + 1 := by
          have := Nat.eq_of_mul_eq_mul_right hdist hi
          omega
        refine ⟨?_, ?_, ?_⟩
        · rw [h9a, hcs, hi', h4]
        · rw [h9a]
          exact hle
        · rw [h9b, h7, h2, hi', h4]
          exact hsum'
      · exact h9
    · exact ⟨start, s, rfl, rfl, rfl, rfl, rfl, hcs, hsum, by omega, Or.inl ⟨rfl, rfl, rfl⟩⟩

theorem count_spec (s : State) (stop : Nat)
    (hdist : 0 < s.counter_.dist) (hfill : CounterFilled s)
    (hstop : stop < 240 * s.sieve64.length)
    (hcs : s.counter_.stop = (s.counter_.i + 1) * s.counter_.dist)
    (hsum : s.counter_.sum = set_bits s.sieve64 0 (s.counter_.i * s.counter_.dist - 1))
    (hcount : s.count_ = set_bits s.sieve64 0 s.prev_stop_)
    (hprev : s.prev_stop_ ≤ stop) :
    ∃ s', count s stop = some (set_bits s.sieve64 0 stop, s') ∧
      s'.sieve64 = s.sieve64 ∧ s'.prev_stop_ = stop ∧
      0 < s'.counter_.dist ∧ CounterFilled s' ∧
      s'.counter_.stop = (s'.counter_.i + 1) * s'.counter_.dist ∧
      s'.counter_.sum = set_bits s'.sieve64 0 (s'.counter_.i * s'.counter_.dist - 1) ∧
      s'.count_ = set_bits s'.sieve64 0 s'.prev_stop_ := by
  obtain ⟨start', s', h1, h2, h3, h4, h5, h6, h7, h8, h9⟩ :=
    count_loop_spec (stop + 2) stop (s.prev_stop_ + 1) { s with prev_stop_ := stop }
      ⟨by omega, fun _ => by omega⟩ hdist hfill hstop hcs hsum
  dsimp only at h2 h3 h4 h5 h9
  have hfill' : CounterFilled s' := by
    intro k hk
    rw [h4, h2] at hk
    rw [h5, h4, h2]
    exact hfill k hk
  have hval : s'.count_ + count_range s'.sieve64 start' stop = set_bits s.sieve64 0 stop := by
    unfold count_range
    rw [(count_default_eq_set_bits_aux s'.sieve64 start' stop (by rw [h2]; exact hstop)), h2]
    rcases h9 with ⟨h9a, h9b, _⟩ | ⟨h9a, h9b, h9c⟩
    · rw [h9a, h9b, hcount]
      exact set_bits_split s.sieve64 0 s.prev_stop_ stop (by omega) hprev
    · rw [h9c, h7, h2, h9a]
      apply set_bits_below_add
      omega
  refine ⟨{ s' with count_ := s'.count_ + count_range s'.sieve64 start' stop }, ?_, h2, h3,
    by rw [h4]; exact hdist, hfill', h6, h7, ?_⟩
  · unfold count
    dsimp only
    rw [h1]
    dsimp only
    rw [hval]
  · dsimp only
    rw [hval, h2, h3]

theorem count_each_spec (s : State) (stops : List Nat)
    (hdist : 0 < s.counter_.dist) (hfill : CounterFilled s)
    (hcs : s.counter_.stop = (s.counter_.i + 1) * s.counter_.dist)
    (hsum : s.counter_.sum = set_bits s.sieve64 0 (s.counter_.i * s.counter_.dist - 1))
    (hcount : s.count_ = set_bits s.sieve64 0 s.prev_stop_)
    (hsorted : List.Chain (fun a b => a ≤ b) s.prev_stop_ stops)
    (hin : ∀ stop ∈ stops, stop < 240 * s.sieve64.length) :
    count_each s stops = some (stops.map (fun stop => set_bits s.sieve64 0 stop)) := by
  induction stops generalizing s with
  | nil => rfl
  | cons stop stops ih =>
    rw [List.chain_cons] at hsorted
    obtain ⟨s', h1, h2, h3, h4, h5, h6, h7, h8⟩ :=
      count_spec s stop hdist hfill (hin stop (List.mem_cons_self _ _)) hcs hsum hcount
        hsorted.1
    have ih' := ih s' h4 h5 h6 h7 h8 (by rw [h3]; exact hsorted.2)
      (by
        intro st hst
        rw [h2]
        exact hin st (List.mem_cons_of_mem _ hst))
    unfold count_each
    rw [h1]
    dsimp only
    rw [ih', h2]
    rfl

/-- C4: on a sieve whose counter array holds the per-block set-bit counts
and whose cursor is freshly reset, the calls `count(s₁)`, …, `count(sₖ)` for
non-decreasing stops inside the segment all return, and the i-th one returns
the number of set bits that stand for an integer of `[0, sᵢ]`, positions
being counted from the first position of the segment. -/
theorem count_stops (s : State) (stops : List Nat)
    (hfresh : FreshCursor s) (hdist : 0 < s.counter_.dist) (hfill : CounterFilled s)
    (hsorted : List.Chain' (fun a b => a ≤ b) stops)
    (hin : ∀ stop ∈ stops, stop < 240 * s.sieve64.length) :
    count_each s stops = some (stops.map (fun stop => set_bits s.sieve64 0 stop)) := by
  obtain ⟨h1, h2, h3, h4, h5⟩ := hfresh
  apply count_each_spec s stops hdist hfill
  · rw [h5, h4]
    simp
  · rw [h3, h4, Nat.zero_mul, Nat.zero_sub, set_bits_zero]
  · rw [h2, h1, set_bits_zero]
  · rw [h1]
    cases stops with
    | nil => exact List.Chain.nil
    | cons a l => exact List.Chain.cons (Nat.zero_le _) hsorted
  · exact hin

theorem count_stops_witness :
    FreshCursor ⟨0, 0, 0, 0, [18446744073709551615, 5], [], ⟨240, 240, 8, 0, 0, [64, 2]⟩⟩ ∧
    CounterFilled ⟨0, 0, 0, 0, [18446744073709551615, 5], [], ⟨240, 240, 8, 0, 0, [64, 2]⟩⟩ ∧
    List.Chain' (fun a b => a ≤ b) [7, 7, 250, 479] ∧
    count_each ⟨0, 0, 0, 0, [18446744073709551615, 5], [], ⟨240, 240, 8, 0, 0, [64, 2]⟩⟩
        [7, 7, 250, 479] =
      some ([7, 7, 250, 479].map (fun stop => set_bits [18446744073709551615, 5] 0 stop)) :=
  have hfresh : FreshCursor
      ⟨0, 0, 0, 0, [18446744073709551615, 5], [], ⟨240, 240, 8, 0, 0, [64, 2]⟩⟩ :=
    ⟨rfl, rfl, rfl, rfl, rfl⟩
  have hfill : CounterFilled
      ⟨0, 0, 0, 0, [18446744073709551615, 5], [], ⟨240, 240, 8, 0, 0, [64, 2]⟩⟩ := by
    intro k hk
    have hk2 : k < 2 := by
      simp only [List.length_cons, List.length_nil] at hk
      omega
    interval_cases k <;> decide
  have hsorted : List.Chain' (fun a b => a ≤ b) [7, 7, 250, 479] := by simp
  ⟨hfresh, hfill, hsorted,
    count_stops ⟨0, 0, 0, 0, [18446744073709551615, 5], [], ⟨240, 240, 8, 0, 0, [64, 2]⟩⟩
      [7, 7, 250, 479] hfresh (by decide) hfill hsorted (by decide)⟩

end Sieve

namespace Sieve

/-! ### The cursor of `count(stop)` -/

/-- The blocks below block `i` hold the set bits of `[0, i * dist)`. -/
theorem sum_blocks (s : State) (hfill : CounterFilled s) : ∀ i,
    i * s.counter_.dist ≤ 240 * s.sieve64.length →
    ∑ k in Finset.range i, s.counter_.counter.getD k 0 =
      set_bits s.sieve64 0 (i * s.counter_.dist - 1) := by
  intro i
  induction i with
  | zero =>
    intro _
    rw [Finset.sum_range_zero, Nat.zero_mul, Nat.zero_sub, set_bits_zero]
  | succ i ih =>
    intro h
    have hle : i * s.counter_.dist ≤ (i + 1) * s.counter_.dist :=
      Nat.mul_le_mul_right _ (Nat.le_succ _)
    rw [Finset.sum_range_succ, ih (le_trans hle h), hfill i h]
    apply set_bits_below_add
    omega

/-- What the block-advance loop does to the cursor, whatever the sieve
holds: it ends, it consumes whole blocks, and it moves the local `start` to
the beginning of the block that `stop` lies in when it consumes at least
one. -/
theorem count_loop_cursor (fuel stop start : Nat) (s : State)
    (hfuel : 1 ≤ fuel ∧ (s.counter_.stop ≤ stop → stop + 2 ≤ fuel + s.counter_.stop))
    (hdist : 0 < s.counter_.dist) :
    ∃ start' s', count_loop fuel stop start s = some (start', s') ∧
      s'.sieve64 = s.sieve64 ∧ s'.prev_stop_ = s.prev_stop_ ∧
      s'.counter_.dist = s.counter_.dist ∧ s'.counter_.counter = s.counter_.counter ∧
      stop < s'.counter_.stop ∧ s.counter_.i ≤ s'.counter_.i ∧
      s'.counter_.stop = s.counter_.stop + (s'.counter_.i - s.counter_.i) * s.counter_.dist ∧
      s'.counter_.sum = s.counter_.sum +
        ∑ k in Finset.Ico s.counter_.i s'.counter_.i, s.counter_.counter.getD k 0 ∧
      ((stop < s.counter_.stop ∧ start' = start ∧ s' = s) ∨
        (s.counter_.stop ≤ stop ∧ start' + s'.counter_.dist = s'.counter_.stop ∧
          start' ≤ stop ∧ s'.count_ = s'.counter_.sum)) := by
  induction fuel generalizing start s with
  | zero => omega
  | succ fuel ih =>
    rw [count_loop]
    split_ifs with hle
    · dsimp only
      obtain ⟨start', s', h1, h2, h3, h4, h5, h6, h7, h8, h9, h10⟩ :=
        ih s.counter_.stop
          { s with
            counter_ := { s.counter_ with
              stop := s.counter_.stop + s.counter_.dist
              sum := s.counter_.sum + s.counter_.counter.getD s.counter_.i 0
              i := s.counter_.i + 1 }
            count_ := s.counter_.sum + s.counter_.counter.getD s.counter_.i 0 }
          (by
            have := hfuel.2 hle
            dsimp only
            constructor <;> omega)
          hdist
      dsimp only at h2 h3 h4 h5 h7 h8 h9 h10
      refine ⟨start', s', h1, h2, h3, h4, h5, h6, by omega, ?_, ?_, Or.inr ⟨hle, ?_⟩⟩
      · rw [h8]
        have e : s'.counter_.i - s.counter_.i = (s'.counter_.i - (s.counter_.i + 1)) + 1 := by
          omega
        rw [e, Nat.add_mul]
        omega
      · rw [h9, Finset.sum_eq_sum_Ico_succ_bot (by omega : s.counter_.i < s'.counter_.i)]
        omega
      · rcases h10 with ⟨_, g2, g3⟩ | ⟨_, g2, g3, g4⟩
        · subst g3
          exact ⟨by rw [g2], by rw [g2]; exact hle, rfl⟩
        · exact ⟨g2, g3, g4⟩
    · refine ⟨start, s, rfl, rfl, rfl, rfl, rfl, by omega, le_refl _, ?_, ?_,
        Or.inl ⟨by omega, rfl, rfl⟩⟩
      · rw [Nat.sub_self, Nat.zero_mul, Nat.add_zero]
      · rw [Finset.Ico_self, Finset.sum_empty, Nat.add_zero]

/-- `count(stop)` is the loop followed by the residual count. -/
theorem count_eq (s : State) (stop : Nat) (hdist : 0 < s.counter_.dist) :
    ∃ start s1, count_loop (stop + 2) stop (s.prev_stop_ + 1) { s with prev_stop_ := stop } =
        some (start, s1) ∧
      count s stop = some (s1.count_ + count_range s1.sieve64 start stop,
        { s1 with count_ := s1.count_ + count_range s1.sieve64 start stop }) := by
  obtain ⟨start, s1, h1, _⟩ := count_loop_cursor (stop + 2) stop (s.prev_stop_ + 1)
    { s with prev_stop_ := stop } ⟨by omega, fun _ => by omega⟩ hdist
  refine ⟨start, s1, h1, ?_⟩
  unfold count
  dsimp only
  rw [h1]

theorem counterFilled_example :
    CounterFilled ⟨0, 0, 0, 0, [18446744073709551615, 5], [], ⟨240, 240, 8, 0, 0, [64, 2]⟩⟩ := by
  intro k hk
  have hk2 : k < 2 := by
    simp only [List.length_cons, List.length_nil] at hk
    omega
  interval_cases k <;> decide

/-- C19 (amended): every call `count(stop)` with `prev_stop ≤ stop` and
`stop` inside the segment, on a sieve whose counter array holds the
per-block counts, returns and preserves the cursor invariant
`counter.sum = Σ_{k < counter.i} counter[k]`,
`counter.stop = (counter.i + 1) * D` and `count_ = ` number of set bits in
`[0, prev_stop]`, positions being counted from the first position of the
segment. -/
theorem count_keeps_cursor (s : State) (stop : Nat)
    (hdist : 0 < s.counter_.dist) (hfill : CounterFilled s) (hcur : Cursor s)
    (hprev : s.prev_stop_ ≤ stop) (hstop : stop < 240 * s.sieve64.length) :
    ∃ r s', count s stop = some (r, s') ∧ Cursor s' ∧ CounterFilled s' ∧
      s'.prev_stop_ = stop ∧ s'.sieve64 = s.sieve64 ∧
      s'.counter_.dist = s.counter_.dist := by
  obtain ⟨c1, c2, c4⟩ := hcur
  obtain ⟨start, s1, h1, h2, h3, h4, h5, h6, h7, h8, h9, h10⟩ :=
    count_loop_cursor (stop + 2) stop (s.prev_stop_ + 1)
      { s with prev_stop_ := stop } ⟨by omega, fun _ => by omega⟩ hdist
  dsimp only at h2 h3 h4 h5 h7 h8 h9 h10
  have hcount : count s stop = some (s1.count_ + count_range s1.sieve64 start stop,
      { s1 with count_ := s1.count_ + count_range s1.sieve64 start stop }) := by
    unfold count
    dsimp only
    rw [h1]
  have hstop' : s1.counter_.stop = (s1.counter_.i + 1) * s1.counter_.dist := by
    rw [h8, c2, h4, ← Nat.add_mul]
    congr 1
    omega
  have hsum' : s1.counter_.sum =
      ∑ k in Finset.range s1.counter_.i, s1.counter_.counter.getD k 0 := by
    rw [h9, c1, h5, Finset.range_eq_Ico]
    exact Finset.sum_Ico_consecutive _ (Nat.zero_le _) h7
  have hfill1 : CounterFilled s1 := by
    intro k hk
    rw [h4, h2] at hk
    rw [h5, h4, h2]
    exact hfill k hk
  have hval : s1.count_ + count_range s1.sieve64 start stop = set_bits s.sieve64 0 stop := by
    unfold count_range
    rw [count_default_eq_set_bits_aux s1.sieve64 start stop (by rw [h2]; exact hstop), h2]
    rcases h10 with ⟨_, g2, g3⟩ | ⟨_, g2, g3, g4⟩
    · rw [g2, g3]
      show s.count_ + _ = _
      rw [c4]
      exact set_bits_split s.sieve64 0 s.prev_stop_ stop (by omega) hprev
    · have hs : start = s1.counter_.i * s1.counter_.dist := by
        rw [hstop', Nat.add_mul, Nat.one_mul] at g2
        omega
      rw [g4, hsum', sum_blocks s1 hfill1 s1.counter_.i (by rw [h2]; omega), h2, hs]
      apply set_bits_below_add
      omega
  refine ⟨_, _, hcount, ⟨hsum', hstop', ?_⟩, ?_, h3, h2, h4⟩
  · show s1.count_ + count_range s1.sieve64 start stop = set_bits s1.sieve64 0 s1.prev_stop_
    rw [hval, h2, h3]
  · intro k hk
    exact hfill1 k hk

theorem count_keeps_cursor_witness :
    Cursor ⟨0, 0, 0, 0, [18446744073709551615, 5], [], ⟨240, 240, 8, 0, 0, [64, 2]⟩⟩ ∧
    CounterFilled ⟨0, 0, 0, 0, [18446744073709551615, 5], [], ⟨240, 240, 8, 0, 0, [64, 2]⟩⟩ ∧
    ∃ r s', count ⟨0, 0, 0, 0, [18446744073709551615, 5], [], ⟨240, 240, 8, 0, 0, [64, 2]⟩⟩
        250 = some (r, s') ∧ Cursor s' ∧ CounterFilled s' ∧
      s'.prev_stop_ = 250 ∧ s'.sieve64 = [18446744073709551615, 5] ∧
      s'.counter_.dist = 240 :=
  have hcur : Cursor
      ⟨0, 0, 0, 0, [18446744073709551615, 5], [], ⟨240, 240, 8, 0, 0, [64, 2]⟩⟩ :=
    ⟨rfl, rfl, (set_bits_zero _).symm⟩
  ⟨hcur, counterFilled_example,
    count_keeps_cursor ⟨0, 0, 0, 0, [18446744073709551615, 5], [], ⟨240, 240, 8, 0, 0, [64, 2]⟩⟩
      250 (by decide) counterFilled_example hcur (by decide) (by decide)⟩

/-- C19 as stated, with `counter.stop = counter.i * D`, fails: the cursor
that `init_counter` leaves (`counter.i = 0`, `counter.stop = D`) does not
satisfy it, and a cursor that does satisfy it (one block consumed,
`counter.stop = 240 = 1 * D`, `count_ = 64` set bits in `[0, 239]`) is
taken by `count(240)` to `count_ = 66`, while `[0, 240]` holds 64 set
bits. -/
theorem count_breaks_stated_cursor :
    ¬ CursorAtBlockStart
      ⟨0, 0, 0, 0, [18446744073709551615, 5], [], ⟨240, 240, 8, 0, 0, [64, 2]⟩⟩ ∧
    CursorAtBlockStart
      ⟨0, 239, 64, 0, [18446744073709551615, 5], [], ⟨240, 240, 8, 64, 1, [64, 2]⟩⟩ ∧
    CounterFilled
      ⟨0, 239, 64, 0, [18446744073709551615, 5], [], ⟨240, 240, 8, 64, 1, [64, 2]⟩⟩ ∧
    count ⟨0, 239, 64, 0, [18446744073709551615, 5], [], ⟨240, 240, 8, 64, 1, [64, 2]⟩⟩ 240 =
      some (66,
        ⟨0, 240, 66, 0, [18446744073709551615, 5], [], ⟨480, 240, 8, 66, 2, [64, 2]⟩⟩) ∧
    ¬ CursorAtBlockStart
      ⟨0, 240, 66, 0, [18446744073709551615, 5], [], ⟨480, 240, 8, 66, 2, [64, 2]⟩⟩ := by
  refine ⟨?_, ⟨rfl, rfl, by decide⟩, ?_, by rfl, ?_⟩
  · rintro ⟨_, h, _⟩
    exact absurd h (by decide)
  · intro k hk
    have hk2 : k < 2 := by
      simp only [List.length_cons, List.length_nil] at hk
      omega
    interval_cases k <;> decide
  · rintro ⟨_, _, h⟩
    exact absurd h (by decide)

/-- C20 (amended): `count(stop)` returns, and the amount it adds to `count_`
after the block-advance loop is `count_range(start, stop)`, where `start`
is `counter.stop - D` (with `counter.stop` as the loop leaves it) when the
loop has consumed at least one block, that is when `counter.stop ≤ stop` on
entry, and `prev_stop + 1` (with `prev_stop` as on entry) when it has
consumed none. -/
theorem count_residual (s : State) (stop : Nat) (hdist : 0 < s.counter_.dist) :
    ∃ start s1,
      count_loop (stop + 2) stop (s.prev_stop_ + 1) { s with prev_stop_ := stop } =
        some (start, s1) ∧
      count s stop = some (s1.count_ + count_range s1.sieve64 start stop,
        { s1 with count_ := s1.count_ + count_range s1.sieve64 start stop }) ∧
      (s.counter_.stop ≤ stop → start = s1.counter_.stop - s1.counter_.dist) ∧
      (stop < s.counter_.stop → start = s.prev_stop_ + 1 ∧ s1.count_ = s.count_) := by
  obtain ⟨start, s1, h1, h2, h3, h4, h5, h6, h7, h8, h9, h10⟩ :=
    count_loop_cursor (stop + 2) stop (s.prev_stop_ + 1)
      { s with prev_stop_ := stop } ⟨by omega, fun _ => by omega⟩ hdist
  dsimp only at h10
  refine ⟨start, s1, h1, ?_, ?_, ?_⟩
  · unfold count
    dsimp only
    rw [h1]
  · intro hle
    rcases h10 with ⟨g1, _, _⟩ | ⟨_, g2, _, _⟩
    · omega
    · omega
  · intro hlt
    rcases h10 with ⟨_, g2, g3⟩ | ⟨g1, _, _, _⟩
    · rw [g3]
      exact ⟨g2, rfl⟩
    · omega

theorem count_residual_witness :
    (0 : Nat) < 240 ∧ ∃ start s1,
      count_loop (250 + 2) 250 (0 + 1)
          ⟨0, 250, 0, 0, [18446744073709551615, 5], [], ⟨240, 240, 8, 0, 0, [64, 2]⟩⟩ =
        some (start, s1) ∧
      count ⟨0, 0, 0, 0, [18446744073709551615, 5], [], ⟨240, 240, 8, 0, 0, [64, 2]⟩⟩ 250 =
        some (s1.count_ + count_range s1.sieve64 start 250,
          { s1 with count_ := s1.count_ + count_range s1.sieve64 start 250 }) ∧
      ((240 : Nat) ≤ 250 → start = s1.counter_.stop - s1.counter_.dist) ∧
      ((250 : Nat) < 240 → start = 0 + 1 ∧ s1.count_ = 0) :=
  ⟨by decide,
    count_residual ⟨0, 0, 0, 0, [18446744073709551615, 5], [], ⟨240, 240, 8, 0, 0, [64, 2]⟩⟩
      250 (by decide)⟩

/-- C20 as stated fails for a call that consumes no block: after
`count(7)` on a freshly reset cursor, `count(10)` adds
`count_range(8, 10) = 0` to `count_ = 2`, while `counter.stop - D = 0` and
`count_range(0, 10) = 2`. -/
theorem count_residual_not_block_start :
    count ⟨0, 0, 0, 0, [18446744073709551615, 5], [], ⟨240, 240, 8, 0, 0, [64, 2]⟩⟩ 7 =
      some (2, ⟨0, 7, 2, 0, [18446744073709551615, 5], [], ⟨240, 240, 8, 0, 0, [64, 2]⟩⟩) ∧
    count ⟨0, 7, 2, 0, [18446744073709551615, 5], [], ⟨240, 240, 8, 0, 0, [64, 2]⟩⟩ 10 =
      some (2, ⟨0, 10, 2, 0, [18446744073709551615, 5], [], ⟨240, 240, 8, 0, 0, [64, 2]⟩⟩) ∧
    count_range [18446744073709551615, 5] (240 - 240) 10 = 2 ∧
    count_range [18446744073709551615, 5] (7 + 1) 10 = 0 :=
  ⟨by rfl, by rfl, by decide, by decide⟩

end Sieve

namespace Sieve

/-! ### The masks of `count_default` and the residual range of `count` -/

/-- `count_default` computes its masks by `count_default_masks`. -/
theorem count_default_uses_masks (sieve64 : List Nat) (start stop : Nat) :
    count_default sieve64 start stop =
      if start > stop then 0
      else
        (List.range' (start / 240 + 1) (stop / 240 - (start / 240 + 1))).foldl
          (fun cnt i => cnt + popcnt64 (sieve64.getD i 0))
          (popcnt64 (sieve64.getD (start / 240) 0 &&&
              (count_default_masks (unset_smaller (start % 240)) (unset_larger (stop % 240))
                (start / 240) (stop / 240)).1) +
            popcnt64 (sieve64.getD (stop / 240) 0 &&&
              (count_default_masks (unset_smaller (start % 240)) (unset_larger (stop % 240))
                (start / 240) (stop / 240)).2)) := by
  rfl

/-- C30: for all masks `m1`, `m2` and all indices `start_idx`, `stop_idx`,
the branch-free mask computation of `count_default` yields the same two
masks as the conditional form `m1 = (start_idx != stop_idx) ? m1 : m1 & m2`,
`m2 = (start_idx != stop_idx) ? m2 : 0`. -/
theorem count_default_masks_eq (m1 m2 start_idx stop_idx : Nat) :
    count_default_masks m1 m2 start_idx stop_idx =
      conditional_masks m1 m2 start_idx stop_idx := by
  unfold count_default_masks conditional_masks
  by_cases h : start_idx = stop_idx
  · simp [h]
  · simp [h]

/-- The position of the cursor between two calls: `prev_stop` lies in the
block that ends at `counter.stop`. -/
theorem count_block (s : State) (stop : Nat) (hdist : 0 < s.counter_.dist)
    (hlo : s.counter_.stop ≤ s.prev_stop_ + s.counter_.dist) (hprev : s.prev_stop_ ≤ stop) :
    ∃ start s1 r s',
      count_loop (stop + 2) stop (s.prev_stop_ + 1) { s with prev_stop_ := stop } =
        some (start, s1) ∧
      count s stop = some (r, s') ∧
      start ≤ stop + 1 ∧ stop < start + s.counter_.dist ∧
      s'.prev_stop_ = stop ∧ s'.counter_.dist = s.counter_.dist ∧
      s'.counter_.stop ≤ s'.prev_stop_ + s'.counter_.dist := by
  obtain ⟨start, s1, h1, h2, h3, h4, h5, h6, h7, h8, h9, h10⟩ :=
    count_loop_cursor (stop + 2) stop (s.prev_stop_ + 1)
      { s with prev_stop_ := stop } ⟨by omega, fun _ => by omega⟩ hdist
  dsimp only at h3 h4 h7 h8 h10
  refine ⟨start, s1, s1.count_ + count_range s1.sieve64 start stop,
    { s1 with count_ := s1.count_ + count_range s1.sieve64 start stop },
    h1, ?_, ?_, ?_, h3, h4, ?_⟩
  · unfold count
    dsimp only
    rw [h1]
  · rcases h10 with ⟨_, g2, _⟩ | ⟨_, _, g3, _⟩ <;> omega
  · rcases h10 with ⟨g1, g2, _⟩ | ⟨_, g2, _, _⟩ <;> omega
  · show s1.counter_.stop ≤ s1.prev_stop_ + s1.counter_.dist
    rcases h10 with ⟨g1, _, g3⟩ | ⟨_, g2, g3, _⟩
    · rw [g3]
      show s.counter_.stop ≤ stop + s.counter_.dist
      omega
    · omega

theorem count_residuals_spec (s : State) (stops : List Nat) (hdist : 0 < s.counter_.dist)
    (hlo : s.counter_.stop ≤ s.prev_stop_ + s.counter_.dist)
    (hsorted : List.Chain (fun a b => a ≤ b) s.prev_stop_ stops) :
    ∃ rs, count_residuals s stops = some rs ∧ rs.map Prod.snd = stops ∧
      ∀ r ∈ rs, r.1 ≤ r.2 + 1 ∧ r.2 < r.1 + s.counter_.dist := by
  induction stops generalizing s with
  | nil => exact ⟨[], rfl, rfl, fun r hr => absurd hr (List.not_mem_nil _)⟩
  | cons stop stops ih =>
    obtain ⟨start, s1, r, s', h1, h2, h3, h4, h5, h6, h7⟩ :=
      count_block s stop hdist hlo (List.rel_of_chain_cons hsorted)
    obtain ⟨rs, i1, i2, i3⟩ := ih s' (by rw [h6]; exact hdist) h7
      (by rw [h5]; exact (List.chain_cons.1 hsorted).2)
    refine ⟨(start, stop) :: rs, ?_, ?_, ?_⟩
    · unfold count_residuals
      rw [h1, h2]
      dsimp only
      rw [i1]
    · rw [List.map_cons, i2]
    · intro q hq
      rcases List.mem_cons.1 hq with rfl | hq
      · exact ⟨h3, h4⟩
      · have := i3 q hq
        rw [h6] at this
        exact this

/-- C29: when `count(stop)` is called with non-decreasing stops from a
freshly reset cursor, every call returns and the residual range
`[start, stop]` handed to `count(start, stop)` after the while loop
satisfies `start ≤ stop + 1` and `stop - start < counter_.dist`. -/
theorem count_residual_short (s : State) (stops : List Nat) (hfresh : FreshCursor s)
    (hdist : 0 < s.counter_.dist) (hsorted : List.Chain' (fun a b => a ≤ b) stops) :
    ∃ rs, count_residuals s stops = some rs ∧ rs.map Prod.snd = stops ∧
      ∀ r ∈ rs, r.1 ≤ r.2 + 1 ∧ r.2 - r.1 < s.counter_.dist ∧
        r.2 < r.1 + s.counter_.dist := by
  obtain ⟨f1, _, _, _, f5⟩ := hfresh
  obtain ⟨rs, h1, h2, h3⟩ := count_residuals_spec s stops hdist (by omega) (by
    rw [f1]
    cases stops with
    | nil => exact List.Chain.nil
    | cons a l => exact List.Chain.cons (Nat.zero_le _) hsorted)
  refine ⟨rs, h1, h2, fun r hr => ?_⟩
  obtain ⟨g1, g2⟩ := h3 r hr
  exact ⟨g1, by omega, g2⟩

theorem count_residual_short_witness :
    FreshCursor ⟨0, 0, 0, 0, [18446744073709551615, 5], [], ⟨240, 240, 8, 0, 0, [64, 2]⟩⟩ ∧
    List.Chain' (fun a b => a ≤ b) [7, 7, 250, 479] ∧
    ∃ rs, count_residuals
        ⟨0, 0, 0, 0, [18446744073709551615, 5], [], ⟨240, 240, 8, 0, 0, [64, 2]⟩⟩
        [7, 7, 250, 479] = some rs ∧
      rs.map Prod.snd = [7, 7, 250, 479] ∧
      ∀ r ∈ rs, r.1 ≤ r.2 + 1 ∧ r.2 - r.1 < 240 ∧ r.2 < r.1 + 240 :=
  have hfresh : FreshCursor
      ⟨0, 0, 0, 0, [18446744073709551615, 5], [], ⟨240, 240, 8, 0, 0, [64, 2]⟩⟩ :=
    ⟨rfl, rfl, rfl, rfl, rfl⟩
  have hsorted : List.Chain' (fun a b => a ≤ b) [7, 7, 250, 479] := by simp
  ⟨hfresh, hsorted,
    count_residual_short
      ⟨0, 0, 0, 0, [18446744073709551615, 5], [], ⟨240, 240, 8, 0, 0, [64, 2]⟩⟩
      [7, 7, 250, 479] hfresh (by decide) hsorted⟩

end Sieve

/-! ### The partial sieve function -/

theorem phi_naive_zero (primes : List Nat) (x : Nat) : phi_naive primes x 0 = x := by
  unfold phi_naive
  rw [Finset.filter_true_of_mem]
  · simp
  · intro n _ i hi
    simp at hi

/-- Legendre's recurrence `φ(x, a) = φ(x, a + 1) + φ(x / p, a)` for the
prime `p = primes[a + 1]`. -/
theorem phi_naive_succ (primes : List Nat) (x a : Nat)
    (hp : (primes.getD (a + 1) 0).Prime)
    (hq : ∀ i ∈ Finset.Icc 1 a, (primes.getD i 0).Prime ∧
      primes.getD i 0 ≠ primes.getD (a + 1) 0) :
    phi_naive primes x a =
      phi_naive primes x (a + 1) + phi_naive primes (x / primes.getD (a + 1) 0) a := by
  unfold phi_naive
  rw [← Finset.filter_card_add_filter_neg_card_eq_card
    (s := (Finset.Icc 1 x).filter (fun n : Nat => ∀ i ∈ Finset.Icc (1 : Nat) a, ¬ primes.getD i 0 ∣ n))
    (fun n => ¬ primes.getD (a + 1) 0 ∣ n)]
  rw [Finset.filter_filter, Finset.filter_filter]
  congr 1
  · congr 1
    apply Finset.filter_congr
    intro n _
    constructor
    · rintro ⟨h1, h2⟩ i hi
      rw [Finset.mem_Icc] at hi
      by_cases hia : i = a + 1
      · rw [hia]
        exact h2
      · exact h1 i (Finset.mem_Icc.2 ⟨hi.1, by omega⟩)
    · intro h
      refine ⟨fun i hi => h i ?_, h (a + 1) ?_⟩
      · rw [Finset.mem_Icc] at hi ⊢
        omega
      · rw [Finset.mem_Icc]
        omega
  · have hpos := hp.pos
    rw [← Finset.card_image_of_injective
      ((Finset.Icc 1 (x / primes.getD (a + 1) 0)).filter
        (fun n : Nat => ∀ i ∈ Finset.Icc (1 : Nat) a, ¬ primes.getD i 0 ∣ n))
      (f := fun m => primes.getD (a + 1) 0 * m)
      (fun m₁ m₂ h => Nat.eq_of_mul_eq_mul_left hpos h)]
    congr 1
    ext n
    simp only [Finset.mem_filter, Finset.mem_Icc, Finset.mem_image, not_not]
    constructor
    · rintro ⟨⟨h1, h2⟩, h3, m, rfl⟩
      refine ⟨m, ⟨⟨?_, ?_⟩, ?_⟩, rfl⟩
      · rcases Nat.eq_zero_or_pos m with h0 | h0
        · subst h0
          simp at h1
        · exact h0
      · rw [Nat.le_div_iff_mul_le hpos, mul_comm]
        exact h2
      · intro i hi hdvd
        exact h3 i hi (Dvd.dvd.mul_left hdvd _)
    · rintro ⟨m, ⟨⟨h1, h2⟩, h3⟩, rfl⟩
      refine ⟨⟨?_, ?_⟩, ?_, Dvd.intro _ rfl⟩
      · exact Nat.mul_pos hpos h1
      · rw [Nat.le_div_iff_mul_le hpos, mul_comm] at h2
        exact h2
      · intro i hi hdvd
        have hqi := hq i (Finset.mem_Icc.2 hi)
        rcases (Nat.Prime.dvd_mul hqi.1).1 hdvd with h | h
        · exact hqi.2 ((Nat.prime_dvd_prime_iff_eq hqi.1 hp).1 h)
        · exact h3 i hi h

theorem phi_naive_le (primes : List Nat) (x a : Nat) : phi_naive primes x a ≤ x := by
  unfold phi_naive
  have h := Finset.card_filter_le (Finset.Icc 1 x)
    (fun n : Nat => ∀ i ∈ Finset.Icc (1 : Nat) a, ¬ primes.getD i 0 ∣ n)
  simpa using h

namespace PhiTiny

/-! ### `phi_tiny` -/

theorem tables_step : ∀ a < 6,
    (primes_.getD (a + 1) 0).Prime ∧
    (∀ i ∈ Finset.Icc 1 a, (primes_.getD i 0).Prime ∧
      primes_.getD i 0 ≠ primes_.getD (a + 1) 0) ∧
    prime_products_.getD (a + 1) 0 = primes_.getD (a + 1) 0 * prime_products_.getD a 0 ∧
    totients_.getD (a + 1) 0 + totients_.getD a 0 =
      primes_.getD (a + 1) 0 * totients_.getD a 0 ∧
    0 < prime_products_.getD a 0 ∧ prime_products_.getD (a + 1) 0 ≤ 30030 := by
  decide

/-- Adding one period `prime_products[a]` to `x` adds `totients[a]` to
`φ(x, a)`. -/
theorem phi_naive_add_period (a : Nat) (ha : a ≤ 6) (x : Nat) :
    phi_naive primes_ (x + prime_products_.getD a 0) a =
      phi_naive primes_ x a + totients_.getD a 0 := by
  induction a generalizing x with
  | zero => simp [phi_naive_zero, prime_products_, totients_]
  | succ a ih =>
    obtain ⟨hp, hq, hpp, htot, hpos, -⟩ := tables_step a (by omega)
    have ih' := ih (by omega)
    -- `k` periods of `φ(·, a)`
    have hk : ∀ k y, phi_naive primes_ (y + k * prime_products_.getD a 0) a =
        phi_naive primes_ y a + k * totients_.getD a 0 := by
      intro k
      induction k with
      | zero => simp
      | succ k ihk =>
        intro y
        rw [Nat.succ_mul, ← add_assoc, ih', ihk, Nat.succ_mul]
        omega
    have h1 := phi_naive_succ primes_ (x + prime_products_.getD (a + 1) 0) a hp hq
    have h2 := phi_naive_succ primes_ x a hp hq
    have hdiv : (x + prime_products_.getD (a + 1) 0) / primes_.getD (a + 1) 0 =
        x / primes_.getD (a + 1) 0 + prime_products_.getD a 0 := by
      rw [hpp, Nat.add_mul_div_left _ _ hp.pos]
    rw [hdiv, ih', hpp, hk] at h1
    rw [hpp]
    omega

theorem phi_naive_periodic (a : Nat) (ha : a ≤ 6) (x : Nat) :
    phi_naive primes_ x a =
      x / prime_products_.getD a 0 * totients_.getD a 0 +
        phi_naive primes_ (x % prime_products_.getD a 0) a := by
  have hpos : 0 < prime_products_.getD a 0 := by
    have : ∀ a ≤ 6, 0 < prime_products_.getD a 0 := by decide
    exact this a ha
  have hk : ∀ k y, phi_naive primes_ (y + k * prime_products_.getD a 0) a =
      phi_naive primes_ y a + k * totients_.getD a 0 := by
    intro k
    induction k with
    | zero => simp
    | succ k ihk =>
      intro y
      rw [Nat.succ_mul, ← add_assoc, phi_naive_add_period a ha, ihk, Nat.succ_mul]
      omega
  have := hk (x / prime_products_.getD a 0) (x % prime_products_.getD a 0)
  rw [Nat.mod_add_div'] at this
  omega

theorem to_int16_of_small (v : Int) (h0 : 0 ≤ v) (h1 : v < 2 ^ 15) : to_int16 v = v := by
  unfold to_int16
  norm_num at h1 ⊢
  omega

theorem phi_of_rowOK (cache : List (List Int)) (j : Nat) (hj : j ≤ 6) (h : RowOK cache j)
    (x : Nat) : phi cache x j = (phi_naive primes_ x j : Int) := by
  have hpos : 0 < prime_products_.getD j 0 := by
    have : ∀ a ≤ 6, 0 < prime_products_.getD a 0 := by decide
    exact this j hj
  unfold phi
  dsimp only
  rw [h.2 _ (Nat.mod_lt _ hpos), phi_naive_periodic j hj x]
  push_cast
  rfl

theorem cache_row_ok (cache : List (List Int)) (a : Nat) (ha : a < 6)
    (h : RowOK cache a) :
    (cache_row cache (a + 1)).length = prime_products_.getD (a + 1) 0 ∧
    ∀ r < prime_products_.getD (a + 1) 0,
      (cache_row cache (a + 1)).getD r 0 = (phi_naive primes_ r (a + 1) : Int) := by
  obtain ⟨hp, hq, -, -, -, hle⟩ := tables_step a ha
  unfold cache_row
  refine ⟨by simp, ?_⟩
  intro r hr
  rw [List.getD_eq_getElem?_getD, List.getElem?_map, List.getElem?_range hr]
  simp only [Option.map_some', Option.getD_some, Nat.add_sub_cancel]
  rw [phi_of_rowOK cache a (by omega) h, phi_of_rowOK cache a (by omega) h,
    phi_naive_succ primes_ r a hp hq]
  push_cast
  rw [add_sub_cancel_right]
  apply to_int16_of_small
  · exact Int.natCast_nonneg _
  · have := phi_naive_le primes_ r (a + 1)
    have : ((phi_naive primes_ r (a + 1) : Nat) : Int) < 30030 := by
      exact_mod_cast (by omega : phi_naive primes_ r (a + 1) < 30030)
    norm_num
    omega

theorem rowOK_set (cache : List (List Int)) (a : Nat) (ha : a < 6) (hlen : cache.length = 7)
    (h : ∀ j ≤ a, RowOK cache j) :
    (cache.set (a + 1) (cache_row cache (a + 1))).length = 7 ∧
    ∀ j ≤ a + 1, RowOK (cache.set (a + 1) (cache_row cache (a + 1))) j := by
  refine ⟨by simp [hlen], ?_⟩
  intro j hj
  unfold RowOK
  by_cases hja : j = a + 1
  · subst hja
    have hget : (cache.set (a + 1) (cache_row cache (a + 1))).getD (a + 1) [] =
        cache_row cache (a + 1) := by
      rw [List.getD_eq_getElem?_getD, List.getElem?_set_self (by omega)]
      rfl
    rw [hget]
    exact cache_row_ok cache a ha (h a (le_refl _))
  · have hget : (cache.set (a + 1) (cache_row cache (a + 1))).getD j [] = cache.getD j [] := by
      rw [List.getD_eq_getElem?_getD, List.getElem?_set_ne (by omega),
        ← List.getD_eq_getElem?_getD]
    rw [hget]
    exact h j (by omega)

theorem rowOK_foldl (n a : Nat) (cache : List (List Int)) (han : a + n ≤ 6)
    (hlen : cache.length = 7) (h : ∀ j ≤ a, RowOK cache j) :
    ∀ j ≤ a + n, RowOK ((List.range' (a + 1) n).foldl
      (fun cache a => cache.set a (cache_row cache a)) cache) j := by
  induction n generalizing a cache with
  | zero => simpa using h
  | succ n ih =>
    rw [List.range'_succ, List.foldl_cons]
    obtain ⟨hlen', h'⟩ := rowOK_set cache a (by omega) hlen h
    have := ih (a + 1) _ (by omega) hlen' h'
    intro j hj
    exact this j (by omega)

theorem rowOK_phi_cache (j : Nat) (hj : j ≤ 6) : RowOK phi_cache_ j := by
  have h0 : ∀ j ≤ 0, RowOK ((List.replicate 7 ([] : List Int)).set 0 [0]) j := by
    intro j hj
    have hj0 : j = 0 := by omega
    subst hj0
    refine ⟨rfl, ?_⟩
    intro r hr
    have hr0 : r = 0 := by
      have : prime_products_.getD 0 0 = 1 := rfl
      omega
    subst hr0
    rw [phi_naive_zero]
    rfl
  have := rowOK_foldl 6 0 _ (by omega) (by rfl) h0 j (by omega)
  exact this

theorem phi_tiny_eq (x a : Nat) (ha : a ≤ 6) :
    phi_tiny x a = (phi_naive primes_ x a : Int) :=
  phi_of_rowOK phi_cache_ a ha (rowOK_phi_cache a ha) x

/-- C3: for every `x ≥ 0` and `0 ≤ a ≤ 6`, `phi_tiny(x, a)`, that is
`(x / prime_products[a]) * totients[a] + phi_cache[a][x mod prime_products[a]]`
on the tables built by the constructor, is the number of integers in
`[1, x]` divisible by none of the first `a` primes. -/
theorem phi_tiny_eq_phi_naive (x a : Nat) (ha : a ≤ 6) :
    phi_tiny x a = (phi_naive primes_ x a : Int) ∧
    phi_tiny x a =
      ((x / prime_products_.getD a 0 : Nat) : Int) * (totients_.getD a 0 : Nat) +
        (phi_cache_.getD a []).getD (x % prime_products_.getD a 0) 0 :=
  ⟨phi_tiny_eq x a ha, rfl⟩

theorem phi_tiny_eq_phi_naive_witness :
    3 ≤ 6 ∧ phi_tiny 100 3 = (phi_naive primes_ 100 3 : Int) :=
  ⟨by decide, (phi_tiny_eq_phi_naive 100 3 (by decide)).1⟩

end PhiTiny

/-! ### Tables of primes -/

theorem primeCounting_prime {q : Nat} (hq : q.Prime) :
    Nat.primeCounting q = Nat.count Nat.Prime q + 1 := by
  unfold Nat.primeCounting Nat.primeCounting'
  rw [Nat.count_succ, if_pos hq]

theorem prime_eq_of_primeCounting_eq {p q : Nat} (hp : p.Prime) (hq : q.Prime)
    (h : Nat.primeCounting p = Nat.primeCounting q) : p = q := by
  rw [primeCounting_prime hp, primeCounting_prime hq] at h
  exact Nat.count_injective hp hq (by omega)

theorem primeCounting_pos_of_prime_le {q x : Nat} (hq : q.Prime) (h : q ≤ x) :
    1 ≤ Nat.primeCounting x := by
  have h1 := Nat.monotone_primeCounting h
  have h2 := primeCounting_prime hq
  omega

namespace IsPrimeTable

variable {primes : List Nat}

theorem prime (h : IsPrimeTable primes) {i : Nat} (h1 : 1 ≤ i) (h2 : i < primes.length) :
    (primes.getD i 0).Prime :=
  (h.2 i h1 h2).1

theorem count (h : IsPrimeTable primes) {i : Nat} (h1 : 1 ≤ i) (h2 : i < primes.length) :
    Nat.primeCounting (primes.getD i 0) = i :=
  (h.2 i h1 h2).2

/-- `primeCounting (primes[i]) = i` also holds for `i = 0`. -/
theorem count' (h : IsPrimeTable primes) {i : Nat} (h2 : i < primes.length) :
    Nat.primeCounting (primes.getD i 0) = i := by
  rcases Nat.eq_zero_or_pos i with h0 | h0
  · subst h0
    rw [h.1]
    rfl
  · exact h.count h0 h2

theorem lt_of_lt (h : IsPrimeTable primes) {i j : Nat} (hij : i < j)
    (hj : j < primes.length) : primes.getD i 0 < primes.getD j 0 := by
  by_contra hcon
  have hle : primes.getD j 0 ≤ primes.getD i 0 := by omega
  have := Nat.monotone_primeCounting hle
  rw [h.count' (i := i) (by omega), h.count' hj] at this
  omega

theorem le_of_le (h : IsPrimeTable primes) {i j : Nat} (hij : i ≤ j)
    (hj : j < primes.length) : primes.getD i 0 ≤ primes.getD j 0 := by
  rcases Nat.eq_or_lt_of_le hij with h1 | h1
  · rw [h1]
  · exact le_of_lt (h.lt_of_lt h1 hj)

/-- A prime that is at most `primes[j]` is one of `primes[1], …, primes[j]`. -/
theorem mem_of_le (h : IsPrimeTable primes) {q j : Nat} (hq : q.Prime)
    (hj : j < primes.length) (hle : q ≤ primes.getD j 0) :
    ∃ i, 1 ≤ i ∧ i ≤ j ∧ primes.getD i 0 = q := by
  have h1 : 1 ≤ Nat.primeCounting q := primeCounting_pos_of_prime_le hq (le_refl _)
  have h2 : Nat.primeCounting q ≤ j := by
    have := Nat.monotone_primeCounting hle
    rwa [h.count' hj] at this
  refine ⟨Nat.primeCounting q, h1, h2, ?_⟩
  exact prime_eq_of_primeCounting_eq (h.prime h1 (by omega)) hq (h.count h1 (by omega))

/-- A prime below `primes[j + 1]` is one of `primes[1], …, primes[j]`. -/
theorem mem_of_lt (h : IsPrimeTable primes) {q j : Nat} (hq : q.Prime)
    (hj : j + 1 < primes.length) (hlt : q < primes.getD (j + 1) 0) :
    ∃ i, 1 ≤ i ∧ i ≤ j ∧ primes.getD i 0 = q := by
  obtain ⟨i, h1, h2, h3⟩ := h.mem_of_le hq hj (le_of_lt hlt)
  refine ⟨i, h1, ?_, h3⟩
  by_contra hcon
  have hi : i = j + 1 := by omega
  rw [hi] at h3
  omega

theorem ne_one (h : IsPrimeTable primes) (i : Nat) : primes.getD i 0 ≠ 1 := by
  by_cases hi : i < primes.length
  · rcases Nat.eq_zero_or_pos i with h0 | h0
    · subst h0
      rw [h.1]
      omega
    · exact (h.prime h0 hi).one_lt.ne'
  · rw [List.getD_eq_default _ _ (by omega)]
    omega

/-- The entries of two tables of primes agree. -/
theorem getD_eq (h : IsPrimeTable primes) {other : List Nat} (ho : IsPrimeTable other)
    {i : Nat} (h1 : i < primes.length) (h2 : i < other.length) :
    primes.getD i 0 = other.getD i 0 := by
  rcases Nat.eq_zero_or_pos i with h0 | h0
  · subst h0
    rw [h.1, ho.1]
  · exact prime_eq_of_primeCounting_eq (h.prime h0 h1) (ho.prime h0 h2)
      (by rw [h.count h0 h1, ho.count h0 h2])

/-- The recurrence of Legendre for a table of primes. -/
theorem phi_naive_step (h : IsPrimeTable primes) (x a : Nat) (ha : a + 1 < primes.length) :
    phi_naive primes x a =
      phi_naive primes x (a + 1) + phi_naive primes (x / primes.getD (a + 1) 0) a := by
  apply phi_naive_succ primes x a (h.prime (by omega) ha)
  intro i hi
  rw [Finset.mem_Icc] at hi
  exact ⟨h.prime hi.1 (by omega), (h.lt_of_lt (by omega : i < a + 1) ha).ne⟩

end IsPrimeTable

/-! ### Values of the partial sieve function -/

/-- If every prime `≤ y` is among the first `a` primes, only the integer 1
survives: `φ(y, a) = 1`. -/
theorem phi_naive_eq_one {primes : List Nat} (h : IsPrimeTable primes) (y a : Nat)
    (hy : 1 ≤ y)
    (hall : ∀ q, q.Prime → q ≤ y → ∃ i, 1 ≤ i ∧ i ≤ a ∧ primes.getD i 0 = q) :
    phi_naive primes y a = 1 := by
  unfold phi_naive
  rw [Finset.card_eq_one]
  refine ⟨1, ?_⟩
  ext n
  simp only [Finset.mem_filter, Finset.mem_Icc, Finset.mem_singleton]
  constructor
  · rintro ⟨⟨h1, h2⟩, h3⟩
    by_contra hn
    have hq := Nat.minFac_prime hn
    have hle : n.minFac ≤ n := Nat.minFac_le (by omega)
    obtain ⟨i, hi1, hi2, hi3⟩ := hall _ hq (by omega)
    apply h3 i ⟨hi1, hi2⟩
    rw [hi3]
    exact Nat.minFac_dvd n
  · rintro rfl
    exact ⟨⟨le_refl _, hy⟩, fun i _ hdvd => h.ne_one i (Nat.dvd_one.1 hdvd)⟩

theorem phi_naive_of_le_prime {primes : List Nat} (h : IsPrimeTable primes) (x a : Nat)
    (hx : 1 ≤ x) (ha : a < primes.length) (hle : x ≤ primes.getD a 0) :
    phi_naive primes x a = 1 :=
  phi_naive_eq_one h x a hx (fun _ hq hqx => h.mem_of_le hq ha (by omega))

theorem phi_naive_of_lt_prime {primes : List Nat} (h : IsPrimeTable primes) (y t : Nat)
    (hy : 1 ≤ y) (ht : t + 1 < primes.length) (hlt : y < primes.getD (t + 1) 0) :
    phi_naive primes y t = 1 :=
  phi_naive_eq_one h y t hy (fun _ hq hqy => h.mem_of_lt hq ht (by omega))

/-- If `primes[a] < x < primes[a + 1]²`, the integers counted by `φ(x, a)`
are 1 and the primes in `(primes[a], x]`: `φ(x, a) = π(x) - a + 1`. -/
theorem phi_naive_eq_pi {primes : List Nat} (h : IsPrimeTable primes) (x a : Nat)
    (ha : a + 1 < primes.length) (hlo : primes.getD a 0 < x)
    (hhi : x < primes.getD (a + 1) 0 * primes.getD (a + 1) 0) :
    phi_naive primes x a + a = Nat.primeCounting x + 1 := by
  have hset : (Finset.Icc 1 x).filter
      (fun n : Nat => ∀ i ∈ Finset.Icc (1 : Nat) a, ¬ primes.getD i 0 ∣ n) =
      insert 1 ((Finset.range (x + 1)).filter
        (fun n => n.Prime ∧ primes.getD a 0 < n)) := by
    ext n
    simp only [Finset.mem_filter, Finset.mem_Icc, Finset.mem_insert, Finset.mem_range]
    constructor
    · rintro ⟨⟨h1, h2⟩, h3⟩
      by_cases hn : n = 1
      · exact Or.inl hn
      · right
        -- every prime factor of `n` is at least `primes[a + 1]`
        have hfac : ∀ q, q.Prime → q ∣ n → primes.getD (a + 1) 0 ≤ q := by
          intro q hq hdvd
          by_contra hcon
          obtain ⟨i, hi1, hi2, hi3⟩ := h.mem_of_lt hq ha (by omega)
          apply h3 i ⟨hi1, hi2⟩
          rw [hi3]
          exact hdvd
        have hprime : n.Prime := by
          by_contra hnp
          have hsq := Nat.minFac_sq_le_self (by omega : 0 < n) hnp
          have hge := hfac _ (Nat.minFac_prime hn) (Nat.minFac_dvd n)
          have : primes.getD (a + 1) 0 * primes.getD (a + 1) 0 ≤ n.minFac ^ 2 := by
            rw [pow_two]
            exact Nat.mul_le_mul hge hge
          omega
        refine ⟨by omega, hprime, ?_⟩
        have := hfac n hprime (dvd_refl n)
        have := h.lt_of_lt (by omega : a < a + 1) ha
        omega
    · rintro (rfl | ⟨h1, h2, h3⟩)
      · exact ⟨⟨le_refl _, by omega⟩, fun i _ hdvd => h.ne_one i (Nat.dvd_one.1 hdvd)⟩
      · refine ⟨⟨h2.one_lt.le, by omega⟩, ?_⟩
        intro i hi hdvd
        have hpi := h.prime hi.1 (by omega : i < primes.length)
        have heq := (Nat.prime_dvd_prime_iff_eq hpi h2).1 hdvd
        have := h.le_of_le hi.2 (by omega : a < primes.length)
        omega
  have hnot : (1 : Nat) ∉ (Finset.range (x + 1)).filter
      (fun n => n.Prime ∧ primes.getD a 0 < n) := by
    simp [Nat.not_prime_one]
  have hsplit := Finset.filter_card_add_filter_neg_card_eq_card
    (s := (Finset.range (x + 1)).filter (fun n => n.Prime))
    (fun n => primes.getD a 0 < n)
  rw [Finset.filter_filter, Finset.filter_filter] at hsplit
  have hlow : (Finset.range (x + 1)).filter
      (fun n => n.Prime ∧ ¬ primes.getD a 0 < n) =
      (Finset.range (primes.getD a 0 + 1)).filter (fun n => n.Prime) := by
    ext n
    simp only [Finset.mem_filter, Finset.mem_range]
    constructor
    · rintro ⟨_, h2, h3⟩
      exact ⟨by omega, h2⟩
    · rintro ⟨h1, h2⟩
      exact ⟨by omega, h2, by omega⟩
  rw [hlow] at hsplit
  have hpix : Nat.primeCounting x =
      ((Finset.range (x + 1)).filter (fun n => n.Prime)).card := by
    unfold Nat.primeCounting Nat.primeCounting'
    rw [Nat.count_eq_card_filter_range]
  have hpia : a = ((Finset.range (primes.getD a 0 + 1)).filter (fun n => n.Prime)).card := by
    rw [← Nat.count_eq_card_filter_range]
    exact (h.count' (by omega : a < primes.length)).symm
  unfold phi_naive
  rw [hset, Finset.card_insert_of_not_mem hnot, hpix]
  omega

/-! ### The wheel of 240 -/

set_option maxRecDepth 100000 in
theorem wheel_cover : ∀ r < 240, ¬ 2 ∣ r → ¬ 3 ∣ r → ¬ 5 ∣ r →
    ∃ j < 64, bit_value j = r := by
  decide

theorem bit_value_coprime : ∀ j < 64,
    ¬ 2 ∣ bit_value j ∧ ¬ 3 ∣ bit_value j ∧ ¬ 5 ∣ bit_value j := by
  decide

set_option maxRecDepth 100000 in
theorem bit_value_inj : ∀ j₁ < 64, ∀ j₂ < 64, bit_value j₁ = bit_value j₂ → j₁ = j₂ := by
  decide

theorem isPrimeTable_tiny : IsPrimeTable PhiTiny.primes_ := by
  refine ⟨rfl, ?_⟩
  intro i h1 h2
  have h3 : i < 7 := h2
  interval_cases i <;> exact ⟨by norm_num [PhiTiny.primes_], by decide⟩

theorem IsPrimeTable.getD_tiny {primes : List Nat} (h : IsPrimeTable primes) {i : Nat}
    (h1 : i < primes.length) (h2 : i ≤ 6) :
    primes.getD i 0 = PhiTiny.primes_.getD i 0 :=
  h.getD_eq isPrimeTable_tiny h1 (by
    have : PhiTiny.primes_.length = 7 := rfl
    omega)

/-- The first `a ≤ 6` primes of any table are those of `PhiTiny`. -/
theorem phi_naive_tiny {primes : List Nat} (h : IsPrimeTable primes) (x a : Nat)
    (ha : a < primes.length) (ha6 : a ≤ 6) :
    phi_naive PhiTiny.primes_ x a = phi_naive primes x a := by
  unfold phi_naive
  congr 1
  apply Finset.filter_congr
  intro n _
  constructor
  · intro hn i hi
    rw [h.getD_tiny (by have := (Finset.mem_Icc.1 hi).2; omega)
      (by have := (Finset.mem_Icc.1 hi).2; omega)]
    exact hn i hi
  · intro hn i hi
    rw [← h.getD_tiny (by have := (Finset.mem_Icc.1 hi).2; omega)
      (by have := (Finset.mem_Icc.1 hi).2; omega)]
    exact hn i hi

namespace PhiCache

/-! ### Reading `φ(x, a)` off a cache row -/

theorem coprime30_of_survivor {primes : List Nat} (h : IsPrimeTable primes) (t n : Nat)
    (ht : 3 ≤ t) (hlen : 3 < primes.length)
    (hn : ∀ i ∈ Finset.Icc (1 : Nat) t, ¬ primes.getD i 0 ∣ n) :
    ¬ 2 ∣ n ∧ ¬ 3 ∣ n ∧ ¬ 5 ∣ n := by
  have h1 := hn 1 (Finset.mem_Icc.2 ⟨le_refl _, by omega⟩)
  have h2 := hn 2 (Finset.mem_Icc.2 ⟨by omega, by omega⟩)
  have h3 := hn 3 (Finset.mem_Icc.2 ⟨by omega, by omega⟩)
  rw [h.getD_tiny (by omega) (by omega)] at h1 h2 h3
  exact ⟨h1, h2, h3⟩

/-- The survivors in block `k` correspond to the set bits of word `k`. -/
theorem card_fiber {primes : List Nat} (h : IsPrimeTable primes) (row : List sieve_t)
    (t x k : Nat) (ht : 3 ≤ t) (hlen : 3 < primes.length) (hrow : RowBits primes row t)
    (hk : k < row.length) :
    (((Finset.Icc 1 x).filter
        (fun n : Nat => ∀ i ∈ Finset.Icc (1 : Nat) t, ¬ primes.getD i 0 ∣ n)).filter
        (fun n => n / 240 = k)).card =
      ((Finset.range 64).filter (fun j =>
        (row.getD k ⟨0, 0⟩).bits.testBit j = true ∧ 240 * k + bit_value j ≤ x)).card := by
  rw [← Finset.card_image_of_injOn (f := fun j => 240 * k + bit_value j)
    (s := (Finset.range 64).filter (fun j =>
        (row.getD k ⟨0, 0⟩).bits.testBit j = true ∧ 240 * k + bit_value j ≤ x))]
  · congr 1
    ext n
    simp only [Finset.mem_filter, Finset.mem_Icc, Finset.mem_image, Finset.mem_range]
    constructor
    · rintro ⟨⟨⟨h1, h2⟩, h3'⟩, h4⟩
      have h3 : ∀ i ∈ Finset.Icc (1 : Nat) t, ¬ primes.getD i 0 ∣ n :=
        fun i hi => h3' i (Finset.mem_Icc.1 hi)
      obtain ⟨c2, c3, c5⟩ := coprime30_of_survivor h t n ht hlen h3
      have hmod := Nat.div_add_mod n 240
      obtain ⟨j, hj, hbv⟩ := wheel_cover (n % 240) (Nat.mod_lt _ (by norm_num))
        (fun hd => c2 (by omega)) (fun hd => c3 (by omega)) (fun hd => c5 (by omega))
      have hn : 240 * k + bit_value j = n := by omega
      refine ⟨j, ⟨hj, ?_, by omega⟩, hn⟩
      rw [hrow k hk j hj, hn]
      exact h3
    · rintro ⟨j, ⟨hj, hbit, hle⟩, rfl⟩
      have hlt := bit_value_lt j hj
      have hpos := bit_value_pos j hj
      exact ⟨⟨⟨by omega, hle⟩, fun i hi => (hrow k hk j hj).1 hbit i (Finset.mem_Icc.2 hi)⟩,
        by omega⟩
  · intro j₁ hj₁ j₂ hj₂ heq
    simp only [Finset.coe_filter, Finset.mem_range, Set.mem_setOf_eq] at hj₁ hj₂
    exact bit_value_inj j₁ hj₁.1 j₂ hj₂.1 (by
      simp only at heq
      omega)

theorem phi_naive_of_row {primes : List Nat} (h : IsPrimeTable primes) (row : List sieve_t)
    (t x : Nat) (ht : 3 ≤ t) (hlen : 3 < primes.length) (hrow : RowBits primes row t)
    (hcnt : RowCounts row) (hx : x / 240 < row.length) :
    (row.getD (x / 240) ⟨0, 0⟩).count +
      popcnt64 ((row.getD (x / 240) ⟨0, 0⟩).bits &&& BitSieve240.unset_larger_ (x % 240)) =
      phi_naive primes x t := by
  unfold phi_naive
  rw [Finset.card_eq_sum_card_fiberwise (f := fun n => n / 240)
    (t := Finset.range (x / 240 + 1))]
  · rw [Finset.sum_range_succ, hcnt _ hx]
    congr 1
    · apply Finset.sum_congr rfl
      intro k hk
      rw [Finset.mem_range] at hk
      rw [card_fiber h row t x k ht hlen hrow (by omega)]
      unfold popcnt64
      congr 1
      apply Finset.filter_congr
      intro j hj
      have := bit_value_lt j (Finset.mem_range.1 hj)
      have := Nat.div_add_mod x 240
      constructor
      · intro hb
        exact ⟨hb, by omega⟩
      · rintro ⟨hb, _⟩
        exact hb
    · rw [card_fiber h row t x (x / 240) ht hlen hrow hx]
      unfold BitSieve240.unset_larger_
      rw [popcnt64_and_maskOf]
      congr 1
      apply Finset.filter_congr
      intro j hj
      have := Nat.div_add_mod x 240
      simp only [decide_eq_true_eq]
      constructor
      · rintro ⟨hb, hle⟩
        exact ⟨hb, by omega⟩
      · rintro ⟨hb, hle⟩
        exact ⟨hb, by omega⟩
  · intro n hn
    rw [Finset.mem_filter, Finset.mem_Icc] at hn
    rw [Finset.mem_range]
    have := Nat.div_le_div_right (c := 240) hn.1.2
    omega

end PhiCache

namespace PhiCache

/-! ### Building the cache -/

theorem length_unset (row : List sieve_t) (n : Nat) : (unset row n).length = row.length := by
  simp [unset]

theorem getD_unset (row : List sieve_t) (n k : Nat) (hk : k < row.length) :
    (unset row n).getD k ⟨0, 0⟩ =
      if k = n / 240 then
        { row.getD k ⟨0, 0⟩ with
          bits := (row.getD k ⟨0, 0⟩).bits &&& BitSieve240.unset_bit_ (n % 240) }
      else row.getD k ⟨0, 0⟩ := by
  unfold unset
  by_cases hkn : k = n / 240
  · subst hkn
    rw [if_pos rfl, List.getD_eq_getElem?_getD, List.getElem?_set_self hk]
    rfl
  · rw [if_neg hkn, List.getD_eq_getElem?_getD, List.getElem?_set_ne (Ne.symm hkn),
      ← List.getD_eq_getElem?_getD]

theorem count_unset (row : List sieve_t) (n k : Nat) (hk : k < row.length) :
    ((unset row n).getD k ⟨0, 0⟩).count = (row.getD k ⟨0, 0⟩).count := by
  rw [getD_unset row n k hk]
  split_ifs <;> rfl

theorem bits_unset (row : List sieve_t) (n k j : Nat) (hk : k < row.length) (hj : j < 64) :
    (((unset row n).getD k ⟨0, 0⟩).bits.testBit j = true ↔
      (row.getD k ⟨0, 0⟩).bits.testBit j = true ∧ 240 * k + bit_value j ≠ n) := by
  have hlt := bit_value_lt j hj
  have hmod := Nat.div_add_mod n 240
  have hm := Nat.mod_lt n (by norm_num : 240 > 0)
  rw [getD_unset row n k hk]
  split_ifs with hkn
  · simp only [Nat.testBit_and, BitSieve240.unset_bit_, testBit_maskOf, hj, decide_True,
      Bool.true_and, Bool.and_eq_true, decide_eq_true_eq, ne_eq]
    constructor
    · rintro ⟨h1, h2⟩
      exact ⟨h1, by omega⟩
    · rintro ⟨h1, h2⟩
      exact ⟨h1, by omega⟩
  · constructor
    · intro h1
      refine ⟨h1, ?_⟩
      intro heq
      apply hkn
      omega
    · rintro ⟨h1, _⟩
      exact h1

theorem cross_off_loop_spec (prime max_x : Nat) (hp : 0 < prime) :
    ∀ (fuel n : Nat) (row : List sieve_t),
      1 ≤ fuel ∧ (n ≤ max_x → max_x + 2 ≤ fuel + n) →
      ∃ row', cross_off_loop fuel prime max_x n row = some row' ∧
        row'.length = row.length ∧
        ∀ k, k < row.length →
          (row'.getD k ⟨0, 0⟩).count = (row.getD k ⟨0, 0⟩).count ∧
          ∀ j, j < 64 →
            ((row'.getD k ⟨0, 0⟩).bits.testBit j = true ↔
              (row.getD k ⟨0, 0⟩).bits.testBit j = true ∧
              ¬ ∃ s, 240 * k + bit_value j = n + s * (prime * 2) ∧
                240 * k + bit_value j ≤ max_x) := by
  intro fuel
  induction fuel with
  | zero => intro n row h; omega
  | succ fuel ih =>
    intro n row hfuel
    rw [cross_off_loop]
    split_ifs with hle
    · have h2 := hfuel.2 hle
      obtain ⟨row', h1, hlen, hrow⟩ := ih (n + prime * 2) (unset row n)
        ⟨by omega, fun _ => by omega⟩
      rw [length_unset] at hlen hrow
      refine ⟨row', h1, hlen, ?_⟩
      intro k hk
      obtain ⟨hc, hb⟩ := hrow k hk
      refine ⟨by rw [hc, count_unset row n k hk], ?_⟩
      intro j hj
      rw [hb j hj, bits_unset row n k j hk hj]
      constructor
      · rintro ⟨⟨h3, h4⟩, h5⟩
        refine ⟨h3, ?_⟩
        rintro ⟨s, hs1, hs2⟩
        rcases Nat.eq_zero_or_pos s with h0 | h0
        · subst h0
          simp at hs1
          exact h4 hs1
        · apply h5
          refine ⟨s - 1, ?_, hs2⟩
          have : s = (s - 1) + 1 := by omega
          rw [this, Nat.add_mul] at hs1
          omega
      · rintro ⟨h3, h4⟩
        refine ⟨⟨h3, ?_⟩, ?_⟩
        · intro heq
          exact h4 ⟨0, by simpa using heq, by omega⟩
        · rintro ⟨s, hs1, hs2⟩
          exact h4 ⟨s + 1, by rw [Nat.add_mul]; omega, hs2⟩
    · refine ⟨row, rfl, rfl, ?_⟩
      intro k _
      refine ⟨rfl, ?_⟩
      intro j _
      constructor
      · intro h1
        refine ⟨h1, ?_⟩
        rintro ⟨s, hs1, hs2⟩
        have : n ≤ n + s * (prime * 2) := Nat.le_add_right _ _
        omega
      · rintro ⟨h1, _⟩
        exact h1

theorem popcnt64_le (w : Nat) : popcnt64 w ≤ 64 := by
  unfold popcnt64
  have := Finset.card_filter_le (Finset.range 64) (fun j => w.testBit j = true)
  simpa using this

theorem fill_counts_spec (row : List sieve_t) :
    ∀ count, (fill_counts count row).length = row.length ∧
      ∀ k, k < row.length →
        ((fill_counts count row).getD k ⟨0, 0⟩).bits = (row.getD k ⟨0, 0⟩).bits ∧
        ((fill_counts count row).getD k ⟨0, 0⟩).count =
          (count + ∑ q in Finset.range k, popcnt64 (row.getD q ⟨0, 0⟩).bits) % 2 ^ 32 := by
  induction row with
  | nil =>
    intro count
    exact ⟨rfl, fun k hk => absurd hk (by simp)⟩
  | cons e es ih =>
    intro count
    obtain ⟨hlen, hrest⟩ := ih (count + popcnt64 e.bits)
    refine ⟨by simp [fill_counts, hlen], ?_⟩
    intro k hk
    cases k with
    | zero => simp [fill_counts]
    | succ k =>
      have hk' : k < es.length := by simpa using hk
      obtain ⟨hb, hc⟩ := hrest k hk'
      simp only [fill_counts, List.getD_cons_succ]
      refine ⟨hb, ?_⟩
      rw [hc, Finset.sum_range_succ']
      simp only [List.getD_cons_succ, List.getD_cons_zero]
      congr 1
      omega

end PhiCache

namespace PhiCache

/-- Among the integers without a factor in the first `i - 1` primes, the
multiples of `primes[i]` are `primes[i]` itself and the numbers
`primes[i]² + s * 2 * primes[i]`: those the loops of `init_cache` clear. -/
theorem dvd_iff_crossed {primes : List Nat} (h : IsPrimeTable primes) (i n : Nat)
    (hi : 2 ≤ i) (hlen : i < primes.length) (hn : 1 ≤ n)
    (hsurv : ∀ t ∈ Finset.Icc (1 : Nat) (i - 1), ¬ primes.getD t 0 ∣ n) :
    primes.getD i 0 ∣ n ↔
      (n = primes.getD i 0 ∨
        ∃ s, n = primes.getD i 0 * primes.getD i 0 + s * (primes.getD i 0 * 2)) := by
  have hp := h.prime (by omega : 1 ≤ i) hlen
  constructor
  · rintro ⟨m, rfl⟩
    by_cases hm1 : m = 1
    · left
      rw [hm1, mul_one]
    · right
      have hmpos : 0 < m := by
        rcases Nat.eq_zero_or_pos m with h0 | h0
        · subst h0
          simp at hn
        · exact h0
      have hq := Nat.minFac_prime hm1
      have hqm : m.minFac ≤ m := Nat.minFac_le hmpos
      have hge : primes.getD i 0 ≤ m.minFac := by
        by_contra hcon
        have hlt : m.minFac < primes.getD (i - 1 + 1) 0 := by
          rw [Nat.sub_add_cancel (by omega)]
          omega
        obtain ⟨t, ht1, ht2, ht3⟩ := h.mem_of_lt hq
          (by rw [Nat.sub_add_cancel (by omega)]; exact hlen) hlt
        apply hsurv t (Finset.mem_Icc.2 ⟨ht1, ht2⟩)
        rw [ht3]
        exact Dvd.dvd.mul_left (Nat.minFac_dvd m) _
      have h2 : primes.getD 1 0 = 2 := h.getD_tiny (by omega) (by omega)
      have hodd : ¬ 2 ∣ primes.getD i 0 * m := by
        have := hsurv 1 (Finset.mem_Icc.2 ⟨le_refl _, by omega⟩)
        rwa [h2] at this
      have hm2 : m % 2 = 1 := by
        have : ¬ 2 ∣ m := fun hd => hodd (Dvd.dvd.mul_left hd _)
        omega
      have hp2 : primes.getD i 0 % 2 = 1 := by
        have : ¬ 2 ∣ primes.getD i 0 := fun hd => hodd (Dvd.dvd.mul_right hd _)
        omega
      refine ⟨(m - primes.getD i 0) / 2, ?_⟩
      have hm : m = primes.getD i 0 + (m - primes.getD i 0) / 2 * 2 := by omega
      generalize (m - primes.getD i 0) / 2 = s at hm
      rw [hm]
      ring
  · rintro (h1 | ⟨s, h1⟩)
    · rw [h1]
    · rw [h1]
      exact Dvd.intro (primes.getD i 0 + s * 2) (by ring)

theorem survivors_succ (primes : List Nat) (i v : Nat) (hi : 1 ≤ i) :
    (∀ t ∈ Finset.Icc (1 : Nat) i, ¬ primes.getD t 0 ∣ v) ↔
      (∀ t ∈ Finset.Icc (1 : Nat) (i - 1), ¬ primes.getD t 0 ∣ v) ∧ ¬ primes.getD i 0 ∣ v := by
  constructor
  · intro h
    refine ⟨fun t ht => h t ?_, h i (Finset.mem_Icc.2 ⟨hi, le_refl _⟩)⟩
    rw [Finset.mem_Icc] at ht ⊢
    omega
  · rintro ⟨h1, h2⟩ t ht
    rw [Finset.mem_Icc] at ht
    by_cases hti : t = i
    · rw [hti]
      exact h2
    · exact h1 t (Finset.mem_Icc.2 ⟨ht.1, by omega⟩)

/-- Clearing `primes[i]` and the numbers `primes[i]² + s * 2 * primes[i]`
from row `i - 1` gives row `i`. -/
theorem row_step {primes : List Nat} (h : IsPrimeTable primes) (i max_x size : Nat)
    (row : List sieve_t) (hi : 2 ≤ i) (hlen : i < primes.length)
    (hgeom : max_x + 1 = size * 240) (hsize : row.length = size)
    (hrow : RowBits primes row (i - 1)) :
    ∃ row', cross_off_loop (max_x + 2) (primes.getD i 0) max_x
        (primes.getD i 0 * primes.getD i 0)
        (if primes.getD i 0 ≤ max_x then unset row (primes.getD i 0) else row) = some row' ∧
      row'.length = size ∧ RowBits primes row' i := by
  have hp := h.prime (by omega : 1 ≤ i) hlen
  have hlen1 : (if primes.getD i 0 ≤ max_x then unset row (primes.getD i 0) else row).length
      = row.length := by
    split_ifs
    · exact length_unset _ _
    · rfl
  obtain ⟨row', h1, h2, h3⟩ := cross_off_loop_spec (primes.getD i 0) max_x hp.pos
    (max_x + 2) (primes.getD i 0 * primes.getD i 0)
    (if primes.getD i 0 ≤ max_x then unset row (primes.getD i 0) else row)
    ⟨by omega, fun _ => by omega⟩
  rw [hlen1] at h2 h3
  refine ⟨row', h1, by rw [h2, hsize], ?_⟩
  intro k hk j hj
  rw [h2] at hk
  have hv : 240 * k + bit_value j ≤ max_x := by
    have := bit_value_lt j hj
    rw [hsize] at hk
    have : (k + 1) * 240 ≤ size * 240 := Nat.mul_le_mul_right _ hk
    omega
  have hpos := bit_value_pos j hj
  rw [(h3 k hk).2 j hj, survivors_succ primes i _ (by omega), ← hrow k hk j hj]
  have hb1 : ((if primes.getD i 0 ≤ max_x then unset row (primes.getD i 0) else row).getD k
      ⟨0, 0⟩).bits.testBit j = true ↔
      (row.getD k ⟨0, 0⟩).bits.testBit j = true ∧ 240 * k + bit_value j ≠ primes.getD i 0 := by
    split_ifs with hle
    · exact bits_unset row _ k j hk hj
    · constructor
      · intro hb
        exact ⟨hb, by omega⟩
      · rintro ⟨hb, _⟩
        exact hb
  rw [hb1]
  constructor
  · rintro ⟨⟨hb, hne⟩, hns⟩
    refine ⟨hb, ?_⟩
    intro hdvd
    rcases (dvd_iff_crossed h i _ hi hlen (by omega) ((hrow k hk j hj).1 hb)).1 hdvd with
      h5 | ⟨s, h5⟩
    · exact hne h5
    · exact hns ⟨s, h5, hv⟩
  · rintro ⟨hb, hnd⟩
    have hiff := dvd_iff_crossed h i _ hi hlen (by omega : 1 ≤ 240 * k + bit_value j)
      ((hrow k hk j hj).1 hb)
    refine ⟨⟨hb, fun heq => hnd (hiff.2 (Or.inl heq))⟩, ?_⟩
    rintro ⟨s, hs, _⟩
    exact hnd (hiff.2 (Or.inr ⟨s, hs⟩))

theorem fill_counts_valid (primes : List Nat) (row : List sieve_t) (i : Nat)
    (hsize : row.length * 64 < 2 ^ 32) (hrow : RowBits primes row i) :
    (fill_counts 0 row).length = row.length ∧ RowBits primes (fill_counts 0 row) i ∧
      RowCounts (fill_counts 0 row) := by
  obtain ⟨hlen, hspec⟩ := fill_counts_spec row 0
  refine ⟨hlen, ?_, ?_⟩
  · intro k hk j hj
    rw [hlen] at hk
    rw [(hspec k hk).1]
    exact hrow k hk j hj
  · intro k hk
    rw [hlen] at hk
    rw [(hspec k hk).2, zero_add]
    have hsum : ∑ q in Finset.range k, popcnt64 (row.getD q ⟨0, 0⟩).bits ≤ k * 64 := by
      have := Finset.sum_le_card_nsmul (Finset.range k)
        (fun q => popcnt64 (row.getD q ⟨0, 0⟩).bits) 64 (fun q _ => popcnt64_le _)
      simpa using this
    have hk64 : k * 64 < 2 ^ 32 := by
      have : k * 64 ≤ row.length * 64 := Nat.mul_le_mul_right _ (le_of_lt hk)
      omega
    rw [Nat.mod_eq_of_lt (by omega)]
    apply Finset.sum_congr rfl
    intro q hq
    rw [(hspec q (by have := Finset.mem_range.1 hq; omega)).1]

end PhiCache

namespace PhiCache

theorem getD_set_self {α : Type} (l : List α) (i : Nat) (v d : α) (hi : i < l.length) :
    (l.set i v).getD i d = v := by
  rw [List.getD_eq_getElem?_getD, List.getElem?_set_self hi]
  rfl

theorem getD_set_ne {α : Type} (l : List α) (i t : Nat) (v d : α) (hne : i ≠ t) :
    (l.set i v).getD t d = l.getD t d := by
  rw [List.getD_eq_getElem?_getD, List.getElem?_set_ne hne, ← List.getD_eq_getElem?_getD]

/-- One iteration of the loop of `init_cache` keeps the invariant. -/
theorem init_cache_step_spec (s : State) (i : Nat) (hb : Building s i) (hi : i ≤ s.max_a_)
    (hlen : i < s.primes_.length) :
    ∃ sv, init_cache_step s i = some { s with sieve_ := sv } ∧
      Building { s with sieve_ := sv } (i + 1) := by
  obtain ⟨hpt, hsl, hgeom, hsz, h4, hrl, hrb, hrows⟩ := hb
  -- the sieve after row `i - 1` has been moved or copied to row `i`
  have hmove : ∃ sieve1 : List (List sieve_t),
      (if i - 1 ≤ PhiTiny.max_a then
        (s.sieve_.set i (s.sieve_.getD (i - 1) [])).set (i - 1) []
      else s.sieve_.set i (s.sieve_.getD (i - 1) [])) = sieve1 ∧
      sieve1.length = s.sieve_.length ∧ sieve1.getD i [] = s.sieve_.getD (i - 1) [] ∧
      ∀ t, 6 < t → t ≠ i → sieve1.getD t [] = s.sieve_.getD t [] := by
    refine ⟨_, rfl, ?_, ?_, ?_⟩
    · split_ifs <;> simp
    · split_ifs
      · rw [getD_set_ne _ _ _ _ _ (by omega), getD_set_self _ _ _ _ (by omega)]
      · rw [getD_set_self _ _ _ _ (by omega)]
    · intro t ht hti
      split_ifs with h6
      · have h6' : i - 1 ≤ 6 := h6
        rw [getD_set_ne _ _ _ _ _ (by omega), getD_set_ne _ _ _ _ _ (Ne.symm hti)]
      · rw [getD_set_ne _ _ _ _ _ (Ne.symm hti)]
  obtain ⟨sieve1, hs1, hl1, hg1, ho1⟩ := hmove
  obtain ⟨row', hc, hrl', hrb'⟩ := row_step hpt i s.max_x_ s.max_x_size_
    (s.sieve_.getD (i - 1) []) (by omega) hlen hgeom hrl hrb
  -- the row after the counts have been filled in
  have hfill : ∃ row3 : List sieve_t,
      (if i > PhiTiny.max_a then fill_counts 0 row' else row') = row3 ∧
      row3.length = s.max_x_size_ ∧ RowBits s.primes_ row3 i ∧ (6 < i → RowCounts row3) := by
    refine ⟨_, rfl, ?_⟩
    split_ifs with h6
    · obtain ⟨f1, f2, f3⟩ := fill_counts_valid s.primes_ row' i (by rw [hrl']; exact hsz) hrb'
      exact ⟨by rw [f1, hrl'], f2, fun _ => f3⟩
    · exact ⟨hrl', hrb', fun h => absurd h h6⟩
  obtain ⟨row3, hf, hl3, hb3, hc3⟩ := hfill
  refine ⟨sieve1.set i row3, ?_, ?_⟩
  · unfold init_cache_step
    simp only [hs1, hg1, hc, hf]
  · have hget : (sieve1.set i row3).getD i [] = row3 :=
      getD_set_self _ _ _ _ (by omega)
    refine ⟨hpt, by simp [hl1, hsl], hgeom, hsz, by omega, ?_, ?_, ?_⟩
    · simp only [Nat.add_sub_cancel]
      rw [hget]
      exact hl3
    · simp only [Nat.add_sub_cancel]
      rw [hget]
      exact hb3
    · intro t ht6 hti
      simp only [Nat.add_sub_cancel] at hti
      by_cases hteq : t = i
      · subst hteq
        simp only []
        rw [hget]
        exact ⟨hl3, hb3, hc3 ht6⟩
      · simp only []
        rw [getD_set_ne _ _ _ _ _ (Ne.symm hteq), ho1 t ht6 hteq]
        exact hrows t ht6 (by omega)

theorem init_cache_loop_spec (a : Nat) :
    ∀ (n i : Nat) (s : State), a + 2 ≤ n + i → i ≤ a + 1 → Building s i →
      a ≤ s.max_a_ → a < s.primes_.length →
      ∃ sv, init_cache_loop n i a s = some { s with sieve_ := sv } ∧
        Building { s with sieve_ := sv } (a + 1) := by
  intro n
  induction n with
  | zero => intro i s h1 h2; omega
  | succ n ih =>
    intro i s h1 h2 hb ha hlen
    rw [init_cache_loop]
    split_ifs with hia
    · obtain ⟨sv, hstep, hb'⟩ := init_cache_step_spec s i hb (by omega) (by omega)
      rw [hstep]
      obtain ⟨sv', hloop, hb''⟩ := ih (i + 1) { s with sieve_ := sv } (by omega) (by omega) hb'
        ha hlen
      exact ⟨sv', hloop, hb''⟩
    · have hi : i = a + 1 := by omega
      subst hi
      exact ⟨s.sieve_, rfl, hb⟩

theorem valid_of_building (s : State) (sv : List (List sieve_t)) (a : Nat)
    (hpi : IsPiTable s.pi_)
    (hb : Building { s with sieve_ := sv, max_a_cached_ := a } (a + 1)) (ha6 : 6 < a)
    (ha : a ≤ s.max_a_) (hlen : a < s.primes_.length) :
    Valid { s with sieve_ := sv, max_a_cached_ := a } := by
  obtain ⟨b1, b2, b3, b4, -, -, -, b8⟩ := hb
  dsimp only at b1 b2 b3 b4 b8
  exact
    { primes := b1
      pi := hpi
      geom := Or.inr ⟨show 6 < s.max_a_ by omega, b3, b4⟩
      cached := ha
      alloc := Or.inr ⟨b2, ha6⟩
      known := hlen
      rows := fun t h6 hta => b8 t h6 (by
        dsimp only at hta
        omega) }

theorem building_first (s : State) (a : Nat) (hpt : IsPrimeTable s.primes_)
    (hgeom : s.max_x_ + 1 = s.max_x_size_ * 240) (hsz : s.max_x_size_ * 64 < 2 ^ 32)
    (ha : 3 < s.max_a_) (hlen : 3 < s.primes_.length) :
    Building
      { s with
        sieve_ := (List.replicate (s.max_a_ + 1) ([] : List sieve_t)).set 3
          (List.replicate s.max_x_size_ ⟨0, 2 ^ 64 - 1⟩)
        max_a_cached_ := a } 4 := by
  have hget : ((List.replicate (s.max_a_ + 1) ([] : List sieve_t)).set 3
      (List.replicate s.max_x_size_ ⟨0, 2 ^ 64 - 1⟩)).getD 3 [] =
      List.replicate s.max_x_size_ ⟨0, 2 ^ 64 - 1⟩ :=
    getD_set_self _ _ _ _ (by simp; omega)
  refine ⟨hpt, by simp, hgeom, hsz, le_refl _, ?_, ?_, ?_⟩
  · show (((List.replicate (s.max_a_ + 1) ([] : List sieve_t)).set 3
      (List.replicate s.max_x_size_ ⟨0, 2 ^ 64 - 1⟩)).getD 3 []).length = s.max_x_size_
    rw [hget]
    simp
  · show RowBits s.primes_ (((List.replicate (s.max_a_ + 1) ([] : List sieve_t)).set 3
      (List.replicate s.max_x_size_ ⟨0, 2 ^ 64 - 1⟩)).getD 3 []) 3
    rw [hget]
    intro k hk j hj
    have hk' : k < s.max_x_size_ := by simpa using hk
    have hentry : (List.replicate s.max_x_size_ (⟨0, 2 ^ 64 - 1⟩ : sieve_t)).getD k ⟨0, 0⟩ =
        ⟨0, 2 ^ 64 - 1⟩ := by
      rw [List.getD_eq_getElem?_getD, List.getElem?_replicate, if_pos hk']
      rfl
    rw [hentry]
    obtain ⟨c2, c3, c5⟩ := bit_value_coprime j hj
    constructor
    · intro _ t ht
      rw [Finset.mem_Icc] at ht
      have ht3 : t = 1 ∨ t = 2 ∨ t = 3 := by omega
      rw [hpt.getD_tiny (by omega) (by omega)]
      rcases ht3 with rfl | rfl | rfl
      · show ¬ 2 ∣ 240 * k + bit_value j
        omega
      · show ¬ 3 ∣ 240 * k + bit_value j
        omega
      · show ¬ 5 ∣ 240 * k + bit_value j
        omega
    · intro _
      show (2 ^ 64 - 1).testBit j = true
      rw [Nat.testBit_two_pow_sub_one]
      simpa using hj
  · intro t h6 h3
    omega

/-- `init_cache(a)` terminates and extends a valid cache up to row `a`. -/
theorem init_cache_spec (s : State) (a : Nat) (hv : Valid s) (ha6 : 6 < a)
    (ha : a ≤ s.max_a_) (hnew : s.max_a_cached_ < a) (hlen : a < s.primes_.length) :
    ∃ sv, init_cache s a = some { s with sieve_ := sv, max_a_cached_ := a } ∧
      Valid { s with sieve_ := sv, max_a_cached_ := a } := by
  have hgeom : s.max_x_ + 1 = s.max_x_size_ * 240 ∧ s.max_x_size_ * 64 < 2 ^ 32 := by
    rcases hv.geom with ⟨h0, _, _⟩ | ⟨_, h1, h2⟩
    · omega
    · exact ⟨h1, h2⟩
  rcases hv.alloc with ⟨hnil, hc0⟩ | ⟨hsl, hc6⟩
  · -- first call: the rows are allocated and row 3 is all ones
    have hb := building_first s a hv.primes hgeom.1 hgeom.2 (by omega) (by omega)
    obtain ⟨sv, hloop, hb'⟩ := init_cache_loop_spec a (a + 1) 4 _ (by omega) (by omega) hb ha hlen
    refine ⟨sv, ?_, valid_of_building s sv a hv.pi hb' ha6 ha hlen⟩
    unfold init_cache
    rw [hnil]
    exact hloop
  · -- later calls extend the rows that exist
    have hb : Building { s with max_a_cached_ := a } (s.max_a_cached_ + 1) := by
      obtain ⟨r1, r2, r3⟩ := hv.rows s.max_a_cached_ hc6 (le_refl _)
      refine ⟨hv.primes, hsl, hgeom.1, hgeom.2, by omega, ?_, ?_, ?_⟩
      · simpa using r1
      · simpa using r2
      · intro t h6 ht
        exact hv.rows t h6 (by simpa using ht)
    obtain ⟨sv, hloop, hb'⟩ := init_cache_loop_spec a (a + 1) (s.max_a_cached_ + 1) _
      (by omega) (by omega) hb ha hlen
    refine ⟨sv, ?_, valid_of_building s sv a hv.pi hb' ha6 ha hlen⟩
    unfold init_cache
    have hne : s.sieve_.isEmpty = false := by
      cases hsv : s.sieve_ with
      | nil =>
        rw [hsv] at hsl
        simp at hsl
      | cons _ _ => rfl
    rw [hne]
    exact hloop

end PhiCache

namespace PhiCache

/-! ### `phi` returns `φ(x, a) * SIGN` -/

theorem phi_cache_eq (s : State) (x a : Nat) (hv : Valid s) (hc : is_cached s x a = true) :
    phi_cache s x a = (phi_naive s.primes_ x a : Int) := by
  unfold is_cached at hc
  simp only [Bool.and_eq_true, decide_eq_true_eq] at hc
  obtain ⟨⟨hx, ha⟩, ha6⟩ := hc
  have ha6' : 6 < a := ha6
  obtain ⟨r1, r2, r3⟩ := hv.rows a ha6' ha
  have hgeom : s.max_x_ + 1 = s.max_x_size_ * 240 := by
    rcases hv.geom with ⟨_, h0, _⟩ | ⟨_, h1, _⟩
    · omega
    · exact h1
  have hidx : x / 240 < (s.sieve_.getD a []).length := by
    rw [r1]
    have := Nat.div_add_mod x 240
    have := Nat.mod_lt x (by norm_num : 240 > 0)
    by_contra hcon
    have : s.max_x_size_ * 240 ≤ (x / 240) * 240 := Nat.mul_le_mul_right _ (by omega)
    omega
  unfold phi_cache
  dsimp only
  rw [phi_naive_of_row hv.primes _ a x (by omega) (by have := hv.known; omega) r2 r3 hidx]

theorem isqrt_lt_iff (x p : Nat) : isqrt x < p ↔ x < p * p := by
  unfold isqrt
  exact Nat.sqrt_lt

theorem le_isqrt_iff (x p : Nat) : p ≤ isqrt x ↔ p * p ≤ x := by
  unfold isqrt
  exact Nat.le_sqrt

/-- The contributions skipped at the label `phi_1` are all 1. -/
theorem phi_naive_tail {primes : List Nat} (h : IsPrimeTable primes) (x a i : Nat)
    (hi : 1 ≤ i) (ha : a < primes.length) (hx : primes.getD a 0 < x)
    (hsq : x < primes.getD i 0 * primes.getD i 0) :
    ∀ m, i + m ≤ a + 1 → phi_naive primes x (i - 1) = phi_naive primes x (i - 1 + m) + m := by
  intro m
  induction m with
  | zero => intro _; simp
  | succ m ih =>
    intro hm
    have hstep := h.phi_naive_step x (i - 1 + m) (by omega)
    have hidx : i - 1 + m + 1 = i + m := by omega
    rw [hidx] at hstep
    have hpi : primes.getD i 0 ≤ primes.getD (i + m) 0 := h.le_of_le (by omega) (by omega)
    have hpa : primes.getD (i + m) 0 ≤ primes.getD a 0 := h.le_of_le (by omega) ha
    have hpos := (h.prime (by omega : 1 ≤ i + m) (by omega)).pos
    have hone : phi_naive primes (x / primes.getD (i + m) 0) (i - 1 + m) = 1 := by
      apply phi_naive_of_lt_prime h _ _
      · exact (Nat.one_le_div_iff hpos).2 (by omega)
      · rw [hidx]
        omega
      · rw [hidx, Nat.div_lt_iff_lt_mul hpos]
        calc x < primes.getD i 0 * primes.getD i 0 := hsq
          _ ≤ primes.getD (i + m) 0 * primes.getD (i + m) 0 := Nat.mul_le_mul hpi hpi
    rw [ih (by omega), hstep, hone]
    have : i - 1 + (m + 1) = i + m := by omega
    rw [this]
    omega

/-- The term `pi[xp] - i + 2` of the loops is `φ(xp, i - 1)`. -/
theorem pix_term {primes pi : List Nat} (h : IsPrimeTable primes) (hpi : IsPiTable pi)
    (x i : Nat) (hi : 1 ≤ i) (hil : i < primes.length)
    (hle : primes.getD i 0 * primes.getD i 0 ≤ x)
    (h1 : x / primes.getD i 0 < pi.length)
    (h2 : x / primes.getD i 0 < primes.getD i 0 * primes.getD i 0) :
    ((pi.getD (x / primes.getD i 0) 0 : Nat) : Int) - i + 2 =
      (phi_naive primes (x / primes.getD i 0) (i - 1) : Int) := by
  have hpos := (h.prime hi hil).pos
  have hlo : primes.getD (i - 1) 0 < x / primes.getD i 0 := by
    have hlt := h.lt_of_lt (by omega : i - 1 < i) hil
    have : primes.getD i 0 ≤ x / primes.getD i 0 := (Nat.le_div_iff_mul_le hpos).2 hle
    omega
  have hF := phi_naive_eq_pi h (x / primes.getD i 0) (i - 1)
    (by rw [Nat.sub_add_cancel hi]; exact hil) hlo
    (by rw [Nat.sub_add_cancel hi]; exact h2)
  rw [hpi _ h1]
  have hcast : ((phi_naive primes (x / primes.getD i 0) (i - 1) + (i - 1) : Nat) : Int) =
      ((Nat.primeCounting (x / primes.getD i 0) + 1 : Nat) : Int) := by
    rw [hF]
  push_cast [Nat.cast_sub hi] at hcast
  omega

theorem phi_naive_step_int {primes : List Nat} (h : IsPrimeTable primes) (x i : Nat)
    (hi : 1 ≤ i) (hil : i < primes.length) :
    (phi_naive primes x (i - 1) : Int) - phi_naive primes (x / primes.getD i 0) (i - 1) =
      phi_naive primes x i := by
  have := h.phi_naive_step x (i - 1) (by rw [Nat.sub_add_cancel hi]; exact hil)
  rw [Nat.sub_add_cancel hi] at this
  rw [this]
  push_cast
  ring

theorem phi_loop2_spec (s : State) (hv : Valid s) (sign : Int) (x a : Nat)
    (ha : a < s.primes_.length) (hx : s.primes_.getD a 0 < x) :
    ∀ (n i : Nat) (sum : Int), a + 2 ≤ n + i → 1 ≤ i → i ≤ a + 1 →
      (∀ t, i ≤ t → t ≤ a →
        x / s.primes_.getD t 0 < s.pi_.length ∧
        x / s.primes_.getD t 0 < s.primes_.getD t 0 * s.primes_.getD t 0) →
      sum = phi_naive s.primes_ x (i - 1) * sign →
      phi_loop2 s sign x a (isqrt x) n i sum = some (phi_naive s.primes_ x a * sign) := by
  intro n
  induction n with
  | zero => intro i sum h1 h2 h3; omega
  | succ n ih =>
    intro i sum hn hi hia hpix hsum
    rw [phi_loop2]
    split_ifs with hle hgt
    · -- goto phi_1
      rw [gt_iff_lt, isqrt_lt_iff] at hgt
      have htail := phi_naive_tail hv.primes x a i hi ha hx hgt (a + 1 - i) (by omega)
      have hidx : i - 1 + (a + 1 - i) = a := by omega
      rw [hidx] at htail
      rw [hsum, htail]
      congr 1
      push_cast [Nat.cast_sub (by omega : i ≤ a + 1)]
      ring
    · rw [gt_iff_lt, not_lt, le_isqrt_iff] at hgt
      apply ih (i + 1) _ (by omega) (by omega) (by omega)
        (fun t ht hta => hpix t (by omega) hta)
      obtain ⟨p1, p2⟩ := hpix i (le_refl _) hle
      rw [hsum, pix_term hv.primes hv.pi x i hi (by omega) hgt p1 p2, Nat.add_sub_cancel,
        ← phi_naive_step_int hv.primes x i hi (by omega)]
      ring
    · have hia' : i = a + 1 := by omega
      rw [hsum, hia']
      simp

end PhiCache

namespace PhiCache

theorem phi_loop1_spec (rec : Nat → Nat → State → Option (Int × State)) (sign : Int)
    (x a : Nat) (primes pi : List Nat)
    (hrec : ∀ x' a' s, a' < a → Valid s → s.primes_ = primes → s.pi_ = pi → 1 ≤ x' →
      a' + 1 < primes.length →
      ∃ s', rec x' a' s = some (phi_naive primes x' a' * -sign, s') ∧ Valid s' ∧
        s'.primes_ = primes ∧ s'.pi_ = pi)
    (ha : a < primes.length) (hx : primes.getD a 0 < x) :
    ∀ (n i : Nat) (sum : Int) (s : State), a + 2 ≤ n + i → 1 ≤ i → i ≤ a + 1 →
      Valid s → s.primes_ = primes → s.pi_ = pi →
      sum = phi_naive primes x (i - 1) * sign →
      ∃ s', phi_loop1 rec sign x a (isqrt x) n i sum s =
          some (phi_naive primes x a * sign, s') ∧ Valid s' ∧
        s'.primes_ = primes ∧ s'.pi_ = pi := by
  intro n
  induction n with
  | zero => intro i sum s h1 h2 h3; omega
  | succ n ih =>
    intro i sum s hn hi hia hv hp hq hsum
    have hpt : IsPrimeTable primes := hp ▸ hv.primes
    have hpit : IsPiTable pi := hq ▸ hv.pi
    rw [phi_loop1]
    by_cases hle : i ≤ a
    · rw [if_pos hle]
      by_cases hgt : s.primes_.getD i 0 > isqrt x
      · -- goto phi_1
        rw [if_pos hgt]
        rw [hp, gt_iff_lt, isqrt_lt_iff] at hgt
        have htail := phi_naive_tail hpt x a i hi ha hx hgt (a + 1 - i) (by omega)
        have hidx : i - 1 + (a + 1 - i) = a := by omega
        rw [hidx] at htail
        refine ⟨s, ?_, hv, hp, hq⟩
        rw [hsum, htail]
        congr 2
        push_cast [Nat.cast_sub (by omega : i ≤ a + 1)]
        ring
      · rw [if_neg hgt]
        dsimp only
        rw [hp, gt_iff_lt, not_lt, le_isqrt_iff] at hgt
        have hppos := (hpt.prime hi (by omega : i < primes.length)).pos
        have hp2 := (hpt.prime hi (by omega : i < primes.length)).two_le
        rw [hp]
        by_cases hpix : is_pix s (x / primes.getD i 0) (i - 1) = true
        · -- the remaining iterations are answered from the pi-table
          rw [if_pos hpix]
          unfold is_pix at hpix
          simp only [Bool.and_eq_true, decide_eq_true_eq, Nat.sub_add_cancel hi] at hpix
          rw [hp, hq] at hpix
          obtain ⟨p1, p2⟩ := hpix
          have h2 := phi_loop2_spec s hv sign x a (by rw [hp]; exact ha)
            (by rw [hp]; exact hx) (a + 1) (i + 1)
            (sum + ((s.pi_.getD (x / primes.getD i 0) 0 : Nat) - (i : Int) + 2) * -sign)
            (by omega) (by omega) (by omega)
            (by
              intro t ht hta
              rw [hp, hq]
              have hle' : primes.getD i 0 ≤ primes.getD t 0 :=
                hpt.le_of_le (by omega) (by omega)
              have hdiv : x / primes.getD t 0 ≤ x / primes.getD i 0 :=
                Nat.div_le_div_left hle' hppos
              refine ⟨by omega, ?_⟩
              calc x / primes.getD t 0 ≤ x / primes.getD i 0 := hdiv
                _ < primes.getD i 0 * primes.getD i 0 := p2
                _ ≤ primes.getD t 0 * primes.getD t 0 := Nat.mul_le_mul hle' hle')
            (by
              rw [hq, hp, hsum, pix_term hpt hpit x i hi (by omega) hgt p1 p2,
                Nat.add_sub_cancel, ← phi_naive_step_int hpt x i hi (by omega)]
              ring)
          rw [h2, hp]
          exact ⟨s, rfl, hv, hp, hq⟩
        · rw [if_neg hpix]
          by_cases hcached : is_cached s (x / primes.getD i 0) (i - 1) = true
          · -- the term is cached
            rw [if_pos hcached]
            apply ih (i + 1) _ s (by omega) (by omega) (by omega) hv hp hq
            rw [hsum, phi_cache_eq s _ _ hv hcached, hp, Nat.add_sub_cancel,
              ← phi_naive_step_int hpt x i hi (by omega)]
            ring
          · -- recursion
            rw [if_neg hcached]
            have hxp : 1 ≤ x / primes.getD i 0 := by
              rw [Nat.one_le_div_iff hppos]
              have : primes.getD i 0 * 1 ≤ primes.getD i 0 * primes.getD i 0 :=
                Nat.mul_le_mul_left _ (by omega)
              omega
            obtain ⟨s', hr, hv', hp', hq'⟩ := hrec (x / primes.getD i 0) (i - 1) s
              (by omega) hv hp hq hxp (by omega)
            rw [hr]
            dsimp only
            apply ih (i + 1) _ s' (by omega) (by omega) (by omega) hv' hp' hq'
            rw [hsum, Nat.add_sub_cancel, ← phi_naive_step_int hpt x i hi (by omega)]
            ring
    · rw [if_neg hle]
      have hia' : i = a + 1 := by omega
      refine ⟨s, ?_, hv, hp, hq⟩
      rw [hsum, hia']
      simp

/-- For every valid cache, every `x ≥ 1` and every `a` with `primes[a + 1]`
in the table, `phi<SIGN>(x, a)` returns `φ(x, a) * SIGN` when the recursion
depth is allowed to exceed `a - 6`, and leaves a valid cache behind. -/
theorem phi_fuel_spec :
    ∀ (fuel : Nat) (sign : Int) (x a : Nat) (s : State), a - 6 < fuel → Valid s → 1 ≤ x →
      a + 1 < s.primes_.length →
      ∃ s', phi_fuel fuel sign x a s = some (phi_naive s.primes_ x a * sign, s') ∧
        Valid s' ∧ s'.primes_ = s.primes_ ∧ s'.pi_ = s.pi_ := by
  intro fuel
  induction fuel with
  | zero => intro sign x a s h; omega
  | succ fuel ih =>
    intro sign x a s hfuel hv hx hlen
    rw [phi_fuel]
    by_cases h1 : x ≤ s.primes_.getD a 0
    · -- x <= primes[a]
      rw [if_pos h1]
      refine ⟨s, ?_, hv, rfl, rfl⟩
      rw [phi_naive_of_le_prime hv.primes x a hx (by omega) h1]
      simp
    rw [if_neg h1]
    by_cases h2 : PhiTiny.is_phi_tiny a = true
    · -- a <= 6
      rw [if_pos h2]
      refine ⟨s, ?_, hv, rfl, rfl⟩
      have ha6 : a ≤ 6 := by simpa [PhiTiny.is_phi_tiny, PhiTiny.max_a, PhiTiny.MAX_A] using h2
      rw [PhiTiny.phi_tiny_eq x a ha6, phi_naive_tiny hv.primes x a (by omega) ha6]
    rw [if_neg h2]
    have ha6 : 6 < a := by
      have : ¬ a ≤ 6 := by
        simpa [PhiTiny.is_phi_tiny, PhiTiny.max_a, PhiTiny.MAX_A] using h2
      omega
    have hxa : s.primes_.getD a 0 < x := by omega
    by_cases h3 : is_pix s x a = true
    · -- the pi-table answers
      rw [if_pos h3]
      refine ⟨s, ?_, hv, rfl, rfl⟩
      unfold is_pix at h3
      simp only [Bool.and_eq_true, decide_eq_true_eq] at h3
      have hF := phi_naive_eq_pi hv.primes x a hlen hxa h3.2
      have hval : ((s.pi_.getD x 0 : Nat) : Int) - a + 1 = phi_naive s.primes_ x a := by
        rw [hv.pi x h3.1]
        have hcast : ((phi_naive s.primes_ x a + a : Nat) : Int) =
            ((Nat.primeCounting x + 1 : Nat) : Int) := by
          rw [hF]
        push_cast at hcast
        omega
      rw [hval]
    rw [if_neg h3]
    -- the cache after the optional call of init_cache
    have hinit : ∃ s1, (if s.max_a_cached_ < min a s.max_a_ ∧ x ≤ s.max_x_ then
          init_cache s (min a s.max_a_) else some s) = some s1 ∧ Valid s1 ∧
        s1.primes_ = s.primes_ ∧ s1.pi_ = s.pi_ := by
      by_cases hc : s.max_a_cached_ < min a s.max_a_ ∧ x ≤ s.max_x_
      · rw [if_pos hc]
        have hen : 6 < s.max_a_ := by
          rcases hv.geom with ⟨h0, _, _⟩ | ⟨h6, _, _⟩
          · have := hc.1
            rw [h0] at this
            simp at this
          · exact h6
        obtain ⟨sv, hi1, hi2⟩ := init_cache_spec s (min a s.max_a_) hv
          (by rw [lt_min_iff]; exact ⟨ha6, hen⟩) (min_le_right _ _) hc.1
          (by have := min_le_left a s.max_a_; omega)
        exact ⟨_, hi1, hi2, rfl, rfl⟩
      · rw [if_neg hc]
        exact ⟨s, rfl, hv, rfl, rfl⟩
    obtain ⟨s1, hs1, hv1, hp1, hq1⟩ := hinit
    rw [hs1]
    dsimp only
    by_cases hc1 : is_cached s1 x a = true
    · rw [if_pos hc1]
      refine ⟨s1, ?_, hv1, hp1, hq1⟩
      rw [phi_cache_eq s1 x a hv1 hc1, hp1]
    rw [if_neg hc1]
    -- the loops
    have hrec : ∀ x' a' s2, a' < a → Valid s2 → s2.primes_ = s.primes_ → s2.pi_ = s.pi_ →
        1 ≤ x' → a' + 1 < s.primes_.length →
        ∃ s', phi_fuel fuel (-sign) x' a' s2 =
            some (phi_naive s.primes_ x' a' * -sign, s') ∧ Valid s' ∧
          s'.primes_ = s.primes_ ∧ s'.pi_ = s.pi_ := by
      intro x' a' s2 ha' hv2 hp2 hq2 hx' hl'
      obtain ⟨s', r1, r2, r3, r4⟩ := ih (-sign) x' a' s2 (by omega) hv2 hx'
        (by rw [hp2]; exact hl')
      exact ⟨s', by rw [r1, hp2], r2, by rw [r3, hp2], by rw [r4, hq2]⟩
    have hloop := phi_loop1_spec (phi_fuel fuel (-sign)) sign x a s.primes_ s.pi_ hrec
      (by omega) hxa (a + 1)
    by_cases hc2 : is_cached s1 x (max PhiTiny.max_a (min s1.max_a_cached_ a)) = true
    · rw [if_pos hc2, if_pos hc2]
      have hle : max PhiTiny.max_a (min s1.max_a_cached_ a) ≤ a := by
        apply max_le
        · show 6 ≤ a
          omega
        · exact min_le_right _ _
      apply hloop _ _ s1 (by omega) (by omega) (by omega) hv1 hp1 hq1
      rw [phi_cache_eq s1 x _ hv1 hc2, hp1, Nat.add_sub_cancel]
    · rw [if_neg hc2, if_neg hc2]
      apply hloop _ _ s1 (by
          show a + 2 ≤ a + 1 + (6 + 1)
          omega) (by omega) (by
          show 6 + 1 ≤ a + 1
          omega) hv1 hp1 hq1
      have h6 : PhiTiny.max_a + 1 - 1 = 6 := rfl
      rw [h6]
      have h6' : PhiTiny.max_a = 6 := rfl
      rw [h6', PhiTiny.phi_tiny_eq x 6 (le_refl _),
        phi_naive_tiny hv.primes x 6 (by omega) (le_refl _)]

end PhiCache

namespace PhiCache

/-- The constructor leaves a valid (possibly disabled) cache. -/
theorem valid_new (x a : Nat) (primes pi : List Nat) (hpt : IsPrimeTable primes)
    (hpi : IsPiTable pi) (hlen : 0 < primes.length) :
    Valid (new x a primes pi) ∧ (new x a primes pi).primes_ = primes ∧
      (new x a primes pi).pi_ = pi := by
  unfold new
  dsimp only
  by_cases h1 : min (a - min a 30) 100 ≤ PhiTiny.max_a
  · rw [if_pos h1]
    exact ⟨⟨hpt, hpi, Or.inl ⟨rfl, rfl, rfl⟩, le_refl _, Or.inl ⟨rfl, rfl⟩, hlen,
      fun t h6 h0 => absurd h0 (by
        show ¬ t ≤ 0
        omega)⟩, rfl, rfl⟩
  · rw [if_neg h1]
    have h6 : 6 < min (a - min a 30) 100 := by
      have : ¬ min (a - min a 30) 100 ≤ 6 := h1
      omega
    generalize hA : min (a - min a 30) 100 = A at h1 h6
    generalize hX : isqrt x = X
    by_cases h2 : ceil_div (min X (16 <<< 20 / (A - PhiTiny.max_a) *
        (240 / sizeof_sieve_t))) 240 < 8
    · rw [if_pos h2]
      exact ⟨⟨hpt, hpi, Or.inl ⟨rfl, rfl, rfl⟩, le_refl _, Or.inl ⟨rfl, rfl⟩, hlen,
        fun t h6 h0 => absurd h0 (by
          show ¬ t ≤ 0
          omega)⟩, rfl, rfl⟩
    · rw [if_neg h2]
      generalize hS : ceil_div (min X (16 <<< 20 / (A - PhiTiny.max_a) *
        (240 / sizeof_sieve_t))) 240 = S at h2
      have hS8 : 8 ≤ S := by omega
      have hbound : S * 64 < 2 ^ 32 := by
        rw [← hS]
        unfold ceil_div sizeof_sieve_t
        have hq : 16 <<< 20 / (A - PhiTiny.max_a) ≤ 16777216 := by
          have : (16 <<< 20 : Nat) = 16777216 := by decide
          rw [this]
          exact Nat.div_le_self _ _
        have hm : min X (16 <<< 20 / (A - PhiTiny.max_a) * (240 / 12)) ≤ 335544320 := by
          have : 16 <<< 20 / (A - PhiTiny.max_a) * (240 / 12) ≤ 16777216 * (240 / 12) :=
            Nat.mul_le_mul_right _ hq
          have h20 : 16777216 * (240 / 12) = 335544320 := by norm_num
          have := min_le_right X (16 <<< 20 / (A - PhiTiny.max_a) * (240 / 12))
          omega
        have hd : (min X (16 <<< 20 / (A - PhiTiny.max_a) * (240 / 12)) + 240 - 1) / 240 ≤
            (335544320 + 240 - 1) / 240 := Nat.div_le_div_right (by omega)
        have : (335544320 + 240 - 1) / 240 = 1398102 := by norm_num
        rw [this] at hd
        have : (2 : Nat) ^ 32 = 4294967296 := by norm_num
        omega
      exact ⟨⟨hpt, hpi, Or.inr ⟨h6, by
          show S * 240 - 1 + 1 = S * 240
          omega, hbound⟩, Nat.zero_le _, Or.inl ⟨rfl, rfl⟩, hlen,
        fun t h6 h0 => absurd h0 (by
          show ¬ t ≤ 0
          omega)⟩, rfl, rfl⟩

theorem phi_spec (sign : Int) (x a : Nat) (s : State) (hv : Valid s) (hx : 1 ≤ x)
    (hlen : a + 1 < s.primes_.length) :
    ∃ s', phi sign x a s = some (phi_naive s.primes_ x a * sign, s') ∧
      Valid s' ∧ s'.primes_ = s.primes_ ∧ s'.pi_ = s.pi_ :=
  phi_fuel_spec (a + 1) sign x a s (by omega) hv hx hlen

/-- C2 (amended): for all `1 ≤ x ≤ 10^6` and all `0 ≤ a ≤ π(√x) + 5`,
`PhiCache::phi<+1>(x, a)`, called on a newly constructed cache over a table
of primes that reaches `primes[a + 1]` and a correct pi-table, returns the
number of integers in `[1, x]` not divisible by any of the first `a`
primes. (Neither bound on `x` or `a` from above is needed.) -/
theorem phi_eq_phi_naive (primes pi : List Nat) (x₀ a₀ x a : Nat)
    (hpt : IsPrimeTable primes) (hpi : IsPiTable pi) (hx1 : 1 ≤ x) (_hx : x ≤ 10 ^ 6)
    (_ha : a ≤ Nat.primeCounting (Nat.sqrt x) + 5) (hlen : a + 1 < primes.length) :
    ∃ s', phi 1 x a (new x₀ a₀ primes pi) = some ((phi_naive primes x a : Int), s') := by
  obtain ⟨hv, hp, _⟩ := valid_new x₀ a₀ primes pi hpt hpi (by omega)
  obtain ⟨s', h1, _⟩ := phi_spec 1 x a (new x₀ a₀ primes pi) hv hx1 (by rw [hp]; exact hlen)
  refine ⟨s', ?_⟩
  rw [h1, hp, mul_one]

end PhiCache

namespace PhiCache

theorem isPrimeTable_small : IsPrimeTable [0, 2, 3, 5, 7, 11] := by
  refine ⟨rfl, ?_⟩
  intro i h1 h2
  have h3 : i < 6 := h2
  interval_cases i <;> exact ⟨by norm_num, by decide⟩

theorem isPiTable_small : IsPiTable [0, 0, 1, 2, 2, 3, 3, 4, 4, 4, 4] := by
  intro x hx
  have h3 : x < 11 := hx
  interval_cases x <;> decide

theorem phi_eq_phi_naive_witness :
    ∃ s', phi 1 100 3 (new 100 3 [0, 2, 3, 5, 7, 11] [0, 0, 1, 2, 2, 3, 3, 4, 4, 4, 4]) =
      some ((phi_naive [0, 2, 3, 5, 7, 11] 100 3 : Int), s') :=
  phi_eq_phi_naive [0, 2, 3, 5, 7, 11] [0, 0, 1, 2, 2, 3, 3, 4, 4, 4, 4] 100 3 100 3
    isPrimeTable_small isPiTable_small (by decide) (by norm_num) (by omega) (by decide)

/-- C2 as stated fails at `x = 0`: `phi<+1>(0, 0)` returns `SIGN = 1`
through its first branch (`x <= primes[a]`), while no integer lies in
`[1, 0]`, so that `φ(0, 0) = 0`. -/
theorem phi_zero_ne_phi_naive :
    (phi 1 0 0 (new 0 0 [0, 2, 3, 5, 7, 11] [0, 0, 1, 2, 2, 3, 3, 4, 4, 4, 4])).map Prod.fst
      = some 1 ∧
    phi_naive [0, 2, 3, 5, 7, 11] 0 0 = 0 := by
  constructor
  · rfl
  · decide

end PhiCache

/-! ### Pre-sieving -/

namespace Sieve

theorem coprime30_iff (n : Nat) : Nat.gcd n 30 = 1 ↔ ¬ 2 ∣ n ∧ ¬ 3 ∣ n ∧ ¬ 5 ∣ n := by
  have e : ∀ p : Nat, p.Prime → (Nat.Coprime n p ↔ ¬ p ∣ n) := fun p hp =>
    Nat.coprime_comm.trans (Nat.Prime.coprime_iff_not_dvd hp)
  show Nat.Coprime n (2 * (3 * 5)) ↔ _
  rw [Nat.coprime_mul_iff_right, Nat.coprime_mul_iff_right, e 2 Nat.prime_two,
    e 3 Nat.prime_three, e 5 Nat.prime_five]

theorem coprime30_position {start : Nat} (h30 : 30 ∣ start) (q j : Nat) (hj : j < 64) :
    Nat.gcd (start + 240 * q + bit_value j) 30 = 1 := by
  rw [coprime30_iff]
  obtain ⟨h2, h3, h5⟩ := bit_value_coprime j hj
  obtain ⟨t, rfl⟩ := h30
  refine ⟨?_, ?_, ?_⟩ <;> omega

theorem position_of_coprime30 {low : Nat} (h30 : 30 ∣ low) (len n : Nat) (h1 : low ≤ n)
    (h2 : n < low + 240 * len) (h3 : Nat.gcd n 30 = 1) :
    ∃ q j, q < len ∧ j < 64 ∧ n = low + 240 * q + bit_value j := by
  rw [coprime30_iff] at h3
  obtain ⟨d2, d3, d5⟩ := h3
  obtain ⟨t, rfl⟩ := h30
  obtain ⟨j, hj, hb⟩ := wheel_cover ((n - 30 * t) % 240) (Nat.mod_lt _ (by norm_num))
    (by omega) (by omega) (by omega)
  refine ⟨(n - 30 * t) / 240, j, ?_, hj, ?_⟩
  · rw [Nat.div_lt_iff_lt_mul (by norm_num)]
    omega
  · rw [hb]
    have := Nat.div_add_mod (n - 30 * t) 240
    omega

theorem getD_map_range_eq {α : Type} (f : Nat → α) (n q : Nat) (d : α) (h : q < n) :
    ((List.range n).map f).getD q d = f q := by
  rw [List.getD_eq_getElem?_getD, List.getElem?_map, List.getElem?_range h]
  rfl

theorem reset_sieve_bit (s : State) (low high q j : Nat) (hq : q < s.sieve64.length)
    (hj : j < 64) :
    ((reset_sieve s low high).sieve64.getD q 0).testBit j =
      decide (low + 240 * q + bit_value j ≤ high) := by
  show (((List.range s.sieve64.length).map _).getD q 0).testBit j = _
  rw [getD_map_range_eq _ _ _ _ hq, testBit_maskOf]
  simp [hj]

set_option maxRecDepth 1000000 in
theorem coprime_step_mod : ∀ a < 30, ∀ b < 30, Nat.gcd b 30 = 1 →
    ∃ t < 30, Nat.gcd (a + t * b) 30 = 1 := by
  decide

/-- Among 30 consecutive multiples of a number coprime to 30, one is
coprime to 30. -/
theorem coprime_step (a b : Nat) (hb : Nat.gcd b 30 = 1) :
    ∃ t < 30, Nat.gcd (a + t * b) 30 = 1 := by
  have hb' : Nat.gcd (b % 30) 30 = 1 := by
    rw [← hb]
    exact Nat.ModEq.gcd_eq (Nat.mod_mod _ _)
  obtain ⟨t, ht, h⟩ := coprime_step_mod (a % 30) (Nat.mod_lt _ (by norm_num)) (b % 30)
    (Nat.mod_lt _ (by norm_num)) hb'
  refine ⟨t, ht, ?_⟩
  rw [← h]
  apply Nat.ModEq.gcd_eq
  exact Nat.ModEq.add (Nat.mod_modEq _ _).symm
    (Nat.ModEq.mul_left t (Nat.mod_modEq _ _).symm)

theorem strike_combine (b : Bool) (P Q R : Prop) [Decidable P] [Decidable Q] [Decidable R]
    (h : R ↔ (P ∨ Q)) : ((b && !decide P) && !decide Q) = (b && !decide R) := by
  by_cases hP : P <;> by_cases hQ : Q <;> by_cases hR : R <;> simp [hP, hQ, hR] <;> tauto

theorem next_multiple_iff {prime start m : Nat} (pos : Nat) (hd : prime ∣ start + m) :
    (m ≤ pos ∧ prime ∣ start + pos) ↔ (pos = m ∨ (m + prime ≤ pos ∧ prime ∣ start + pos)) := by
  constructor
  · rintro ⟨h1, h2⟩
    rcases Nat.eq_or_lt_of_le h1 with h | h
    · exact Or.inl h.symm
    · right
      refine ⟨?_, h2⟩
      have h3 : prime ∣ (start + pos) - (start + m) := Nat.dvd_sub' h2 hd
      have h4 : prime ≤ (start + pos) - (start + m) := Nat.le_of_dvd (by omega) h3
      omega
  · rintro (h | ⟨h1, h2⟩)
    · subst h
      exact ⟨le_refl _, hd⟩
    · exact ⟨by omega, h2⟩

theorem position_eq_iff (q j m : Nat) (hj : j < 64) :
    240 * q + bit_value j = m ↔ (q = m / 240 ∧ bit_value j = m % 240) := by
  have := bit_value_lt j hj
  constructor
  · intro h
    subst h
    constructor <;> omega
  · rintro ⟨h1, h2⟩
    have := Nat.div_add_mod m 240
    omega

/-- Clearing the bit of offset `m` clears that bit and no other. -/
theorem strike_bit (sieve : List Nat) (m q j : Nat) (hm : m / 240 < sieve.length)
    (hj : j < 64) :
    ((sieve.set (m / 240)
        (sieve.getD (m / 240) 0 &&& BitSieve240.unset_bit_ (m % 240))).getD q 0).testBit j =
      ((sieve.getD q 0).testBit j && !decide (240 * q + bit_value j = m)) := by
  by_cases hq : q = m / 240
  · subst hq
    rw [PhiCache.getD_set_self _ _ _ _ hm, Nat.testBit_and]
    unfold BitSieve240.unset_bit_
    rw [testBit_maskOf]
    have e : decide (240 * (m / 240) + bit_value j = m) = decide (bit_value j = m % 240) := by
      apply decide_eq_decide.2
      rw [position_eq_iff _ _ _ hj]
      simp
    rw [e]
    simp [hj]
  · rw [PhiCache.getD_set_ne _ _ _ _ _ (Ne.symm hq)]
    have e : decide (240 * q + bit_value j = m) = false := by
      apply decide_eq_false
      rw [position_eq_iff _ _ _ hj]
      exact fun h => hq h.1
    rw [e]
    simp

/-- The striking loop ends when it has fuel for every multiple up to the
first one with a bit past the segment, clears exactly the bits of the
multiples of `prime` from offset `m` on, and returns the offset into the
next segment of the first multiple from `m` on that has a bit and lies past
the segment. -/
theorem sieve_cross_off_loop_spec (start prime : Nat) (h30 : 30 ∣ start) : ∀ (fuel m : Nat)
    (sieve : List Nat), prime ∣ start + m →
    (∃ k < fuel, 240 * sieve.length ≤ m + k * prime ∧
      Nat.gcd (start + (m + k * prime)) 30 = 1) →
    ∃ sieve' w, cross_off_loop fuel start prime m sieve = some (sieve', w) ∧
      sieve'.length = sieve.length ∧
      (∀ q j, q < sieve.length → j < 64 →
        (sieve'.getD q 0).testBit j = ((sieve.getD q 0).testBit j &&
          !decide (m ≤ 240 * q + bit_value j ∧ prime ∣ start + (240 * q + bit_value j)))) ∧
      (prime ∣ start + (240 * sieve.length + w) ∧
        Nat.gcd (start + (240 * sieve.length + w)) 30 = 1) ∧
      m ≤ 240 * sieve.length + w ∧
      ∀ pos, m ≤ pos → 240 * sieve.length ≤ pos → pos < 240 * sieve.length + w →
        ¬ (prime ∣ start + pos ∧ Nat.gcd (start + pos) 30 = 1) := by
  intro fuel
  induction fuel with
  | zero =>
    rintro m sieve _ ⟨k, hk, _⟩
    omega
  | succ fuel ih =>
    rintro m sieve hd ⟨k, hk, hks, hkc⟩
    rw [cross_off_loop]
    have hstep : ∀ k', k = k' + 1 → m + k * prime = (m + prime) + k' * prime := by
      intro k' e
      rw [e, Nat.succ_mul]
      omega
    by_cases hg : Nat.gcd (start + m) 30 = 1
    · rw [if_pos hg]
      by_cases hm : m < 240 * sieve.length
      · rw [if_pos hm]
        obtain ⟨k', rfl⟩ : ∃ k', k = k' + 1 := by
          rcases k with _ | k'
          · simp at hks; omega
          · exact ⟨k', rfl⟩
        rw [hstep k' rfl] at hks hkc
        have hlen : (sieve.set (m / 240)
            (sieve.getD (m / 240) 0 &&& BitSieve240.unset_bit_ (m % 240))).length =
            sieve.length := List.length_set _ _ _
        obtain ⟨sieve', w, e1, e2, e3, e4, e5, e6⟩ := ih (m + prime) _
          (by rw [← Nat.add_assoc]; exact Nat.dvd_add_self_right.2 hd)
          ⟨k', by omega, by rw [hlen]; exact hks, hkc⟩
        rw [hlen] at e4 e5 e6
        refine ⟨sieve', w, e1, e2.trans hlen, ?_, e4, by omega, ?_⟩
        · intro q j hq hj
          rw [e3 q j (by rw [hlen]; exact hq) hj,
            strike_bit sieve m q j (by rw [Nat.div_lt_iff_lt_mul (by norm_num)]; omega) hj]
          exact strike_combine _ _ _ _ (next_multiple_iff _ hd)
        · rintro pos h1 h2 h3 ⟨hd', hg'⟩
          rcases (next_multiple_iff pos hd).1 ⟨h1, hd'⟩ with h | ⟨h, _⟩
          · omega
          · exact e6 pos h h2 h3 ⟨hd', hg'⟩
      · rw [if_neg hm]
        have hw : 240 * sieve.length + (m - 240 * sieve.length) = m := by omega
        refine ⟨sieve, m - 240 * sieve.length, rfl, rfl, ?_, ?_, by omega, ?_⟩
        · intro q j hq hj
          have := bit_value_lt j hj
          have e : decide (m ≤ 240 * q + bit_value j ∧
              prime ∣ start + (240 * q + bit_value j)) = false :=
            decide_eq_false (fun h => by omega)
          rw [e]
          simp
        · rw [hw]
          exact ⟨hd, hg⟩
        · intro pos h1 _ h3
          omega
    · rw [if_neg hg]
      obtain ⟨k', rfl⟩ : ∃ k', k = k' + 1 := by
        rcases k with _ | k'
        · simp at hkc; exact absurd hkc hg
        · exact ⟨k', rfl⟩
      rw [hstep k' rfl] at hks hkc
      obtain ⟨sieve', w, e1, e2, e3, e4, e5, e6⟩ := ih (m + prime) sieve
        (by rw [← Nat.add_assoc]; exact Nat.dvd_add_self_right.2 hd)
        ⟨k', by omega, hks, hkc⟩
      refine ⟨sieve', w, e1, e2, ?_, e4, by omega, ?_⟩
      · intro q j hq hj
        rw [e3 q j hq hj]
        have hne : ¬ 240 * q + bit_value j = m := by
          intro h
          apply hg
          rw [← h, ← Nat.add_assoc]
          exact coprime30_position h30 q j hj
        have := strike_combine ((sieve.getD q 0).testBit j) _ _ _
          (next_multiple_iff (240 * q + bit_value j) hd)
        rw [← this, decide_eq_false hne]
        simp
      · rintro pos h1 h2 h3 ⟨hd', hg'⟩
        rcases (next_multiple_iff pos hd).1 ⟨h1, hd'⟩ with h | ⟨h, _⟩
        · rw [h] at hg'
          exact hg hg'
        · exact e6 pos h h2 h3 ⟨hd', hg'⟩

/-- The loop has enough fuel when `prime` is coprime to 30. -/
theorem cross_off_fuel (start prime m len : Nat) (hp : Nat.gcd prime 30 = 1) :
    ∃ k < 240 * len + 30, 240 * len ≤ m + k * prime ∧
      Nat.gcd (start + (m + k * prime)) 30 = 1 := by
  have hp0 : 0 < prime := by
    rcases Nat.eq_zero_or_pos prime with h | h
    · rw [h] at hp; simp at hp
    · exact h
  obtain ⟨t, ht, h⟩ := coprime_step (start + (m + 240 * len * prime)) prime hp
  refine ⟨240 * len + t, by omega, ?_, ?_⟩
  · have : 240 * len ≤ 240 * len * prime := Nat.le_mul_of_pos_right _ hp0
    rw [Nat.add_mul]
    omega
  · rw [← h, Nat.add_mul]
    congr 1
    omega

/-- The wheel entry of a prime is read from `wheel[i]` alone. -/
theorem WheelEntry.congr {s s' : State} {low prime i least : Nat}
    (h : s'.wheel_.getD i ⟨0, 0⟩ = s.wheel_.getD i ⟨0, 0⟩)
    (hw : WheelEntry s low prime i least) : WheelEntry s' low prime i least := by
  unfold WheelEntry at hw ⊢
  rw [h]
  exact hw

/-- One call `cross_off(prime, i)` in the segment that starts at
`s.start_`: the bits of the multiples of `prime` from `least` on are
cleared, and the wheel entry is left ready for the segment that follows. -/
theorem cross_off_spec (s : State) (prime i least : Nat) (h30 : 30 ∣ s.start_)
    (hw : WheelEntry s s.start_ prime i least) :
    ∃ s', cross_off s prime i = some s' ∧ s'.start_ = s.start_ ∧
      s'.sieve64.length = s.sieve64.length ∧
      (∀ k, k ≠ i → s'.wheel_.getD k ⟨0, 0⟩ = s.wheel_.getD k ⟨0, 0⟩) ∧
      (∀ q j, q < s.sieve64.length → j < 64 →
        (s'.sieve64.getD q 0).testBit j = ((s.sieve64.getD q 0).testBit j &&
          !decide (prime ∣ s.start_ + 240 * q + bit_value j ∧
            least ≤ s.start_ + 240 * q + bit_value j))) ∧
      WheelEntry s' (s.start_ + segment_size s) prime i least := by
  have hp : Nat.gcd prime 30 = 1 := Nat.Coprime.coprime_dvd_left hw.1.1 hw.1.2.1
  have hil : i < s.wheel_.length := by
    by_contra hcon
    have e : s.wheel_.getD i ⟨0, 0⟩ = ⟨0, 0⟩ :=
      List.getD_eq_default _ _ (by omega)
    have h1 := hw.1.2.1
    rw [e] at h1
    obtain ⟨t, ht⟩ := h30
    have h2 : Nat.gcd (s.start_ + 0) 30 = 30 := by
      rw [Nat.add_zero, ht]
      exact Nat.gcd_eq_right (Dvd.intro t rfl)
    have h3 : Nat.gcd (s.start_ + (⟨0, 0⟩ : Wheel).multiple) 30 = Nat.gcd (s.start_ + 0) 30 :=
      rfl
    omega
  obtain ⟨sieve', w, e1, e2, e3, e4, e5, e6⟩ := sieve_cross_off_loop_spec s.start_ prime h30
    (segment_size s + 30) (s.wheel_.getD i ⟨0, 0⟩).multiple s.sieve64 hw.1.1
    (cross_off_fuel _ _ _ _ hp)
  have hleast := hw.1.2.2
  refine ⟨{ s with
      sieve64 := sieve'
      wheel_ := s.wheel_.set i { s.wheel_.getD i ⟨0, 0⟩ with multiple := w } },
    by unfold cross_off; rw [e1], rfl, e2, ?_, ?_, ?_⟩
  · intro k hk
    exact PhiCache.getD_set_ne _ _ _ _ _ (Ne.symm hk)
  · intro q j hq hj
    show (sieve'.getD q 0).testBit j = _
    rw [e3 q j hq hj]
    congr 2
    apply decide_eq_decide.2
    rw [Nat.add_assoc]
    constructor
    · intro h
      exact ⟨h.2, by omega⟩
    · rintro ⟨hd, hl⟩
      refine ⟨?_, hd⟩
      by_contra hlt
      refine hw.2 (240 * q + bit_value j) (by omega) ⟨hd, ?_, hl⟩
      rw [← Nat.add_assoc]
      exact coprime30_position h30 q j hj
  · unfold WheelEntry
    show (prime ∣ s.start_ + segment_size s +
        ((s.wheel_.set i { s.wheel_.getD i ⟨0, 0⟩ with multiple := w }).getD i ⟨0, 0⟩).multiple ∧
      Nat.gcd (s.start_ + segment_size s +
        ((s.wheel_.set i { s.wheel_.getD i ⟨0, 0⟩ with multiple := w }).getD i
          ⟨0, 0⟩).multiple) 30 = 1 ∧
      least ≤ s.start_ + segment_size s +
        ((s.wheel_.set i { s.wheel_.getD i ⟨0, 0⟩ with multiple := w }).getD i
          ⟨0, 0⟩).multiple) ∧
      ∀ m < ((s.wheel_.set i { s.wheel_.getD i ⟨0, 0⟩ with multiple := w }).getD i
          ⟨0, 0⟩).multiple,
        ¬ (prime ∣ s.start_ + segment_size s + m ∧
          Nat.gcd (s.start_ + segment_size s + m) 30 = 1 ∧
          least ≤ s.start_ + segment_size s + m)
    rw [PhiCache.getD_set_self _ _ _ _ hil]
    show (prime ∣ s.start_ + segment_size s + w ∧
      Nat.gcd (s.start_ + segment_size s + w) 30 = 1 ∧
      least ≤ s.start_ + segment_size s + w) ∧
      ∀ m < w, ¬ (prime ∣ s.start_ + segment_size s + m ∧
        Nat.gcd (s.start_ + segment_size s + m) 30 = 1 ∧
        least ≤ s.start_ + segment_size s + m)
    unfold segment_size
    rw [Nat.add_assoc]
    refine ⟨⟨e4.1, e4.2, by omega⟩, ?_⟩
    intro m' hm'
    rw [Nat.add_assoc]
    by_cases hle : (s.wheel_.getD i ⟨0, 0⟩).multiple ≤ 240 * s.sieve64.length + m'
    · exact fun h => e6 _ hle (by omega) (by omega) ⟨h.1, h.2.1⟩
    · exact hw.2 _ (by omega)

/-- The calls `cross_off(primes[i], i)` for `i = k, …, k + n - 1`, the
striking of the multiples of `primes[i]` beginning at `least i`. -/
theorem cross_off_foldl (primes : List Nat) (least : Nat → Nat) (n : Nat) :
    ∀ (k : Nat) (s : State), 30 ∣ s.start_ →
    (∀ i, k ≤ i → i < k + n → WheelEntry s s.start_ (primes.getD i 0) i (least i)) →
    ∃ s', (List.range' k n).foldlM (fun s i => cross_off s (primes.getD i 0) i) s = some s' ∧
      s'.start_ = s.start_ ∧ s'.sieve64.length = s.sieve64.length ∧
      (∀ q j, q < s.sieve64.length → j < 64 →
        ((s'.sieve64.getD q 0).testBit j = true ↔
          ((s.sieve64.getD q 0).testBit j = true ∧
            ∀ i, k ≤ i → i < k + n →
              ¬ (primes.getD i 0 ∣ s.start_ + 240 * q + bit_value j ∧
                least i ≤ s.start_ + 240 * q + bit_value j)))) ∧
      (∀ i, i < k ∨ k + n ≤ i → s'.wheel_.getD i ⟨0, 0⟩ = s.wheel_.getD i ⟨0, 0⟩) ∧
      ∀ i, k ≤ i → i < k + n →
        WheelEntry s' (s.start_ + segment_size s) (primes.getD i 0) i (least i) := by
  induction n with
  | zero =>
    intro k s _ _
    refine ⟨s, rfl, rfl, rfl, ?_, fun _ _ => rfl, fun i h1 h2 => by omega⟩
    intro q j _ _
    constructor
    · intro h
      exact ⟨h, fun i h1 h2 => by omega⟩
    · exact fun h => h.1
  | succ n ih =>
    intro k s h30 hw
    obtain ⟨s1, c1, hst, hlen, hwh, hbit, hnext⟩ :=
      cross_off_spec s (primes.getD k 0) k (least k) h30 (hw k (le_refl k) (by omega))
    obtain ⟨s', e0, e1, e2, e3, e4, e5⟩ := ih (k + 1) s1 (by rw [hst]; exact h30) (by
      intro i h1 h2
      rw [hst]
      exact WheelEntry.congr (hwh i (by omega)) (hw i (by omega) (by omega)))
    have hseg : segment_size s1 = segment_size s := by
      unfold segment_size
      rw [hlen]
    rw [hst, hseg] at e5
    refine ⟨s', ?_, e1.trans hst, e2.trans hlen, ?_, ?_, ?_⟩
    · simp only [List.range', List.foldlM_cons, c1]
      exact e0
    · intro q j hq hj
      rw [e3 q j (by rw [hlen]; exact hq) hj, hbit q j hq hj, hst]
      simp only [Bool.and_eq_true, Bool.not_eq_true', decide_eq_false_iff_not]
      constructor
      · rintro ⟨⟨hb, hk⟩, hrest⟩
        refine ⟨hb, fun i h1 h2 => ?_⟩
        rcases Nat.eq_or_lt_of_le h1 with rfl | h1'
        · exact hk
        · exact hrest i h1' (by omega)
      · rintro ⟨hb, hall⟩
        exact ⟨⟨hb, hall k (le_refl k) (by omega)⟩,
          fun i h1 h2 => hall i (by omega) (by omega)⟩
    · intro i hi
      rw [e4 i (by omega), hwh i (by omega)]
    · intro i h1 h2
      rcases Nat.eq_or_lt_of_le h1 with rfl | h1'
      · exact WheelEntry.congr (e4 k (Or.inl (by omega))) hnext
      · exact e5 i h1' (by omega)

/-- The call `pre_sieve(primes, c, low, high)` with the striking of the
multiples of `primes[i]` beginning at `least i`: the bits left are those of
the integers of `[low, high]` coprime to 30 of which no `primes[i]`,
`4 ≤ i ≤ c`, has a multiple from `least i` on, and the wheel is ready for
the segment that follows. -/
theorem pre_sieve_spec (init_counter : State → Nat → Nat → State) (s : State)
    (primes : List Nat) (least : Nat → Nat) (c low high : Nat)
    (h30 : 30 ∣ low) (hhigh : high < low + segment_size s)
    (hw : ∀ i ∈ Finset.Icc (4 : Nat) c, WheelEntry s low (primes.getD i 0) i (least i))
    (hic : ∀ t lo hi, (init_counter t lo hi).sieve64 = t.sieve64 ∧
      (init_counter t lo hi).start_ = t.start_ ∧ (init_counter t lo hi).wheel_ = t.wheel_) :
    ∃ s', pre_sieve init_counter s primes c low high = some s' ∧
      (∀ n, is_set s' n ↔
        (low ≤ n ∧ n ≤ high ∧ Nat.gcd n 30 = 1 ∧
          ∀ i, 4 ≤ i → i ≤ c → ¬ (primes.getD i 0 ∣ n ∧ least i ≤ n))) ∧
      segment_size s' = segment_size s ∧
      ∀ i ∈ Finset.Icc (4 : Nat) c,
        WheelEntry s' (low + segment_size s) (primes.getD i 0) i (least i) := by
  have hrs : (reset_sieve s low high).start_ = low := rfl
  have hrl : (reset_sieve s low high).sieve64.length = s.sieve64.length := by
    show ((List.range s.sieve64.length).map _).length = _
    simp
  have hrseg : segment_size (reset_sieve s low high) = segment_size s := by
    unfold segment_size
    rw [hrl]
  obtain ⟨s1, e0, e1, e2, e3, _, e5⟩ :=
    cross_off_foldl primes least (c + 1 - 4) 4 (reset_sieve s low high)
      (by rw [hrs]; exact h30)
      (fun i h1 h2 => by
        rw [hrs]
        exact WheelEntry.congr rfl (hw i (Finset.mem_Icc.2 ⟨h1, by omega⟩)))
  rw [hrs] at e1 e3
  rw [hrl] at e2 e3
  rw [hrs, hrseg] at e5
  refine ⟨init_counter s1 low high, by unfold pre_sieve; rw [e0]; rfl, ?_, ?_, ?_⟩
  · intro n
    unfold is_set
    rw [(hic s1 low high).1, (hic s1 low high).2.1, e1, e2]
    constructor
    · rintro ⟨q, j, hq, hj, rfl, hb⟩
      rw [e3 q j hq hj, reset_sieve_bit s low high q j hq hj] at hb
      obtain ⟨hb1, hb2⟩ := hb
      exact ⟨by omega, of_decide_eq_true hb1, coprime30_position h30 q j hj,
        fun i h1 h2 => hb2 i h1 (by omega)⟩
    · rintro ⟨h1, h2, h3, h4⟩
      obtain ⟨q, j, hq, hj, rfl⟩ := position_of_coprime30 h30 s.sieve64.length n h1
        (by unfold segment_size at hhigh; omega) h3
      refine ⟨q, j, hq, hj, rfl, ?_⟩
      rw [e3 q j hq hj, reset_sieve_bit s low high q j hq hj]
      exact ⟨decide_eq_true h2, fun i hi1 hi2 => h4 i hi1 (by omega)⟩
  · unfold segment_size
    rw [(hic s1 low high).1, e2]
  · intro i hi
    obtain ⟨h1, h2⟩ := Finset.mem_Icc.1 hi
    refine WheelEntry.congr ?_ (e5 i h1 (by omega))
    rw [(hic s1 low high).2.2]

theorem coprime_prod_iff {primes : List Nat} (hpt : IsPrimeTable primes) {c : Nat}
    (hc : c < primes.length) (n : Nat) :
    Nat.gcd n (∏ i in Finset.Icc 1 c, primes.getD i 0) = 1 ↔
      ∀ i, 1 ≤ i → i ≤ c → ¬ primes.getD i 0 ∣ n := by
  show Nat.Coprime n _ ↔ _
  rw [Nat.coprime_prod_right_iff]
  constructor
  · intro h i h1 h2
    exact (Nat.Prime.coprime_iff_not_dvd (hpt.prime h1 (by omega))).1
      (h i (Finset.mem_Icc.2 ⟨h1, h2⟩)).symm
  · intro h i hi
    obtain ⟨h1, h2⟩ := Finset.mem_Icc.1 hi
    exact ((Nat.Prime.coprime_iff_not_dvd (hpt.prime h1 (by omega))).2 (h i h1 h2)).symm

theorem tiny_prime_dvd_30 {primes : List Nat} (hpt : IsPrimeTable primes) {i : Nat}
    (h1 : 1 ≤ i) (h2 : i ≤ 3) (h3 : i < primes.length) :
    primes.getD i 0 = 2 ∨ primes.getD i 0 = 3 ∨ primes.getD i 0 = 5 := by
  rw [hpt.getD_tiny h3 (by omega)]
  interval_cases i
  · exact Or.inl rfl
  · exact Or.inr (Or.inl rfl)
  · exact Or.inr (Or.inr rfl)

/-- An integer coprime to 30 that is a multiple of one of `primes[4..c]`
and is not one of these primes is a multiple of one of them from its square
on: of its least prime factor. -/
theorem struck_from_square {primes : List Nat} (hpt : IsPrimeTable primes) {c : Nat}
    (hc : c < primes.length) (n i : Nat) (hco : Nat.gcd n 30 = 1) (h4 : 4 ≤ i) (hi : i ≤ c)
    (hd : primes.getD i 0 ∣ n) (hne : n ≠ primes.getD i 0) :
    ∃ j, 4 ≤ j ∧ j ≤ c ∧ primes.getD j 0 ∣ n ∧ primes.getD j 0 * primes.getD j 0 ≤ n := by
  have hpi := hpt.prime (by omega : 1 ≤ i) (by omega : i < primes.length)
  have hn0 : 0 < n := by
    rcases Nat.eq_zero_or_pos n with h | h
    · rw [h] at hco
      exact absurd hco (by decide)
    · exact h
  have hn1 : n ≠ 1 := by
    intro h
    rw [h] at hd
    exact hpi.one_lt.ne' (Nat.dvd_one.1 hd)
  have hnp : ¬ n.Prime := by
    intro hp
    rcases (Nat.dvd_prime hp).1 hd with h | h
    · exact hpi.one_lt.ne' h
    · exact hne h.symm
  have hq := Nat.minFac_prime hn1
  have hqd := Nat.minFac_dvd n
  have hqle : n.minFac ≤ primes.getD i 0 := Nat.minFac_le_of_dvd hpi.two_le hd
  have hsq : n.minFac ^ 2 ≤ n := Nat.minFac_sq_le_self hn0 hnp
  obtain ⟨j, hj1, hj2, hj3⟩ := hpt.mem_of_le hq (by omega : i < primes.length) hqle
  refine ⟨j, ?_, by omega, by rw [hj3]; exact hqd, by rw [hj3, ← sq]; exact hsq⟩
  by_contra hcon
  rw [coprime30_iff] at hco
  rcases tiny_prime_dvd_30 hpt hj1 (by omega) (by omega) with h | h | h <;>
    rw [hj3] at h <;> rw [h] at hqd
  · exact hco.1 hqd
  · exact hco.2.1 hqd
  · exact hco.2.2 hqd

/-- C6: `pre_sieve(primes, c, low, high)` returns, and afterwards the set
bits of the sieve are exactly the integers `n` of `[low, high]` with
`gcd(n, 30) = 1` and `gcd(n, primes[1] * ... * primes[c]) = 1`. This holds
for a segment that starts at a multiple `low` of 30 and reaches `high`, for
every `init_counter` that leaves the bit array, the segment origin and the
wheel in place, and with the wheel entries of `primes[4..c]` ready for that
segment: at the first multiple of the prime in the segment, the prime
itself included, or, when none of `primes[4..c]` lies in `[low, high]`, at
the first multiple from the square of the prime on. The call leaves the
size of the segment as it was and the wheel entries ready, in the same
sense, for the segment that starts at `low + segment_size`, so that the
same holds for the call on the next segment, and so on from segment to
segment. -/
theorem pre_sieve_set_bits (init_counter : State → Nat → Nat → State) (s : State)
    (primes : List Nat) (c low high : Nat)
    (hpt : IsPrimeTable primes) (hc : c < primes.length)
    (h30 : 30 ∣ low) (hhigh : high < low + segment_size s)
    (hw : WheelReady s primes c low ∨
      (WheelReadyFromSquares s primes c low ∧
        ∀ i ∈ Finset.Icc (4 : Nat) c, primes.getD i 0 < low ∨ high < primes.getD i 0))
    (hic : ∀ t lo hi, (init_counter t lo hi).sieve64 = t.sieve64 ∧
      (init_counter t lo hi).start_ = t.start_ ∧ (init_counter t lo hi).wheel_ = t.wheel_) :
    ∃ s', pre_sieve init_counter s primes c low high = some s' ∧
      (∀ n, is_set s' n ↔
        (low ≤ n ∧ n ≤ high ∧ Nat.gcd n 30 = 1 ∧
          Nat.gcd n (∏ i in Finset.Icc 1 c, primes.getD i 0) = 1)) ∧
      segment_size s' = segment_size s ∧
      (WheelReady s primes c low → WheelReady s' primes c (low + segment_size s)) ∧
      (WheelReadyFromSquares s primes c low →
        WheelReadyFromSquares s' primes c (low + segment_size s)) := by
  have htiny : ∀ n, Nat.gcd n 30 = 1 → ∀ i, 1 ≤ i → i ≤ c → ¬ 4 ≤ i →
      ¬ primes.getD i 0 ∣ n := by
    intro n hco i h1 h2 h4
    rw [coprime30_iff] at hco
    rcases tiny_prime_dvd_30 hpt h1 (by omega) (by omega) with h | h | h <;> rw [h]
    · exact hco.1
    · exact hco.2.1
    · exact hco.2.2
  have hbits : ∃ s', pre_sieve init_counter s primes c low high = some s' ∧
      (∀ n, is_set s' n ↔
        (low ≤ n ∧ n ≤ high ∧ Nat.gcd n 30 = 1 ∧
          Nat.gcd n (∏ i in Finset.Icc 1 c, primes.getD i 0) = 1)) ∧
      segment_size s' = segment_size s := by
    rcases hw with hw | ⟨hw, hno⟩
    · obtain ⟨s', e1, e2, e3, _⟩ := pre_sieve_spec init_counter s primes
        (fun i => primes.getD i 0) c low high h30 hhigh hw hic
      refine ⟨s', e1, fun n => ?_, e3⟩
      rw [e2 n, coprime_prod_iff hpt hc]
      constructor
      · rintro ⟨h1, h2, h3, h4⟩
        refine ⟨h1, h2, h3, fun i hi1 hi2 hd => ?_⟩
        by_cases h : 4 ≤ i
        · refine h4 i h hi2 ⟨hd, Nat.le_of_dvd ?_ hd⟩
          rcases Nat.eq_zero_or_pos n with h0 | h0
          · rw [h0] at h3
            exact absurd h3 (by decide)
          · exact h0
        · exact htiny n h3 i hi1 hi2 h hd
      · rintro ⟨h1, h2, h3, h4⟩
        exact ⟨h1, h2, h3, fun i hi1 hi2 h => h4 i (by omega) hi2 h.1⟩
    · obtain ⟨s', e1, e2, e3, _⟩ := pre_sieve_spec init_counter s primes
        (fun i => primes.getD i 0 * primes.getD i 0) c low high h30 hhigh hw hic
      refine ⟨s', e1, fun n => ?_, e3⟩
      rw [e2 n, coprime_prod_iff hpt hc]
      constructor
      · rintro ⟨h1, h2, h3, h4⟩
        refine ⟨h1, h2, h3, fun i hi1 hi2 hd => ?_⟩
        by_cases h : 4 ≤ i
        · have hne : n ≠ primes.getD i 0 := by
            rcases hno i (Finset.mem_Icc.2 ⟨h, hi2⟩) with h5 | h5 <;> omega
          obtain ⟨j, hj1, hj2, hj3, hj4⟩ := struck_from_square hpt hc n i h3 h hi2 hd hne
          exact h4 j hj1 hj2 ⟨hj3, hj4⟩
        · exact htiny n h3 i hi1 hi2 h hd
      · rintro ⟨h1, h2, h3, h4⟩
        exact ⟨h1, h2, h3, fun i hi1 hi2 h => h4 i (by omega) hi2 h.1⟩
  obtain ⟨s', e1, e2, e3⟩ := hbits
  refine ⟨s', e1, e2, e3, ?_, ?_⟩
  · intro h
    obtain ⟨t, f1, _, _, f4⟩ := pre_sieve_spec init_counter s primes
      (fun i => primes.getD i 0) c low high h30 hhigh h hic
    rw [e1] at f1
    rw [Option.some.inj f1]
    exact f4
  · intro h
    obtain ⟨t, f1, _, _, f4⟩ := pre_sieve_spec init_counter s primes
      (fun i => primes.getD i 0 * primes.getD i 0) c low high h30 hhigh h hic
    rw [e1] at f1
    rw [Option.some.inj f1]
    exact f4

theorem wheelReady_example :
    WheelReady ⟨0, 0, 0, 0, [0], [⟨0, 0⟩, ⟨0, 0⟩, ⟨0, 0⟩, ⟨0, 0⟩, ⟨7, 0⟩, ⟨11, 0⟩],
      ⟨0, 0, 0, 0, 0, []⟩⟩ [0, 2, 3, 5, 7, 11] 5 0 := by
  unfold WheelReady WheelEntry
  decide

/-- The first segment `[0, 239]` pre-sieved with 7 and 11: the state that
the call leaves behind, with the wheel at `240 + 19 = 7 * 37` and
`240 + 13 = 11 * 23`. -/
theorem pre_sieve_first_example :
    pre_sieve (fun t _ _ => { t with prev_stop_ := 0, count_ := 0 })
      ⟨0, 0, 0, 0, [0], [⟨0, 0⟩, ⟨0, 0⟩, ⟨0, 0⟩, ⟨0, 0⟩, ⟨7, 0⟩, ⟨11, 0⟩],
        ⟨0, 0, 0, 0, 0, []⟩⟩ [0, 2, 3, 5, 7, 11] 5 0 239 =
      some ⟨0, 0, 0, 0, [18248018026407387129],
        [⟨0, 0⟩, ⟨0, 0⟩, ⟨0, 0⟩, ⟨0, 0⟩, ⟨19, 0⟩, ⟨13, 0⟩], ⟨0, 0, 0, 0, 0, []⟩⟩ := by
  rfl

theorem wheelReady_next_example :
    WheelReady ⟨0, 0, 0, 0, [18248018026407387129],
      [⟨0, 0⟩, ⟨0, 0⟩, ⟨0, 0⟩, ⟨0, 0⟩, ⟨19, 0⟩, ⟨13, 0⟩], ⟨0, 0, 0, 0, 0, []⟩⟩
      [0, 2, 3, 5, 7, 11] 5 240 := by
  unfold WheelReady WheelEntry
  decide

theorem wheelReadyFromSquares_example :
    WheelReadyFromSquares ⟨0, 0, 0, 0, [0],
      [⟨0, 0⟩, ⟨0, 0⟩, ⟨0, 0⟩, ⟨0, 0⟩, ⟨19, 0⟩, ⟨91, 0⟩], ⟨0, 0, 0, 0, 0, []⟩⟩
      [0, 2, 3, 5, 7, 11] 5 30 := by
  unfold WheelReadyFromSquares WheelEntry
  decide

theorem pre_sieve_set_bits_witness :
    IsPrimeTable [0, 2, 3, 5, 7, 11] ∧
    (∃ s', pre_sieve (fun t _ _ => { t with prev_stop_ := 0, count_ := 0 })
      ⟨0, 0, 0, 0, [0], [⟨0, 0⟩, ⟨0, 0⟩, ⟨0, 0⟩, ⟨0, 0⟩, ⟨7, 0⟩, ⟨11, 0⟩],
        ⟨0, 0, 0, 0, 0, []⟩⟩ [0, 2, 3, 5, 7, 11] 5 0 239 = some s' ∧
      (∀ n, is_set s' n ↔
        (0 ≤ n ∧ n ≤ 239 ∧ Nat.gcd n 30 = 1 ∧
          Nat.gcd n (∏ i in Finset.Icc 1 5, [0, 2, 3, 5, 7, 11].getD i 0) = 1))) ∧
    (∃ s', pre_sieve (fun t _ _ => { t with prev_stop_ := 0, count_ := 0 })
      ⟨0, 0, 0, 0, [18248018026407387129],
        [⟨0, 0⟩, ⟨0, 0⟩, ⟨0, 0⟩, ⟨0, 0⟩, ⟨19, 0⟩, ⟨13, 0⟩], ⟨0, 0, 0, 0, 0, []⟩⟩
        [0, 2, 3, 5, 7, 11] 5 240 400 = some s' ∧
      (∀ n, is_set s' n ↔
        (240 ≤ n ∧ n ≤ 400 ∧ Nat.gcd n 30 = 1 ∧
          Nat.gcd n (∏ i in Finset.Icc 1 5, [0, 2, 3, 5, 7, 11].getD i 0) = 1))) ∧
    (∃ s', pre_sieve (fun t _ _ => { t with prev_stop_ := 0, count_ := 0 })
      ⟨0, 0, 0, 0, [0], [⟨0, 0⟩, ⟨0, 0⟩, ⟨0, 0⟩, ⟨0, 0⟩, ⟨19, 0⟩, ⟨91, 0⟩],
        ⟨0, 0, 0, 0, 0, []⟩⟩ [0, 2, 3, 5, 7, 11] 5 30 269 = some s' ∧
      (∀ n, is_set s' n ↔
        (30 ≤ n ∧ n ≤ 269 ∧ Nat.gcd n 30 = 1 ∧
          Nat.gcd n (∏ i in Finset.Icc 1 5, [0, 2, 3, 5, 7, 11].getD i 0) = 1))) :=
  have h1 := pre_sieve_set_bits (fun t _ _ => { t with prev_stop_ := 0, count_ := 0 })
    ⟨0, 0, 0, 0, [0], [⟨0, 0⟩, ⟨0, 0⟩, ⟨0, 0⟩, ⟨0, 0⟩, ⟨7, 0⟩, ⟨11, 0⟩], ⟨0, 0, 0, 0, 0, []⟩⟩
    [0, 2, 3, 5, 7, 11] 5 0 239 PhiCache.isPrimeTable_small (by decide) (by decide)
    (by decide) (Or.inl wheelReady_example) (fun _ _ _ => ⟨rfl, rfl, rfl⟩)
  have h2 := pre_sieve_set_bits (fun t _ _ => { t with prev_stop_ := 0, count_ := 0 })
    ⟨0, 0, 0, 0, [18248018026407387129],
      [⟨0, 0⟩, ⟨0, 0⟩, ⟨0, 0⟩, ⟨0, 0⟩, ⟨19, 0⟩, ⟨13, 0⟩], ⟨0, 0, 0, 0, 0, []⟩⟩
    [0, 2, 3, 5, 7, 11] 5 240 400 PhiCache.isPrimeTable_small (by decide) (by decide)
    (by decide) (Or.inl wheelReady_next_example) (fun _ _ _ => ⟨rfl, rfl, rfl⟩)
  have h3 := pre_sieve_set_bits (fun t _ _ => { t with prev_stop_ := 0, count_ := 0 })
    ⟨0, 0, 0, 0, [0], [⟨0, 0⟩, ⟨0, 0⟩, ⟨0, 0⟩, ⟨0, 0⟩, ⟨19, 0⟩, ⟨91, 0⟩], ⟨0, 0, 0, 0, 0, []⟩⟩
    [0, 2, 3, 5, 7, 11] 5 30 269 PhiCache.isPrimeTable_small (by decide) (by decide)
    (by decide) (Or.inr ⟨wheelReadyFromSquares_example, by decide⟩)
    (fun _ _ _ => ⟨rfl, rfl, rfl⟩)
  ⟨PhiCache.isPrimeTable_small,
    match h1 with | ⟨s', e1, e2, _⟩ => ⟨s', e1, e2⟩,
    match h2 with | ⟨s', e1, e2, _⟩ => ⟨s', e1, e2⟩,
    match h3 with | ⟨s', e1, e2, _⟩ => ⟨s', e1, e2⟩⟩

/-- What the wheel entries decide. With the entries of 7 and 11 at their
squares 49 and 121 on the segment `[0, 239]`, which contains 7 and 11, the
call clears the same bits but for those of 7 and 11 themselves, which stay
set, and it leaves the same wheel behind: the two states differ in the bits
of the sieving primes of the segment and in nothing else. -/
theorem pre_sieve_from_squares_example :
    WheelReadyFromSquares ⟨0, 0, 0, 0, [0],
      [⟨0, 0⟩, ⟨0, 0⟩, ⟨0, 0⟩, ⟨0, 0⟩, ⟨49, 0⟩, ⟨121, 0⟩], ⟨0, 0, 0, 0, 0, []⟩⟩
      [0, 2, 3, 5, 7, 11] 5 0 ∧
    pre_sieve (fun t _ _ => { t with prev_stop_ := 0, count_ := 0 })
      ⟨0, 0, 0, 0, [0], [⟨0, 0⟩, ⟨0, 0⟩, ⟨0, 0⟩, ⟨0, 0⟩, ⟨49, 0⟩, ⟨121, 0⟩],
        ⟨0, 0, 0, 0, 0, []⟩⟩ [0, 2, 3, 5, 7, 11] 5 0 239 =
      some ⟨0, 0, 0, 0, [18248018026407387135],
        [⟨0, 0⟩, ⟨0, 0⟩, ⟨0, 0⟩, ⟨0, 0⟩, ⟨19, 0⟩, ⟨13, 0⟩], ⟨0, 0, 0, 0, 0, []⟩⟩ ∧
    is_set ⟨0, 0, 0, 0, [18248018026407387135],
      [⟨0, 0⟩, ⟨0, 0⟩, ⟨0, 0⟩, ⟨0, 0⟩, ⟨19, 0⟩, ⟨13, 0⟩], ⟨0, 0, 0, 0, 0, []⟩⟩ 7 ∧
    is_set ⟨0, 0, 0, 0, [18248018026407387135],
      [⟨0, 0⟩, ⟨0, 0⟩, ⟨0, 0⟩, ⟨0, 0⟩, ⟨19, 0⟩, ⟨13, 0⟩], ⟨0, 0, 0, 0, 0, []⟩⟩ 11 ∧
    18248018026407387135 = 18248018026407387129 + 2 ^ 1 + 2 ^ 2 := by
  refine ⟨?_, by rfl, ⟨0, 1, by decide, by decide, by decide, by decide⟩,
    ⟨0, 2, by decide, by decide, by decide, by decide⟩, by decide⟩
  unfold WheelReadyFromSquares WheelEntry
  decide

end Sieve

/-! ### `phi_vector` -/

theorem primeCounting_lt_of_lt_prime {primes : List Nat} (h : IsPrimeTable primes)
    (x a : Nat) (ha1 : 1 ≤ a) (ha : a < primes.length) (hx : x < primes.getD a 0) :
    Nat.primeCounting x < a := by
  have h1 := primeCounting_prime (h.prime ha1 ha)
  rw [h.count ha1 ha] at h1
  have h2 : Nat.primeCounting x ≤ Nat.count Nat.Prime (primes.getD a 0) := by
    unfold Nat.primeCounting Nat.primeCounting'
    exact Nat.count_monotone _ (by omega)
  omega

/-- Every prime `≤ x` is among the first `π(x)` primes of the table. -/
theorem IsPrimeTable.mem_of_le_primeCounting {primes : List Nat} (h : IsPrimeTable primes)
    (x q : Nat) (hlen : Nat.primeCounting x < primes.length) (hq : q.Prime) (hqx : q ≤ x) :
    ∃ i, 1 ≤ i ∧ i ≤ Nat.primeCounting x ∧ primes.getD i 0 = q := by
  have h1 : 1 ≤ Nat.primeCounting q := primeCounting_pos_of_prime_le hq (le_refl _)
  have h2 : Nat.primeCounting q ≤ Nat.primeCounting x := Nat.monotone_primeCounting hqx
  exact ⟨Nat.primeCounting q, h1, h2,
    prime_eq_of_primeCounting_eq (h.prime h1 (by omega)) hq (h.count h1 (by omega))⟩

theorem IsPrimeTable.le_of_primeCounting {primes : List Nat} (h : IsPrimeTable primes)
    (x : Nat) (hlen : Nat.primeCounting x < primes.length) (h1 : 1 ≤ Nat.primeCounting x) :
    primes.getD (Nat.primeCounting x) 0 ≤ x := by
  by_contra hcon
  have := primeCounting_lt_of_lt_prime h x (Nat.primeCounting x) h1 hlen (by omega)
  omega

theorem phi_naive_zero_left (primes : List Nat) (a : Nat) : phi_naive primes 0 a = 0 := by
  unfold phi_naive
  simp

/-- Once all primes `≤ x` are removed, `φ(x, t)` is `x > 0`. -/
theorem phi_naive_beyond {primes : List Nat} (h : IsPrimeTable primes) (x t : Nat)
    (hlen : Nat.primeCounting x < primes.length) (ht : Nat.primeCounting x ≤ t) :
    (phi_naive primes x t : Int) = if x > 0 then 1 else 0 := by
  rcases Nat.eq_zero_or_pos x with h0 | h0
  · subst h0
    rw [phi_naive_zero_left]
    simp
  · rw [if_pos h0, phi_naive_eq_one h x t h0]
    · rfl
    · intro q hq hqx
      obtain ⟨i, h1, h2, h3⟩ := h.mem_of_le_primeCounting x q hlen hq hqx
      exact ⟨i, h1, by omega, h3⟩

theorem getD_set_int (l : List Int) (i t : Nat) (v : Int) :
    (l.set i v).getD t 0 = if t = i ∧ i < l.length then v else l.getD t 0 := by
  by_cases hti : t = i
  · subst hti
    by_cases hl : t < l.length
    · rw [if_pos ⟨rfl, hl⟩, List.getD_eq_getElem?_getD, List.getElem?_set_self hl]
      rfl
    · rw [if_neg (fun h => hl h.2), List.getD_eq_default _ _ (by simp; omega),
        List.getD_eq_default _ _ (by omega)]
  · rw [if_neg (fun h => hti h.1), List.getD_eq_getElem?_getD,
      List.getElem?_set_ne (Ne.symm hti), ← List.getD_eq_getElem?_getD]

/-- The third loop of `phi_vector` writes the constant to `[i, i + n)`. -/
theorem foldl_set_const (c : Int) :
    ∀ (n i : Nat) (phi : List Int),
      ((List.range' i n).foldl (fun phi t => phi.set t c) phi).length = phi.length ∧
      ∀ t, ((List.range' i n).foldl (fun phi t => phi.set t c) phi).getD t 0 =
        if i ≤ t ∧ t < i + n ∧ t < phi.length then c else phi.getD t 0 := by
  intro n
  induction n with
  | zero =>
    intro i phi
    refine ⟨rfl, fun t => ?_⟩
    rw [if_neg (by omega)]
    rfl
  | succ n ih =>
    intro i phi
    rw [List.range'_succ, List.foldl_cons]
    obtain ⟨h1, h2⟩ := ih (i + 1) (phi.set i c)
    refine ⟨by rw [h1]; simp, fun t => ?_⟩
    rw [h2 t, getD_set_int, List.length_set]
    by_cases hc1 : i + 1 ≤ t ∧ t < i + 1 + n ∧ t < phi.length
    · rw [if_pos hc1, if_pos ⟨by omega, by omega, hc1.2.2⟩]
    · rw [if_neg hc1]
      by_cases hc2 : t = i ∧ i < phi.length
      · rw [if_pos hc2, if_pos ⟨by omega, by omega, by omega⟩]
      · rw [if_neg hc2, if_neg (by omega)]

/-- The second loop of `phi_vector` counts down from `phi[i - 1]`. -/
theorem foldl_set_prev (c : Int) :
    ∀ (n i : Nat) (phi : List Int), 1 ≤ i → i + n ≤ phi.length →
      ((List.range' i n).foldl
        (fun phi t => phi.set t (phi.getD (t - 1) 0 - c)) phi).length = phi.length ∧
      (∀ t, t < i → ((List.range' i n).foldl
        (fun phi t => phi.set t (phi.getD (t - 1) 0 - c)) phi).getD t 0 = phi.getD t 0) ∧
      (∀ m, m < n → ((List.range' i n).foldl
        (fun phi t => phi.set t (phi.getD (t - 1) 0 - c)) phi).getD (i + m) 0 =
          phi.getD (i - 1) 0 - (m + 1) * c) ∧
      (∀ t, i + n ≤ t → ((List.range' i n).foldl
        (fun phi t => phi.set t (phi.getD (t - 1) 0 - c)) phi).getD t 0 = phi.getD t 0) := by
  intro n
  induction n with
  | zero =>
    intro i phi _ _
    exact ⟨rfl, fun _ _ => rfl, fun m hm => absurd hm (by omega), fun _ _ => rfl⟩
  | succ n ih =>
    intro i phi hi hlen
    rw [List.range'_succ, List.foldl_cons]
    obtain ⟨h1, h2, h3, h4⟩ := ih (i + 1) (phi.set i (phi.getD (i - 1) 0 - c)) (by omega)
      (by simp; omega)
    refine ⟨by rw [h1]; simp, ?_, ?_, ?_⟩
    · intro t ht
      rw [h2 t (by omega), getD_set_int, if_neg (by omega)]
    · intro m hm
      cases m with
      | zero =>
        have hz : i + 0 = i := rfl
        rw [hz, h2 i (by omega), getD_set_int, if_pos ⟨rfl, by omega⟩]
        simp
      | succ m =>
        have : i + (m + 1) = i + 1 + m := by omega
        rw [this, h3 m (by omega), Nat.add_sub_cancel, getD_set_int,
          if_pos ⟨rfl, by omega⟩]
        push_cast
        ring
    · intro t ht
      rw [h4 t (by omega), getD_set_int, if_neg (by omega)]

theorem phi_vector_loop1_spec (x a a' : Nat) (primes : List Nat)
    (hpt : IsPrimeTable primes) (ha' : a' ≤ a) (ha : a < primes.length)
    (hxa : a' = 0 ∨ primes.getD a' 0 ≤ x)
    (hbeyond : ∀ t, a' ≤ t → t < a →
      (phi_naive primes x t : Int) = if x > 0 then 1 else 0) :
    ∀ (n i : Nat) (cache : PhiCache.State) (phi : List Int),
      1 ≤ n → (i ≤ a' → a' + 2 ≤ n + i) → 2 ≤ i → i ≤ a + 1 →
      PhiCache.Valid cache → cache.primes_ = primes →
      phi.length = a + 1 → phi.getD 0 0 = 0 →
      (∀ t, 1 ≤ t → t < i → phi.getD t 0 = (phi_naive primes x (t - 1) : Int)) →
      ∃ v, phi_vector_loop1 x a' (a + 1) (isqrt x) primes n i cache phi = some v ∧
        v.length = a + 1 ∧ v.getD 0 0 = 0 ∧
        ∀ t, 1 ≤ t → t ≤ a → v.getD t 0 = (phi_naive primes x (t - 1) : Int) := by
  intro n
  induction n with
  | zero => intro i cache phi h; omega
  | succ n ih =>
    intro i cache phi _ hfuel hi hia1 hv hp hlen h0 hfilled
    rw [phi_vector_loop1]
    by_cases hc : i ≤ a' ∧ primes.getD (i - 1) 0 ≤ isqrt x
    · rw [if_pos hc]
      obtain ⟨hia, hsq⟩ := hc
      rw [PhiCache.le_isqrt_iff] at hsq
      have hppos := (hpt.prime (by omega : 1 ≤ i - 1) (by omega)).pos
      have hp2 := (hpt.prime (by omega : 1 ≤ i - 1) (by omega)).two_le
      have hxp : 1 ≤ x / primes.getD (i - 1) 0 := by
        rw [Nat.one_le_div_iff hppos]
        have : primes.getD (i - 1) 0 * 1 ≤ primes.getD (i - 1) 0 * primes.getD (i - 1) 0 :=
          Nat.mul_le_mul_left _ (by omega)
        omega
      obtain ⟨cache', hr, hv', hp', -⟩ := PhiCache.phi_spec (-1)
        (x / primes.getD (i - 1) 0) (i - 2) cache hv hxp (by rw [hp]; omega)
      rw [hr]
      dsimp only
      have hfu := hfuel hia
      apply ih (i + 1) cache' _ (by omega) (fun _ => by omega) (by omega) (by omega) hv'
        (by rw [hp', hp]) (by simp [hlen])
      · rw [getD_set_int, if_neg (by omega)]
        exact h0
      · intro t ht1 hti
        rw [getD_set_int]
        by_cases hte : t = i
        · rw [if_pos ⟨hte, by omega⟩, hfilled (i - 1) (by omega) (by omega), hp, hte]
          have hstep := PhiCache.phi_naive_step_int hpt x (i - 1) (by omega) (by omega)
          have h2 : i - 1 - 1 = i - 2 := by omega
          rw [h2] at hstep ⊢
          rw [← hstep]
          ring
        · rw [if_neg (fun h => hte h.1)]
          exact hfilled t ht1 (by omega)
    · rw [if_neg hc]
      dsimp only
      -- the second loop
      obtain ⟨l1, l2, l3, l4⟩ := foldl_set_prev (if x > 0 then 1 else 0) (a' + 1 - i) i phi
        (by omega) (by omega)
      generalize (List.range' i (a' + 1 - i)).foldl
        (fun phi t => phi.set t (phi.getD (t - 1) 0 - (if x > 0 then 1 else 0))) phi = phi2
        at l1 l2 l3 l4
      -- the third loop
      obtain ⟨m1, m2⟩ := foldl_set_const (if x > 0 then 1 else 0)
        (a + 1 - max i (a' + 1)) (max i (a' + 1)) phi2
      refine ⟨_, rfl, by rw [m1, l1, hlen], ?_, ?_⟩
      · rw [m2 0, if_neg (by omega), l2 0 (by omega)]
        exact h0
      · intro t ht1 hta
        rw [m2 t]
        by_cases ht3 : max i (a' + 1) ≤ t
        · -- written by the third loop
          rw [if_pos ⟨ht3, by omega, by omega⟩]
          exact (hbeyond (t - 1) (by omega) (by omega)).symm
        · rw [if_neg (fun h => ht3 h.1)]
          by_cases ht2 : t < i
          · rw [l2 t ht2]
            exact hfilled t ht1 ht2
          · -- written by the second loop
            have hia : i ≤ a' := by omega
            have hsq : x < primes.getD (i - 1) 0 * primes.getD (i - 1) 0 := by
              have : ¬ primes.getD (i - 1) 0 ≤ isqrt x := fun h => hc ⟨hia, h⟩
              rw [← PhiCache.isqrt_lt_iff]
              omega
            have hxa' : primes.getD a' 0 ≤ x := by
              rcases hxa with h | h
              · omega
              · exact h
            have hlt := hpt.lt_of_lt (by omega : a' - 1 < a') (by omega)
            have hx0 : x > 0 := by omega
            have htail := PhiCache.phi_naive_tail hpt x (a' - 1) (i - 1) (by omega) (by omega)
              (by omega) hsq (t - i + 1) (by omega)
            have hidx : i - 1 - 1 + (t - i + 1) = t - 1 := by omega
            rw [hidx] at htail
            have htm : t = i + (t - i) := by omega
            rw [htm, l3 (t - i) (by omega), hfilled (i - 1) (by omega) (by omega), htail,
              if_pos hx0, ← htm]
            push_cast
            ring

/-- C1: for every `x ≥ 0` and `a ≥ 0`, with `primes` the ascending list of
primes reaching `primes[a]` and `pi` a correct pi-table covering `x`,
`phi_vector(x, a, primes, pi)` returns a vector of length `a + 1` with
`phi[0] = 0` and `phi[i] = φ(x, i - 1)` for every `1 ≤ i ≤ a`. -/
theorem phi_vector_spec (x a : Nat) (primes pi : List Nat) (hpt : IsPrimeTable primes)
    (hpi : IsPiTable pi) (ha : a < primes.length) (hx : x < pi.length) :
    ∃ v, phi_vector x a primes pi = some v ∧ v.length = a + 1 ∧ v.getD 0 0 = 0 ∧
      ∀ i, 1 ≤ i → i ≤ a → v.getD i 0 = (phi_naive primes x (i - 1) : Int) := by
  unfold phi_vector
  dsimp only
  by_cases hsize : a + 1 > 1
  · rw [if_pos hsize]
    have ha1 : 1 ≤ a := by omega
    -- the reduced `a`
    have hred : ∃ a', (if primes.getD a 0 > x then pi.getD x 0 else a) = a' ∧ a' ≤ a ∧
        (a' = 0 ∨ primes.getD a' 0 ≤ x) ∧
        ∀ t, a' ≤ t → t < a → (phi_naive primes x t : Int) = if x > 0 then 1 else 0 := by
      by_cases hgt : primes.getD a 0 > x
      · rw [if_pos hgt, hpi x hx]
        have hlt := primeCounting_lt_of_lt_prime hpt x a ha1 ha hgt
        refine ⟨_, rfl, by omega, ?_, ?_⟩
        · rcases Nat.eq_zero_or_pos (Nat.primeCounting x) with h0 | h0
          · exact Or.inl h0
          · exact Or.inr (hpt.le_of_primeCounting x (by omega) h0)
        · intro t ht _
          exact phi_naive_beyond hpt x t (by omega) ht
      · rw [if_neg hgt]
        exact ⟨a, rfl, le_refl _, Or.inr (by omega), fun t h1 h2 => absurd h1 (by omega)⟩
    obtain ⟨a', hra, ha', hxa, hbeyond⟩ := hred
    rw [hra]
    obtain ⟨hv, hp, -⟩ := PhiCache.valid_new x a' primes pi hpt hpi (by omega)
    apply phi_vector_loop1_spec x a a' primes hpt ha' ha hxa hbeyond (a' + 1) 2
      (PhiCache.new x a' primes pi) _ (by omega) (fun _ => by omega) (le_refl _) (by omega)
      hv hp
    · simp
    · rw [getD_set_int, if_neg (by omega), getD_set_int]
      simp
    · intro t ht1 ht2
      have ht : t = 1 := by omega
      subst ht
      rw [getD_set_int, if_pos ⟨rfl, by simp; omega⟩, phi_naive_zero]
  · rw [if_neg hsize]
    have ha0 : a = 0 := by omega
    subst ha0
    exact ⟨_, rfl, by simp, by simp, fun i h1 h2 => absurd h1 (by omega)⟩

theorem phi_vector_spec_witness :
    ∃ v, phi_vector 10 4 [0, 2, 3, 5, 7, 11] [0, 0, 1, 2, 2, 3, 3, 4, 4, 4, 4] = some v ∧
      v.length = 4 + 1 ∧ v.getD 0 0 = 0 ∧
      ∀ i, 1 ≤ i → i ≤ 4 → v.getD i 0 = (phi_naive [0, 2, 3, 5, 7, 11] 10 (i - 1) : Int) :=
  phi_vector_spec 10 4 [0, 2, 3, 5, 7, 11] [0, 0, 1, 2, 2, 3, 3, 4, 4, 4, 4]
    PhiCache.isPrimeTable_small PhiCache.isPiTable_small (by decide) (by decide)

namespace PhiCache

/-! ### The geometry chosen by the constructor -/

/-- The constructor in terms of its local variables `max_a` and `max_x`. -/
theorem new_eq (x a : Nat) (primes pi : List Nat) :
    new x a primes pi =
      if new_max_a a ≤ PhiTiny.max_a then
        { max_x_ := 0, max_x_size_ := 0, max_a_cached_ := 0, max_a_ := 0, sieve_ := [],
          primes_ := primes, pi_ := pi }
      else if ceil_div (new_max_x x a) 240 < 8 then
        { max_x_ := 0, max_x_size_ := ceil_div (new_max_x x a) 240, max_a_cached_ := 0,
          max_a_ := 0, sieve_ := [], primes_ := primes, pi_ := pi }
      else
        { max_x_ := ceil_div (new_max_x x a) 240 * 240 - 1,
          max_x_size_ := ceil_div (new_max_x x a) 240, max_a_cached_ := 0,
          max_a_ := new_max_a a, sieve_ := [], primes_ := primes, pi_ := pi } := by
  rfl

theorem new_max_a_le (a : Nat) : new_max_a a ≤ 100 :=
  min_le_right _ _

/-- A row of the cache takes at most 11 bytes more than its share of the
16 megabytes. -/
theorem row_bytes_le (x a : Nat) :
    ceil_div (new_max_x x a) 240 * 12 ≤ (16 <<< 20) / (new_max_a a - PhiTiny.max_a) + 11 := by
  have h : new_max_x x a ≤ (16 <<< 20) / (new_max_a a - PhiTiny.max_a) * 20 :=
    min_le_right _ _
  unfold ceil_div
  omega

end PhiCache

namespace PhiCache

/-- For every `x` and `a` given to the constructor, the total size of all
cached rows, `(max_a_ - 6) * max_x_size_ * 12` bytes, exceeds 16 megabytes
by at most 11 bytes per row, hence by at most 1034 bytes: rounding `max_x`
up to whole sieve elements can add one partly used element to each row. -/
theorem cache_bytes_le (x a : Nat) (primes pi : List Nat) :
    cache_bytes (new x a primes pi) ≤
        16 * 2 ^ 20 + 11 * ((new x a primes pi).max_a_ - PhiTiny.max_a) ∧
    cache_bytes (new x a primes pi) ≤ 16 * 2 ^ 20 + 1034 := by
  have hm := new_max_a_le a
  have h6 : PhiTiny.max_a = 6 := rfl
  have hrow := row_bytes_le x a
  rw [new_eq]
  unfold cache_bytes sizeof_sieve_t
  rw [h6] at hrow ⊢
  split_ifs with h1 h2
  · simp
  · simp
  · dsimp only
    have hdiv : (new_max_a a - 6) * ((16 <<< 20) / (new_max_a a - 6)) ≤ 16 <<< 20 :=
      Nat.mul_div_le _ _
    have hmul : (new_max_a a - 6) * (ceil_div (new_max_x x a) 240 * 12) ≤
        (new_max_a a - 6) * ((16 <<< 20) / (new_max_a a - 6) + 11) :=
      Nat.mul_le_mul_left _ hrow
    rw [Nat.mul_add] at hmul
    rw [Nat.mul_assoc]
    have e : (16 : Nat) <<< 20 = 16 * 2 ^ 20 := by decide
    rw [e] at hdiv hmul
    constructor
    · omega
    · omega

theorem isqrt_cache_limit : isqrt 12742186944400 = 3569620 := by
  unfold isqrt
  symm
  rw [Nat.eq_sqrt]
  constructor <;> norm_num

/-- C16: the cache can take more than 16 megabytes. For `x = 3569620^2`
and `a = 130` the constructor chooses `max_a_ = 100` and
`max_x_size_ = 14874`, and the 94 rows take `94 * 14874 * 12 = 16777872`
bytes, 656 more than `16 * 2^20 = 16777216`. -/
theorem cache_bytes_exceeds :
    (new 12742186944400 130 [] []).max_a_ = 100 ∧
    (new 12742186944400 130 [] []).max_x_size_ = 14874 ∧
    cache_bytes (new 12742186944400 130 [] []) = 16777872 ∧
    16 * 2 ^ 20 < cache_bytes (new 12742186944400 130 [] []) := by
  have hx : new_max_x 12742186944400 130 = 3569620 := by
    unfold new_max_x
    rw [isqrt_cache_limit]
    decide
  have hn : new 12742186944400 130 [] [] =
      { max_x_ := 3569759, max_x_size_ := 14874, max_a_cached_ := 0, max_a_ := 100,
        sieve_ := [], primes_ := [], pi_ := [] } := by
    rw [new_eq, hx]
    rfl
  rw [hn]
  decide

/-- A disabled cache is never filled: the loops of `phi` return the cache
they were given when the recursive calls do. -/
theorem phi_loop1_disabled (rec : Nat → Nat → State → Option (Int × State)) (sign : Int)
    (x a sqrtx : Nat)
    (hrec : ∀ x' a' t r t', t.max_a_ = 0 → rec x' a' t = some (r, t') → t' = t) :
    ∀ (n i : Nat) (sum : Int) (s : State) (r : Int) (s' : State), s.max_a_ = 0 →
      phi_loop1 rec sign x a sqrtx n i sum s = some (r, s') → s' = s := by
  intro n
  induction n with
  | zero =>
    intro i sum s r s' _ h
    simp [phi_loop1] at h
  | succ n ih =>
    intro i sum s r s' hs h
    rw [phi_loop1] at h
    by_cases h1 : i ≤ a
    · rw [if_pos h1] at h
      by_cases h2 : s.primes_.getD i 0 > sqrtx
      · rw [if_pos h2] at h
        simp only [Option.some.injEq, Prod.mk.injEq] at h
        exact h.2.symm
      · rw [if_neg h2] at h
        dsimp only at h
        by_cases h3 : is_pix s (x / s.primes_.getD i 0) (i - 1) = true
        · rw [if_pos h3] at h
          cases hp : phi_loop2 s sign x a sqrtx (a + 1) (i + 1)
              (sum + ((s.pi_.getD (x / s.primes_.getD i 0) 0 : Int) - i + 2) * -sign) with
          | none => rw [hp] at h; simp at h
          | some v =>
            rw [hp] at h
            simp only [Option.some.injEq, Prod.mk.injEq] at h
            exact h.2.symm
        · rw [if_neg h3] at h
          by_cases h4 : is_cached s (x / s.primes_.getD i 0) (i - 1) = true
          · rw [if_pos h4] at h
            exact ih _ _ _ _ _ hs h
          · rw [if_neg h4] at h
            cases hr : rec (x / s.primes_.getD i 0) (i - 1) s with
            | none => rw [hr] at h; simp at h
            | some v =>
              obtain ⟨r1, t⟩ := v
              rw [hr] at h
              dsimp only at h
              have ht := hrec _ _ _ _ _ hs hr
              subst ht
              exact ih _ _ _ _ _ hs h
    · rw [if_neg h1] at h
      simp only [Option.some.injEq, Prod.mk.injEq] at h
      exact h.2.symm

/-- `phi` never calls `init_cache` on a disabled cache (`max_a_ = 0`), and
returns the cache unchanged. -/
theorem phi_fuel_disabled : ∀ (fuel : Nat) (sign : Int) (x a : Nat) (s : State) (r : Int)
    (s' : State), s.max_a_ = 0 → phi_fuel fuel sign x a s = some (r, s') → s' = s := by
  intro fuel
  induction fuel with
  | zero =>
    intro sign x a s r s' _ h
    simp [phi_fuel] at h
  | succ fuel ih =>
    intro sign x a s r s' hs h
    rw [phi_fuel] at h
    by_cases h1 : x ≤ s.primes_.getD a 0
    · rw [if_pos h1] at h
      simp only [Option.some.injEq, Prod.mk.injEq] at h
      exact h.2.symm
    rw [if_neg h1] at h
    by_cases h2 : PhiTiny.is_phi_tiny a = true
    · rw [if_pos h2] at h
      simp only [Option.some.injEq, Prod.mk.injEq] at h
      exact h.2.symm
    rw [if_neg h2] at h
    by_cases h3 : is_pix s x a = true
    · rw [if_pos h3] at h
      simp only [Option.some.injEq, Prod.mk.injEq] at h
      exact h.2.symm
    rw [if_neg h3] at h
    have hg : ¬ (s.max_a_cached_ < min a s.max_a_ ∧ x ≤ s.max_x_) := by
      rw [hs]
      simp
    rw [if_neg hg] at h
    dsimp only at h
    by_cases h4 : is_cached s x a = true
    · rw [if_pos h4] at h
      simp only [Option.some.injEq, Prod.mk.injEq] at h
      exact h.2.symm
    rw [if_neg h4] at h
    exact phi_loop1_disabled (phi_fuel fuel (-sign)) sign x a (isqrt x)
      (fun x' a' t r t' ht hr => ih (-sign) x' a' t r t' ht hr) _ _ _ s r s' hs h

/-- C17: when the constructor computes `max_a = min(a - 30, 100) ≤ 6`
(`a - 30` being 0 for `a < 30`) or `max_x_size < 8`, caching is disabled:
`max_a_` and `max_x_` stay 0, `is_cached(x', a')` is false for every
`(x', a')`, the guard of `init_cache` in `phi` is false for every
`(x', a')`, and every call of `phi` that returns hands back the cache
unchanged, so that no later call can invoke `init_cache` either. -/
theorem caching_disabled (x a : Nat) (primes pi : List Nat)
    (h : new_max_a a ≤ PhiTiny.max_a ∨ ceil_div (new_max_x x a) 240 < 8) :
    (new x a primes pi).max_a_ = 0 ∧ (new x a primes pi).max_x_ = 0 ∧
    (∀ x' a', is_cached (new x a primes pi) x' a' = false) ∧
    (∀ x' a', ¬ ((new x a primes pi).max_a_cached_ < min a' (new x a primes pi).max_a_ ∧
      x' ≤ (new x a primes pi).max_x_)) ∧
    ∀ (fuel : Nat) (sign : Int) (x' a' : Nat) (r : Int) (s' : State),
      phi_fuel fuel sign x' a' (new x a primes pi) = some (r, s') →
        s' = new x a primes pi := by
  have hfacts : (new x a primes pi).max_a_ = 0 ∧ (new x a primes pi).max_x_ = 0 ∧
      (new x a primes pi).max_a_cached_ = 0 := by
    rw [new_eq]
    split_ifs with h1 h2
    · exact ⟨rfl, rfl, rfl⟩
    · exact ⟨rfl, rfl, rfl⟩
    · rcases h with h | h
      · exact absurd h h1
      · exact absurd h h2
  obtain ⟨f1, f2, f3⟩ := hfacts
  refine ⟨f1, f2, ?_, ?_, ?_⟩
  · intro x' a'
    unfold is_cached
    rw [f3]
    have h6 : PhiTiny.max_a = 6 := rfl
    rw [h6]
    by_cases ha : a' ≤ 0
    · have : ¬ a' > 6 := by omega
      simp [this]
    · simp [ha]
  · intro x' a'
    rw [f1, f3]
    simp
  · intro fuel sign x' a' r s' hr
    exact phi_fuel_disabled fuel sign x' a' _ r s' f1 hr

theorem caching_disabled_witness :
    (new_max_a 3 ≤ PhiTiny.max_a ∨ ceil_div (new_max_x 100 3) 240 < 8) ∧
    (new 100 3 [0, 2, 3, 5, 7, 11] [0, 0, 1, 2, 2, 3, 3, 4, 4, 4, 4]).max_a_ = 0 ∧
    (new 100 3 [0, 2, 3, 5, 7, 11] [0, 0, 1, 2, 2, 3, 3, 4, 4, 4, 4]).max_x_ = 0 ∧
    (∀ x' a', is_cached (new 100 3 [0, 2, 3, 5, 7, 11] [0, 0, 1, 2, 2, 3, 3, 4, 4, 4, 4])
      x' a' = false) ∧
    (∀ x' a', ¬ ((new 100 3 [0, 2, 3, 5, 7, 11] [0, 0, 1, 2, 2, 3, 3, 4, 4, 4, 4]).max_a_cached_
        < min a' (new 100 3 [0, 2, 3, 5, 7, 11] [0, 0, 1, 2, 2, 3, 3, 4, 4, 4, 4]).max_a_ ∧
      x' ≤ (new 100 3 [0, 2, 3, 5, 7, 11] [0, 0, 1, 2, 2, 3, 3, 4, 4, 4, 4]).max_x_)) ∧
    ∀ (fuel : Nat) (sign : Int) (x' a' : Nat) (r : Int) (s' : State),
      phi_fuel fuel sign x' a' (new 100 3 [0, 2, 3, 5, 7, 11] [0, 0, 1, 2, 2, 3, 3, 4, 4, 4, 4])
          = some (r, s') →
        s' = new 100 3 [0, 2, 3, 5, 7, 11] [0, 0, 1, 2, 2, 3, 3, 4, 4, 4, 4] :=
  ⟨Or.inl (by decide),
    caching_disabled 100 3 [0, 2, 3, 5, 7, 11] [0, 0, 1, 2, 2, 3, 3, 4, 4, 4, 4]
      (Or.inl (by decide))⟩

end PhiCache

namespace PhiCache

/-! ### The cache after `init_cache`, and the reach of `is_cached` -/

theorem popcnt64_and_unset_larger_239 (w : Nat) :
    popcnt64 (w &&& BitSieve240.unset_larger_ 239) = popcnt64 w := by
  unfold BitSieve240.unset_larger_
  rw [popcnt64_and_maskOf]
  unfold popcnt64
  congr 1
  apply Finset.filter_congr
  intro j hj
  have := bit_value_lt j (Finset.mem_range.1 hj)
  simp only [decide_eq_true_eq, and_iff_left_iff_imp]
  intro _
  omega

/-- The `count` of entry `k` of a complete row is the number of integers
below `240 * k` that survive the first `t` primes. -/
theorem count_of_row {primes : List Nat} (h : IsPrimeTable primes) (row : List sieve_t)
    (t k : Nat) (ht : 3 ≤ t) (hlen : 3 < primes.length) (hrow : RowBits primes row t)
    (hcnt : RowCounts row) (hk : k < row.length) :
    (row.getD k ⟨0, 0⟩).count = phi_naive primes (240 * k - 1) t := by
  rcases Nat.eq_zero_or_pos k with h0 | h0
  · subst h0
    rw [hcnt 0 hk, Finset.sum_range_zero, Nat.mul_zero, Nat.zero_sub, phi_naive_zero_left]
  · have hdiv : (240 * k - 1) / 240 = k - 1 := by omega
    have hmod : (240 * k - 1) % 240 = 239 := by omega
    have hrow' := phi_naive_of_row h row t (240 * k - 1) ht hlen hrow hcnt
      (by rw [hdiv]; omega)
    rw [hdiv, hmod, popcnt64_and_unset_larger_239, hcnt (k - 1) (by omega)] at hrow'
    rw [← hrow', hcnt k hk]
    have hk1 : k = (k - 1) + 1 := by omega
    nth_rewrite 1 [hk1]
    rw [Finset.sum_range_succ]

/-- C15: `init_cache(a)`, called as the source requires (`6 < a ≤ max_a_`,
`a > max_a_cached_`) on a cache that satisfies its invariant, returns, and
afterwards for every row `i` with `6 < i ≤ a`: bit `j` of
`sieve_[i][k].bits` is set exactly when the integer `240 * k + bit_value j`
of `[240 * k, 240 * k + 240)` is divisible by none of the first `i` primes,
`sieve_[i][k].count` is the number of integers below `240 * k` that are
divisible by none of them, and for every `x ≤ max_x_` the value
`phi_cache(x, i) = count + popcnt(bits & unset_larger[x mod 240])` is
`φ(x, i)`. -/
theorem init_cache_rows (s : State) (a : Nat) (hv : Valid s) (ha6 : 6 < a)
    (ha : a ≤ s.max_a_) (hnew : s.max_a_cached_ < a) (hlen : a < s.primes_.length) :
    ∃ s', init_cache s a = some s' ∧ s'.max_x_ = s.max_x_ ∧ s'.max_a_cached_ = a ∧
      ∀ i, 6 < i → i ≤ a →
        (∀ k, k < s.max_x_size_ →
          (∀ j, j < 64 →
            (((s'.sieve_.getD i []).getD k ⟨0, 0⟩).bits.testBit j = true ↔
              ∀ t ∈ Finset.Icc (1 : Nat) i,
                ¬ s.primes_.getD t 0 ∣ 240 * k + bit_value j)) ∧
          ((s'.sieve_.getD i []).getD k ⟨0, 0⟩).count =
            phi_naive s.primes_ (240 * k - 1) i) ∧
        ∀ x, x ≤ s.max_x_ →
          is_cached s' x i = true ∧
          phi_cache s' x i =
            ((((s'.sieve_.getD i []).getD (x / 240) ⟨0, 0⟩).count +
              popcnt64 (((s'.sieve_.getD i []).getD (x / 240) ⟨0, 0⟩).bits &&&
                BitSieve240.unset_larger_ (x % 240)) : Nat) : Int) ∧
          phi_cache s' x i = (phi_naive s.primes_ x i : Int) := by
  obtain ⟨sv, h1, h2⟩ := init_cache_spec s a hv ha6 ha hnew hlen
  refine ⟨_, h1, rfl, rfl, ?_⟩
  intro i hi6 hia
  obtain ⟨r1, r2, r3⟩ := h2.rows i hi6 hia
  dsimp only at r1 r2 r3 ⊢
  constructor
  · intro k hk
    refine ⟨fun j hj => r2 k (by rw [r1]; exact hk) j hj, ?_⟩
    exact count_of_row hv.primes _ i k (by omega) (by omega) r2 r3 (by rw [r1]; exact hk)
  · intro x hx
    have hc : is_cached { s with sieve_ := sv, max_a_cached_ := a } x i = true := by
      unfold is_cached
      have h6 : PhiTiny.max_a = 6 := rfl
      rw [h6]
      simp only [Bool.and_eq_true, decide_eq_true_eq]
      exact ⟨⟨hx, hia⟩, hi6⟩
    exact ⟨hc, rfl, phi_cache_eq _ x i h2 hc⟩

theorem isPrimeTable_nine : IsPrimeTable [0, 2, 3, 5, 7, 11, 13, 17, 19] := by
  refine ⟨rfl, ?_⟩
  intro i h1 h2
  have h3 : i < 9 := h2
  interval_cases i <;> exact ⟨by norm_num, by decide⟩

theorem isqrt_3686400 : isqrt 3686400 = 1920 := by
  unfold isqrt
  symm
  rw [Nat.eq_sqrt]
  constructor <;> norm_num

theorem new_max_x_example : new_max_x 3686400 37 = 1920 := by
  unfold new_max_x
  rw [isqrt_3686400]
  decide

theorem new_example (primes pi : List Nat) :
    new 3686400 37 primes pi =
      { max_x_ := 1919, max_x_size_ := 8, max_a_cached_ := 0, max_a_ := 7, sieve_ := [],
        primes_ := primes, pi_ := pi } := by
  rw [new_eq, new_max_x_example]
  rfl

theorem init_cache_rows_witness :
    Valid (new 3686400 37 [0, 2, 3, 5, 7, 11, 13, 17, 19] [0, 0, 1, 2, 2, 3, 3, 4, 4, 4, 4]) ∧
    ∃ s', init_cache
        (new 3686400 37 [0, 2, 3, 5, 7, 11, 13, 17, 19] [0, 0, 1, 2, 2, 3, 3, 4, 4, 4, 4]) 7 =
        some s' ∧
      s'.max_x_ =
        (new 3686400 37 [0, 2, 3, 5, 7, 11, 13, 17, 19]
          [0, 0, 1, 2, 2, 3, 3, 4, 4, 4, 4]).max_x_ ∧
      s'.max_a_cached_ = 7 ∧
      ∀ i, 6 < i → i ≤ 7 →
        (∀ k, k < (new 3686400 37 [0, 2, 3, 5, 7, 11, 13, 17, 19]
            [0, 0, 1, 2, 2, 3, 3, 4, 4, 4, 4]).max_x_size_ →
          (∀ j, j < 64 →
            (((s'.sieve_.getD i []).getD k ⟨0, 0⟩).bits.testBit j = true ↔
              ∀ t ∈ Finset.Icc (1 : Nat) i,
                ¬ (new 3686400 37 [0, 2, 3, 5, 7, 11, 13, 17, 19]
                  [0, 0, 1, 2, 2, 3, 3, 4, 4, 4, 4]).primes_.getD t 0 ∣
                    240 * k + bit_value j)) ∧
          ((s'.sieve_.getD i []).getD k ⟨0, 0⟩).count =
            phi_naive (new 3686400 37 [0, 2, 3, 5, 7, 11, 13, 17, 19]
              [0, 0, 1, 2, 2, 3, 3, 4, 4, 4, 4]).primes_ (240 * k - 1) i) ∧
        ∀ x, x ≤ (new 3686400 37 [0, 2, 3, 5, 7, 11, 13, 17, 19]
            [0, 0, 1, 2, 2, 3, 3, 4, 4, 4, 4]).max_x_ →
          is_cached s' x i = true ∧
          phi_cache s' x i =
            ((((s'.sieve_.getD i []).getD (x / 240) ⟨0, 0⟩).count +
              popcnt64 (((s'.sieve_.getD i []).getD (x / 240) ⟨0, 0⟩).bits &&&
                BitSieve240.unset_larger_ (x % 240)) : Nat) : Int) ∧
          phi_cache s' x i =
            (phi_naive (new 3686400 37 [0, 2, 3, 5, 7, 11, 13, 17, 19]
              [0, 0, 1, 2, 2, 3, 3, 4, 4, 4, 4]).primes_ x i : Int) :=
  have hv := (valid_new 3686400 37 [0, 2, 3, 5, 7, 11, 13, 17, 19]
    [0, 0, 1, 2, 2, 3, 3, 4, 4, 4, 4] isPrimeTable_nine isPiTable_small (by decide)).1
  ⟨hv, init_cache_rows _ 7 hv (by decide) (by rw [new_example]) (by rw [new_example]; decide)
    (by rw [new_example]; decide)⟩

/-- When caching is enabled, the stored bound
`max_x_ = max_x_size_ * 240 - 1` satisfies `max_x_ ≥ max_x - 1`, where
`max_x = min(isqrt(x), cache_limit)` as computed in the constructor, and
`max_x_ ≥ max_x` when `max_x` is not a multiple of 240; so `is_cached(x',
a')` holds for all `x' < max_x` and `6 < a' ≤ max_a_cached_`, in every
state of the cache. -/
theorem max_x_cacheable (x a : Nat) (primes pi : List Nat)
    (h1 : PhiTiny.max_a < new_max_a a) (h2 : 8 ≤ ceil_div (new_max_x x a) 240) :
    (new x a primes pi).max_a_ = new_max_a a ∧
    (new x a primes pi).max_x_ = (new x a primes pi).max_x_size_ * 240 - 1 ∧
    new_max_x x a ≤ (new x a primes pi).max_x_ + 1 ∧
    (¬ 240 ∣ new_max_x x a → new_max_x x a ≤ (new x a primes pi).max_x_) ∧
    ∀ t : State, t.max_x_ = (new x a primes pi).max_x_ →
      ∀ x' a', x' < new_max_x x a → PhiTiny.max_a < a' → a' ≤ t.max_a_cached_ →
        is_cached t x' a' = true := by
  have hn : new x a primes pi =
      { max_x_ := ceil_div (new_max_x x a) 240 * 240 - 1,
        max_x_size_ := ceil_div (new_max_x x a) 240, max_a_cached_ := 0,
        max_a_ := new_max_a a, sieve_ := [], primes_ := primes, pi_ := pi } := by
    rw [new_eq, if_neg (by omega), if_neg (by omega)]
  rw [hn]
  dsimp only
  have hc : new_max_x x a ≤ ceil_div (new_max_x x a) 240 * 240 - 1 + 1 := by
    unfold ceil_div
    omega
  refine ⟨rfl, rfl, hc, ?_, ?_⟩
  · intro hd
    unfold ceil_div
    omega
  · intro t ht x' a' hx' ha' hat
    unfold is_cached
    rw [ht]
    simp only [Bool.and_eq_true, decide_eq_true_eq]
    exact ⟨⟨by omega, hat⟩, ha'⟩

/-- C18: the stored bound can fall short of `max_x`. For `x = 1920^2` and
`a = 37` caching is enabled, the constructor computes `max_x = 1920` and
stores `max_x_ = 8 * 240 - 1 = 1919 < max_x`, and after `init_cache(7)`
`is_cached(1920, 7)` is false although `1920 ≤ max_x` and
`6 < 7 ≤ max_a_cached_`. -/
theorem max_x_not_cacheable :
    PhiTiny.max_a < new_max_a 37 ∧ 8 ≤ ceil_div (new_max_x 3686400 37) 240 ∧
    new_max_x 3686400 37 = 1920 ∧
    (new 3686400 37 [0, 2, 3, 5, 7, 11, 13, 17, 19]
      [0, 0, 1, 2, 2, 3, 3, 4, 4, 4, 4]).max_x_ = 1919 ∧
    ∃ s', init_cache (new 3686400 37 [0, 2, 3, 5, 7, 11, 13, 17, 19]
        [0, 0, 1, 2, 2, 3, 3, 4, 4, 4, 4]) 7 = some s' ∧
      s'.max_a_cached_ = 7 ∧ is_cached s' 1920 7 = false := by
  have hv := (valid_new 3686400 37 [0, 2, 3, 5, 7, 11, 13, 17, 19]
    [0, 0, 1, 2, 2, 3, 3, 4, 4, 4, 4] isPrimeTable_nine isPiTable_small (by decide)).1
  obtain ⟨sv, h1, -⟩ := init_cache_spec _ 7 hv (by decide) (by rw [new_example])
    (by rw [new_example]; decide) (by rw [new_example]; decide)
  refine ⟨by decide, by rw [new_max_x_example]; decide, new_max_x_example,
    by rw [new_example], _, h1, rfl, ?_⟩
  rw [new_example]
  unfold is_cached
  dsimp only
  decide

/-! ### The recursion of `phi` -/

/-- The loops of `phi<SIGN>(x, a)` call `phi<-SIGN>` only with a second
argument below `a`: they do not depend on what the recursive call would do
for any other second argument. -/
theorem phi_loop1_congr (rec rec' : Nat → Nat → State → Option (Int × State)) (sign : Int)
    (x a sqrtx : Nat) (h : ∀ x' a' t, a' < a → rec x' a' t = rec' x' a' t) :
    ∀ (n i : Nat) (sum : Int) (s : State), 1 ≤ i →
      phi_loop1 rec sign x a sqrtx n i sum s = phi_loop1 rec' sign x a sqrtx n i sum s := by
  intro n
  induction n with
  | zero =>
    intro i sum s _
    rfl
  | succ n ih =>
    intro i sum s hi
    rw [phi_loop1, phi_loop1]
    by_cases h1 : i ≤ a
    · rw [if_pos h1, if_pos h1]
      by_cases h2 : s.primes_.getD i 0 > sqrtx
      · rw [if_pos h2, if_pos h2]
      · rw [if_neg h2, if_neg h2]
        dsimp only
        by_cases h3 : is_pix s (x / s.primes_.getD i 0) (i - 1) = true
        · rw [if_pos h3, if_pos h3]
        · rw [if_neg h3, if_neg h3]
          by_cases h4 : is_cached s (x / s.primes_.getD i 0) (i - 1) = true
          · rw [if_pos h4, if_pos h4]
            exact ih _ _ _ (by omega)
          · rw [if_neg h4, if_neg h4, h _ (i - 1) s (by omega)]
            cases rec' (x / s.primes_.getD i 0) (i - 1) s with
            | none => rfl
            | some v =>
              dsimp only
              exact ih _ _ _ (by omega)
    · rw [if_neg h1, if_neg h1]

/-- C14: for any `(x, a)`, on a cache that satisfies its invariant and
whose table of primes reaches `primes[a + 1]`, `phi<SIGN>(x, a)` returns.
The recursion is at most `a - 6 + 1` calls deep, since it bottoms out at
`a ≤ PhiTiny::max_a() = 6`: any larger bound on the depth gives a result as
well. And every recursive call `phi<-SIGN>(x / primes[i], i - 1)` is made
with `i ≤ a`, hence with a second argument below `a`: the loops of
`phi<SIGN>(x, a)` do not depend on `phi<-SIGN>(x', a')` for any `a' ≥ a`. -/
theorem phi_terminates (sign : Int) (x a : Nat) (s : State) (hv : Valid s)
    (hlen : a + 1 < s.primes_.length) :
    (∃ r s', phi sign x a s = some (r, s')) ∧
    (∀ fuel, a - PhiTiny.max_a < fuel → ∃ r s', phi_fuel fuel sign x a s = some (r, s')) ∧
    ∀ (rec rec' : Nat → Nat → State → Option (Int × State)),
      (∀ x' a' t, a' < a → rec x' a' t = rec' x' a' t) →
      ∀ (n i : Nat) (sum : Int) (t : State), 1 ≤ i →
        phi_loop1 rec sign x a (isqrt x) n i sum t =
          phi_loop1 rec' sign x a (isqrt x) n i sum t := by
  have hfuel : ∀ fuel, a - PhiTiny.max_a < fuel →
      ∃ r s', phi_fuel fuel sign x a s = some (r, s') := by
    intro fuel hf
    rcases Nat.eq_zero_or_pos x with hx | hx
    · subst hx
      obtain ⟨f, rfl⟩ : ∃ f, fuel = f + 1 := ⟨fuel - 1, by omega⟩
      rw [phi_fuel, if_pos (Nat.zero_le _)]
      exact ⟨_, _, rfl⟩
    · obtain ⟨s', h, _⟩ := phi_fuel_spec fuel sign x a s hf hv hx hlen
      exact ⟨_, s', h⟩
  refine ⟨hfuel (a + 1) ?_, hfuel, ?_⟩
  · show a - 6 < a + 1
    omega
  · intro rec rec' h
    exact phi_loop1_congr rec rec' sign x a (isqrt x) h

theorem phi_terminates_witness :
    Valid (new 1000 7 [0, 2, 3, 5, 7, 11, 13, 17, 19] [0, 0, 1, 2, 2, 3, 3, 4, 4, 4, 4]) ∧
    (∃ r s', phi 1 1000 7 (new 1000 7 [0, 2, 3, 5, 7, 11, 13, 17, 19]
      [0, 0, 1, 2, 2, 3, 3, 4, 4, 4, 4]) = some (r, s')) ∧
    (∀ fuel, 7 - PhiTiny.max_a < fuel → ∃ r s', phi_fuel fuel 1 1000 7
      (new 1000 7 [0, 2, 3, 5, 7, 11, 13, 17, 19] [0, 0, 1, 2, 2, 3, 3, 4, 4, 4, 4]) =
        some (r, s')) ∧
    ∀ (rec rec' : Nat → Nat → State → Option (Int × State)),
      (∀ x' a' t, a' < 7 → rec x' a' t = rec' x' a' t) →
      ∀ (n i : Nat) (sum : Int) (t : State), 1 ≤ i →
        phi_loop1 rec 1 1000 7 (isqrt 1000) n i sum t =
          phi_loop1 rec' 1 1000 7 (isqrt 1000) n i sum t :=
  have hv := (valid_new 1000 7 [0, 2, 3, 5, 7, 11, 13, 17, 19]
    [0, 0, 1, 2, 2, 3, 3, 4, 4, 4, 4] isPrimeTable_nine isPiTable_small (by decide)).1
  ⟨hv, phi_terminates 1 1000 7 _ hv (by
    rw [(valid_new 1000 7 [0, 2, 3, 5, 7, 11, 13, 17, 19]
      [0, 0, 1, 2, 2, 3, 3, 4, 4, 4, 4] isPrimeTable_nine isPiTable_small (by decide)).2.1]
    decide)⟩

end PhiCache

namespace PhiCache

/-! ### The shortcuts of `phi` -/

theorem isPiTable_twenty :
    IsPiTable [0, 0, 1, 2, 2, 3, 3, 4, 4, 4, 4, 5, 5, 6, 6, 6, 6, 7, 7, 8] := by
  intro x hx
  have h : x < 20 := hx
  interval_cases x <;> decide

/-- C26: over a table of primes and a correct pi-table, (1) when
`phi<SIGN>(x, a)` returns through the pi-table short-circuit
(`x > primes[a]`, `a > 6`, `x < pi.size()` and `x < primes[a + 1]^2`), it
returns `(pi[x] - a + 1) * SIGN`, which equals `SIGN * φ(x, a)`; (2) for
every `x` and `i`, whatever `is_pix(x, a)` is, the term `pi[xp] - i + 2`
for `xp = x / primes[i]` with `primes[i] ≤ isqrt(x)` and `is_pix(xp, i - 1)`
equals `φ(xp, i - 1)`; and that is the term the loops add: (3) the first
loop, at an `i ≤ a` with `primes[i] ≤ isqrt(x)` where it finds
`is_pix(xp, i - 1)`, adds `(pi[xp] - i + 2) * -SIGN` and hands over to the
second loop at `i + 1`, and (4) the second loop adds
`(pi[xp] - i + 2) * -SIGN` at every `i ≤ a` with `primes[i] ≤ isqrt(x)`. -/
theorem pix_shortcut (s : State) (sign : Int)
    (hpt : IsPrimeTable s.primes_) (hpi : IsPiTable s.pi_) :
    (∀ x a, a + 1 < s.primes_.length → s.primes_.getD a 0 < x → PhiTiny.max_a < a →
      is_pix s x a = true →
      (∀ fuel, phi_fuel (fuel + 1) sign x a s =
        some (((s.pi_.getD x 0 : Int) - a + 1) * sign, s)) ∧
      ((s.pi_.getD x 0 : Int) - a + 1) * sign = sign * phi_naive s.primes_ x a) ∧
    (∀ x i, 1 ≤ i → i < s.primes_.length → s.primes_.getD i 0 ≤ isqrt x →
      is_pix s (x / s.primes_.getD i 0) (i - 1) = true →
      ((s.pi_.getD (x / s.primes_.getD i 0) 0 : Nat) : Int) - i + 2 =
        (phi_naive s.primes_ (x / s.primes_.getD i 0) (i - 1) : Int)) ∧
    (∀ (rec : Nat → Nat → State → Option (Int × State)) (x a n i : Nat) (sum : Int),
      i ≤ a → s.primes_.getD i 0 ≤ isqrt x →
      is_pix s (x / s.primes_.getD i 0) (i - 1) = true →
      phi_loop1 rec sign x a (isqrt x) (n + 1) i sum s =
        (phi_loop2 s sign x a (isqrt x) (a + 1) (i + 1)
          (sum + ((s.pi_.getD (x / s.primes_.getD i 0) 0 : Int) - i + 2) * -sign)).map
            (fun r => (r, s))) ∧
    (∀ (x a n i : Nat) (sum : Int), i ≤ a → s.primes_.getD i 0 ≤ isqrt x →
      phi_loop2 s sign x a (isqrt x) (n + 1) i sum =
        phi_loop2 s sign x a (isqrt x) n (i + 1)
          (sum + ((s.pi_.getD (x / s.primes_.getD i 0) 0 : Int) - i + 2) * -sign)) := by
  refine ⟨?_, ?_, ?_, ?_⟩
  · intro x a hlen hx ha hp
    have hp' := hp
    unfold is_pix at hp'
    simp only [Bool.and_eq_true, decide_eq_true_eq] at hp'
    constructor
    · intro fuel
      rw [phi_fuel, if_neg (by omega)]
      have ht : ¬ PhiTiny.is_phi_tiny a = true := by
        have h6 : PhiTiny.max_a = 6 := rfl
        rw [h6] at ha
        have : ¬ a ≤ 6 := by omega
        simpa [PhiTiny.is_phi_tiny, PhiTiny.max_a, PhiTiny.MAX_A] using this
      rw [if_neg ht, if_pos hp]
    · have hF := phi_naive_eq_pi hpt x a hlen hx hp'.2
      have hval : ((s.pi_.getD x 0 : Nat) : Int) - a + 1 = phi_naive s.primes_ x a := by
        rw [hpi x hp'.1]
        have hcast : ((phi_naive s.primes_ x a + a : Nat) : Int) =
            ((Nat.primeCounting x + 1 : Nat) : Int) := by
          rw [hF]
        push_cast at hcast
        omega
      rw [hval, mul_comm]
  · intro x i hi hil hsq hpx
    unfold is_pix at hpx
    simp only [Bool.and_eq_true, decide_eq_true_eq] at hpx
    have hi1 : i - 1 + 1 = i := by omega
    rw [hi1] at hpx
    exact pix_term hpt hpi x i hi hil ((le_isqrt_iff x _).1 hsq) hpx.1 hpx.2
  · intro rec x a n i sum hia hsq hpx
    rw [phi_loop1, if_pos hia, if_neg (Nat.not_lt.2 hsq)]
    dsimp only
    rw [if_pos hpx]
    cases phi_loop2 s sign x a (isqrt x) (a + 1) (i + 1)
      (sum + ((s.pi_.getD (x / s.primes_.getD i 0) 0 : Int) - i + 2) * -sign) <;> rfl
  · intro x a n i sum hia hsq
    rw [phi_loop2, if_pos hia, if_neg (Nat.not_lt.2 hsq)]

theorem pix_shortcut_witness :
    IsPrimeTable [0, 2, 3, 5, 7, 11, 13, 17, 19] ∧
    IsPiTable [0, 0, 1, 2, 2, 3, 3, 4, 4, 4, 4, 5, 5, 6, 6, 6, 6, 7, 7, 8] ∧
    ((∀ fuel, phi_fuel (fuel + 1) 1 18 7 (new 18 7 [0, 2, 3, 5, 7, 11, 13, 17, 19]
        [0, 0, 1, 2, 2, 3, 3, 4, 4, 4, 4, 5, 5, 6, 6, 6, 6, 7, 7, 8]) =
      some ((((new 18 7 [0, 2, 3, 5, 7, 11, 13, 17, 19]
        [0, 0, 1, 2, 2, 3, 3, 4, 4, 4, 4, 5, 5, 6, 6, 6, 6, 7, 7, 8]).pi_.getD 18 0 : Int)
          - (7 : Nat) + 1) * 1,
        new 18 7 [0, 2, 3, 5, 7, 11, 13, 17, 19]
          [0, 0, 1, 2, 2, 3, 3, 4, 4, 4, 4, 5, 5, 6, 6, 6, 6, 7, 7, 8])) ∧
      (((new 18 7 [0, 2, 3, 5, 7, 11, 13, 17, 19]
        [0, 0, 1, 2, 2, 3, 3, 4, 4, 4, 4, 5, 5, 6, 6, 6, 6, 7, 7, 8]).pi_.getD 18 0 : Int)
          - (7 : Nat) + 1) * 1 =
        1 * phi_naive (new 18 7 [0, 2, 3, 5, 7, 11, 13, 17, 19]
          [0, 0, 1, 2, 2, 3, 3, 4, 4, 4, 4, 5, 5, 6, 6, 6, 6, 7, 7, 8]).primes_ 18 7) ∧
    is_pix (new 18 7 [0, 2, 3, 5, 7, 11, 13, 17, 19]
      [0, 0, 1, 2, 2, 3, 3, 4, 4, 4, 4, 5, 5, 6, 6, 6, 6, 7, 7, 8]) 300 7 = false ∧
    (((new 18 7 [0, 2, 3, 5, 7, 11, 13, 17, 19]
        [0, 0, 1, 2, 2, 3, 3, 4, 4, 4, 4, 5, 5, 6, 6, 6, 6, 7, 7, 8]).pi_.getD
          (300 / (new 18 7 [0, 2, 3, 5, 7, 11, 13, 17, 19]
            [0, 0, 1, 2, 2, 3, 3, 4, 4, 4, 4, 5, 5, 6, 6, 6, 6, 7, 7, 8]).primes_.getD 7 0)
          0 : Nat) : Int) - (7 : Nat) + 2 =
      (phi_naive (new 18 7 [0, 2, 3, 5, 7, 11, 13, 17, 19]
          [0, 0, 1, 2, 2, 3, 3, 4, 4, 4, 4, 5, 5, 6, 6, 6, 6, 7, 7, 8]).primes_
        (300 / (new 18 7 [0, 2, 3, 5, 7, 11, 13, 17, 19]
          [0, 0, 1, 2, 2, 3, 3, 4, 4, 4, 4, 5, 5, 6, 6, 6, 6, 7, 7, 8]).primes_.getD 7 0)
        (7 - 1) : Int) :=
  have h := pix_shortcut (new 18 7 [0, 2, 3, 5, 7, 11, 13, 17, 19]
    [0, 0, 1, 2, 2, 3, 3, 4, 4, 4, 4, 5, 5, 6, 6, 6, 6, 7, 7, 8]) 1
    isPrimeTable_nine isPiTable_twenty
  ⟨isPrimeTable_nine, isPiTable_twenty,
    h.1 18 7 (by decide) (by decide) (by decide) (by decide), by decide,
    h.2.1 300 7 (by decide) (by decide) ((le_isqrt_iff 300 17).2 (by decide)) (by decide)⟩

/-- The integers `x / primes[j]` for `primes[j] > isqrt(x)` are below
`primes[j]`: only 1 survives the first `j - 1` primes. -/
theorem phi_naive_skipped {primes : List Nat} (hpt : IsPrimeTable primes) (x a i j : Nat)
    (hi : 1 ≤ i) (ha : a < primes.length) (hx : primes.getD a 0 < x)
    (hsq : isqrt x < primes.getD i 0) (hij : i ≤ j) (hja : j ≤ a) :
    phi_naive primes (x / primes.getD j 0) (j - 1) = 1 := by
  have hpj := hpt.prime (by omega : 1 ≤ j) (by omega : j < primes.length)
  have hle : primes.getD i 0 ≤ primes.getD j 0 := hpt.le_of_le hij (by omega)
  have hja' : primes.getD j 0 ≤ primes.getD a 0 := hpt.le_of_le hja ha
  have hlt : x < primes.getD j 0 * primes.getD j 0 := by
    rw [← isqrt_lt_iff]
    omega
  have h1 : 1 ≤ x / primes.getD j 0 :=
    (Nat.one_le_div_iff hpj.pos).2 (by omega)
  have h2 : x / primes.getD j 0 < primes.getD j 0 :=
    (Nat.div_lt_iff_lt_mul hpj.pos).2 hlt
  have hj1 : j - 1 + 1 = j := by omega
  exact phi_naive_of_lt_prime hpt _ (j - 1) h1 (by omega) (by rw [hj1]; exact h2)

/-- C27: in `phi<SIGN>(x, a)` with `x > primes[a]`, for every index
`i ≤ a` with `primes[i] > isqrt(x)` all the skipped terms are 1:
`φ(x / primes[j], j - 1) = 1` for `i ≤ j ≤ a`. So the loops, which leave
for the label `phi_1` at such an `i` and return
`sum + (a + 1 - i) * (-SIGN)`, add exactly the sum of the terms
`-SIGN * φ(x / primes[j], j - 1)` for all skipped `j` in `[i, a]`. -/
theorem tail_shortcut (s : State) (sign : Int) (x a i : Nat) (hpt : IsPrimeTable s.primes_)
    (hi : 1 ≤ i) (hia : i ≤ a) (ha : a < s.primes_.length) (hx : s.primes_.getD a 0 < x)
    (hsq : s.primes_.getD i 0 > isqrt x) :
    (∀ j, i ≤ j → j ≤ a → phi_naive s.primes_ (x / s.primes_.getD j 0) (j - 1) = 1) ∧
    ((a : Int) + 1 - i) * -sign =
      ∑ j in Finset.Icc i a,
        -sign * (phi_naive s.primes_ (x / s.primes_.getD j 0) (j - 1) : Int) ∧
    (∀ (n : Nat) (sum : Int), phi_loop2 s sign x a (isqrt x) (n + 1) i sum =
      some (sum + ∑ j in Finset.Icc i a,
        -sign * (phi_naive s.primes_ (x / s.primes_.getD j 0) (j - 1) : Int))) ∧
    ∀ (rec : Nat → Nat → State → Option (Int × State)) (n : Nat) (sum : Int),
      phi_loop1 rec sign x a (isqrt x) (n + 1) i sum s =
        some (sum + ∑ j in Finset.Icc i a,
          -sign * (phi_naive s.primes_ (x / s.primes_.getD j 0) (j - 1) : Int), s) := by
  have hall : ∀ j, i ≤ j → j ≤ a →
      phi_naive s.primes_ (x / s.primes_.getD j 0) (j - 1) = 1 :=
    fun j hij hja => phi_naive_skipped hpt x a i j hi ha hx hsq hij hja
  have hsum : ((a : Int) + 1 - i) * -sign =
      ∑ j in Finset.Icc i a,
        -sign * (phi_naive s.primes_ (x / s.primes_.getD j 0) (j - 1) : Int) := by
    rw [Finset.sum_congr rfl (fun j hj => by
      rw [hall j (Finset.mem_Icc.1 hj).1 (Finset.mem_Icc.1 hj).2])]
    rw [Finset.sum_const, Nat.card_Icc]
    simp only [Nat.cast_one, mul_one, nsmul_eq_mul]
    have : ((a + 1 - i : Nat) : Int) = (a : Int) + 1 - i := by omega
    rw [this]
  refine ⟨hall, hsum, ?_, ?_⟩
  · intro n sum
    rw [phi_loop2, if_pos hia, if_pos hsq, hsum]
  · intro rec n sum
    rw [phi_loop1, if_pos hia, if_pos hsq, hsum]

theorem tail_shortcut_witness :
    IsPrimeTable [0, 2, 3, 5, 7, 11, 13, 17, 19] ∧
    (∀ j, 5 ≤ j → j ≤ 7 → phi_naive [0, 2, 3, 5, 7, 11, 13, 17, 19]
      (100 / [0, 2, 3, 5, 7, 11, 13, 17, 19].getD j 0) (j - 1) = 1) ∧
    (((7 : Nat) : Int) + 1 - (5 : Nat)) * -1 =
      ∑ j in Finset.Icc 5 7,
        -1 * (phi_naive [0, 2, 3, 5, 7, 11, 13, 17, 19]
          (100 / [0, 2, 3, 5, 7, 11, 13, 17, 19].getD j 0) (j - 1) : Int) ∧
    (∀ (n : Nat) (sum : Int), phi_loop2 (new 100 7 [0, 2, 3, 5, 7, 11, 13, 17, 19] [])
        1 100 7 (isqrt 100) (n + 1) 5 sum =
      some (sum + ∑ j in Finset.Icc 5 7,
        -1 * (phi_naive [0, 2, 3, 5, 7, 11, 13, 17, 19]
          (100 / [0, 2, 3, 5, 7, 11, 13, 17, 19].getD j 0) (j - 1) : Int))) ∧
    ∀ (rec : Nat → Nat → State → Option (Int × State)) (n : Nat) (sum : Int),
      phi_loop1 rec 1 100 7 (isqrt 100) (n + 1) 5 sum
          (new 100 7 [0, 2, 3, 5, 7, 11, 13, 17, 19] []) =
        some (sum + ∑ j in Finset.Icc 5 7,
          -1 * (phi_naive [0, 2, 3, 5, 7, 11, 13, 17, 19]
            (100 / [0, 2, 3, 5, 7, 11, 13, 17, 19].getD j 0) (j - 1) : Int),
          new 100 7 [0, 2, 3, 5, 7, 11, 13, 17, 19] []) :=
  ⟨isPrimeTable_nine,
    tail_shortcut (new 100 7 [0, 2, 3, 5, 7, 11, 13, 17, 19] []) 1 100 7 5 isPrimeTable_nine
      (by decide) (by decide) (by decide) (by decide) (by
        have h : isqrt 100 = 10 := by
          unfold isqrt
          symm
          rw [Nat.eq_sqrt]
          decide
        rw [h]
        decide)⟩

/-- Once the pi-table answers for index `i`, it answers for every later
index. -/
theorem is_pix_later (s : State) (hpt : IsPrimeTable s.primes_) (x a i i' : Nat)
    (hi : 1 ≤ i) (hii : i < i') (hia : i' ≤ a) (ha : a < s.primes_.length)
    (hp : is_pix s (x / s.primes_.getD i 0) (i - 1) = true) :
    is_pix s (x / s.primes_.getD i' 0) (i' - 1) = true := by
  unfold is_pix at hp ⊢
  simp only [Bool.and_eq_true, decide_eq_true_eq] at hp ⊢
  have e1 : i - 1 + 1 = i := by omega
  have e2 : i' - 1 + 1 = i' := by omega
  rw [e1] at hp
  rw [e2]
  have hlt : s.primes_.getD i 0 < s.primes_.getD i' 0 := hpt.lt_of_lt hii (by omega)
  have hpos : 0 < s.primes_.getD i 0 := (hpt.prime hi (by omega)).pos
  have hdiv : x / s.primes_.getD i' 0 ≤ x / s.primes_.getD i 0 :=
    Nat.div_le_div_left (le_of_lt hlt) hpos
  have hsq : s.primes_.getD i 0 * s.primes_.getD i 0 ≤
      s.primes_.getD i' 0 * s.primes_.getD i' 0 :=
    Nat.mul_le_mul (le_of_lt hlt) (le_of_lt hlt)
  exact ⟨by omega, by omega⟩

/-- C28: in `phi`, once `is_pix(x / primes[i], i - 1)` holds for an index
`i` of the first loop, it holds for every later index `i'` with
`i < i' ≤ a` (the primes being strictly increasing), in particular for
those with `primes[i'] ≤ isqrt(x)`; so none of the assertions
`ASSERT(is_pix(xp, i - 1))` of the second loop, which is entered at
`i + 1`, fails. -/
theorem is_pix_persists (s : State) (hpt : IsPrimeTable s.primes_) (x a i : Nat)
    (hi : 1 ≤ i) (ha : a < s.primes_.length)
    (hp : is_pix s (x / s.primes_.getD i 0) (i - 1) = true) :
    (∀ i', i < i' → i' ≤ a → is_pix s (x / s.primes_.getD i' 0) (i' - 1) = true) ∧
    ∀ n sqrtx, phi_loop2_asserts s x a sqrtx n (i + 1) = true := by
  have hall : ∀ i', i < i' → i' ≤ a →
      is_pix s (x / s.primes_.getD i' 0) (i' - 1) = true :=
    fun i' h1 h2 => is_pix_later s hpt x a i i' hi h1 h2 ha hp
  refine ⟨hall, ?_⟩
  intro n sqrtx
  have hgen : ∀ n k, i < k → phi_loop2_asserts s x a sqrtx n k = true := by
    intro n
    induction n with
    | zero => intro k _; rfl
    | succ n ih =>
      intro k hk
      rw [phi_loop2_asserts]
      by_cases h1 : k ≤ a
      · rw [if_pos h1]
        by_cases h2 : s.primes_.getD k 0 > sqrtx
        · rw [if_pos h2]
        · rw [if_neg h2]
          dsimp only
          rw [hall k hk h1, ih (k + 1) (by omega)]
          rfl
      · rw [if_neg h1]
  exact hgen n (i + 1) (by omega)

theorem is_pix_persists_witness :
    IsPrimeTable [0, 2, 3, 5, 7, 11, 13, 17, 19] ∧
    is_pix (new 100 7 [0, 2, 3, 5, 7, 11, 13, 17, 19]
      [0, 0, 1, 2, 2, 3, 3, 4, 4, 4, 4, 5, 5, 6, 6, 6, 6, 7, 7, 8])
      (100 / (new 100 7 [0, 2, 3, 5, 7, 11, 13, 17, 19]
        [0, 0, 1, 2, 2, 3, 3, 4, 4, 4, 4, 5, 5, 6, 6, 6, 6, 7, 7, 8]).primes_.getD 4 0)
      (4 - 1) = true ∧
    (∀ i', 4 < i' → i' ≤ 7 →
      is_pix (new 100 7 [0, 2, 3, 5, 7, 11, 13, 17, 19]
        [0, 0, 1, 2, 2, 3, 3, 4, 4, 4, 4, 5, 5, 6, 6, 6, 6, 7, 7, 8])
        (100 / (new 100 7 [0, 2, 3, 5, 7, 11, 13, 17, 19]
          [0, 0, 1, 2, 2, 3, 3, 4, 4, 4, 4, 5, 5, 6, 6, 6, 6, 7, 7, 8]).primes_.getD i' 0)
        (i' - 1) = true) ∧
    ∀ n sqrtx, phi_loop2_asserts (new 100 7 [0, 2, 3, 5, 7, 11, 13, 17, 19]
      [0, 0, 1, 2, 2, 3, 3, 4, 4, 4, 4, 5, 5, 6, 6, 6, 6, 7, 7, 8]) 100 7 sqrtx n (4 + 1) =
        true :=
  ⟨isPrimeTable_nine, by decide,
    is_pix_persists (new 100 7 [0, 2, 3, 5, 7, 11, 13, 17, 19]
      [0, 0, 1, 2, 2, 3, 3, 4, 4, 4, 4, 5, 5, 6, 6, 6, 6, 7, 7, 8]) isPrimeTable_nine 100 7 4
      (by decide) (by decide) (by decide)⟩

end PhiCache

namespace LoadBalancer

/-! ### `update` and `get_work` leave the cursor, the limit and the sum alone -/

theorem update_low (s : State) (low segments : Int) (rt : Runtime) :
    (update s low segments rt).low_ = s.low_ := by
  unfold update update_segments
  dsimp only
  split_ifs <;> rfl

theorem update_z (s : State) (low segments : Int) (rt : Runtime) :
    (update s low segments rt).z_ = s.z_ := by
  unfold update update_segments
  dsimp only
  split_ifs <;> rfl

theorem update_s2_total (s : State) (low segments : Int) (rt : Runtime) :
    (update s low segments rt).s2_total_ = s.s2_total_ := by
  unfold update update_segments
  dsimp only
  split_ifs <;> rfl

theorem get_work_z (s : State) (c : Call) : (get_work s c).2.z_ = s.z_ := by
  simp [get_work, update_z]

theorem get_work_s2_total (s : State) (c : Call) :
    (get_work s c).2.s2_total_ = s.s2_total_ + c.s2 := by
  simp [get_work, update_s2_total]

theorem get_work_low (s : State) (c : Call) : (get_work s c).1.low = s.low_ := by
  simp [get_work, update_low]

theorem get_work_next_low (s : State) (c : Call) :
    (get_work s c).2.low_ =
      s.low_ + (get_work s c).1.segments * (get_work s c).1.segment_size := by
  simp [get_work, update_low]

theorem get_work_more (s : State) (c : Call) :
    ((get_work s c).1.more = true ↔ s.low_ ≤ s.z_) := by
  simp [get_work, update_low, update_z]

theorem run_z (s : State) (calls : List Call) : (run s calls).2.z_ = s.z_ := by
  induction calls generalizing s with
  | nil => rfl
  | cons c cs ih => simp [run, ih, get_work_z]

theorem run_s2_total (s : State) (calls : List Call) :
    (run s calls).2.s2_total_ = s.s2_total_ + (calls.map Call.s2).sum := by
  induction calls generalizing s with
  | nil => simp [run]
  | cons c cs ih => simp [run, ih, get_work_s2_total, add_assoc]

/-! ### The assigned intervals tile an initial piece of the sieving range -/

theorem sized_new (ilog : Int → Int) (hard_leaf z : Int) :
    Sized (new ilog hard_leaf z) := by
  refine ⟨le_refl _, le_refl _, ?_⟩
  show 1 ≤ Sieve.get_segment_size (max (isqrt z / max (ilog (isqrt z)) 1) (2 ^ 9))
  unfold Sieve.get_segment_size
  have h : (2 : Int) ^ 9 ≤ max (isqrt z / max (ilog (isqrt z)) 1) (2 ^ 9) := le_max_right _ _
  omega

theorem sized_update (s : State) (low segments : Int) (rt : Runtime)
    (hs : Sized s) (hseg : s.max_low_ < low → 1 ≤ segments) :
    Sized (update s low segments rt) := by
  obtain ⟨h1, h2, h3⟩ := hs
  unfold update update_segments Sized
  dsimp only
  split_ifs <;> refine ⟨by first | omega | (dsimp only; omega), ?_, ?_⟩ <;>
    (try dsimp only) <;> omega

theorem sized_get_work (s : State) (c : Call)
    (hs : Sized s) (hseg : s.max_low_ < c.low → 1 ≤ c.segments) :
    Sized (get_work s c).2 ∧ 1 ≤ (get_work s c).1.segments ∧
      1 ≤ (get_work s c).1.segment_size := by
  have h := sized_update { s with s2_total_ := s.s2_total_ + c.s2 } c.low c.segments
    c.runtime hs hseg
  exact ⟨h, h.2.1, h.2.2⟩

theorem get_work_advances (s : State) (c : Call)
    (hs : Sized s) (hseg : s.max_low_ < c.low → 1 ≤ c.segments) :
    s.low_ < (get_work s c).2.low_ := by
  obtain ⟨-, h2, h3⟩ := sized_get_work s c hs hseg
  rw [get_work_next_low]
  have := mul_pos (show (0 : Int) < (get_work s c).1.segments by omega)
    (show (0 : Int) < (get_work s c).1.segment_size by omega)
  omega

theorem passesBack_segments (s : State) (hist : List Assignment) (c : Call)
    (hs : Sized s) (hh : ∀ a ∈ hist, 1 ≤ a.segments)
    (hc : c.low = 0 ∨ ∃ a ∈ hist, a.low = c.low ∧ a.segments = c.segments) :
    s.max_low_ < c.low → 1 ≤ c.segments := by
  intro hlow
  rcases hc with h0 | ⟨a, ha, -, hseg⟩
  · have := hs.1
    omega
  · rw [← hseg]
    exact hh a ha

/-- The tiling invariant of `run`: started in a state `s`, the granted
intervals are pairwise disjoint, start at or before `z`, and fill exactly
`[s.low_, H)` for some `H`, which exceeds `z` as soon as one call has been
refused. -/
theorem run_tiles (s : State) (hist : List Assignment) (calls : List Call)
    (hs : Sized s) (hh : ∀ a ∈ hist, 1 ≤ a.segments)
    (hp : PassesBack s hist calls) :
    (granted (run s calls).1).Pairwise
        (fun a b => ∀ n, ¬ (a.Covers n ∧ b.Covers n)) ∧
    (∀ a ∈ granted (run s calls).1, s.low_ ≤ a.low ∧ a.low ≤ s.z_) ∧
    ∃ H, s.low_ ≤ H ∧
      (∀ n, (∃ a ∈ granted (run s calls).1, a.Covers n) ↔ (s.low_ ≤ n ∧ n < H)) ∧
      ((∃ a ∈ (run s calls).1, a.more = false) → s.z_ < H) := by
  induction calls generalizing s hist with
  | nil =>
    refine ⟨List.Pairwise.nil, by simp [run, granted], s.low_, le_refl _, ?_, ?_⟩
    · intro n
      simp only [run, granted, List.filter_nil, List.not_mem_nil, false_and, exists_false,
        false_iff, not_and, not_lt]
      exact fun h => h
    · simp [run]
  | cons c cs ih =>
    obtain ⟨hc, hp'⟩ := hp
    have hseg := passesBack_segments s hist c hs hh hc
    obtain ⟨hs1, ha1, ha2⟩ := sized_get_work s c hs hseg
    have hadv := get_work_advances s c hs hseg
    have hh' : ∀ a ∈ (get_work s c).1 :: hist, 1 ≤ a.segments := by
      intro a ha
      rcases List.mem_cons.1 ha with rfl | ha
      · exact ha1
      · exact hh a ha
    obtain ⟨ihd, ihl, H, hH, hcov, hfin⟩ := ih (get_work s c).2 _ hs1 hh' hp'
    rw [get_work_z] at ihl hfin
    have hrun : (run s (c :: cs)).1 = (get_work s c).1 :: (run (get_work s c).2 cs).1 := rfl
    rw [hrun]
    by_cases hm : (get_work s c).1.more = true
    · -- the first call is granted: its interval is `[s.low_, next low)`
      have hg : granted ((get_work s c).1 :: (run (get_work s c).2 cs).1) =
          (get_work s c).1 :: granted (run (get_work s c).2 cs).1 := by
        simp [granted, hm]
      rw [hg]
      have hz : s.low_ ≤ s.z_ := (get_work_more s c).1 hm
      have hcov0 : ∀ n, (get_work s c).1.Covers n ↔
          (s.low_ ≤ n ∧ n < (get_work s c).2.low_) := by
        intro n
        unfold Assignment.Covers
        rw [get_work_next_low, get_work_low]
      refine ⟨List.Pairwise.cons ?_ ihd, ?_, H, by omega, ?_, ?_⟩
      · intro b hb n ⟨h1, h2⟩
        have hb1 := (ihl b hb).1
        have := (hcov0 n).1 h1
        have := h2.1
        omega
      · intro a ha
        rcases List.mem_cons.1 ha with rfl | ha
        · rw [get_work_low]
          exact ⟨le_refl _, hz⟩
        · have := ihl a ha
          exact ⟨by omega, this.2⟩
      · intro n
        constructor
        · rintro ⟨a, ha, hn⟩
          rcases List.mem_cons.1 ha with rfl | ha
          · have := (hcov0 n).1 hn
            omega
          · have := (hcov n).1 ⟨a, ha, hn⟩
            omega
        · rintro ⟨h1, h2⟩
          by_cases hlt : n < (get_work s c).2.low_
          · exact ⟨_, List.mem_cons_self _ _, (hcov0 n).2 ⟨h1, hlt⟩⟩
          · obtain ⟨a, ha, hn⟩ := (hcov n).2 ⟨by omega, h2⟩
            exact ⟨a, List.mem_cons_of_mem _ ha, hn⟩
      · rintro ⟨a, ha, hf⟩
        rcases List.mem_cons.1 ha with rfl | ha
        · rw [hm] at hf
          exact absurd hf (by simp)
        · exact hfin ⟨a, ha, hf⟩
    · -- the first call is refused: `low_ > z`, and so is every later call
      have hz : ¬ s.low_ ≤ s.z_ := fun h => hm ((get_work_more s c).2 h)
      have hnone : granted (run (get_work s c).2 cs).1 = [] := by
        apply List.eq_nil_iff_forall_not_mem.2
        intro a ha
        have := ihl a ha
        omega
      have hg : granted ((get_work s c).1 :: (run (get_work s c).2 cs).1) = [] := by
        have : granted ((get_work s c).1 :: (run (get_work s c).2 cs).1) =
            granted (run (get_work s c).2 cs).1 := by
          simp [granted, hm]
        rw [this, hnone]
      rw [hg]
      refine ⟨List.Pairwise.nil, by simp, s.low_, le_refl _, ?_, fun _ => by omega⟩
      intro n
      simp only [List.not_mem_nil, false_and, exists_false, false_iff, not_and, not_lt]
      exact fun h => h

/-- C8 (amended): for every sequence of `get_work` calls in which the
workers pass back what they were assigned, the intervals
`[low, low + segments * segment_size)` handed out with return value `true`
are pairwise disjoint, each starts at a `low` with `0 ≤ low ≤ z`, and their
union is an initial piece `[0, H)` of the sieving range without gaps; once a
call has returned `false`, `H > z`, so every integer of `[0, z]` is covered.
The last granted interval may reach beyond `z`. -/
theorem assigned_intervals_tile (ilog : Int → Int) (hard_leaf z : Int)
    (calls : List Call) (hp : PassesBack (new ilog hard_leaf z) [] calls) :
    (granted (run (new ilog hard_leaf z) calls).1).Pairwise
        (fun a b => ∀ n, ¬ (a.Covers n ∧ b.Covers n)) ∧
    (∀ a ∈ granted (run (new ilog hard_leaf z) calls).1, 0 ≤ a.low ∧ a.low ≤ z) ∧
    ∃ H, 0 ≤ H ∧
      (∀ n, (∃ a ∈ granted (run (new ilog hard_leaf z) calls).1, a.Covers n) ↔
        (0 ≤ n ∧ n < H)) ∧
      ((∃ a ∈ (run (new ilog hard_leaf z) calls).1, a.more = false) → z < H) :=
  run_tiles (new ilog hard_leaf z) [] calls (sized_new ilog hard_leaf z)
    (fun _ h => absurd h (List.not_mem_nil _)) hp

theorem isqrt_100 : isqrt 100 = 10 := by
  unfold isqrt
  have : Nat.sqrt (100 : Int).toNat = 10 := by
    symm
    rw [Nat.eq_sqrt]
    decide
  rw [this]
  rfl

theorem run_100 :
    (run (new (fun _ => 2) 50 100) [⟨0, 0, 0, ⟨id⟩⟩, ⟨0, 1, 3, ⟨id⟩⟩]).1 =
      [⟨0, 1, 720, true⟩, ⟨720, 1, 720, false⟩] := by
  simp [run, get_work, update, update_segments, new, init_size, isqrt_100,
    Sieve.get_segment_size]

theorem assigned_intervals_tile_witness :
    PassesBack (new (fun _ => 2) 50 100) [] [⟨0, 0, 0, ⟨id⟩⟩, ⟨0, 1, 3, ⟨id⟩⟩] ∧
    ∃ H, 0 ≤ H ∧
      (∀ n, (∃ a ∈ granted (run (new (fun _ => 2) 50 100)
          [⟨0, 0, 0, ⟨id⟩⟩, ⟨0, 1, 3, ⟨id⟩⟩]).1, a.Covers n) ↔ (0 ≤ n ∧ n < H)) ∧
      ((∃ a ∈ (run (new (fun _ => 2) 50 100) [⟨0, 0, 0, ⟨id⟩⟩, ⟨0, 1, 3, ⟨id⟩⟩]).1,
          a.more = false) → 100 < H) :=
  have hp : PassesBack (new (fun _ => 2) 50 100) [] [⟨0, 0, 0, ⟨id⟩⟩, ⟨0, 1, 3, ⟨id⟩⟩] := by
    simp [PassesBack]
  ⟨hp, (assigned_intervals_tile (fun _ => 2) 50 100 _ hp).2.2⟩

/-- C8 as stated fails: with `z = 100` the first call is handed `[0, 720)`
with return value `true` and the second call is refused, so the granted
intervals cover 500, which lies outside `[0, z]`. -/
theorem assigned_intervals_not_exact :
    PassesBack (new (fun _ => 2) 50 100) [] [⟨0, 0, 0, ⟨id⟩⟩, ⟨0, 1, 3, ⟨id⟩⟩] ∧
    ¬ (∀ n, (∃ a ∈ granted (run (new (fun _ => 2) 50 100)
          [⟨0, 0, 0, ⟨id⟩⟩, ⟨0, 1, 3, ⟨id⟩⟩]).1, a.Covers n) ↔ (0 ≤ n ∧ n ≤ 100)) := by
  refine ⟨by simp [PassesBack], fun h => ?_⟩
  have h500 := (h 500).1 ⟨⟨0, 1, 720, true⟩, by simp [run_100, granted],
    by simp [Assignment.Covers]⟩
  omega

/-- C9: `get_work` hands out the `low_`, `segments_` and `segment_size_`
that `update` leaves behind (after `s2` has been added to the total), moves
`low_` forward by exactly `segments_ * segment_size_`, and returns `true`
exactly when the `low` it has just handed out is `≤ z`. -/
theorem get_work_contract (s : State) (c : Call) :
    (get_work s c).1.low =
        (update { s with s2_total_ := s.s2_total_ + c.s2 } c.low c.segments c.runtime).low_ ∧
    (get_work s c).1.segments =
        (update { s with s2_total_ := s.s2_total_ + c.s2 } c.low c.segments c.runtime).segments_ ∧
    (get_work s c).1.segment_size =
        (update { s with s2_total_ := s.s2_total_ + c.s2 } c.low c.segments c.runtime).segment_size_ ∧
    (get_work s c).2.low_ =
        (update { s with s2_total_ := s.s2_total_ + c.s2 } c.low c.segments c.runtime).low_ +
        (update { s with s2_total_ := s.s2_total_ + c.s2 } c.low c.segments c.runtime).segments_ *
        (update { s with s2_total_ := s.s2_total_ + c.s2 } c.low c.segments c.runtime).segment_size_ ∧
    ((get_work s c).1.more = true ↔ (get_work s c).1.low ≤ s.z_) := by
  refine ⟨rfl, rfl, rfl, rfl, ?_⟩
  rw [get_work_more, get_work_low]

/-- C10: started from a freshly constructed LoadBalancer, `get_result` after
any sequence of `get_work` calls is the sum of the contributions `s2`; a
second sequence whose contributions are a permutation of the first (whatever
`low`, `segments` and `Runtime` values it passes) gives the same result. -/
theorem get_result_sum (ilog : Int → Int) (hard_leaf z : Int)
    (calls calls' : List Call)
    (h : (calls'.map Call.s2).Perm (calls.map Call.s2)) :
    get_result (run (new ilog hard_leaf z) calls).2 = (calls.map Call.s2).sum ∧
    get_result (run (new ilog hard_leaf z) calls').2 =
      get_result (run (new ilog hard_leaf z) calls).2 := by
  have h0 : (new ilog hard_leaf z).s2_total_ = 0 := rfl
  simp only [get_result, run_s2_total, h0, zero_add, h.sum_eq, and_self]

theorem get_result_sum_witness :
    ((([⟨0, 0, 5, ⟨id⟩⟩, ⟨0, 1, 7, ⟨fun s => 2 * s⟩⟩] : List Call).map Call.s2).Perm
        (([⟨720, 3, 7, ⟨id⟩⟩, ⟨0, 0, 5, ⟨fun _ => 1⟩⟩] : List Call).map Call.s2)) ∧
    get_result (run (new (fun _ => 6) 50 1000000)
        [⟨720, 3, 7, ⟨id⟩⟩, ⟨0, 0, 5, ⟨fun _ => 1⟩⟩]).2 = 12 ∧
    get_result (run (new (fun _ => 6) 50 1000000)
        [⟨0, 0, 5, ⟨id⟩⟩, ⟨0, 1, 7, ⟨fun s => 2 * s⟩⟩]).2 =
      get_result (run (new (fun _ => 6) 50 1000000)
        [⟨720, 3, 7, ⟨id⟩⟩, ⟨0, 0, 5, ⟨fun _ => 1⟩⟩]).2 :=
  ⟨by decide,
   get_result_sum (fun _ => 6) 50 1000000
     [⟨720, 3, 7, ⟨id⟩⟩, ⟨0, 0, 5, ⟨fun _ => 1⟩⟩]
     [⟨0, 0, 5, ⟨id⟩⟩, ⟨0, 1, 7, ⟨fun s => 2 * s⟩⟩] (by decide)⟩

end LoadBalancer

namespace LoadBalancer

/-! ### The segment size and the number of segments chosen by `update` -/

/-- `update` is its resizing block followed by the hard-leaf override. -/
theorem update_eq (s : State) (low segments : Int) (rt : Runtime) :
    update s low segments rt =
      if straddles_hard_leaf (update_resize s low segments rt) then
        { update_resize s low segments rt with segments_ := 1 }
      else update_resize s low segments rt := by
  unfold update update_resize straddles_hard_leaf
  rfl

theorem update_segment_size_eq (s : State) (low segments : Int) (rt : Runtime) :
    (update s low segments rt).segment_size_ =
      (update_resize s low segments rt).segment_size_ := by
  rw [update_eq]
  split_ifs <;> rfl

theorem update_max_size (s : State) (low segments : Int) (rt : Runtime) :
    (update s low segments rt).max_size_ = s.max_size_ := by
  unfold update update_segments
  dsimp only
  split_ifs <;> rfl

theorem get_segment_size_dvd (n : Int) : 240 ∣ Sieve.get_segment_size n :=
  Dvd.intro_left _ rfl

theorem get_segment_size_mono {a b : Int} (h : a ≤ b) :
    Sieve.get_segment_size a ≤ Sieve.get_segment_size b := by
  unfold Sieve.get_segment_size
  omega

theorem segmentSized_new (ilog : Int → Int) (hard_leaf z : Int) :
    SegmentSized (new ilog hard_leaf z) := by
  have h0 : (0 : Int) ≤ isqrt z := Int.natCast_nonneg _
  have h1 : isqrt z / max (ilog (isqrt z)) 1 ≤ isqrt z := Int.ediv_le_self _ h0
  refine ⟨get_segment_size_dvd _, ?_, ?_, get_segment_size_dvd _⟩
  · show 240 ≤ Sieve.get_segment_size (max (isqrt z / max (ilog (isqrt z)) 1) (2 ^ 9))
    have h : (2 : Int) ^ 9 ≤ max (isqrt z / max (ilog (isqrt z)) 1) (2 ^ 9) :=
      le_max_right _ _
    unfold Sieve.get_segment_size
    omega
  · show Sieve.get_segment_size (max (isqrt z / max (ilog (isqrt z)) 1) (2 ^ 9)) ≤
      Sieve.get_segment_size (max (2 ^ 15 * 30) (isqrt z))
    apply get_segment_size_mono
    apply max_le
    · exact le_trans h1 (le_max_right _ _)
    · exact le_trans (by norm_num) (le_max_left _ _)

theorem segmentSized_update (s : State) (low segments : Int) (rt : Runtime)
    (hs : SegmentSized s) : SegmentSized (update s low segments rt) := by
  obtain ⟨h1, h2, h3, h4⟩ := hs
  unfold SegmentSized
  rw [update_segment_size_eq, update_max_size]
  unfold update_resize update_segments
  dsimp only
  split_ifs with ha hb
  · dsimp only
    refine ⟨?_, ?_, min_le_right _ _, h4⟩
    · rcases min_choice (s.segment_size_ * 2) s.max_size_ with h | h <;> rw [h]
      · exact Dvd.dvd.mul_right h1 2
      · exact h4
    · exact le_min (by omega) (by omega)
  · exact ⟨h1, h2, h3, h4⟩
  · exact ⟨h1, h2, h3, h4⟩

theorem segmentSized_get_work (s : State) (c : Call) (hs : SegmentSized s) :
    SegmentSized (get_work s c).2 ∧ (get_work s c).2.max_size_ = s.max_size_ ∧
      240 ∣ (get_work s c).1.segment_size ∧ 240 ≤ (get_work s c).1.segment_size ∧
      (get_work s c).1.segment_size ≤ s.max_size_ := by
  have h := segmentSized_update { s with s2_total_ := s.s2_total_ + c.s2 } c.low c.segments
    c.runtime hs
  have hm := update_max_size { s with s2_total_ := s.s2_total_ + c.s2 } c.low c.segments
    c.runtime
  refine ⟨h, hm, h.1, h.2.1, ?_⟩
  have := h.2.2.1
  rw [hm] at this
  exact this

theorem segmentSized_run (s : State) (calls : List Call) (hs : SegmentSized s) :
    SegmentSized (run s calls).2 ∧ (run s calls).2.max_size_ = s.max_size_ ∧
      ∀ a ∈ (run s calls).1,
        240 ∣ a.segment_size ∧ 240 ≤ a.segment_size ∧ a.segment_size ≤ s.max_size_ := by
  induction calls generalizing s with
  | nil => exact ⟨hs, rfl, fun a ha => absurd ha (List.not_mem_nil _)⟩
  | cons c cs ih =>
    obtain ⟨g1, g2, g3⟩ := segmentSized_get_work s c hs
    obtain ⟨i1, i2, i3⟩ := ih (get_work s c).2 g1
    have hrun : run s (c :: cs) =
        ((get_work s c).1 :: (run (get_work s c).2 cs).1, (run (get_work s c).2 cs).2) := rfl
    rw [hrun]
    refine ⟨i1, i2.trans g2, ?_⟩
    intro a ha
    rcases List.mem_cons.1 ha with rfl | ha
    · exact g3
    · have := i3 a ha
      rw [g2] at this
      exact this

/-- C11: the `segment_size_` of a LoadBalancer meets the requirement of the
`Sieve` constructor at all times: after the constructor, and after every
`update` of a state that met it, `segment_size_` is a multiple of 240, is
`≥ 240` and is `≤ max_size_`; hence every `segment_size` handed out by a
sequence of `get_work` calls is a multiple of 240 between 240 and
`max_size_`. -/
theorem segment_size_requirement (ilog : Int → Int) (hard_leaf z : Int) :
    SegmentSized (new ilog hard_leaf z) ∧
    (∀ (s : State) (low segments : Int) (rt : Runtime),
      SegmentSized s → SegmentSized (update s low segments rt)) ∧
    ∀ calls : List Call,
      SegmentSized (run (new ilog hard_leaf z) calls).2 ∧
      ∀ a ∈ (run (new ilog hard_leaf z) calls).1,
        240 ∣ a.segment_size ∧ 240 ≤ a.segment_size ∧
          a.segment_size ≤ (new ilog hard_leaf z).max_size_ := by
  refine ⟨segmentSized_new ilog hard_leaf z, segmentSized_update, fun calls => ?_⟩
  obtain ⟨h1, _, h3⟩ := segmentSized_run _ calls (segmentSized_new ilog hard_leaf z)
  exact ⟨h1, h3⟩

/-- C12 (amended): a call of `update` with `*low > max_low_` doubles
`segment_size_`, capped at `max_size_`, when `segment_size_ < max_size_`,
and then takes `segments_` from the caller without rescaling it; otherwise
it leaves `segment_size_` as it is and lets `update_segments` adjust
`segments_`. A call with `*low ≤ max_low_` changes neither before the
hard-leaf override. In every case the override leaves `segment_size_`
alone. -/
theorem update_segment_size (s : State) (low segments : Int) (rt : Runtime) :
    (update s low segments rt).segment_size_ =
        (update_resize s low segments rt).segment_size_ ∧
    (s.max_low_ < low → s.segment_size_ < s.max_size_ →
      update_resize s low segments rt =
        { s with max_low_ := low, segments_ := segments,
                 segment_size_ := min (2 * s.segment_size_) s.max_size_ }) ∧
    (s.max_low_ < low → ¬ s.segment_size_ < s.max_size_ →
      update_resize s low segments rt =
        update_segments { s with max_low_ := low, segments_ := segments } rt ∧
      (update_resize s low segments rt).segment_size_ = s.segment_size_) ∧
    (low ≤ s.max_low_ → update_resize s low segments rt = s) := by
  refine ⟨update_segment_size_eq s low segments rt, ?_, ?_, ?_⟩
  · intro h1 h2
    unfold update_resize
    rw [if_pos h1]
    dsimp only
    rw [if_pos h2, mul_comm]
  · intro h1 h2
    unfold update_resize
    rw [if_pos h1]
    dsimp only
    rw [if_neg h2]
    exact ⟨rfl, rfl⟩
  · intro h1
    unfold update_resize
    rw [if_neg (not_lt.2 h1)]

/-- C12 as stated fails for a call with `*low ≤ max_low_`: the first
`get_work` call on a new LoadBalancer for `z = 100` passes `*low = 0`, and
`update` leaves `segment_size_ = 720` although `720 < max_size_ = 983040`. -/
theorem update_keeps_segment_size :
    (new (fun _ => 2) 50 100).segment_size_ < (new (fun _ => 2) 50 100).max_size_ ∧
    (update (new (fun _ => 2) 50 100) 0 0 ⟨id⟩).segment_size_ = 720 ∧
    min (2 * (new (fun _ => 2) 50 100).segment_size_)
      (new (fun _ => 2) 50 100).max_size_ = 1440 ∧
    (update (new (fun _ => 2) 50 100) 0 0 ⟨id⟩).segment_size_ ≠
      min (2 * (new (fun _ => 2) 50 100).segment_size_) (new (fun _ => 2) 50 100).max_size_ := by
  simp [update, update_segments, new, init_size, isqrt_100, Sieve.get_segment_size]

/-- C13: after the resizing block of `update` has fixed `segments_` and
`segment_size_`, `update` sets `segments_` to 1 when the forthcoming
interval `[low_, low_ + segments_ * segment_size_]` contains
`smallest_hard_leaf_`, and changes nothing else; when the interval does not
contain it, the state of the resizing block is the result. -/
theorem update_hard_leaf_override (s : State) (low segments : Int) (rt : Runtime) :
    (straddles_hard_leaf (update_resize s low segments rt) →
      update s low segments rt = { update_resize s low segments rt with segments_ := 1 }) ∧
    (¬ straddles_hard_leaf (update_resize s low segments rt) →
      update s low segments rt = update_resize s low segments rt) := by
  constructor
  · intro h
    rw [update_eq]
    exact if_pos h
  · intro h
    rw [update_eq]
    exact if_neg h

end LoadBalancer

/-! ### Integers with `k` prime factors above the `a`-th prime -/

/-- The prime factors of `p * m`, for a prime `p` that is at most the
prime factors of `m`. -/
theorem primeFactorsList_prime_mul {p m : Nat} (hp : p.Prime) (hm : m ≠ 0)
    (hle : ∀ q ∈ m.primeFactorsList, p ≤ q) :
    (p * m).primeFactorsList = p :: m.primeFactorsList := by
  symm
  apply List.eq_of_perm_of_sorted (r := (· ≤ ·))
  · apply Nat.primeFactorsList_unique
    · rw [List.prod_cons, Nat.prod_primeFactorsList hm]
    · intro q hq
      rcases List.mem_cons.1 hq with rfl | hq
      · exact hp
      · exact Nat.prime_of_mem_primeFactorsList hq
  · exact List.sorted_cons.2 ⟨hle, Nat.primeFactorsList_sorted m⟩
  · exact Nat.primeFactorsList_sorted _

/-- The prime factors of `n ≥ 2`: the least one, then those of the
quotient, none of which is smaller. -/
theorem primeFactorsList_peel {n : Nat} (hn : 2 ≤ n) :
    n.primeFactorsList = n.minFac :: (n / n.minFac).primeFactorsList ∧
      ∀ q ∈ (n / n.minFac).primeFactorsList, n.minFac ≤ q := by
  obtain ⟨k, rfl⟩ : ∃ k, n = k + 2 := ⟨n - 2, by omega⟩
  have h := Nat.primeFactorsList_add_two k
  refine ⟨h, ?_⟩
  have hs := Nat.primeFactorsList_sorted (k + 2)
  rw [h] at hs
  exact (List.sorted_cons.1 hs).1

theorem two_le_of_primeFactorsList_length {n k : Nat}
    (h : n.primeFactorsList.length = k + 1) : 2 ≤ n := by
  by_contra hcon
  have : n = 0 ∨ n = 1 := by omega
  rw [← Nat.primeFactorsList_eq_nil] at this
  rw [this] at h
  simp at h

/-- The primes in `[1, y]` above `m`. -/
theorem card_primes_above (y m : Nat) :
    ((Finset.Icc 1 y).filter (fun q : Nat => q.Prime ∧ m < q)).card =
      Nat.primeCounting y - Nat.primeCounting m := by
  have hcount : ∀ n, Nat.primeCounting n = ((Finset.range (n + 1)).filter Nat.Prime).card :=
    fun n => Nat.count_eq_card_filter_range _ _
  rcases Nat.lt_or_ge y m with hlt | hge
  · rw [Nat.sub_eq_zero_of_le (Nat.monotone_primeCounting (le_of_lt hlt)),
      Finset.card_eq_zero, Finset.filter_eq_empty_iff]
    intro q hq ⟨_, h2⟩
    rw [Finset.mem_Icc] at hq
    omega
  · have hsplit := Finset.filter_card_add_filter_neg_card_eq_card
      (s := (Finset.range (y + 1)).filter Nat.Prime) (fun q => q < m + 1)
    rw [Finset.filter_filter, Finset.filter_filter] at hsplit
    have e1 : (Finset.range (y + 1)).filter (fun q => q.Prime ∧ q < m + 1) =
        (Finset.range (m + 1)).filter Nat.Prime := by
      ext q
      simp only [Finset.mem_filter, Finset.mem_range]
      constructor
      · rintro ⟨_, h2, h3⟩
        exact ⟨h3, h2⟩
      · rintro ⟨h1, h2⟩
        exact ⟨by omega, h2, h1⟩
    have e2 : (Finset.range (y + 1)).filter (fun q => q.Prime ∧ ¬ q < m + 1) =
        (Finset.Icc 1 y).filter (fun q : Nat => q.Prime ∧ m < q) := by
      ext q
      simp only [Finset.mem_filter, Finset.mem_range, Finset.mem_Icc]
      constructor
      · rintro ⟨h1, h2, h3⟩
        exact ⟨⟨h2.pos, by omega⟩, h2, by omega⟩
      · rintro ⟨⟨_, h1⟩, h2, h3⟩
        exact ⟨by omega, h2, by omega⟩
    rw [e1, e2, ← hcount, ← hcount] at hsplit
    omega

theorem Pk_naive_zero (primes : List Nat) (x a : Nat) (hx : 1 ≤ x) :
    Pk_naive primes 0 x a = 1 := by
  unfold Pk_naive
  rw [Finset.card_eq_one]
  refine ⟨1, ?_⟩
  ext n
  simp only [Finset.mem_filter, Finset.mem_Icc, Finset.mem_singleton, List.length_eq_zero,
    Nat.primeFactorsList_eq_nil]
  constructor
  · rintro ⟨⟨h1, _⟩, h2 | h2, _⟩
    · omega
    · exact h2
  · rintro rfl
    exact ⟨⟨le_refl _, hx⟩, Or.inr rfl, by simp⟩

theorem primeFactorsList_length_one {n : Nat} :
    n.primeFactorsList.length = 1 ↔ n.Prime := by
  constructor
  · intro h
    have h2 := two_le_of_primeFactorsList_length h
    obtain ⟨e, _⟩ := primeFactorsList_peel h2
    rw [e, List.length_cons] at h
    have hnil : (n / n.minFac).primeFactorsList = [] := List.length_eq_zero.1 (by omega)
    rw [Nat.primeFactorsList_eq_nil] at hnil
    have hpos : 0 < n.minFac := Nat.minFac_pos n
    have hdvd := Nat.minFac_dvd n
    rcases hnil with h0 | h1
    · have := (Nat.div_eq_zero_iff hpos).1 h0
      have := Nat.minFac_le (by omega : 0 < n)
      omega
    · have hn : n = n.minFac := by
        have := Nat.div_mul_cancel hdvd
        rw [h1] at this
        omega
      rw [hn]
      exact Nat.minFac_prime (by omega)
  · intro h
    rw [Nat.primeFactorsList_prime h]
    rfl

/-- `P1(y, t)`, the number of primes in `(primes[t], y]`, is `π(y) - t`. -/
theorem Pk_naive_one {primes : List Nat} (h : IsPrimeTable primes) (y t : Nat)
    (ht : t < primes.length) :
    Pk_naive primes 1 y t = Nat.primeCounting y - t := by
  unfold Pk_naive
  have e : (Finset.Icc 1 y).filter (fun n : Nat =>
      n.primeFactorsList.length = 1 ∧ ∀ p ∈ n.primeFactorsList, primes.getD t 0 < p) =
      (Finset.Icc 1 y).filter (fun q : Nat => q.Prime ∧ primes.getD t 0 < q) := by
    apply Finset.filter_congr
    intro n _
    rw [primeFactorsList_length_one]
    constructor
    · rintro ⟨h1, h2⟩
      refine ⟨h1, h2 n ?_⟩
      rw [Nat.primeFactorsList_prime h1]
      exact List.mem_singleton_self n
    · rintro ⟨h1, h2⟩
      refine ⟨h1, ?_⟩
      intro p hp
      rw [Nat.primeFactorsList_prime h1, List.mem_singleton] at hp
      rw [hp]
      exact h2
  rw [e, card_primes_above, h.count' ht]

/-- A prime above `primes[i - 1]` is at least `primes[i]`. -/
theorem IsPrimeTable.le_of_prev_lt {primes : List Nat} (h : IsPrimeTable primes) {q i : Nat}
    (hq : q.Prime) (hi : 1 ≤ i) (hil : i < primes.length)
    (hlt : primes.getD (i - 1) 0 < q) : primes.getD i 0 ≤ q := by
  by_contra hcon
  have hi1 : i - 1 + 1 = i := by omega
  obtain ⟨j, _, h2, h3⟩ := h.mem_of_lt (j := i - 1) hq (by omega) (by rw [hi1]; omega)
  have := h.le_of_le h2 (by omega : i - 1 < primes.length)
  omega

/-- Peeling off the least prime factor: an integer with `k + 1 ≥ 2` prime
factors above the `a`-th prime is `primes[i] * m` for exactly one index
`i > a` and one `m` whose `k` prime factors are all at least `primes[i]`. -/
theorem Pk_naive_succ {primes : List Nat} (h : IsPrimeTable primes) (k x a N : Nat)
    (hk : 1 ≤ k) (ha : a < primes.length) (hN : N < primes.length)
    (hbig : ∀ q, q.Prime → q * q ≤ x → q ≤ primes.getD N 0) :
    Pk_naive primes (k + 1) x a =
      ∑ i in Finset.Ioc a N, Pk_naive primes k (x / primes.getD i 0) (i - 1) := by
  unfold Pk_naive
  -- the index of the least prime factor
  have hidx : ∀ n ∈ (Finset.Icc 1 x).filter (fun n : Nat =>
      n.primeFactorsList.length = k + 1 ∧ ∀ p ∈ n.primeFactorsList, primes.getD a 0 < p),
      Nat.primeCounting n.minFac ∈ Finset.Ioc a N ∧
        primes.getD (Nat.primeCounting n.minFac) 0 = n.minFac := by
    intro n hn
    rw [Finset.mem_filter, Finset.mem_Icc] at hn
    obtain ⟨⟨_, hnx⟩, hlen, hall⟩ := hn
    have h2 := two_le_of_primeFactorsList_length hlen
    obtain ⟨e, hge⟩ := primeFactorsList_peel h2
    have hp : n.minFac.Prime := Nat.minFac_prime (by omega)
    have hpa : primes.getD a 0 < n.minFac := hall _ (by rw [e]; exact List.mem_cons_self _ _)
    -- the quotient has a prime factor, which is at least the least one
    rw [e, List.length_cons] at hlen
    obtain ⟨q, hq⟩ : ∃ q, q ∈ (n / n.minFac).primeFactorsList :=
      List.exists_mem_of_length_pos (by omega)
    have hqle : q ≤ n / n.minFac :=
      Nat.le_of_dvd (Nat.div_pos (Nat.minFac_le (by omega)) hp.pos)
        (Nat.dvd_of_mem_primeFactorsList hq)
    have hsq : n.minFac * n.minFac ≤ x := by
      have h1 : n.minFac ≤ n / n.minFac := le_trans (hge q hq) hqle
      have h3 : n.minFac * (n / n.minFac) ≤ n := Nat.mul_div_le n n.minFac
      have h4 : n.minFac * n.minFac ≤ n.minFac * (n / n.minFac) := Nat.mul_le_mul_left _ h1
      omega
    obtain ⟨i, hi1, hiN, hpi⟩ := h.mem_of_le hp hN (hbig _ hp hsq)
    have hcount : Nat.primeCounting n.minFac = i := by
      rw [← hpi]
      exact h.count hi1 (by omega)
    rw [hcount]
    refine ⟨Finset.mem_Ioc.2 ⟨?_, hiN⟩, hpi⟩
    by_contra hcon
    have := h.le_of_le (by omega : i ≤ a) ha
    omega
  rw [Finset.card_eq_sum_card_fiberwise (f := fun n => Nat.primeCounting n.minFac)
    (t := Finset.Ioc a N) (fun n hn => (hidx n hn).1)]
  apply Finset.sum_congr rfl
  intro i hi
  rw [Finset.mem_Ioc] at hi
  have hpi : (primes.getD i 0).Prime := h.prime (by omega) (by omega)
  -- the fibre over `i` is the image of the integers counted on the right
  have himg := Finset.card_image_of_injective
    ((Finset.Icc 1 (x / primes.getD i 0)).filter (fun n : Nat =>
      n.primeFactorsList.length = k ∧ ∀ p ∈ n.primeFactorsList, primes.getD (i - 1) 0 < p))
    (f := fun m => primes.getD i 0 * m)
    (fun m1 m2 hm => Nat.eq_of_mul_eq_mul_left hpi.pos hm)
  rw [← himg]
  congr 1
  ext n
  rw [Finset.mem_filter, Finset.mem_image]
  constructor
  · rintro ⟨hn, hfib⟩
    have hmem := hidx n hn
    rw [Finset.mem_filter, Finset.mem_Icc] at hn
    obtain ⟨⟨hn1, hnx⟩, hlen, hall⟩ := hn
    rw [hfib] at hmem
    have hmin : primes.getD i 0 = n.minFac := hmem.2
    have h2 := two_le_of_primeFactorsList_length hlen
    obtain ⟨e, hge⟩ := primeFactorsList_peel h2
    rw [e, List.length_cons] at hlen
    have hdvd := Nat.minFac_dvd n
    refine ⟨n / n.minFac, ?_, ?_⟩
    · rw [Finset.mem_filter, Finset.mem_Icc]
      refine ⟨⟨?_, ?_⟩, by omega, ?_⟩
      · exact Nat.div_pos (Nat.minFac_le (by omega)) (Nat.minFac_pos n)
      · rw [hmin]
        exact Nat.div_le_div_right hnx
      · intro q hq
        have hq' := hge q hq
        have hlt : primes.getD (i - 1) 0 < primes.getD i 0 :=
          h.lt_of_lt (by omega) (by omega)
        omega
    · dsimp only
      rw [hmin]
      exact Nat.mul_div_cancel' hdvd
  · rintro ⟨m, hm, rfl⟩
    rw [Finset.mem_filter, Finset.mem_Icc] at hm
    obtain ⟨⟨hm1, hmx⟩, hlen, hall⟩ := hm
    have hle : ∀ q ∈ m.primeFactorsList, primes.getD i 0 ≤ q := fun q hq =>
      h.le_of_prev_lt (Nat.prime_of_mem_primeFactorsList hq) (by omega) (by omega) (hall q hq)
    have e := primeFactorsList_prime_mul hpi (by omega : m ≠ 0) hle
    have hai : primes.getD a 0 < primes.getD i 0 := h.lt_of_lt hi.1 (by omega)
    have hmin : (primes.getD i 0 * m).minFac = primes.getD i 0 := by
      have h2 : 2 ≤ primes.getD i 0 * m := by
        have := hpi.two_le
        have : primes.getD i 0 * 1 ≤ primes.getD i 0 * m := Nat.mul_le_mul_left _ hm1
        omega
      obtain ⟨e', _⟩ := primeFactorsList_peel h2
      rw [e] at e'
      exact (List.cons.inj e').1.symm
    rw [Finset.mem_filter, Finset.mem_Icc]
    refine ⟨⟨⟨?_, ?_⟩, ?_, ?_⟩, ?_⟩
    · exact Nat.mul_pos hpi.pos hm1
    · calc primes.getD i 0 * m ≤ primes.getD i 0 * (x / primes.getD i 0) :=
          Nat.mul_le_mul_left _ hmx
        _ ≤ x := Nat.mul_div_le x _
    · rw [e, List.length_cons, hlen]
    · intro q hq
      rw [e] at hq
      rcases List.mem_cons.1 hq with rfl | hq
      · exact hai
      · have := hle q hq
        omega
    · rw [hmin]
      exact h.count (by omega) (by omega)

/-- `P2(x, a)` as a sum over the smaller prime factor: for any `N` with
`primes[N] ≥` every prime `≤ √x`,
`P2(x, a) = Σ_{a < i ≤ N} (π(x / primes[i]) - (i - 1))`, a term being 0
when `π(x / primes[i]) < i`. -/
theorem P2_naive_eq_sum {primes : List Nat} (h : IsPrimeTable primes) (x a N : Nat)
    (ha : a < primes.length) (hN : N < primes.length)
    (hbig : ∀ q, q.Prime → q * q ≤ x → q ≤ primes.getD N 0) :
    Pk_naive primes 2 x a =
      ∑ i in Finset.Ioc a N, (Nat.primeCounting (x / primes.getD i 0) - (i - 1)) := by
  rw [Pk_naive_succ h 1 x a N (le_refl _) ha hN hbig]
  apply Finset.sum_congr rfl
  intro i hi
  rw [Finset.mem_Ioc] at hi
  exact Pk_naive_one h _ _ (by omega)

/-! ### The primes handed out by primesieve -/

theorem filter_range'_length (p : Nat → Prop) [DecidablePred p] (lo n : Nat) :
    ((List.range' lo n).filter (fun k => decide (p k))).length + Nat.count p lo =
      Nat.count p (lo + n) := by
  induction n with
  | zero => simp
  | succ n ih =>
    rw [List.range'_concat, List.filter_append, List.length_append, ← Nat.add_assoc,
      Nat.count_succ, ← ih, Nat.one_mul]
    by_cases hp : p (lo + n)
    · simp [hp]
      omega
    · simp [hp]

theorem primeCounting_succ (n : Nat) :
    Nat.primeCounting (n + 1) = Nat.primeCounting n + if (n + 1).Prime then 1 else 0 := by
  unfold Nat.primeCounting Nat.primeCounting'
  rw [Nat.count_succ]

namespace primesieve

theorem count_primes_eq (lo hi : Nat) :
    count_primes lo hi = Nat.primeCounting hi - Nat.count Nat.Prime lo := by
  unfold count_primes
  have h := filter_range'_length Nat.Prime lo (hi + 1 - lo)
  rcases Nat.lt_or_ge (hi + 1) lo with hlt | hge
  · have hmono := Nat.count_monotone Nat.Prime (le_of_lt hlt)
    have h0 : hi + 1 - lo = 0 := by omega
    rw [h0]
    have : Nat.primeCounting hi = Nat.count Nat.Prime (hi + 1) := rfl
    simp only [List.range'_zero, List.filter_nil, List.length_nil]
    omega
  · have e : lo + (hi + 1 - lo) = hi + 1 := by omega
    rw [e] at h
    have : Nat.primeCounting hi = Nat.count Nat.Prime (hi + 1) := rfl
    omega

theorem generate_primes_succ (n : Nat) :
    generate_primes (n + 1) =
      generate_primes n ++ (if (n + 1).Prime then [n + 1] else []) := by
  unfold generate_primes
  rw [List.range_succ, List.filter_append]
  congr 1
  by_cases hp : (n + 1).Prime
  · simp [hp]
  · simp [hp]

theorem generate_primes_length (n : Nat) :
    (generate_primes n).length = Nat.primeCounting n := by
  induction n with
  | zero => decide
  | succ n ih =>
    rw [generate_primes_succ, List.length_append, ih, primeCounting_succ]
    by_cases hp : (n + 1).Prime
    · simp [hp]
    · simp [hp]

theorem mem_generate_primes {n q : Nat} : q ∈ generate_primes n ↔ q.Prime ∧ q ≤ n := by
  unfold generate_primes
  rw [List.mem_filter, List.mem_range]
  simp only [decide_eq_true_eq]
  constructor
  · rintro ⟨h1, h2⟩
    exact ⟨h2, by omega⟩
  · rintro ⟨h1, h2⟩
    exact ⟨by omega, h1⟩

/-- The vector `primes` after `primes.push_back(0)` and
`generate_primes(n, &primes)` is the table of the first `π(n)` primes. -/
theorem isPrimeTable_generate (n : Nat) : IsPrimeTable (0 :: generate_primes n) := by
  induction n with
  | zero =>
    refine ⟨rfl, ?_⟩
    intro i h1 h2
    have : (0 :: generate_primes 0).length = 1 := by decide
    omega
  | succ n ih =>
    rw [generate_primes_succ]
    by_cases hp : (n + 1).Prime
    · rw [if_pos hp]
      refine ⟨rfl, ?_⟩
      intro i h1 h2
      have hlen : (0 :: generate_primes n).length = Nat.primeCounting n + 1 := by
        rw [List.length_cons, generate_primes_length]
      have hi : i < (0 :: generate_primes n).length ∨ i = (0 :: generate_primes n).length := by
        rw [List.length_cons, List.length_append, List.length_singleton] at h2
        rw [List.length_cons]
        omega
      rw [← List.cons_append]
      rcases hi with hi | hi
      · rw [List.getD_append _ _ _ _ hi]
        exact ih.2 i h1 hi
      · rw [List.getD_append_right _ _ _ _ (by omega), hi, Nat.sub_self]
        refine ⟨hp, ?_⟩
        show Nat.primeCounting (n + 1) = _
        rw [primeCounting_succ, if_pos hp, hlen]
    · rw [if_neg hp, List.append_nil]
      exact ih

theorem table_length (n : Nat) :
    (0 :: generate_primes n).length = Nat.primeCounting n + 1 := by
  rw [List.length_cons, generate_primes_length]

/-- Every prime `≤ n` is in the table, at its index. -/
theorem table_mem (n q : Nat) (hq : q.Prime) (hqn : q ≤ n) :
    ∃ i, 1 ≤ i ∧ i ≤ Nat.primeCounting n ∧ (0 :: generate_primes n).getD i 0 = q :=
  (isPrimeTable_generate n).mem_of_le_primeCounting n q (by rw [table_length]; omega) hq hqn

theorem table_le (n i : Nat) (h1 : 1 ≤ i) (h2 : i ≤ Nat.primeCounting n) :
    (0 :: generate_primes n).getD i 0 ≤ n := by
  have hmem : (0 :: generate_primes n).getD i 0 ∈ generate_primes n := by
    obtain ⟨j, rfl⟩ : ∃ j, i = j + 1 := ⟨i - 1, by omega⟩
    rw [List.getD_cons_succ, List.getD_eq_getElem _ _ (by rw [generate_primes_length]; omega)]
    exact List.getElem_mem _
  exact (mem_generate_primes.1 hmem).2

end primesieve

/-- `pi_bsearch` on the table of the primes `≤ s` counts the primes up to
`min(n, s)`. -/
theorem pi_bsearch_generate (s n : Nat) :
    pi_bsearch (0 :: primesieve.generate_primes s) n = Nat.primeCounting (min n s) := by
  unfold pi_bsearch
  rw [List.tail_cons]
  induction s with
  | zero =>
    have e : primesieve.generate_primes 0 = [] := by decide
    rw [Nat.min_zero, e]
    rfl
  | succ s ih =>
    rw [primesieve.generate_primes_succ, List.filter_append, List.length_append, ih]
    rcases Nat.lt_or_ge n (s + 1) with hlt | hge
    · have e1 : min n (s + 1) = n := by omega
      have e2 : min n s = n := by omega
      have e3 : List.filter (fun p => decide (p ≤ n))
          (if (s + 1).Prime then [s + 1] else []) = [] := by
        by_cases hp : (s + 1).Prime
        · rw [if_pos hp]
          simp
          omega
        · rw [if_neg hp]
          rfl
      rw [e1, e2, e3]
      rfl
    · have e1 : min n (s + 1) = s + 1 := by omega
      have e2 : min n s = s := by omega
      have e3 : List.filter (fun p => decide (p ≤ n))
          (if (s + 1).Prime then [s + 1] else []) = if (s + 1).Prime then [s + 1] else [] := by
        by_cases hp : (s + 1).Prime
        · rw [if_pos hp]
          simp
          omega
        · rw [if_neg hp]
          rfl
      rw [e1, e2, e3, primeCounting_succ]
      by_cases hp : (s + 1).Prime
      · rw [if_pos hp, if_pos hp]
        rfl
      · rw [if_neg hp, if_neg hp]
        rfl

theorem iroot3_spec (x : Nat) : iroot3 x ^ 3 ≤ x ∧ x < (iroot3 x + 1) ^ 3 := by
  unfold iroot3
  constructor
  · exact Nat.findGreatest_spec (P := fun r => r ^ 3 ≤ x) (Nat.zero_le x) (by simp)
  · by_contra hcon
    have hle : (Nat.findGreatest (fun r => r ^ 3 ≤ x) x + 1) ^ 3 ≤ x := by omega
    have hk : Nat.findGreatest (fun r => r ^ 3 ≤ x) x + 1 ≤ x := by
      have h1 : 1 ≤ Nat.findGreatest (fun r => r ^ 3 ≤ x) x + 1 := by omega
      calc Nat.findGreatest (fun r => r ^ 3 ≤ x) x + 1
          ≤ (Nat.findGreatest (fun r => r ^ 3 ≤ x) x + 1) ^ 3 :=
            Nat.le_self_pow (by norm_num) _
        _ ≤ x := hle
    exact Nat.findGreatest_is_greatest (P := fun r => r ^ 3 ≤ x) (Nat.lt_succ_self _) hk hle

theorem list_range_sum (f : Nat → Int) (n : Nat) :
    ((List.range n).map f).sum = ∑ i in Finset.range n, f i := by
  induction n with
  | zero => simp
  | succ n ih =>
    rw [List.range_succ, List.map_append, List.sum_append, ih, Finset.sum_range_succ]
    simp

/-! ### `P2_lehmer` -/

theorem getD_set_eq (c : List Nat) (j v i : Nat) (hi : i < c.length) :
    (c.set j v).getD i 0 = if j = i then v else c.getD i 0 := by
  rw [List.getD_eq_getElem _ _ (by rw [List.length_set]; exact hi), List.getElem_set,
    List.getD_eq_getElem _ _ hi]

/-- A loop that stores `f i` at the indices `i = g t` it visits: the vector
at the end. -/
theorem foldl_set_getD (f g : Nat → Nat) (order : List Nat) (c : List Nat) (i : Nat)
    (hi : i < c.length) :
    (order.foldl (fun c t => c.set (g t) (f (g t))) c).getD i 0 =
      if ∃ t ∈ order, g t = i then f i else c.getD i 0 := by
  induction order generalizing c with
  | nil => simp
  | cons t ts ih =>
    rw [List.foldl_cons, ih _ (by rw [List.length_set]; exact hi), getD_set_eq _ _ _ _ hi]
    by_cases h1 : ∃ u ∈ ts, g u = i
    · rw [if_pos h1, if_pos]
      obtain ⟨u, hu, hg⟩ := h1
      exact ⟨u, List.mem_cons_of_mem _ hu, hg⟩
    · rw [if_neg h1]
      by_cases h2 : g t = i
      · rw [if_pos h2, if_pos ⟨t, List.mem_cons_self _ _, h2⟩, h2]
      · rw [if_neg h2, if_neg]
        rintro ⟨u, hu, hg⟩
        rcases List.mem_cons.1 hu with h3 | h3
        · exact h2 (h3 ▸ hg)
        · exact h1 ⟨u, h3, hg⟩

/-- The first loop of `P2_lehmer`, whatever the order of its iterations:
`counts[i]` is the number of primes in `(x / primes[i + 1], x / primes[i]]`
(in `[0, x / primes[b]]` for `i = b`). -/
theorem P2_lehmer_counts_getD (x a b : Nat) (primes order counts : List Nat)
    (hperm : order.Perm (List.range (b - a))) (i : Nat) (h1 : a < i) (h2 : i ≤ b)
    (hlen : i < counts.length) :
    (P2_lehmer_counts x b primes order counts).getD i 0 =
      primesieve.count_primes (if i = b then 0 else x / primes.getD (i + 1) 0 + 1)
        (x / primes.getD i 0) := by
  unfold P2_lehmer_counts
  have e := foldl_set_getD
    (fun i => primesieve.count_primes (if i = b then 0 else x / primes.getD (i + 1) 0 + 1)
        (x / primes.getD i 0)) (fun t => b - t) order counts i hlen
  dsimp only at e ⊢
  rw [e, if_pos]
  refine ⟨b - i, ?_, by omega⟩
  rw [hperm.mem_iff, List.mem_range]
  omega

/-- The second loop of `P2_lehmer`: if adding `counts[i]` turns `P (i + 1)`
into `P i`, the loop ends with `pix = P (a + 1)` and
`sum = Σ_{a < i ≤ b} (P i - (i - 1))`. -/
theorem P2_lehmer_sum_spec (b : Nat) (counts : List Nat) (P : Nat → Nat)
    (hP0 : P (b + 1) = 0) (n : Nat) :
    ∀ a : Nat, b - a = n → a ≤ b →
      (∀ i, a < i → i ≤ b → P (i + 1) + counts.getD i 0 = P i) →
      P2_lehmer_sum a b counts 0 0 =
        ((P (a + 1) : Int), ∑ i in Finset.Ioc a b, ((P i : Int) - ((i : Int) - 1))) := by
  induction n with
  | zero =>
    intro a h1 h2 _
    have e : a = b := by omega
    subst e
    unfold P2_lehmer_sum
    simp [hP0]
  | succ n ih =>
    intro a h1 h2 hc
    have h3 := ih (a + 1) (by omega) (by omega) (fun i hi1 hi2 => hc i (by omega) hi2)
    unfold P2_lehmer_sum at h3 ⊢
    have e1 : b - a = (b - (a + 1)) + 1 := by omega
    rw [e1, List.range'_succ, List.reverse_cons, List.foldl_append, h3]
    rw [List.foldl_cons, List.foldl_nil]
    have h4 := hc (a + 1) (by omega) (by omega)
    have e2 : Finset.Ioc a b = insert (a + 1) (Finset.Ioc (a + 1) b) := by
      ext i
      simp only [Finset.mem_Ioc, Finset.mem_insert]
      omega
    rw [e2, Finset.sum_insert (by simp)]
    dsimp only
    ext
    · dsimp only
      rw [← h4]
      push_cast
      ring
    · dsimp only
      rw [← h4]
      push_cast
      ring

/-- Every prime `primes[i] ≤ √x` of the table is at most `x / primes[i]`. -/
theorem table_index_le (x i : Nat) (h1 : 1 ≤ i) (h2 : i ≤ Nat.primeCounting (isqrt x)) :
    i ≤ Nat.primeCounting (x / (0 :: primesieve.generate_primes (isqrt x)).getD i 0) := by
  have hT := primesieve.isPrimeTable_generate (isqrt x)
  have hlen := primesieve.table_length (isqrt x)
  have h3 := primesieve.table_le _ _ h1 h2
  have h4 := (PhiCache.le_isqrt_iff x _).1 h3
  have h5 := (Nat.le_div_iff_mul_le (hT.prime h1 (by omega)).pos).2 h4
  have h6 := Nat.monotone_primeCounting h5
  rw [hT.count h1 (by omega)] at h6
  exact h6

/-- The two loops of `P2_lehmer`, the second one stopped after the
iteration `i = k + 1`: `pix` is `π(x / primes[k + 1])` and `sum` is
`Σ_{k < i ≤ b} (π(x / primes[i]) - (i - 1))`, in whatever order the first
loop ran. -/
theorem P2_lehmer_loop (x a : Nat) (order : List Nat)
    (hperm : order.Perm (List.range (P2_lehmer_iterations x a))) (k : Nat) (hak : a ≤ k)
    (hkb : k ≤ Nat.primeCounting (isqrt x)) :
    P2_lehmer_sum k (Nat.primeCounting (isqrt x))
        (P2_lehmer_counts x (Nat.primeCounting (isqrt x))
          (0 :: primesieve.generate_primes (isqrt x)) order
          (List.replicate (0 :: primesieve.generate_primes (isqrt x)).length 0)) 0 0 =
      (((if k + 1 ≤ Nat.primeCounting (isqrt x) then Nat.primeCounting
          (x / (0 :: primesieve.generate_primes (isqrt x)).getD (k + 1) 0) else 0 : Nat) : Int),
        ∑ i in Finset.Ioc k (Nat.primeCounting (isqrt x)),
          ((Nat.primeCounting (x / (0 :: primesieve.generate_primes (isqrt x)).getD i 0) : Int)
            - ((i : Int) - 1))) := by
  have hb : pi_bsearch (0 :: primesieve.generate_primes (isqrt x)) (isqrt x)
      = Nat.primeCounting (isqrt x) := by
    rw [pi_bsearch_generate, min_self]
  have hT := primesieve.isPrimeTable_generate (isqrt x)
  have hlen := primesieve.table_length (isqrt x)
  unfold P2_lehmer_iterations at hperm
  dsimp only at hperm
  rw [hb] at hperm
  generalize hL : (0 :: primesieve.generate_primes (isqrt x)) = L at *
  generalize hbb : Nat.primeCounting (isqrt x) = b at *
  have hc : ∀ i, k < i → i ≤ b →
      (if i + 1 ≤ b then Nat.primeCounting (x / L.getD (i + 1) 0) else 0)
        + (P2_lehmer_counts x b L order (List.replicate L.length 0)).getD i 0
        = (if i ≤ b then Nat.primeCounting (x / L.getD i 0) else 0) := by
    intro i h1 h2
    rw [P2_lehmer_counts_getD x a b L order _ hperm i (by omega) h2
      (by rw [List.length_replicate]; omega), primesieve.count_primes_eq, if_pos h2]
    rcases Nat.eq_or_lt_of_le h2 with h3 | h3
    · rw [if_pos h3, if_neg (by omega)]
      simp
    · rw [if_pos (show i + 1 ≤ b by omega), if_neg (show ¬ i = b by omega)]
      have e3 : Nat.count Nat.Prime (x / L.getD (i + 1) 0 + 1)
          = Nat.primeCounting (x / L.getD (i + 1) 0) := rfl
      rw [e3]
      have h4 : L.getD i 0 ≤ L.getD (i + 1) 0 := hT.le_of_le (by omega) (by omega)
      have h5 : x / L.getD (i + 1) 0 ≤ x / L.getD i 0 :=
        Nat.div_le_div_left h4 (hT.prime (by omega) (by omega)).pos
      have := Nat.monotone_primeCounting h5
      omega
  have hs := P2_lehmer_sum_spec b (P2_lehmer_counts x b L order (List.replicate L.length 0))
    (fun i => if i ≤ b then Nat.primeCounting (x / L.getD i 0) else 0)
    (by dsimp only; rw [if_neg (by omega)]) (b - k) k rfl hkb hc
  rw [hs]
  dsimp only
  congr 1
  apply Finset.sum_congr rfl
  intro i hi
  rw [Finset.mem_Ioc] at hi
  rw [if_pos hi.2]

/-- The value of `P2_lehmer(x, a, threads)` as a sum over the primes
`primes[i] ≤ √x` with `i > a`. -/
theorem P2_lehmer_eq_sum (x a : Nat) (order : List Nat)
    (hperm : order.Perm (List.range (P2_lehmer_iterations x a))) :
    P2_lehmer x a order =
      ((∑ i in Finset.Ioc a (Nat.primeCounting (isqrt x)),
        (Nat.primeCounting (x / (0 :: primesieve.generate_primes (isqrt x)).getD i 0)
          - (i - 1)) : Nat) : Int) := by
  have hb : pi_bsearch (0 :: primesieve.generate_primes (isqrt x)) (isqrt x)
      = Nat.primeCounting (isqrt x) := by
    rw [pi_bsearch_generate, min_self]
  unfold P2_lehmer
  dsimp only
  rw [hb]
  rcases Nat.lt_or_ge (Nat.primeCounting (isqrt x)) a with hab | hab
  · -- no iteration
    have e1 : Nat.primeCounting (isqrt x) - a = 0 := by omega
    have e2 : Finset.Ioc a (Nat.primeCounting (isqrt x)) = ∅ := Finset.Ioc_eq_empty (by omega)
    unfold P2_lehmer_sum
    rw [e1, e2]
    simp
  · rw [P2_lehmer_loop x a order hperm a (le_refl _) hab]
    dsimp only
    push_cast
    apply Finset.sum_congr rfl
    intro i hi
    rw [Finset.mem_Ioc] at hi
    have := table_index_le x i (by omega) hi.2
    omega

/-- A table entry of index `N ≥ π(√x)` bounds every prime `≤ √x`. -/
theorem isqrt_le_table {primes : List Nat} (h : IsPrimeTable primes) (x N : Nat)
    (hN : N < primes.length) (hb : Nat.primeCounting (isqrt x) ≤ N) :
    ∀ q, q.Prime → q * q ≤ x → q ≤ primes.getD N 0 := by
  intro q hq hqq
  have h1 := (PhiCache.le_isqrt_iff x q).2 hqq
  have h2 := Nat.monotone_primeCounting h1
  by_contra hcon
  have h3 : primes.getD N 0 < q := by omega
  have h4 : Nat.primeCounting (primes.getD N 0) ≤ Nat.count Nat.Prime q := by
    unfold Nat.primeCounting Nat.primeCounting'
    exact Nat.count_monotone _ (by omega)
  rw [h.count' hN] at h4
  have h5 := primeCounting_prime hq
  omega

/-- The sum computed by `P2_lehmer` is `P2(x, a)`. -/
theorem P2_lehmer_eq_naive {primes : List Nat} (h : IsPrimeTable primes) (x a : Nat)
    (ha : a < primes.length) (order : List Nat)
    (hperm : order.Perm (List.range (P2_lehmer_iterations x a))) :
    P2_lehmer x a order = (Pk_naive primes 2 x a : Int) := by
  rw [P2_lehmer_eq_sum x a order hperm]
  congr 1
  have hT := primesieve.isPrimeTable_generate (isqrt x)
  have hlen := primesieve.table_length (isqrt x)
  rcases Nat.lt_or_ge (Nat.primeCounting (isqrt x)) a with hab | hab
  · rw [Finset.Ioc_eq_empty (by omega), Finset.sum_empty,
      P2_naive_eq_sum h x a a ha ha (isqrt_le_table h x a ha (by omega))]
    simp
  · have e : Pk_naive primes 2 x a
        = Pk_naive (0 :: primesieve.generate_primes (isqrt x)) 2 x a := by
      unfold Pk_naive
      rw [h.getD_eq hT ha (by omega)]
    rw [e, P2_naive_eq_sum hT x a (Nat.primeCounting (isqrt x)) (by omega) (by omega)
      (isqrt_le_table hT x _ (by omega) (le_refl _))]

/-- The number of integers `≤ x` with two prime factors above the `a`-th
prime, as the sum `Σ_{a < i ≤ π(√x)} (π(x / p_i) - (i - 1))` of integers. -/
theorem P2_naive_eq_int_sum {primes : List Nat} (h : IsPrimeTable primes) (x a : Nat)
    (ha : a < primes.length) :
    (Pk_naive primes 2 x a : Int) =
      ∑ i in Finset.Ioc a (Nat.primeCounting (isqrt x)),
        ((Nat.primeCounting (x / (0 :: primesieve.generate_primes (isqrt x)).getD i 0) : Int)
          - ((i : Int) - 1)) := by
  rw [← P2_lehmer_eq_naive h x a ha (List.range (P2_lehmer_iterations x a)) (List.Perm.refl _),
    P2_lehmer_eq_sum x a _ (List.Perm.refl _)]
  push_cast
  apply Finset.sum_congr rfl
  intro i hi
  rw [Finset.mem_Ioc] at hi
  have := table_index_le x i (by omega) hi.2
  omega

/-- C24: `P2_lehmer(x, a, threads)` is the number of integers `≤ x` with
exactly 2 prime factors each exceeding the `a`-th prime, in whatever order
the threads execute the iterations of the first loop; the value is
`Σ_{i = a + 1}^{π(√x)} (π(x / p_i) - (i - 1))`, and after the iteration `i`
of the second loop the counts of the disjoint ranges have accumulated to
`pix = π(x / p_i)`. -/
theorem P2_lehmer_correct {primes : List Nat} (h : IsPrimeTable primes) (x a : Nat)
    (ha : a < primes.length) (order : List Nat)
    (hperm : order.Perm (List.range (P2_lehmer_iterations x a))) :
    P2_lehmer x a order = (Pk_naive primes 2 x a : Int) ∧
    P2_lehmer x a order =
      ∑ i in Finset.Ioc a (Nat.primeCounting (isqrt x)),
        ((Nat.primeCounting (x / (0 :: primesieve.generate_primes (isqrt x)).getD i 0) : Int)
          - ((i : Int) - 1)) ∧
    ∀ i, a < i → i ≤ Nat.primeCounting (isqrt x) →
      (P2_lehmer_sum (i - 1) (Nat.primeCounting (isqrt x))
        (P2_lehmer_counts x (Nat.primeCounting (isqrt x))
          (0 :: primesieve.generate_primes (isqrt x)) order
          (List.replicate (0 :: primesieve.generate_primes (isqrt x)).length 0)) 0 0).1 =
        (Nat.primeCounting (x / (0 :: primesieve.generate_primes (isqrt x)).getD i 0) : Int) := by
  refine ⟨P2_lehmer_eq_naive h x a ha order hperm, ?_, ?_⟩
  · rw [P2_lehmer_eq_sum x a order hperm]
    push_cast
    apply Finset.sum_congr rfl
    intro i hi
    rw [Finset.mem_Ioc] at hi
    have := table_index_le x i (by omega) hi.2
    omega
  · intro i h1 h2
    rw [P2_lehmer_loop x a order hperm (i - 1) (by omega) (by omega)]
    dsimp only
    have e : i - 1 + 1 = i := by omega
    rw [e, if_pos h2]

theorem isqrt_hundred : isqrt 100 = 10 := by
  unfold isqrt
  exact Nat.sqrt_eq 10

theorem P2_lehmer_correct_witness :
    P2_lehmer 100 1 [2, 0, 1] = (Pk_naive PhiTiny.primes_ 2 100 1 : Int) ∧
    P2_lehmer 100 1 [2, 0, 1] =
      ∑ i in Finset.Ioc 1 (Nat.primeCounting (isqrt 100)),
        ((Nat.primeCounting (100 / (0 :: primesieve.generate_primes (isqrt 100)).getD i 0) : Int)
          - ((i : Int) - 1)) ∧
    ∀ i, 1 < i → i ≤ Nat.primeCounting (isqrt 100) →
      (P2_lehmer_sum (i - 1) (Nat.primeCounting (isqrt 100))
        (P2_lehmer_counts 100 (Nat.primeCounting (isqrt 100))
          (0 :: primesieve.generate_primes (isqrt 100)) [2, 0, 1]
          (List.replicate (0 :: primesieve.generate_primes (isqrt 100)).length 0)) 0 0).1 =
        (Nat.primeCounting (100 / (0 :: primesieve.generate_primes (isqrt 100)).getD i 0) : Int) :=
  P2_lehmer_correct isPrimeTable_tiny 100 1 (by decide) [2, 0, 1] (by
    have e : P2_lehmer_iterations 100 1 = 3 := by
      unfold P2_lehmer_iterations
      dsimp only
      rw [pi_bsearch_generate, min_self, isqrt_hundred]
      decide
    rw [e]
    decide)

/-! ### `P3` -/

theorem foldl_add_eq (f : Nat → Int) (l : List Nat) (s : Int) :
    l.foldl (fun sum t => sum + f t) s = s + (l.map f).sum := by
  induction l generalizing s with
  | nil => simp
  | cons t ts ih =>
    rw [List.foldl_cons, ih, List.map_cons, List.sum_cons]
    ring

/-- A sum reduction over the threads: the partial sums of the chunks add
up to the sum over all iterations. -/
theorem chunks_sum (f : Nat → Int) (chunks : List (List Nat)) :
    (chunks.map (fun chunk => chunk.foldl (fun sum t => sum + f t) 0)).sum =
      (chunks.flatten.map f).sum := by
  induction chunks with
  | nil => simp
  | cons c cs ih =>
    rw [List.map_cons, List.sum_cons, ih, foldl_add_eq, List.flatten_cons, List.map_append,
      List.sum_append]
    ring

theorem range'_sum (f : Nat → Int) (s n : Nat) :
    ((List.range' s n).map f).sum = ∑ j in Finset.Ico s (s + n), f j := by
  induction n with
  | zero => simp
  | succ n ih =>
    rw [List.range'_concat, List.map_append, List.sum_append, ih, ← Nat.add_assoc,
      Finset.sum_Ico_succ_top (by omega)]
    simp

theorem iroot3_le_isqrt (x : Nat) : iroot3 x ≤ isqrt x := by
  rw [PhiCache.le_isqrt_iff]
  have h := (iroot3_spec x).1
  rcases Nat.eq_zero_or_pos (iroot3 x) with h0 | h0
  · rw [h0]
    omega
  · have : iroot3 x * iroot3 x * 1 ≤ iroot3 x * iroot3 x * iroot3 x :=
      Nat.mul_le_mul_left _ h0
    have e : iroot3 x ^ 3 = iroot3 x * iroot3 x * iroot3 x := by ring
    omega

/-- A quotient by a number above `√x` is at most `√x`. -/
theorem div_le_isqrt (x m : Nat) (hm : x < m * m) : x / m ≤ isqrt x := by
  have h1 := (PhiCache.isqrt_lt_iff x m).2 hm
  have h2 : x < (isqrt x + 1) * (isqrt x + 1) := (PhiCache.isqrt_lt_iff x _).1 (by omega)
  have h3 : (isqrt x + 1) * (isqrt x + 1) ≤ (isqrt x + 1) * m := Nat.mul_le_mul_left _ (by omega)
  have h4 : x / m < isqrt x + 1 := (Nat.div_lt_iff_lt_mul (by omega)).2 (by omega)
  omega

/-- The table entry of index `j ≤ π(m)` is at most `m`. -/
theorem IsPrimeTable.getD_le_of_le_primeCounting {primes : List Nat} (h : IsPrimeTable primes)
    (m j : Nat) (hj1 : 1 ≤ j) (hj : j ≤ Nat.primeCounting m)
    (hlen : Nat.primeCounting m < primes.length) : primes.getD j 0 ≤ m :=
  le_trans (h.le_of_le hj hlen) (h.le_of_primeCounting m hlen (by omega))

/-- An entry of index above `π(m)` exceeds `m`. -/
theorem IsPrimeTable.lt_getD_of_primeCounting_lt {primes : List Nat} (h : IsPrimeTable primes)
    (m i : Nat) (hi : Nat.primeCounting m < i) (hlen : i < primes.length) :
    m < primes.getD i 0 := by
  by_contra hcon
  have := Nat.monotone_primeCounting (by omega : primes.getD i 0 ≤ m)
  rw [h.count' hlen] at this
  omega

/-- The body of the loop of `P3` for an index `i` whose prime `p_i` has
`p_i ^ 4 > x`: the number of integers `≤ x / p_i` with two prime factors
`≥ p_i`. -/
theorem P3_body_eq (x i : Nat) (hi1 : 1 ≤ i) (hi : i ≤ Nat.primeCounting (isqrt x))
    (h4 : x < (0 :: primesieve.generate_primes (isqrt x)).getD i 0 ^ 4) :
    P3_body x (0 :: primesieve.generate_primes (isqrt x)) i =
      (Pk_naive (0 :: primesieve.generate_primes (isqrt x)) 2
        (x / (0 :: primesieve.generate_primes (isqrt x)).getD i 0) (i - 1) : Int) := by
  have hT := primesieve.isPrimeTable_generate (isqrt x)
  have hlen := primesieve.table_length (isqrt x)
  generalize hL : (0 :: primesieve.generate_primes (isqrt x)) = L at *
  have hp := hT.prime hi1 (by omega : i < L.length)
  have hxi : isqrt (x / L.getD i 0) ≤ isqrt x := Nat.sqrt_le_sqrt (Nat.div_le_self _ _)
  have hbi : Nat.primeCounting (isqrt (x / L.getD i 0)) ≤ Nat.primeCounting (isqrt x) :=
    Nat.monotone_primeCounting hxi
  have hb : pi_bsearch L (isqrt (x / L.getD i 0))
      = Nat.primeCounting (isqrt (x / L.getD i 0)) := by
    rw [← hL, pi_bsearch_generate, hL, min_eq_left hxi]
  unfold P3_body
  dsimp only
  rw [hb, foldl_add_eq, zero_add, range'_sum]
  rw [P2_naive_eq_sum hT (x / L.getD i 0) (i - 1) (Nat.primeCounting (isqrt (x / L.getD i 0)))
    (by omega) (by omega) (isqrt_le_table hT _ _ (by omega) (le_refl _))]
  have e : Finset.Ico i (i + (Nat.primeCounting (isqrt (x / L.getD i 0)) + 1 - i))
      = Finset.Ioc (i - 1) (Nat.primeCounting (isqrt (x / L.getD i 0))) := by
    ext j
    simp only [Finset.mem_Ico, Finset.mem_Ioc]
    omega
  rw [e]
  push_cast
  apply Finset.sum_congr rfl
  intro j hj
  rw [Finset.mem_Ioc] at hj
  have hj1 : 1 ≤ j := by omega
  have hjl : j < L.length := by omega
  have hpj := hT.prime hj1 hjl
  have hij : L.getD i 0 ≤ L.getD j 0 := hT.le_of_le (by omega) hjl
  -- the quotient is at most `√x`
  have hm : x < L.getD i 0 * L.getD j 0 * (L.getD i 0 * L.getD j 0) := by
    have h5 : L.getD i 0 * L.getD i 0 ≤ L.getD i 0 * L.getD j 0 := Nat.mul_le_mul_left _ hij
    have h6 := Nat.mul_le_mul h5 h5
    have e4 : L.getD i 0 ^ 4 = L.getD i 0 * L.getD i 0 * (L.getD i 0 * L.getD i 0) := by ring
    omega
  have hq : x / L.getD i 0 / L.getD j 0 ≤ isqrt x := by
    rw [Nat.div_div_eq_div_mul]
    exact div_le_isqrt x _ hm
  have hs : pi_bsearch L (x / L.getD i 0 / L.getD j 0)
      = Nat.primeCounting (x / L.getD i 0 / L.getD j 0) := by
    rw [← hL, pi_bsearch_generate, hL, min_eq_left hq]
  rw [hs]
  -- at least `j` primes are `≤` the quotient
  have h7 : L.getD j 0 ≤ isqrt (x / L.getD i 0) :=
    hT.getD_le_of_le_primeCounting _ j hj1 hj.2 (by omega)
  have h8 := (PhiCache.le_isqrt_iff _ _).1 h7
  have h9 : L.getD j 0 ≤ x / L.getD i 0 / L.getD j 0 :=
    (Nat.le_div_iff_mul_le hpj.pos).2 h8
  have h10 := Nat.monotone_primeCounting h9
  rw [hT.count hj1 hjl] at h10
  omega

/-- No integer `≤ x / p` has two prime factors `≥ p` when `p ^ 3 > x`. -/
theorem Pk_naive_two_eq_zero {primes : List Nat} (h : IsPrimeTable primes) (x i : Nat)
    (hi1 : 1 ≤ i) (hi : i < primes.length) (h3 : x < primes.getD i 0 ^ 3) :
    Pk_naive primes 2 (x / primes.getD i 0) (i - 1) = 0 := by
  have hp := h.prime hi1 hi
  rw [P2_naive_eq_sum h _ (i - 1) (i - 1) (by omega) (by omega)]
  · simp
  · intro q hq hqq
    by_contra hcon
    have h1 := h.le_of_prev_lt hq hi1 hi (by omega)
    have h2 := (Nat.le_div_iff_mul_le hp.pos).1 hqq
    have h5 := Nat.mul_le_mul (Nat.mul_le_mul h1 h1) (le_refl (primes.getD i 0))
    have e : primes.getD i 0 ^ 3 = primes.getD i 0 * primes.getD i 0 * primes.getD i 0 := by
      ring
    omega

/-- The value of `P3(x, a, threads)` when the primes `p` with `p ^ 4 ≤ x`
are among the first `a` primes. -/
theorem P3_eq_naive {primes : List Nat} (h : IsPrimeTable primes) (x a : Nat)
    (ha : a < primes.length)
    (hq4 : ∀ q, q.Prime → q ^ 4 ≤ x → q ≤ primes.getD a 0)
    (chunks : List (List Nat))
    (hperm : chunks.flatten.Perm (List.range (P3_iterations x a))) :
    P3 x a chunks = (Pk_naive primes 3 x a : Int) := by
  have hT := primesieve.isPrimeTable_generate (isqrt x)
  have hlen := primesieve.table_length (isqrt x)
  have hy : pi_bsearch (0 :: primesieve.generate_primes (isqrt x)) (iroot3 x)
      = Nat.primeCounting (iroot3 x) := by
    rw [pi_bsearch_generate, min_eq_left (iroot3_le_isqrt x)]
  have hyb : Nat.primeCounting (iroot3 x) ≤ Nat.primeCounting (isqrt x) :=
    Nat.monotone_primeCounting (iroot3_le_isqrt x)
  unfold P3_iterations at hperm
  unfold P3
  dsimp only at hperm ⊢
  rw [hy] at hperm
  rw [chunks_sum (fun t => P3_body x (0 :: primesieve.generate_primes (isqrt x)) (a + 1 + t)),
    (hperm.map _).sum_eq, list_range_sum]
  rcases Nat.lt_or_ge (Nat.primeCounting (isqrt x)) a with hab | hab
  · have e1 : Nat.primeCounting (iroot3 x) - a = 0 := by omega
    rw [e1, Pk_naive_succ h 2 x a a (by omega) ha ha (isqrt_le_table h x a ha (by omega))]
    simp
  · have e : Pk_naive primes 3 x a
        = Pk_naive (0 :: primesieve.generate_primes (isqrt x)) 3 x a := by
      unfold Pk_naive
      rw [h.getD_eq hT ha (by omega)]
    have hq4L : ∀ i, a < i → i ≤ Nat.primeCounting (isqrt x) →
        x < (0 :: primesieve.generate_primes (isqrt x)).getD i 0 ^ 4 := by
      intro i h1 h2
      by_contra hcon
      have h3 := hq4 _ (hT.prime (i := i) (by omega) (by omega)) (by omega)
      rw [h.getD_eq hT ha (by omega)] at h3
      have := hT.lt_of_lt h1 (by omega)
      omega
    rw [e, Pk_naive_succ hT 2 x a (Nat.primeCounting (isqrt x)) (by omega) (by omega) (by omega)
      (isqrt_le_table hT x _ (by omega) (le_refl _))]
    have e2 : ∑ i in Finset.range (Nat.primeCounting (iroot3 x) - a),
        P3_body x (0 :: primesieve.generate_primes (isqrt x)) (a + 1 + i)
        = ∑ i in Finset.Ioc a (Nat.primeCounting (iroot3 x)),
          P3_body x (0 :: primesieve.generate_primes (isqrt x)) i := by
      have e3 : Finset.Ioc a (Nat.primeCounting (iroot3 x))
          = Finset.Ico (a + 1) (Nat.primeCounting (iroot3 x) + 1) := by
        ext j
        simp only [Finset.mem_Ico, Finset.mem_Ioc]
        omega
      rw [e3, Finset.sum_Ico_eq_sum_range]
      have e4 : Nat.primeCounting (iroot3 x) + 1 - (a + 1) = Nat.primeCounting (iroot3 x) - a := by
        omega
      rw [e4]
    rw [e2]
    push_cast
    have hsub : Finset.Ioc a (Nat.primeCounting (iroot3 x))
        ⊆ Finset.Ioc a (Nat.primeCounting (isqrt x)) := by
      intro i hi
      rw [Finset.mem_Ioc] at hi ⊢
      omega
    have hzero : ∀ i ∈ Finset.Ioc a (Nat.primeCounting (isqrt x)),
        i ∉ Finset.Ioc a (Nat.primeCounting (iroot3 x)) →
        (Pk_naive (0 :: primesieve.generate_primes (isqrt x)) 2
          (x / (0 :: primesieve.generate_primes (isqrt x)).getD i 0) (i - 1) : Int) = 0 := by
      intro i hi hni
      rw [Finset.mem_Ioc] at hi hni
      have h1 : Nat.primeCounting (iroot3 x) < i := by omega
      have h2 := hT.lt_getD_of_primeCounting_lt (iroot3 x) i h1 (by omega)
      have h3 := (iroot3_spec x).2
      have h5 : (iroot3 x + 1) ^ 3 ≤ (0 :: primesieve.generate_primes (isqrt x)).getD i 0 ^ 3 :=
        Nat.pow_le_pow_left (by omega) 3
      rw [Pk_naive_two_eq_zero hT x i (by omega) (by omega) (by omega)]
      rfl
    rw [← Finset.sum_subset hsub hzero]
    apply Finset.sum_congr rfl
    intro i hi
    rw [Finset.mem_Ioc] at hi
    exact P3_body_eq x i (by omega) (by omega) (hq4L i hi.1 (by omega))

theorem iroot3_eq (x r : Nat) (h1 : r ^ 3 ≤ x) (h2 : x < (r + 1) ^ 3) : iroot3 x = r := by
  have h := iroot3_spec x
  have h3 : iroot3 x < r + 1 := by
    by_contra hcon
    have : (r + 1) ^ 3 ≤ iroot3 x ^ 3 := Nat.pow_le_pow_left (by omega) 3
    omega
  have h4 : r < iroot3 x + 1 := by
    by_contra hcon
    have : (iroot3 x + 1) ^ 3 ≤ r ^ 3 := Nat.pow_le_pow_left (by omega) 3
    omega
  omega

theorem isqrt_eq (x r : Nat) (h1 : r * r ≤ x) (h2 : x < (r + 1) * (r + 1)) : isqrt x = r := by
  unfold isqrt
  symm
  rw [Nat.eq_sqrt]
  exact ⟨h1, h2⟩

theorem P3_iterations_eq (x a : Nat) :
    P3_iterations x a = Nat.primeCounting (iroot3 x) - a := by
  unfold P3_iterations
  dsimp only
  rw [pi_bsearch_generate, min_eq_left (iroot3_le_isqrt x)]

/-- `P3(20, 0)` returns 3: the table holds the primes `≤ 4` only, so that
`pi_bsearch(primes, 5)` is 2 instead of `π(5) = 3`. -/
theorem P3_twenty : P3 20 0 [[0]] = 3 := by
  have e1 : isqrt 20 = 4 := isqrt_eq 20 4 (by decide) (by decide)
  have e2 : isqrt 10 = 3 := isqrt_eq 10 3 (by decide) (by decide)
  have e3 : primesieve.generate_primes 4 = [2, 3] := by decide
  have e4 : P3_body 20 [0, 2, 3] 1 = 3 := by
    unfold P3_body
    dsimp only
    have e5 : 20 / [0, 2, 3].getD 1 0 = 10 := by decide
    rw [e5, e2]
    decide
  unfold P3
  dsimp only
  rw [e1, e3]
  simp only [List.map_cons, List.map_nil, List.foldl_cons, List.foldl_nil, List.sum_cons,
    List.sum_nil]
  rw [e4]
  decide

/-- Four integers `≤ 20` have exactly three prime factors: 8, 12, 18, 20. -/
theorem P3_naive_twenty : Pk_naive PhiTiny.primes_ 3 20 0 = 4 := by
  have hb20 : ∀ q, q.Prime → q * q ≤ 20 → q ≤ PhiTiny.primes_.getD 2 0 := by
    intro q hq hqq
    show q ≤ 3
    by_contra hcon
    have h1 : q ≤ 4 := by
      by_contra hcon2
      have := Nat.mul_le_mul (by omega : 5 ≤ q) (by omega : 5 ≤ q)
      omega
    have h2 : q = 4 := by omega
    rw [h2] at hq
    exact absurd hq (by decide)
  have hb10 : ∀ q, q.Prime → q * q ≤ 10 → q ≤ PhiTiny.primes_.getD 2 0 := by
    intro q _ hqq
    show q ≤ 3
    by_contra hcon
    have := Nat.mul_le_mul (by omega : 4 ≤ q) (by omega : 4 ≤ q)
    omega
  have hb6 : ∀ q, q.Prime → q * q ≤ 6 → q ≤ PhiTiny.primes_.getD 1 0 := by
    intro q _ hqq
    show q ≤ 2
    by_contra hcon
    have := Nat.mul_le_mul (by omega : 3 ≤ q) (by omega : 3 ≤ q)
    omega
  rw [Pk_naive_succ isPrimeTable_tiny 2 20 0 2 (by decide) (by decide) (by decide) hb20]
  have e : Finset.Ioc 0 2 = {1, 2} := by decide
  rw [e, Finset.sum_pair (by decide)]
  show Pk_naive PhiTiny.primes_ 2 10 0 + Pk_naive PhiTiny.primes_ 2 6 1 = 4
  rw [P2_naive_eq_sum isPrimeTable_tiny 10 0 2 (by decide) (by decide) hb10,
    P2_naive_eq_sum isPrimeTable_tiny 6 1 1 (by decide) (by decide) hb6]
  decide

/-- Where `P3` is right: `P3(x, a, threads)` is the number of integers
`≤ x` with exactly 3 prime factors each exceeding the `a`-th prime when
every prime `q` with `q ^ 4 ≤ x` is among the first `a` primes, that is for
`a ≥ π(x^(1/4))`, in whatever way the iterations are divided among the
threads. -/
theorem P3_correct {primes : List Nat} (h : IsPrimeTable primes) (x a : Nat)
    (ha : a < primes.length)
    (hq4 : ∀ q, q.Prime → q ^ 4 ≤ x → q ≤ primes.getD a 0)
    (chunks : List (List Nat))
    (hperm : chunks.flatten.Perm (List.range (P3_iterations x a))) :
    P3 x a chunks = (Pk_naive primes 3 x a : Int) :=
  P3_eq_naive h x a ha hq4 chunks hperm

theorem P3_correct_witness :
    P3 1000 3 [[0]] = (Pk_naive PhiTiny.primes_ 3 1000 3 : Int) :=
  P3_correct isPrimeTable_tiny 1000 3 (by decide)
    (by
      intro q _ hq4
      show q ≤ 5
      by_contra hcon
      have : 6 ^ 4 ≤ q ^ 4 := Nat.pow_le_pow_left (by omega) 4
      omega)
    [[0]]
    (by
      rw [P3_iterations_eq, iroot3_eq 1000 10 (by decide) (by decide)]
      decide)

/-- C25: `P3` does not keep to its documentation for small `a`.
`P3(20, 0)` returns 3, but 8, 12, 18 and 20 are four integers `≤ 20` with
exactly 3 prime factors. `pi_bsearch` only sees the primes `≤ √20`, that
is 2 and 3, so that the count of the primes `≤ 20 / (2 · 2) = 5` comes out
as 2 instead of 3. -/
theorem P3_small_a_wrong :
    [[0]].flatten.Perm (List.range (P3_iterations 20 0)) ∧
    P3 20 0 [[0]] = 3 ∧ Pk_naive PhiTiny.primes_ 3 20 0 = 4 ∧
    P3 20 0 [[0]] ≠ (Pk_naive PhiTiny.primes_ 3 20 0 : Int) := by
  refine ⟨?_, P3_twenty, P3_naive_twenty, ?_⟩
  · rw [P3_iterations_eq, iroot3_eq 20 2 (by decide) (by decide)]
    decide
  · rw [P3_twenty, P3_naive_twenty]
    decide

/-! ### `pi_meissel` -/

/-- For a table of primes, "divisible by none of the first `a` primes" is
"every prime factor exceeds the `a`-th prime". -/
theorem coprime_first_iff {primes : List Nat} (h : IsPrimeTable primes) (a n : Nat)
    (ha : a < primes.length) (hn : 1 ≤ n) :
    (∀ i ∈ Finset.Icc (1 : Nat) a, ¬ primes.getD i 0 ∣ n) ↔
      ∀ p ∈ n.primeFactorsList, primes.getD a 0 < p := by
  constructor
  · intro h1 p hp
    by_contra hcon
    have hpp := Nat.prime_of_mem_primeFactorsList hp
    obtain ⟨i, h2, h3, h4⟩ := h.mem_of_le hpp ha (by omega)
    apply h1 i (Finset.mem_Icc.2 ⟨h2, h3⟩)
    rw [h4]
    exact Nat.dvd_of_mem_primeFactorsList hp
  · intro h1 i hi hdvd
    rw [Finset.mem_Icc] at hi
    have h2 := h.prime hi.1 (by omega)
    have h3 := h1 _ ((Nat.mem_primeFactorsList (by omega)).2 ⟨h2, hdvd⟩)
    have h4 := h.le_of_le hi.2 ha
    omega

theorem phi_naive_eq_card {primes : List Nat} (h : IsPrimeTable primes) (x a : Nat)
    (ha : a < primes.length) :
    phi_naive primes x a = ((Finset.Icc 1 x).filter (fun n : Nat =>
      ∀ p ∈ n.primeFactorsList, primes.getD a 0 < p)).card := by
  unfold phi_naive
  congr 1
  apply Finset.filter_congr
  intro n hn
  rw [Finset.mem_Icc] at hn
  exact coprime_first_iff h a n ha hn.1

/-- Legendre's sum splits by the number of prime factors: if no integer
`≤ x` has `K` or more prime factors above the `a`-th prime,
`φ(x, a) = Σ_{k < K} P_k(x, a)`. -/
theorem phi_naive_eq_sum_Pk {primes : List Nat} (h : IsPrimeTable primes) (x a K : Nat)
    (ha : a < primes.length)
    (hK : ∀ n, 1 ≤ n → n ≤ x → (∀ p ∈ n.primeFactorsList, primes.getD a 0 < p) →
      n.primeFactorsList.length < K) :
    phi_naive primes x a = ∑ k in Finset.range K, Pk_naive primes k x a := by
  rw [phi_naive_eq_card h x a ha]
  rw [Finset.card_eq_sum_card_fiberwise (f := fun n : Nat => n.primeFactorsList.length)
    (t := Finset.range K)]
  · apply Finset.sum_congr rfl
    intro k _
    unfold Pk_naive
    rw [Finset.filter_filter]
    congr 1
    apply Finset.filter_congr
    intro n _
    exact and_comm
  · intro n hn
    rw [Finset.mem_filter, Finset.mem_Icc] at hn
    exact Finset.mem_range.2 (hK n hn.1.1 hn.1.2 hn.2)

/-- An integer whose `k` prime factors are all `≥ m` is at least `m ^ k`. -/
theorem pow_le_of_primeFactorsList {n m : Nat} (hn : 1 ≤ n)
    (h : ∀ p ∈ n.primeFactorsList, m ≤ p) : m ^ n.primeFactorsList.length ≤ n := by
  have h1 := List.pow_card_le_prod n.primeFactorsList m h
  rwa [Nat.prod_primeFactorsList (by omega)] at h1

/-- A prime above the `π(m)`-th prime is above `m`. -/
theorem lt_of_table_lt {primes : List Nat} (h : IsPrimeTable primes) (m p : Nat)
    (hlen : Nat.primeCounting m < primes.length) (hp : p.Prime)
    (hlt : primes.getD (Nat.primeCounting m) 0 < p) : m < p := by
  by_contra hcon
  obtain ⟨i, h1, h2, h3⟩ := h.mem_of_le_primeCounting m p hlen hp (by omega)
  have := h.le_of_le h2 hlen
  omega

/-- Meissel's formula: with `a = π(∛x)`,
`π(x) = φ(x, a) + a - 1 - P2(x, a)`. -/
theorem meissel_formula {primes : List Nat} (h : IsPrimeTable primes) (x : Nat) (hx : 1 ≤ x)
    (hlen : Nat.primeCounting (iroot3 x) < primes.length) :
    (phi_naive primes x (Nat.primeCounting (iroot3 x)) : Int)
        + Nat.primeCounting (iroot3 x) - 1
        - Pk_naive primes 2 x (Nat.primeCounting (iroot3 x)) = Nat.primeCounting x := by
  have hr := iroot3_spec x
  have hK : ∀ n, 1 ≤ n → n ≤ x →
      (∀ p ∈ n.primeFactorsList, primes.getD (Nat.primeCounting (iroot3 x)) 0 < p) →
      n.primeFactorsList.length < 3 := by
    intro n h1 h2 h3
    by_contra hcon
    have h4 : ∀ p ∈ n.primeFactorsList, iroot3 x + 1 ≤ p := fun p hp =>
      lt_of_table_lt h _ p hlen (Nat.prime_of_mem_primeFactorsList hp) (h3 p hp)
    have h5 := pow_le_of_primeFactorsList h1 h4
    have h6 : (iroot3 x + 1) ^ 3 ≤ (iroot3 x + 1) ^ n.primeFactorsList.length :=
      Nat.pow_le_pow_right (by omega) (by omega)
    omega
  rw [phi_naive_eq_sum_Pk h x _ 3 hlen hK]
  rw [Finset.sum_range_succ, Finset.sum_range_succ, Finset.sum_range_one,
    Pk_naive_zero primes x _ hx, Pk_naive_one h x _ hlen]
  have h7 : iroot3 x ≤ x := by
    have : iroot3 x ^ 1 ≤ iroot3 x ^ 3 := by
      rcases Nat.eq_zero_or_pos (iroot3 x) with h0 | h0
      · rw [h0]
        decide
      · exact Nat.pow_le_pow_right h0 (by omega)
    rw [pow_one] at this
    omega
  have h8 := Nat.monotone_primeCounting h7
  push_cast
  omega

/-- C21: `pi_meissel(x)` is `π(x)`, the number of primes `≤ x`: it returns
0 for `x < 2` and otherwise `φ(x, a) + a - 1 - P2(x, a)` with
`a = π(∛x)`, provided that `phi` and `P2` return, at this call, Legendre's
sum and the number of integers `≤ x` with exactly two prime factors both
exceeding the `a`-th prime. -/
theorem pi_meissel_correct {primes : List Nat} (h : IsPrimeTable primes)
    (phi : Nat → Nat → Int) (P2 : Nat → Nat → Nat → Int) (x : Int)
    (hlen : Nat.primeCounting (iroot3 x.toNat) < primes.length)
    (hphi : phi x.toNat (Nat.primeCounting (iroot3 x.toNat))
      = phi_naive primes x.toNat (Nat.primeCounting (iroot3 x.toNat)))
    (hP2 : P2 x.toNat (Nat.primeCounting (iroot3 x.toNat)) (iroot3 x.toNat)
      = Pk_naive primes 2 x.toNat (Nat.primeCounting (iroot3 x.toNat))) :
    pi_meissel phi P2 x = Nat.primeCounting x.toNat ∧
    (x < 2 → pi_meissel phi P2 x = 0) ∧
    (2 ≤ x → pi_meissel phi P2 x =
      phi x.toNat (Nat.primeCounting (iroot3 x.toNat)) + Nat.primeCounting (iroot3 x.toNat) - 1
        - P2 x.toNat (Nat.primeCounting (iroot3 x.toNat)) (iroot3 x.toNat)) := by
  have hlt : x < 2 → pi_meissel phi P2 x = 0 := by
    intro hx
    unfold pi_meissel
    rw [if_pos hx]
  have hge : 2 ≤ x → pi_meissel phi P2 x =
      phi x.toNat (Nat.primeCounting (iroot3 x.toNat)) + Nat.primeCounting (iroot3 x.toNat) - 1
        - P2 x.toNat (Nat.primeCounting (iroot3 x.toNat)) (iroot3 x.toNat) := by
    intro hx
    unfold pi_meissel pi_legendre
    rw [if_neg (by omega)]
    dsimp only
    ring
  refine ⟨?_, hlt, hge⟩
  rcases lt_or_le x 2 with hx | hx
  · rw [hlt hx]
    have h1 : x.toNat ≤ 1 := by omega
    have h2 := Nat.monotone_primeCounting h1
    have h3 : Nat.primeCounting 1 = 0 := by decide
    omega
  · rw [hge hx, hphi, hP2]
    exact meissel_formula h x.toNat (by omega) hlen

theorem iroot3_hundred : iroot3 100 = 4 := by
  have h := iroot3_spec 100
  have h1 : iroot3 100 < 5 := by
    by_contra hcon
    have : 5 ^ 3 ≤ iroot3 100 ^ 3 := Nat.pow_le_pow_left (by omega) 3
    omega
  have h2 : 4 ≤ iroot3 100 := by
    by_contra hcon
    have : (iroot3 100 + 1) ^ 3 ≤ 4 ^ 3 := Nat.pow_le_pow_left (by omega) 3
    omega
  omega

theorem pi_meissel_correct_witness :
    pi_meissel (fun x a => phi_naive PhiTiny.primes_ x a)
        (fun x a _ => Pk_naive PhiTiny.primes_ 2 x a) 100 = Nat.primeCounting (100 : Int).toNat ∧
    ((100 : Int) < 2 → pi_meissel (fun x a => phi_naive PhiTiny.primes_ x a)
        (fun x a _ => Pk_naive PhiTiny.primes_ 2 x a) 100 = 0) ∧
    (2 ≤ (100 : Int) → pi_meissel (fun x a => phi_naive PhiTiny.primes_ x a)
        (fun x a _ => Pk_naive PhiTiny.primes_ 2 x a) 100 =
      (fun x a => (phi_naive PhiTiny.primes_ x a : Int)) (100 : Int).toNat
          (Nat.primeCounting (iroot3 (100 : Int).toNat))
        + Nat.primeCounting (iroot3 (100 : Int).toNat) - 1
        - (fun x a (_ : Nat) => (Pk_naive PhiTiny.primes_ 2 x a : Int)) (100 : Int).toNat
          (Nat.primeCounting (iroot3 (100 : Int).toNat)) (iroot3 (100 : Int).toNat)) :=
  pi_meissel_correct isPrimeTable_tiny (fun x a => phi_naive PhiTiny.primes_ x a)
    (fun x a _ => Pk_naive PhiTiny.primes_ 2 x a) 100
    (by
      have e : (100 : Int).toNat = 100 := rfl
      rw [e, iroot3_hundred]
      decide) rfl rfl

/-! ### The ordinary leaves `S1` -/

theorem S1_naive_eq_leaves (primes : List Nat) (x y c : Nat) :
    S1_naive primes x y c = S1_leaves (fun z => (phi_naive primes z c : Int)) primes x y c :=
  rfl

/-- Splitting the leaves by the prime `p = primes[j + 1]`: those that `p`
does not divide, and `p` times the leaves `≤ y / p` above `p`. -/
theorem S1_leaves_step {primes : List Nat} (h : IsPrimeTable primes) (g : Nat → Int)
    (x y j : Nat) (hj : j + 1 < primes.length) :
    S1_leaves g primes x y j =
      S1_leaves g primes x y (j + 1)
        - S1_leaves g primes (x / primes.getD (j + 1) 0) (y / primes.getD (j + 1) 0) (j + 1) := by
  have hp := h.prime (by omega : 1 ≤ j + 1) hj
  have hlt := h.lt_of_lt (by omega : j < j + 1) hj
  unfold S1_leaves
  generalize hpe : primes.getD (j + 1) 0 = p at *
  rw [← Finset.sum_filter_add_sum_filter_not ((Finset.Icc 1 y).filter (fun n : Nat =>
      Squarefree n ∧ ∀ q ∈ n.primeFactorsList, primes.getD j 0 < q)) (fun n => ¬ p ∣ n)]
  have e1 : ((Finset.Icc 1 y).filter (fun n : Nat =>
      Squarefree n ∧ ∀ q ∈ n.primeFactorsList, primes.getD j 0 < q)).filter (fun n => ¬ p ∣ n)
      = (Finset.Icc 1 y).filter (fun n : Nat =>
      Squarefree n ∧ ∀ q ∈ n.primeFactorsList, p < q) := by
    ext n
    simp only [Finset.mem_filter, Finset.mem_Icc]
    constructor
    · rintro ⟨⟨h1, h2, h3⟩, h4⟩
      refine ⟨h1, h2, ?_⟩
      intro q hq
      have hqp := Nat.prime_of_mem_primeFactorsList hq
      have h5 := h.le_of_prev_lt hqp (by omega : 1 ≤ j + 1) hj (by
        rw [Nat.add_sub_cancel]
        exact h3 q hq)
      rw [hpe] at h5
      rcases Nat.eq_or_lt_of_le h5 with h6 | h6
      · exact absurd (h6 ▸ Nat.dvd_of_mem_primeFactorsList hq) h4
      · exact h6
    · rintro ⟨h1, h2, h3⟩
      refine ⟨⟨h1, h2, fun q hq => lt_trans hlt (h3 q hq)⟩, ?_⟩
      intro hdvd
      have := h3 p ((Nat.mem_primeFactorsList (by omega)).2 ⟨hp, hdvd⟩)
      omega
  have e2 : ((Finset.Icc 1 y).filter (fun n : Nat =>
      Squarefree n ∧ ∀ q ∈ n.primeFactorsList, primes.getD j 0 < q)).filter
        (fun n => ¬ ¬ p ∣ n)
      = ((Finset.Icc 1 (y / p)).filter (fun n : Nat =>
      Squarefree n ∧ ∀ q ∈ n.primeFactorsList, p < q)).image (fun m => p * m) := by
    ext n
    simp only [Finset.mem_filter, Finset.mem_Icc, Finset.mem_image, not_not]
    constructor
    · rintro ⟨⟨h1, h2, h3⟩, ⟨m, rfl⟩⟩
      have hm : 1 ≤ m := by
        rcases Nat.eq_zero_or_pos m with h0 | h0
        · rw [h0] at h1
          omega
        · exact h0
      have hsq := (Nat.squarefree_mul_iff.1 h2)
      refine ⟨m, ⟨⟨hm, ?_⟩, hsq.2.2, ?_⟩, rfl⟩
      · rw [Nat.le_div_iff_mul_le hp.pos, Nat.mul_comm]
        exact h1.2
      · intro q hq
        have hqp := Nat.prime_of_mem_primeFactorsList hq
        have hqm := Nat.dvd_of_mem_primeFactorsList hq
        have h4 := h3 q ((Nat.mem_primeFactorsList (by omega)).2
          ⟨hqp, Dvd.dvd.mul_left hqm p⟩)
        have h5 := h.le_of_prev_lt hqp (by omega : 1 ≤ j + 1) hj (by
          rw [Nat.add_sub_cancel]
          exact h4)
        rw [hpe] at h5
        rcases Nat.eq_or_lt_of_le h5 with h6 | h6
        · exfalso
          have h7 : p ∣ Nat.gcd p m := Nat.dvd_gcd (dvd_refl p) (h6 ▸ hqm)
          rw [hsq.1] at h7
          exact hp.one_lt.ne' (Nat.dvd_one.1 h7)
        · exact h6
    · rintro ⟨m, ⟨⟨h1, h2, h3⟩, rfl⟩⟩
      have hnd : ¬ p ∣ m := by
        intro hdvd
        have := h3 p ((Nat.mem_primeFactorsList (by omega)).2 ⟨hp, hdvd⟩)
        omega
      have hco : Nat.Coprime p m := (Nat.Prime.coprime_iff_not_dvd hp).2 hnd
      refine ⟨⟨⟨Nat.mul_pos hp.pos (by omega), ?_⟩, ?_, ?_⟩, Dvd.intro m rfl⟩
      · have := (Nat.le_div_iff_mul_le hp.pos).1 h1.2
        rwa [Nat.mul_comm] at this
      · exact Nat.squarefree_mul_iff.2 ⟨hco, hp.squarefree, h2⟩
      · intro q hq
        have hqp := Nat.prime_of_mem_primeFactorsList hq
        have hqd := Nat.dvd_of_mem_primeFactorsList hq
        rcases (Nat.Prime.dvd_mul hqp).1 hqd with h4 | h4
        · have := (Nat.prime_dvd_prime_iff_eq hqp hp).1 h4
          omega
        · have := h3 q ((Nat.mem_primeFactorsList (by omega)).2 ⟨hqp, h4⟩)
          omega
  rw [e1, e2, Finset.sum_image (fun a _ b _ hab => Nat.eq_of_mul_eq_mul_left hp.pos hab)]
  rw [sub_eq_add_neg, ← Finset.sum_neg_distrib]
  congr 1
  apply Finset.sum_congr rfl
  intro m hm
  simp only [Finset.mem_filter, Finset.mem_Icc] at hm
  have hnd : ¬ p ∣ m := by
    intro hdvd
    have := hm.2.2 p ((Nat.mem_primeFactorsList (by omega)).2 ⟨hp, hdvd⟩)
    omega
  have hco : Nat.Coprime p m := (Nat.Prime.coprime_iff_not_dvd hp).2 hnd
  rw [ArithmeticFunction.isMultiplicative_moebius.map_mul_of_coprime hco,
    ArithmeticFunction.moebius_apply_prime hp, Nat.div_div_eq_div_mul]
  ring

/-- Without a prime in `(primes[j], y]` the only leaf is `n = 1`. -/
theorem S1_leaves_one (g : Nat → Int) (primes : List Nat) (x y j : Nat) (hy : 1 ≤ y)
    (hno : ∀ q, q.Prime → primes.getD j 0 < q → y < q) :
    S1_leaves g primes x y j = g x := by
  unfold S1_leaves
  have e : (Finset.Icc 1 y).filter (fun n : Nat =>
      Squarefree n ∧ ∀ q ∈ n.primeFactorsList, primes.getD j 0 < q) = {1} := by
    ext n
    simp only [Finset.mem_filter, Finset.mem_Icc, Finset.mem_singleton]
    constructor
    · rintro ⟨h1, _, h3⟩
      by_contra hne
      have h4 : 2 ≤ n := by omega
      have h5 := Nat.minFac_prime (by omega : n ≠ 1)
      have h6 := Nat.minFac_dvd n
      have h7 := h3 _ ((Nat.mem_primeFactorsList (by omega)).2 ⟨h5, h6⟩)
      have h8 := hno _ h5 h7
      have h9 := Nat.le_of_dvd (by omega) h6
      omega
    · rintro rfl
      refine ⟨⟨le_refl _, hy⟩, squarefree_one, ?_⟩
      intro q hq
      simp at hq
  rw [e, Finset.sum_singleton, ArithmeticFunction.moebius_apply_one, Nat.div_one, one_mul]

theorem S1_leaves_zero (g : Nat → Int) (primes : List Nat) (x j : Nat) :
    S1_leaves g primes x 0 j = 0 := by
  unfold S1_leaves
  simp

/-- The loop of `S1_thread<MU>` entered at the index `j + 1` with the
square-free number `sq ≤ y`: with enough fuel it returns `s1` minus `MU`
times the leaves `sq · m`, `m > 1` a square-free product of primes above
`primes[j]`. -/
theorem S1_thread_loop_spec {primes : List Nat} (h : IsPrimeTable primes) (x y c : Nat)
    (hc : c ≤ 6)
    (hall : ∀ q, q.Prime → primes.getD (primes.length - 1) 0 < q → y < q) :
    ∀ (fuel : Nat) (MU : Int) (j sq : Nat) (s1 : Int), j < primes.length →
      primes.length - j ≤ fuel → 1 ≤ sq → sq ≤ y →
      S1_thread_loop fuel MU x y (j + 1) c sq primes s1 =
        some (s1 - MU * (S1_leaves (fun z => (phi_naive PhiTiny.primes_ z c : Int)) primes
          (x / sq) (y / sq) j - (phi_naive PhiTiny.primes_ (x / sq) c : Int))) := by
  intro fuel
  induction fuel with
  | zero =>
    intro MU j sq s1 h1 h2 _ _
    omega
  | succ fuel ih =>
    intro MU j sq s1 h1 h2 h3 h4
    have hY : 1 ≤ y / sq := (Nat.le_div_iff_mul_le (by omega)).2 (by omega)
    unfold S1_thread_loop
    by_cases hb : j + 1 < primes.length
    · rw [if_pos hb]
      dsimp only
      have hp := h.prime (by omega : 1 ≤ j + 1) hb
      by_cases hn : sq * primes.getD (j + 1) 0 > y
      · rw [if_pos hn]
        rw [S1_leaves_one _ _ _ _ _ hY]
        · simp
        · intro q hq hlt
          have h5 := h.le_of_prev_lt hq (by omega : 1 ≤ j + 1) hb (by
            rw [Nat.add_sub_cancel]
            exact hlt)
          rw [Nat.div_lt_iff_lt_mul (by omega)]
          calc y < sq * primes.getD (j + 1) 0 := hn
            _ ≤ sq * q := Nat.mul_le_mul_left _ h5
            _ = q * sq := Nat.mul_comm _ _
      · rw [if_neg hn]
        have hn1 : 1 ≤ sq * primes.getD (j + 1) 0 := Nat.mul_pos (by omega) hp.pos
        rw [ih (-MU) (j + 1) (sq * primes.getD (j + 1) 0) 0 hb (by omega) hn1 (by omega)]
        dsimp only
        rw [ih MU (j + 1) sq _ hb (by omega) h3 h4]
        rw [S1_leaves_step h _ (x / sq) (y / sq) j hb, PhiTiny.phi_tiny_eq _ _ hc,
          Nat.div_div_eq_div_mul, Nat.div_div_eq_div_mul]
        congr 1
        ring
    · rw [if_neg hb]
      have e : primes.length - 1 = j := by omega
      rw [S1_leaves_one _ _ _ _ _ hY]
      · simp
      · intro q hq hlt
        have := hall q hq (by rw [e]; exact hlt)
        have := Nat.div_le_self y sq
        omega

/-- The largest entry of the table of the primes `≤ y` is below every
other prime that is not `≤ y`. -/
theorem table_last_lt (y q : Nat) (hq : q.Prime)
    (hlt : (0 :: primesieve.generate_primes y).getD
      ((0 :: primesieve.generate_primes y).length - 1) 0 < q) : y < q := by
  by_contra hcon
  obtain ⟨i, h1, h2, h3⟩ := primesieve.table_mem y q hq (by omega)
  have hlen := primesieve.table_length y
  have := (primesieve.isPrimeTable_generate y).le_of_le
    (by omega : i ≤ (0 :: primesieve.generate_primes y).length - 1) (by omega)
  omega

/-- One iteration of the parallel loop of `S1_OpenMP`: it subtracts the
leaves `primes[b] · m`. -/
theorem S1_OpenMP_body_spec (fuel x y c : Nat) (hc : c ≤ 6) (hf : Nat.primeCounting y ≤ fuel)
    (s : Int) (b : Nat) (hb1 : 1 ≤ b) (hb : b < (0 :: primesieve.generate_primes y).length) :
    S1_OpenMP_body fuel x y c (0 :: primesieve.generate_primes y) (some s) b =
      some (s - S1_leaves (fun z => (phi_naive PhiTiny.primes_ z c : Int))
        (0 :: primesieve.generate_primes y)
        (x / (0 :: primesieve.generate_primes y).getD b 0)
        (y / (0 :: primesieve.generate_primes y).getD b 0) b) := by
  have hT := primesieve.isPrimeTable_generate y
  have hlen := primesieve.table_length y
  unfold S1_OpenMP_body S1_thread
  dsimp only
  rw [S1_thread_loop_spec hT x y c hc (table_last_lt y) fuel 1 b _ 0 hb (by omega)
    (hT.prime hb1 hb).pos (primesieve.table_le y b hb1 (by omega))]
  dsimp only
  rw [PhiTiny.phi_tiny_eq _ _ hc]
  congr 1
  ring

/-- The iterations that one thread runs. -/
theorem S1_OpenMP_thread (fuel x y c : Nat) (hc : c ≤ 6) (hf : Nat.primeCounting y ≤ fuel)
    (mine : List Nat)
    (hm : ∀ k ∈ mine, c + 1 + k < (0 :: primesieve.generate_primes y).length) (s : Int) :
    mine.foldl (fun s k => S1_OpenMP_body fuel x y c (0 :: primesieve.generate_primes y) s
        (c + 1 + k)) (some s) =
      some (s + (mine.map (fun k => - S1_leaves (fun z => (phi_naive PhiTiny.primes_ z c : Int))
        (0 :: primesieve.generate_primes y)
        (x / (0 :: primesieve.generate_primes y).getD (c + 1 + k) 0)
        (y / (0 :: primesieve.generate_primes y).getD (c + 1 + k) 0) (c + 1 + k))).sum) := by
  induction mine generalizing s with
  | nil => simp
  | cons k ks ih =>
    rw [List.foldl_cons, S1_OpenMP_body_spec fuel x y c hc hf s (c + 1 + k) (by omega)
      (hm k (List.mem_cons_self _ _)), ih (fun k hk => hm k (List.mem_cons_of_mem _ hk))]
    rw [List.map_cons, List.sum_cons]
    congr 1
    ring

/-- Under `schedule(static, 1)` every iteration belongs to exactly one
thread: the private sums add up to the sum over all iterations. -/
theorem static_schedule_sum (f : Nat → Int) (threads n : Nat) (ht : 1 ≤ threads) :
    ((List.range threads).map (fun t =>
      (((List.range n).filter (fun k => k % threads = t)).map f).sum)).sum =
      ((List.range n).map f).sum := by
  induction n with
  | zero => simp
  | succ n ih =>
    have e : ([n].map f).sum = ∑ t in Finset.range threads, if n % threads = t then f n else 0 := by
      rw [Finset.sum_ite_eq, if_pos (Finset.mem_range.2 (Nat.mod_lt _ (by omega)))]
      simp
    rw [List.range_succ, List.map_append, List.sum_append, ← ih, list_range_sum,
      list_range_sum, e, ← Finset.sum_add_distrib]
    apply Finset.sum_congr rfl
    intro t _
    rw [List.filter_append, List.map_append, List.sum_append]
    congr 1
    by_cases hk : n % threads = t
    · simp [hk]
    · simp [hk]

/-- The reduction over the threads. -/
theorem S1_OpenMP_reduce (fuel x y c threads n : Nat) (hc : c ≤ 6)
    (hf : Nat.primeCounting y ≤ fuel)
    (hn : n ≤ (0 :: primesieve.generate_primes y).length - (c + 1)) (ts : List Nat) (s : Int) :
    ts.foldl (fun (total : Option Int) t =>
      match total, ((List.range n).filter (fun k => k % threads = t)).foldl
          (fun s k => S1_OpenMP_body fuel x y c (0 :: primesieve.generate_primes y) s
            (c + 1 + k)) (some 0) with
      | some total, some s => some (total + s)
      | _, _ => none) (some s) =
    some (s + (ts.map (fun t => (((List.range n).filter (fun k => k % threads = t)).map
      (fun k => - S1_leaves (fun z => (phi_naive PhiTiny.primes_ z c : Int))
        (0 :: primesieve.generate_primes y)
        (x / (0 :: primesieve.generate_primes y).getD (c + 1 + k) 0)
        (y / (0 :: primesieve.generate_primes y).getD (c + 1 + k) 0) (c + 1 + k))).sum)).sum) := by
  induction ts generalizing s with
  | nil => simp
  | cons t ts ih =>
    rw [List.foldl_cons, S1_OpenMP_thread fuel x y c hc hf _ (by
      intro k hk
      have := List.mem_range.1 (List.mem_filter.1 hk).1
      omega) 0]
    dsimp only
    rw [ih, List.map_cons, List.sum_cons]
    congr 1
    ring

/-- Unrolling the recurrence over the primes `primes[c + 1], …`. -/
theorem S1_leaves_unroll {primes : List Nat} (h : IsPrimeTable primes) (g : Nat → Int)
    (x y c n : Nat) (hn : c + n < primes.length) :
    S1_leaves g primes x y c = S1_leaves g primes x y (c + n)
      + ((List.range n).map (fun k => - S1_leaves g primes
        (x / primes.getD (c + 1 + k) 0) (y / primes.getD (c + 1 + k) 0) (c + 1 + k))).sum := by
  induction n with
  | zero => simp
  | succ n ih =>
    rw [ih (by omega), List.range_succ, List.map_append, List.sum_append,
      S1_leaves_step h g x y (c + n) (by omega)]
    simp only [List.map_cons, List.map_nil, List.sum_cons, List.sum_nil]
    have e1 : c + n + 1 = c + 1 + n := by omega
    have e2 : c + (n + 1) = c + 1 + n := by omega
    rw [e1, e2]
    ring

/-- The value of `S1_OpenMP` is the sum of the ordinary leaves, for every
number of threads. -/
theorem S1_OpenMP_eq (fuel x y c threads : Nat) (hy : 1 ≤ y) (hc : c ≤ 6)
    (ht : 1 ≤ threads) (hf : Nat.primeCounting y ≤ fuel) :
    S1_OpenMP fuel x y c threads = some (S1_naive PhiTiny.primes_ x y c) := by
  have hT := primesieve.isPrimeTable_generate y
  have hlen := primesieve.table_length y
  have h7 : PhiTiny.primes_.length = 7 := rfl
  unfold S1_OpenMP
  dsimp only
  rw [S1_OpenMP_reduce fuel x y c threads _ hc hf (le_refl _), static_schedule_sum _ _ _ ht,
    PhiTiny.phi_tiny_eq _ _ hc, S1_naive_eq_leaves]
  congr 1
  rcases Nat.lt_or_ge c (0 :: primesieve.generate_primes y).length with hcl | hcl
  · have e1 : S1_leaves (fun z => (phi_naive PhiTiny.primes_ z c : Int)) PhiTiny.primes_ x y c
        = S1_leaves (fun z => (phi_naive PhiTiny.primes_ z c : Int))
          (0 :: primesieve.generate_primes y) x y c := by
      unfold S1_leaves
      rw [isPrimeTable_tiny.getD_eq hT (by omega) hcl]
    rw [e1, S1_leaves_unroll hT _ x y c ((0 :: primesieve.generate_primes y).length - (c + 1))
      (by omega)]
    congr 1
    rw [S1_leaves_one _ _ _ _ _ hy]
    intro q hq hlt
    apply table_last_lt y q hq
    have e2 : c + ((0 :: primesieve.generate_primes y).length - (c + 1))
        = (0 :: primesieve.generate_primes y).length - 1 := by omega
    rw [← e2]
    exact hlt
  · have e1 : (0 :: primesieve.generate_primes y).length - (c + 1) = 0 := by omega
    rw [e1]
    rw [S1_leaves_one _ _ _ _ _ hy]
    · simp
    · intro q hq hlt
      by_contra hcon
      have h1 := Nat.monotone_primeCounting (by omega : q ≤ y)
      have h2 : Nat.primeCounting (PhiTiny.primes_.getD c 0) ≤ Nat.count Nat.Prime q := by
        unfold Nat.primeCounting Nat.primeCounting'
        exact Nat.count_monotone _ (by omega)
      rw [isPrimeTable_tiny.count' (by omega)] at h2
      have h3 := primeCounting_prime hq
      omega

theorem phi_step_int (x a : Nat) (ha : a + 1 < 7) :
    (phi_naive PhiTiny.primes_ x (a + 1) : Int) = phi_naive PhiTiny.primes_ x a
      - phi_naive PhiTiny.primes_ (x / PhiTiny.primes_.getD (a + 1) 0) a := by
  have := isPrimeTable_tiny.phi_naive_step x a ha
  omega

/-- The ordinary leaves of the first `Phi0` test: `φ(100, 2) - φ(20, 2)`. -/
theorem S1_naive_hundred : S1_naive PhiTiny.primes_ 100 5 2 = 26 := by
  rw [S1_naive_eq_leaves, S1_leaves_step isPrimeTable_tiny _ 100 5 2 (by decide)]
  have e5 : PhiTiny.primes_.getD (2 + 1) 0 = 5 := rfl
  rw [e5, S1_leaves_one (fun z => (phi_naive PhiTiny.primes_ z 2 : Int)) PhiTiny.primes_ 100 5 (2 + 1) (by decide) (fun q _ hq => hq),
    S1_leaves_one (fun z => (phi_naive PhiTiny.primes_ z 2 : Int)) PhiTiny.primes_ (100 / 5) (5 / 5) (2 + 1) (by decide) (fun q _ hq => by
      have h : 5 < q := hq
      have e : 5 / 5 = 1 := rfl
      omega)]
  simp only [phi_step_int _ _ (by decide : 1 + 1 < 7), phi_step_int _ _ (by decide : 0 + 1 < 7),
    phi_naive_zero]
  decide

/-- The ordinary leaves of the second `Phi0` test:
`φ(1000, 3) - φ(142, 3) - φ(90, 3) - φ(76, 3)`. -/
theorem S1_naive_thousand : S1_naive PhiTiny.primes_ 1000 15 3 = 184 := by
  rw [S1_naive_eq_leaves, S1_leaves_step isPrimeTable_tiny _ 1000 15 3 (by decide)]
  have e7 : PhiTiny.primes_.getD (3 + 1) 0 = 7 := rfl
  rw [e7, S1_leaves_step isPrimeTable_tiny _ 1000 15 (3 + 1) (by decide)]
  have e11 : PhiTiny.primes_.getD (3 + 1 + 1) 0 = 11 := rfl
  rw [e11, S1_leaves_step isPrimeTable_tiny _ 1000 15 (3 + 1 + 1) (by decide)]
  have e13 : PhiTiny.primes_.getD (3 + 1 + 1 + 1) 0 = 13 := rfl
  rw [e13, S1_leaves_one (fun z => (phi_naive PhiTiny.primes_ z 3 : Int)) PhiTiny.primes_ 1000 15 (3 + 1 + 1 + 1) (by decide) (fun q hq hlt => by
      have h : 13 < q := hlt
      by_contra hcon
      have h2 : q = 14 ∨ q = 15 := by omega
      rcases h2 with h2 | h2
      · rw [h2] at hq
        exact absurd hq (by decide)
      · rw [h2] at hq
        exact absurd hq (by decide)),
    S1_leaves_one (fun z => (phi_naive PhiTiny.primes_ z 3 : Int)) PhiTiny.primes_ (1000 / 13) (15 / 13) (3 + 1 + 1 + 1) (by decide) (fun q _ hlt => by
      have h : 13 < q := hlt
      have e : 15 / 13 = 1 := rfl
      omega),
    S1_leaves_one (fun z => (phi_naive PhiTiny.primes_ z 3 : Int)) PhiTiny.primes_ (1000 / 11) (15 / 11) (3 + 1 + 1) (by decide) (fun q _ hlt => by
      have h : 11 < q := hlt
      have e : 15 / 11 = 1 := rfl
      omega),
    S1_leaves_one (fun z => (phi_naive PhiTiny.primes_ z 3 : Int)) PhiTiny.primes_ (1000 / 7) (15 / 7) (3 + 1) (by decide) (fun q _ hlt => by
      have h : 7 < q := hlt
      have e : 15 / 7 = 2 := rfl
      omega)]
  simp only [phi_step_int _ _ (by decide : 2 + 1 < 7), phi_step_int _ _ (by decide : 1 + 1 < 7),
    phi_step_int _ _ (by decide : 0 + 1 < 7), phi_naive_zero]
  decide

/-- C22: for `y ≥ 1` and `c ≤ 6`, `S1_OpenMP(x, y, c, threads)` returns the
sum `Σ μ(n) · φ(x / n, c)` of the ordinary leaves over the square-free
`n ≤ y` whose prime factors all exceed the `c`-th prime, whatever the
number of threads; for `(x, y, c) = (100, 5, 2)` and `(1000, 15, 3)` this is
26 and 184, the values of the `Phi0` test. -/
theorem S1_OpenMP_correct (fuel x y c threads : Nat) (hy : 1 ≤ y) (hc : c ≤ 6)
    (ht : 1 ≤ threads) (hf : Nat.primeCounting y ≤ fuel) :
    S1_OpenMP fuel x y c threads = some (S1_naive PhiTiny.primes_ x y c) ∧
    S1_OpenMP 3 100 5 2 threads = some 26 ∧
    S1_OpenMP 6 1000 15 3 threads = some 184 := by
  refine ⟨S1_OpenMP_eq fuel x y c threads hy hc ht hf, ?_, ?_⟩
  · rw [S1_OpenMP_eq 3 100 5 2 threads (by decide) (by decide) ht (by decide), S1_naive_hundred]
  · rw [S1_OpenMP_eq 6 1000 15 3 threads (by decide) (by decide) ht (by decide),
      S1_naive_thousand]

theorem S1_OpenMP_correct_witness :
    S1_OpenMP 3 100 5 2 2 = some (S1_naive PhiTiny.primes_ 100 5 2) ∧
    S1_OpenMP 3 100 5 2 2 = some 26 ∧
    S1_OpenMP 6 1000 15 3 2 = some 184 :=
  S1_OpenMP_correct 3 100 5 2 2 (by decide) (by decide) (by decide) (by decide)

/-! ### `P2`: the segmented sieve -/

/-- The loop that crosses off the multiples: with enough fuel it ends, it
writes 0 at `k, k + p2, …` below `segment_size`, and `k` ends at the first
of these values that is not below `segment_size`. -/
theorem P2_cross_off_spec (seg p2 : Nat) (hp2 : 0 < p2) :
    ∀ (fuel k : Nat) (sieve : List Nat), sieve.length = seg → seg < fuel + k → 0 < fuel →
      ∃ sieve' t, P2_cross_off fuel seg p2 k sieve = some (sieve', k + t * p2) ∧
        sieve'.length = seg ∧ seg ≤ k + t * p2 ∧ (t = 0 ∨ k + t * p2 < seg + p2) ∧
        ∀ q, q < seg → sieve'.getD q 0 =
          if k ≤ q ∧ (q - k) % p2 = 0 then 0 else sieve.getD q 0 := by
  intro fuel
  induction fuel with
  | zero =>
    intro k sieve hlen _ hf0
    omega
  | succ fuel ih =>
    intro k sieve hlen hf _
    unfold P2_cross_off
    by_cases hk : k < seg
    · rw [if_pos hk]
      obtain ⟨sieve', t, h1, h2, h3, h4, h5⟩ := ih (k + p2) (sieve.set k 0)
        (by rw [List.length_set]; exact hlen) (by omega) (by omega)
      refine ⟨sieve', t + 1, ?_, h2, ?_, ?_, ?_⟩
      · rw [h1]
        congr 2
        ring
      · have e : k + (t + 1) * p2 = k + p2 + t * p2 := by ring
        omega
      · right
        have e : k + (t + 1) * p2 = k + p2 + t * p2 := by ring
        rcases h4 with h4 | h4
        · subst h4
          omega
        · omega
      · intro q hq
        rw [h5 q hq, getD_set_eq _ _ _ _ (by omega)]
        by_cases hkq : k = q
        · subst hkq
          simp
        · rw [if_neg hkq]
          by_cases h6 : k + p2 ≤ q ∧ (q - (k + p2)) % p2 = 0
          · rw [if_pos h6, if_pos]
            refine ⟨by omega, ?_⟩
            have e : q - k = q - (k + p2) + p2 := by omega
            rw [e, Nat.add_mod_right]
            exact h6.2
          · rw [if_neg h6, if_neg]
            rintro ⟨h7, h8⟩
            apply h6
            have h9 : p2 ≤ q - k := by
              have := Nat.le_of_dvd (by omega) (Nat.dvd_of_mod_eq_zero h8)
              exact this
            refine ⟨by omega, ?_⟩
            have e : q - k = q - (k + p2) + p2 := by omega
            rw [e, Nat.add_mod_right] at h8
            exact h8
    · rw [if_neg hk]
      refine ⟨sieve, 0, by simp, hlen, by omega, Or.inl rfl, ?_⟩
      intro q hq
      rw [if_neg]
      omega

/-- The indices that the sieve crosses off for the prime `p`, from the
first hit `k0` on: `k0, k0 + 2p, k0 + 4p, …`. -/
theorem P2_hit_iff (p low k0 : Nat) (hp : p % 2 = 1) (h : P2_first_hit p low k0) (k : Nat) :
    (p ∣ low + k ∧ k % 2 = 0 ∧ p * p ≤ low + k) ↔ (k0 ≤ k ∧ (k - k0) % (p * 2) = 0) := by
  obtain ⟨h1, h2, h3, h4⟩ := h
  have hco : Nat.Coprime p 2 := by
    rw [Nat.coprime_comm, Nat.coprime_two_left]
    exact Nat.odd_iff.2 hp
  constructor
  · rintro ⟨h5, h6, h7⟩
    have hle : k0 ≤ k := by
      by_contra hcon
      have h8 : p ∣ k0 - k := by
        have := Nat.dvd_sub' h1 h5
        have e : low + k0 - (low + k) = k0 - k := by omega
        rwa [e] at this
      have h9 : 2 ∣ k0 - k := by omega
      have h10 := Nat.Coprime.mul_dvd_of_dvd_of_dvd hco h8 h9
      have h11 := Nat.le_of_dvd (by omega) h10
      rcases h4 with h4 | h4
      · omega
      · omega
    refine ⟨hle, ?_⟩
    have h8 : p ∣ k - k0 := by
      have := Nat.dvd_sub' h5 h1
      have e : low + k - (low + k0) = k - k0 := by omega
      rwa [e] at this
    have h9 : 2 ∣ k - k0 := by omega
    exact Nat.mod_eq_zero_of_dvd (Nat.Coprime.mul_dvd_of_dvd_of_dvd hco h8 h9)
  · rintro ⟨h5, h6⟩
    obtain ⟨t, ht⟩ := Nat.dvd_of_mod_eq_zero h6
    have e : low + k = low + k0 + p * (2 * t) := by
      have : k = k0 + p * 2 * t := by omega
      rw [this]
      ring
    refine ⟨?_, ?_, ?_⟩
    · rw [e]
      exact Dvd.dvd.add h1 (Dvd.intro _ rfl)
    · have e2 : k = k0 + 2 * (p * t) := by
        have : k = k0 + p * 2 * t := by omega
        rw [this]
        ring
      omega
    · omega

/-- The value of `next[i]` that the crossing-off loop leaves for the next
segment is the first hit there. -/
theorem P2_first_hit_next (p low seg k0 t : Nat) (hseg : seg % 2 = 0)
    (h : P2_first_hit p low k0) (h1 : seg ≤ k0 + t * (p * 2))
    (h2 : t = 0 ∨ k0 + t * (p * 2) < seg + p * 2) (h3 : p * p < low + seg) :
    P2_first_hit p (low + seg) (k0 + t * (p * 2) - seg) := by
  obtain ⟨g1, g2, g3, g4⟩ := h
  have e : low + seg + (k0 + t * (p * 2) - seg) = low + k0 + p * (2 * t) := by
    have : t * (p * 2) = p * (2 * t) := by ring
    omega
  refine ⟨?_, ?_, ?_, ?_⟩
  · rw [e]
    exact Dvd.dvd.add g1 (Dvd.intro _ rfl)
  · have : t * (p * 2) = 2 * (t * p) := by ring
    omega
  · rw [e]
    omega
  · left
    rcases h2 with h2 | h2
    · subst h2
      rcases g4 with g4 | g4
      · omega
      · omega
    · omega

/-- The first hit of a prime whose square lies in the segment: the initial
value `(p² - 3) % segment_size` of `next[i]` is the index of `p²`. -/
theorem P2_first_hit_square (p low seg high : Nat) (hp : p % 2 = 1) (hlow : low % 2 = 1)
    (h3 : 3 ≤ low) (hdvd : seg ∣ low - 3) (h1 : low ≤ p * p) (h2 : p * p ≤ high)
    (h4 : high < low + seg) :
    P2_first_hit p low ((p * p - 3) % seg) := by
  have e : (p * p - 3) % seg = p * p - low := by
    obtain ⟨m, hm⟩ := hdvd
    have e1 : p * p - 3 = p * p - low + seg * m := by omega
    rw [e1, Nat.add_mul_mod_self_left, Nat.mod_eq_of_lt (by omega)]
  rw [e]
  have hpp : (p * p) % 2 = 1 := by
    rw [Nat.mul_mod, hp]
  refine ⟨?_, by omega, by omega, Or.inr (by omega)⟩
  have e2 : low + (p * p - low) = p * p := by omega
  rw [e2]
  exact Dvd.intro _ rfl

/-- The primes of index `≥ 2` are odd. -/
theorem IsPrimeTable.odd_of_two_le {primes : List Nat} (h : IsPrimeTable primes) {i : Nat}
    (h2 : 2 ≤ i) (hi : i < primes.length) :
    primes.getD i 0 % 2 = 1 ∧ 3 ≤ primes.getD i 0 := by
  have hp := h.prime (by omega : 1 ≤ i) hi
  have hc := h.count (by omega : 1 ≤ i) hi
  have hne : primes.getD i 0 ≠ 2 := by
    intro he
    rw [he] at hc
    have : Nat.primeCounting 2 = 1 := by decide
    omega
  have h2le := hp.two_le
  rcases hp.eq_two_or_odd with h3 | h3
  · exact absurd h3 hne
  · exact ⟨h3, by omega⟩

/-- The loop that sieves a segment `[low, high]`, from the index `i0` on:
at the end the sieve holds 0 exactly at the odd multiples `≥ p²` of the
primes `p` with `p² ≤ high`, and `next` is ready for the next segment. -/
theorem P2_sieve_primes_spec {primes : List Nat} (h : IsPrimeTable primes)
    (seg low high fuel : Nat) (hseg : seg % 2 = 0) (hlow : low % 2 = 1)
    (h3 : 3 ≤ low) (hdvd : seg ∣ low - 3) (hhigh : high < low + seg)
    (hf : seg < fuel) (next0 : List Nat) (hnext : P2_next_ok primes seg low next0) :
    ∀ (n i0 : Nat) (sieve next : List Nat), n = primes.length - i0 → 2 ≤ i0 →
      sieve.length = seg → next.length = primes.length →
      (∀ i, 2 ≤ i → i < i0 → i < primes.length →
        primes.getD i 0 * primes.getD i 0 ≤ high) →
      (∀ q, q < seg → sieve.getD q 0 ≤ 1 ∧ (sieve.getD q 0 = 0 ↔
        ∃ i, 2 ≤ i ∧ i < i0 ∧ i < primes.length ∧ primes.getD i 0 ∣ low + q ∧ q % 2 = 0 ∧
          primes.getD i 0 * primes.getD i 0 ≤ low + q)) →
      (∀ i, 2 ≤ i → i < i0 → i < primes.length →
        P2_first_hit (primes.getD i 0) (low + seg) (next.getD i 0)) →
      (∀ i, i0 ≤ i → next.getD i 0 = next0.getD i 0) →
      ∃ sieve' next', P2_sieve_primes fuel seg (isqrt high) primes (List.range' i0 n) sieve next
          = some (sieve', next') ∧
        sieve'.length = seg ∧ next'.length = primes.length ∧
        (∀ q, q < seg → sieve'.getD q 0 ≤ 1 ∧ (sieve'.getD q 0 = 0 ↔
          ∃ i, 2 ≤ i ∧ i < primes.length ∧ primes.getD i 0 ∣ low + q ∧ q % 2 = 0 ∧
            primes.getD i 0 * primes.getD i 0 ≤ low + q ∧
            primes.getD i 0 * primes.getD i 0 ≤ high)) ∧
        (∀ i, 2 ≤ i → i < primes.length →
          (primes.getD i 0 * primes.getD i 0 ≤ high →
            P2_first_hit (primes.getD i 0) (low + seg) (next'.getD i 0)) ∧
          (high < primes.getD i 0 * primes.getD i 0 → next'.getD i 0 = next0.getD i 0)) := by
  intro n
  induction n with
  | zero =>
    intro i0 sieve next hn hi0 hsl hnl hact hsem hfh hrest
    refine ⟨sieve, next, rfl, hsl, hnl, ?_, ?_⟩
    · intro q hq
      refine ⟨(hsem q hq).1, (hsem q hq).2.trans ?_⟩
      constructor
      · rintro ⟨i, g1, g2, g3, g4, g5, g6⟩
        exact ⟨i, g1, g3, g4, g5, g6, hact i g1 g2 g3⟩
      · rintro ⟨i, g1, g3, g4, g5, g6, _⟩
        exact ⟨i, g1, by omega, g3, g4, g5, g6⟩
    · intro i g1 g2
      refine ⟨fun _ => hfh i g1 (by omega) g2, fun g => ?_⟩
      have := hact i g1 (by omega) g2
      omega
  | succ n ih =>
    intro i0 sieve next hn hi0 hsl hnl hact hsem hfh hrest
    have hi0l : i0 < primes.length := by omega
    obtain ⟨hodd, hp3⟩ := h.odd_of_two_le hi0 hi0l
    rw [List.range'_succ]
    unfold P2_sieve_primes
    by_cases hbr : primes.getD i0 0 > isqrt high
    · rw [if_pos hbr]
      have hinact : ∀ i, i0 ≤ i → i < primes.length →
          high < primes.getD i 0 * primes.getD i 0 := by
        intro i g1 g2
        have g3 := h.le_of_le g1 g2
        exact (PhiCache.isqrt_lt_iff high _).1 (by omega)
      refine ⟨sieve, next, rfl, hsl, hnl, ?_, ?_⟩
      · intro q hq
        refine ⟨(hsem q hq).1, (hsem q hq).2.trans ?_⟩
        constructor
        · rintro ⟨i, g1, g2, g3, g4, g5, g6⟩
          exact ⟨i, g1, g3, g4, g5, g6, hact i g1 g2 g3⟩
        · rintro ⟨i, g1, g3, g4, g5, g6, g7⟩
          refine ⟨i, g1, ?_, g3, g4, g5, g6⟩
          by_contra hcon
          have := hinact i (by omega) g3
          omega
      · intro i g1 g2
        constructor
        · intro g3
          apply hfh i g1 ?_ g2
          by_contra hcon
          have := hinact i (by omega) g2
          omega
        · intro _
          by_cases g4 : i0 ≤ i
          · exact hrest i g4
          · have := hact i g1 (by omega) g2
            omega
    · rw [if_neg hbr]
      dsimp only
      have hsq : primes.getD i0 0 * primes.getD i0 0 ≤ high :=
        (PhiCache.le_isqrt_iff high _).1 (by omega)
      have hk0 : P2_first_hit (primes.getD i0 0) low (next.getD i0 0) := by
        rw [hrest i0 (le_refl _)]
        rcases Nat.lt_or_ge (primes.getD i0 0 * primes.getD i0 0) low with g | g
        · exact (hnext.2 i0 hi0 hi0l).1 g
        · rw [(hnext.2 i0 hi0 hi0l).2 g]
          exact P2_first_hit_square _ low seg high hodd hlow h3 hdvd g hsq hhigh
      obtain ⟨sieve1, t, c1, c2, c3, c4, c5⟩ := P2_cross_off_spec seg (primes.getD i0 0 * 2)
        (by omega) fuel (next.getD i0 0) sieve hsl (by omega) (by omega)
      rw [c1]
      dsimp only
      have hhit := P2_hit_iff _ low _ hodd hk0
      apply ih (i0 + 1) sieve1 _ (by omega) (by omega) c2
        (by rw [List.length_set]; exact hnl)
      · intro i g1 g2 g3
        by_cases g4 : i = i0
        · rw [g4]
          exact hsq
        · exact hact i g1 (by omega) g3
      · intro q hq
        rw [c5 q hq]
        by_cases g : next.getD i0 0 ≤ q ∧ (q - next.getD i0 0) % (primes.getD i0 0 * 2) = 0
        · rw [if_pos g]
          refine ⟨by omega, ?_⟩
          have g2 := (hhit q).2 g
          constructor
          · intro _
            exact ⟨i0, hi0, by omega, hi0l, g2.1, g2.2.1, g2.2.2⟩
          · intro _
            rfl
        · rw [if_neg g]
          refine ⟨(hsem q hq).1, (hsem q hq).2.trans ?_⟩
          constructor
          · rintro ⟨i, g1, g2, g3, g4, g5, g6⟩
            exact ⟨i, g1, by omega, g3, g4, g5, g6⟩
          · rintro ⟨i, g1, g2, g3, g4, g5, g6⟩
            by_cases g7 : i = i0
            · exfalso
              apply g
              rw [g7] at g4 g6
              exact (hhit q).1 ⟨g4, g5, g6⟩
            · exact ⟨i, g1, by omega, g3, g4, g5, g6⟩
      · intro i g1 g2 g3
        rw [getD_set_eq _ _ _ _ (by omega)]
        by_cases g4 : i0 = i
        · rw [if_pos g4, ← g4]
          exact P2_first_hit_next _ low seg _ t hseg hk0 c3 c4 (by omega)
        · rw [if_neg g4]
          exact hfh i g1 (by omega) g3
      · intro i g1
        rw [List.getD_eq_getElem?_getD, List.getElem?_set_ne (by omega),
          ← List.getD_eq_getElem?_getD]
        exact hrest i (by omega)

/-- The sieve of a segment, and `next` for the following segment. -/
theorem P2_sieve_segment {primes : List Nat} (h : IsPrimeTable primes)
    (seg low high fuel : Nat) (hseg : seg % 2 = 0) (hlow : low % 2 = 1)
    (h3 : 3 ≤ low) (hdvd : seg ∣ low - 3) (hhigh : high < low + seg)
    (hf : seg < fuel) (next : List Nat) (hnext : P2_next_ok primes seg low next) :
    ∃ sieve' next', P2_sieve_primes fuel seg (isqrt high) primes
        (List.range' 2 (primes.length - 2)) (List.replicate seg 1) next = some (sieve', next') ∧
      sieve'.length = seg ∧
      (∀ q, low + q ≤ high → q % 2 = 0 →
        (sieve'.getD q 0 = 0 ∧ P2_crossed primes (low + q)) ∨
        (sieve'.getD q 0 = 1 ∧ ¬ P2_crossed primes (low + q))) ∧
      (high = low + seg - 1 → P2_next_ok primes seg (low + seg) next') := by
  obtain ⟨sieve', next', h1, h2, h4, h5, h6⟩ := P2_sieve_primes_spec h seg low high fuel hseg
    hlow h3 hdvd hhigh hf next hnext (primes.length - 2) 2 (List.replicate seg 1) next rfl
    (le_refl _) (List.length_replicate _ _) hnext.1 (fun i g1 g2 _ => by omega)
    (by
      intro q hq
      rw [List.getD_eq_getElem _ _ (by rw [List.length_replicate]; exact hq),
        List.getElem_replicate]
      refine ⟨le_refl _, ?_⟩
      constructor
      · intro g
        omega
      · rintro ⟨i, g1, g2, _⟩
        omega)
    (fun i g1 g2 _ => by omega) (fun i _ => rfl)
  refine ⟨sieve', next', h1, h2, ?_, ?_⟩
  · intro q hq hq2
    obtain ⟨g1, g2⟩ := h5 q (by omega)
    by_cases g3 : sieve'.getD q 0 = 0
    · left
      obtain ⟨i, c1, c2, c3, _, c5, _⟩ := g2.1 g3
      exact ⟨g3, i, c1, c2, c3, c5⟩
    · right
      refine ⟨by omega, ?_⟩
      rintro ⟨i, c1, c2, c3, c5⟩
      exact g3 (g2.2 ⟨i, c1, c2, c3, hq2, c5, by omega⟩)
  · intro hh
    refine ⟨h4, ?_⟩
    intro i g1 g2
    constructor
    · intro g3
      exact (h6 i g1 g2).1 (by omega)
    · intro g3
      rw [(h6 i g1 g2).2 (by omega)]
      exact (hnext.2 i g1 g2).2 (by omega)

/-- An even number `≥ 4` does not change the count of the primes. -/
theorem primeCounting_succ_even (n : Nat) (h2 : (n + 1) % 2 = 0) (h4 : 3 ≤ n) :
    Nat.primeCounting (n + 1) = Nat.primeCounting n := by
  rw [primeCounting_succ, if_neg, Nat.add_zero]
  intro hp
  rcases hp.eq_two_or_odd with g | g
  · omega
  · omega

/-- The counting loop over the odd numbers `low + j`, `j = 2m, 2m + 2, …`,
up to the index `t`, on a sieve that holds 1 exactly at the primes: `pix`
stays the number of the primes below `low + j`. -/
theorem P2_count_spec (sieve : List Nat) (low : Nat) (hlow : low % 2 = 1) (h3 : 3 ≤ low)
    (t : Int) :
    ∀ (fuel m : Nat), t - 2 * (m : Int) + 2 < 2 * (fuel : Int) → 0 < fuel →
      (∀ q : Nat, q % 2 = 0 → 2 * m ≤ q → (q : Int) ≤ t →
        q < sieve.length ∧ ((sieve.getD q 0 = 1 ∧ (low + q).Prime) ∨
          (sieve.getD q 0 = 0 ∧ ¬ (low + q).Prime))) →
      ∃ m' : Nat, P2_count fuel sieve t (2 * (m : Int)) (Nat.primeCounting (low + 2 * m - 1))
          = some (2 * (m' : Int), (Nat.primeCounting (low + 2 * m' - 1) : Int)) ∧
        m ≤ m' ∧ t < 2 * (m' : Int) ∧ (2 * (m : Int) ≤ t → 2 * (m' : Int) ≤ t + 2) ∧
        (t < 2 * (m : Int) → m' = m) := by
  intro fuel
  induction fuel with
  | zero =>
    intro m _ hf0
    omega
  | succ fuel ih =>
    intro m hf _ hs
    unfold P2_count
    by_cases hj : 2 * (m : Int) ≤ t
    · rw [if_pos hj]
      obtain ⟨g1, g2⟩ := hs (2 * m) (by omega) (le_refl _) (by push_cast; exact hj)
      rw [if_pos ⟨by omega, by omega⟩]
      have e1 : (2 * (m : Int)).toNat = 2 * m := by omega
      have e2 : 2 * (m : Int) + 2 = 2 * ((m + 1 : Nat) : Int) := by push_cast; ring
      have e3 : (Nat.primeCounting (low + 2 * m - 1) : Int) + (sieve.getD (2 * m) 0 : Nat)
          = (Nat.primeCounting (low + 2 * (m + 1) - 1) : Int) := by
        have e4 : low + 2 * (m + 1) - 1 = low + 2 * m + 1 := by omega
        have e5 : low + 2 * m = low + 2 * m - 1 + 1 := by omega
        rw [e4, primeCounting_succ_even _ (by omega) (by omega)]
        rw [e5, primeCounting_succ, ← e5]
        rcases g2 with ⟨g3, g4⟩ | ⟨g3, g4⟩
        · rw [g3, if_pos g4]
          push_cast
          ring
        · rw [g3, if_neg g4]
          push_cast
          ring
      rw [e1, e2, e3]
      obtain ⟨m', c1, c2, c3, c4, c5⟩ := ih (m + 1) (by push_cast; omega) (by omega)
        (fun q q1 q2 q3 => hs q q1 (by omega) q3)
      refine ⟨m', c1, by omega, c3, ?_, ?_⟩
      · intro _
        by_cases g5 : 2 * ((m + 1 : Nat) : Int) ≤ t
        · exact c4 g5
        · have := c5 (by omega)
          rw [this]
          push_cast
          omega
      · intro g5
        omega
    · rw [if_neg hj]
      exact ⟨m, rfl, le_refl _, by omega, fun g => absurd g hj, fun _ => rfl⟩

theorem primesieve.previous_prime_eq (q n : Nat) (hq : q.Prime) (hqn : q < n)
    (hmax : ∀ r, r.Prime → r < n → r ≤ q) : primesieve.previous_prime n = q := by
  unfold primesieve.previous_prime
  rw [Nat.findGreatest_eq_iff]
  refine ⟨by omega, fun _ => ⟨hq, hqn⟩, ?_⟩
  rintro r h1 _ ⟨h3, h4⟩
  have := hmax r h3 h4
  omega

/-- The prime before the prime of index `b ≥ 2` is the prime of index
`b - 1`. -/
theorem IsPrimeTable.previous_prime_getD {primes : List Nat} (h : IsPrimeTable primes)
    (b : Nat) (hb2 : 2 ≤ b) (hb : b < primes.length) :
    primesieve.previous_prime (primes.getD b 0) = primes.getD (b - 1) 0 := by
  apply primesieve.previous_prime_eq _ _ (h.prime (by omega) (by omega))
    (h.lt_of_lt (by omega) hb)
  intro r hr hlt
  have e : b - 1 + 1 = b := by omega
  obtain ⟨i, _, h2, h3⟩ := h.mem_of_lt (j := b - 1) hr (by omega) (by rw [e]; exact hlt)
  rw [← h3]
  exact h.le_of_le h2 (by omega)

/-- The prime before `n + 1` is the prime of index `π(n)`. -/
theorem IsPrimeTable.previous_prime_succ {primes : List Nat} (h : IsPrimeTable primes)
    (n : Nat) (h1 : 1 ≤ Nat.primeCounting n) (hlen : Nat.primeCounting n < primes.length) :
    primesieve.previous_prime (n + 1) = primes.getD (Nat.primeCounting n) 0 := by
  apply primesieve.previous_prime_eq _ _ (h.prime h1 hlen)
  · have := h.le_of_primeCounting n hlen h1
    omega
  · intro r hr hlt
    obtain ⟨i, _, h2, h3⟩ := h.mem_of_le_primeCounting n r hlen hr (by omega)
    rw [← h3]
    exact h.le_of_le h2 hlen

/-- The loop over the stops in one segment: every stop adds
`π(x / p_b) - (b - 1)` to `sum`; the loop returns the whole sum once `b`
has come down to `a`, or leaves the segment with the next stop above
`high`. -/
theorem P2_stops_spec {primes : List Nat} (h : IsPrimeTable primes) (x a low high smax B : Nat)
    (sieve : List Nat) (hB : B < primes.length) (hlow : low % 2 = 1) (h3 : 3 ≤ low)
    (hhigh : high < low + sieve.length)
    (hsieve : ∀ q : Nat, q % 2 = 0 → low + q ≤ high → low + q ≤ smax →
      ((sieve.getD q 0 = 1 ∧ (low + q).Prime) ∨ (sieve.getD q 0 = 0 ∧ ¬ (low + q).Prime)))
    (hsmax : ∀ i, a < i → i ≤ B → x / primes.getD i 0 ≤ smax)
    (hsmin : ∀ i, a < i → i ≤ B → 2 ≤ x / primes.getD i 0) :
    ∀ (fuel bn m : Nat), sieve.length + bn < fuel → a < bn → bn ≤ B →
      low + 2 * m ≤ x / primes.getD bn 0 + 2 → low + 2 * m ≤ high + 2 →
      P2_stops fuel x a low high sieve
          ⟨x / primes.getD bn 0, primes.getD bn 0, bn, 2 * (m : Int),
            Nat.primeCounting (low + 2 * m - 1),
            ∑ i in Finset.Ioc bn B, ((Nat.primeCounting (x / primes.getD i 0) : Int)
              - ((i : Int) - 1))⟩
        = some (P2_flow.ret (∑ i in Finset.Ioc a B,
            ((Nat.primeCounting (x / primes.getD i 0) : Int) - ((i : Int) - 1)))) ∨
      ∃ bn' m' : Nat, a < bn' ∧ bn' ≤ B ∧ high < x / primes.getD bn' 0 ∧
        low + 2 * m' ≤ high + 2 ∧
        P2_stops fuel x a low high sieve
          ⟨x / primes.getD bn 0, primes.getD bn 0, bn, 2 * (m : Int),
            Nat.primeCounting (low + 2 * m - 1),
            ∑ i in Finset.Ioc bn B, ((Nat.primeCounting (x / primes.getD i 0) : Int)
              - ((i : Int) - 1))⟩
        = some (P2_flow.next_segment
          ⟨x / primes.getD bn' 0, primes.getD bn' 0, bn', 2 * (m' : Int),
            Nat.primeCounting (low + 2 * m' - 1),
            ∑ i in Finset.Ioc bn' B, ((Nat.primeCounting (x / primes.getD i 0) : Int)
              - ((i : Int) - 1))⟩) := by
  intro fuel
  induction fuel with
  | zero =>
    intro bn m hf
    omega
  | succ fuel ih =>
    intro bn m hf hab hbB hj1 hj2
    unfold P2_stops
    dsimp only
    by_cases hst : x / primes.getD bn 0 ≤ high
    · rw [if_pos hst]
      obtain ⟨m', c1, c2, c3, c4, c5⟩ := P2_count_spec sieve low hlow h3
        ((x / primes.getD bn 0 : Nat) - (low : Int)) (fuel + 1) m (by push_cast; omega)
        (by omega)
        (fun q q1 q2 q3 => ⟨by omega, hsieve q q1 (by omega)
          (le_trans (by omega) (hsmax bn hab hbB))⟩)
      rw [c1]
      dsimp only
      -- `pix` is the number of the primes up to the stop
      have hpix : Nat.primeCounting (low + 2 * m' - 1)
          = Nat.primeCounting (x / primes.getD bn 0) := by
        have g1 : x / primes.getD bn 0 ≤ low + 2 * m' - 1 := by omega
        have g2 : low + 2 * m' - 1 ≤ x / primes.getD bn 0 + 1 := by
          by_cases g3 : 2 * (m : Int) ≤ (x / primes.getD bn 0 : Nat) - (low : Int)
          · have := c4 g3
            omega
          · have := c5 (by omega)
            rw [this]
            omega
        rcases Nat.eq_or_lt_of_le g1 with g3 | g3
        · rw [← g3]
        · have g4 : low + 2 * m' - 1 = x / primes.getD bn 0 + 1 := by omega
          rw [g4]
          have g5 := hsmin bn hab hbB
          exact primeCounting_succ_even (x / primes.getD bn 0) (by omega) (by omega)
      have hsum : (∑ i in Finset.Ioc bn B, ((Nat.primeCounting (x / primes.getD i 0) : Int)
            - ((i : Int) - 1)))
          + ((Nat.primeCounting (low + 2 * m' - 1) : Int) - ((bn : Int) - 1))
          = ∑ i in Finset.Ioc (bn - 1) B, ((Nat.primeCounting (x / primes.getD i 0) : Int)
            - ((i : Int) - 1)) := by
        have e : Finset.Ioc (bn - 1) B = insert bn (Finset.Ioc bn B) := by
          ext i
          simp only [Finset.mem_Ioc, Finset.mem_insert]
          omega
        rw [e, Finset.sum_insert (by simp), hpix]
        ring
      rw [hsum]
      by_cases hba : (bn : Int) - 1 ≤ (a : Int)
      · rw [if_pos hba]
        left
        have e : bn - 1 = a := by omega
        rw [e]
      · rw [if_neg hba]
        rw [h.previous_prime_getD bn (by omega) (by omega)]
        have hp := h.prime (by omega : 1 ≤ bn - 1) (by omega)
        rw [if_neg hp.pos.ne']
        have e : (bn : Int) - 1 = ((bn - 1 : Nat) : Int) := by omega
        rw [e]
        have hmono : x / primes.getD bn 0 ≤ x / primes.getD (bn - 1) 0 :=
          Nat.div_le_div_left (h.le_of_le (by omega) (by omega)) hp.pos
        have hm1 : low + 2 * m' ≤ x / primes.getD bn 0 + 2 := by
          by_cases g3 : 2 * (m : Int) ≤ (x / primes.getD bn 0 : Nat) - (low : Int)
          · have := c4 g3
            omega
          · have := c5 (by omega)
            rw [this]
            omega
        exact ih (bn - 1) m' (by omega) (by omega) (by omega) (by omega) (by omega)
    · rw [if_neg hst]
      right
      exact ⟨bn, m, hab, hbB, by omega, hj2, rfl⟩

/-- For an odd `low`, `~low % 2` is 0. -/
theorem P2_j_start (low : Nat) (hlow : low % 2 = 1) : Int.tmod (-(low : Int) - 1) 2 = 0 := by
  have e : -(low : Int) - 1 = 2 * (-(((low + 1) / 2 : Nat) : Int)) := by omega
  rw [e, Int.mul_tmod_right]

/-- The segmented sieve of `P2` from the segment that begins at `low` on:
with the sieve telling the primes up to the last stop, the loop returns
`Σ_{a < i ≤ B} (π(x / p_i) - (i - 1))`. -/
theorem P2_segments_spec {primes full : List Nat} (hP : IsPrimeTable primes)
    (hL : IsPrimeTable full) (x a limit seg smax B : Nat) (hBL : B < full.length)
    (hseg : seg % 2 = 0) (hseg0 : 0 < seg) (hBx : B ≤ x)
    (hsem : ∀ n, n % 2 = 1 → 3 ≤ n → n ≤ smax → (P2_crossed primes n ↔ ¬ n.Prime))
    (hsmax : ∀ i, a < i → i ≤ B → x / full.getD i 0 ≤ smax)
    (hsmin : ∀ i, a < i → i ≤ B → 2 ≤ x / full.getD i 0)
    (hlim : smax ≤ limit) :
    ∀ (fuel low : Nat) (next : List Nat) (bn : Nat) (j0 : Int),
      seg + x + 2 + limit ≤ fuel + low → 3 ≤ low → low % 2 = 1 → seg ∣ low - 3 →
      low ≤ limit → P2_next_ok primes seg low next → a < bn → bn ≤ B →
      low ≤ x / full.getD bn 0 + 2 →
      P2_segments fuel x a limit seg primes low next
          ⟨x / full.getD bn 0, full.getD bn 0, bn, j0, Nat.primeCounting (low - 1),
            ∑ i in Finset.Ioc bn B, ((Nat.primeCounting (x / full.getD i 0) : Int)
              - ((i : Int) - 1))⟩
        = some (∑ i in Finset.Ioc a B,
            ((Nat.primeCounting (x / full.getD i 0) : Int) - ((i : Int) - 1))) := by
  intro fuel
  induction fuel with
  | zero =>
    intro low next bn j0 hf _ _ _ hll
    omega
  | succ fuel ih =>
    intro low next bn j0 hf h3 hlow hdvd hll hnext hab hbB hst
    unfold P2_segments
    rw [if_pos hll]
    dsimp only
    have hhigh : min (low + seg - 1) limit < low + seg := by
      have := Nat.min_le_left (low + seg - 1) limit
      omega
    have hlh : low ≤ min (low + seg - 1) limit := Nat.le_min.2 ⟨by omega, hll⟩
    obtain ⟨sieve', next', s1, s2, s3, s4⟩ := P2_sieve_segment hP seg low
      (min (low + seg - 1) limit) (fuel + 1) hseg hlow h3 hdvd hhigh (by omega) next hnext
    rw [s1]
    dsimp only
    rw [P2_j_start low hlow]
    have hsieve : ∀ q : Nat, q % 2 = 0 → low + q ≤ min (low + seg - 1) limit → low + q ≤ smax →
        ((sieve'.getD q 0 = 1 ∧ (low + q).Prime) ∨
          (sieve'.getD q 0 = 0 ∧ ¬ (low + q).Prime)) := by
      intro q q1 q2 q3
      have g := hsem (low + q) (by omega) (by omega) q3
      rcases s3 q q2 q1 with ⟨c1, c2⟩ | ⟨c1, c2⟩
      · exact Or.inr ⟨c1, g.1 c2⟩
      · left
        refine ⟨c1, ?_⟩
        by_contra hnp
        exact c2 (g.2 hnp)
    have e0 : (0 : Int) = 2 * ((0 : Nat) : Int) := by simp
    have e1 : Nat.primeCounting (low - 1) = Nat.primeCounting (low + 2 * 0 - 1) := by simp
    rw [e0, e1]
    rcases P2_stops_spec hL x a low (min (low + seg - 1) limit) smax B sieve' hBL hlow h3
      (by rw [s2]; exact hhigh) hsieve hsmax hsmin (fuel + 1) bn 0 (by omega) hab hbB
      (by omega) (by omega) with hret | ⟨bn', m', g1, g2, g3, g4, hnx⟩
    · rw [hret]
    · rw [hnx]
      dsimp only
      have g5 := hsmax bn' g1 g2
      have hh : min (low + seg - 1) limit = low + seg - 1 := by
        apply Nat.min_eq_left
        by_contra hcon
        have := Nat.min_eq_right (by omega : limit ≤ low + seg - 1)
        omega
      rw [hh] at g3 g4 hsieve ⊢
      obtain ⟨m'', c1, c2, c3, c4, c5⟩ := P2_count_spec sieve' low hlow h3
        ((low + seg - 1 : Nat) - (low : Int)) (fuel + 1) m' (by push_cast; omega) (by omega)
        (fun q q1 q2 q3 => ⟨by omega, hsieve q q1 (by omega) (by omega)⟩)
      rw [c1]
      dsimp only
      have hm : low + 2 * m'' - 1 = low + seg - 1 := by
        have g6 : low + 2 * m'' ≤ low + seg - 1 + 2 := by
          by_cases g7 : 2 * (m' : Int) ≤ (low + seg - 1 : Nat) - (low : Int)
          · have := c4 g7
            omega
          · have := c5 (by omega)
            rw [this]
            exact g4
        omega
      rw [hm]
      have hdvd' : seg ∣ low + seg - 3 := by
        obtain ⟨k, hk⟩ := hdvd
        refine ⟨k + 1, ?_⟩
        rw [Nat.mul_succ]
        omega
      exact ih (low + seg) next' bn' (2 * (m'' : Int)) (by omega) (by omega) (by omega) hdvd'
        (by omega) (s4 hh) g1 g2 (by omega)

theorem primeCounting_le_self (n : Nat) : Nat.primeCounting n ≤ n := by
  induction n with
  | zero => decide
  | succ n ih =>
    rw [primeCounting_succ]
    by_cases hp : (n + 1).Prime
    · rw [if_pos hp]
      omega
    · rw [if_neg hp]
      omega

theorem foldl_set_length (f : Nat → Nat) (order : List Nat) (c : List Nat) :
    (order.foldl (fun (c : List Nat) i => c.set i (f i)) c).length = c.length := by
  induction order generalizing c with
  | nil => rfl
  | cons t ts ih => rw [List.foldl_cons, ih, List.length_set]

/-- The segment size of `P2` is even, and less than twice `√limit`. -/
theorem next_power_of_2_spec (s : Nat) (hs : 2 ≤ s) :
    next_power_of_2 s % 2 = 0 ∧ 0 < next_power_of_2 s ∧ next_power_of_2 s < 2 * s := by
  unfold next_power_of_2
  have h1 : 0 < Nat.clog 2 s := Nat.clog_pos (by omega) hs
  have h2 := Nat.pow_pred_clog_lt_self (by omega : 1 < 2) (by omega : 1 < s)
  obtain ⟨c, hc⟩ : ∃ c, Nat.clog 2 s = c + 1 := ⟨Nat.clog 2 s - 1, by omega⟩
  rw [hc] at h2 ⊢
  rw [Nat.pred_succ] at h2
  rw [Nat.pow_succ]
  have h3 : 0 < 2 ^ c := Nat.pow_pos (by omega)
  omega

/-- The sieve of `P2` tells the primes among the odd numbers up to
`x / p`, for a prime `p` above the `a`-th prime, when the primes `q` with
`q³ ≤ x` are among the first `a` primes. -/
theorem P2_crossed_iff {primes : List Nat} (hP : IsPrimeTable primes) (x a p : Nat)
    (hlen : primes.length = a + 1)
    (hcube : ∀ q, q.Prime → q ^ 3 ≤ x → q ≤ primes.getD a 0)
    (hp : p.Prime) (hpa : primes.getD a 0 < p) (n : Nat) (hodd : n % 2 = 1) (h3 : 3 ≤ n)
    (hn : n ≤ x / p) : P2_crossed primes n ↔ ¬ n.Prime := by
  constructor
  · rintro ⟨i, g1, g2, g3, g4⟩ hnp
    have hpi := hP.prime (by omega : 1 ≤ i) g2
    rcases (Nat.dvd_prime hnp).1 g3 with g5 | g5
    · exact hpi.one_lt.ne' g5
    · rw [g5] at g4
      have : n * 2 ≤ n * n := Nat.mul_le_mul_left _ (by omega)
      omega
  · intro hnp
    have hq := Nat.minFac_prime (by omega : n ≠ 1)
    have hqd := Nat.minFac_dvd n
    have hqq : n.minFac * n.minFac ≤ n := by
      have := Nat.minFac_sq_le_self (by omega : 0 < n) hnp
      rwa [Nat.pow_two] at this
    have hnx : n * p ≤ x := (Nat.le_div_iff_mul_le hp.pos).1 hn
    have hqa : n.minFac ≤ primes.getD a 0 := by
      rcases Nat.lt_or_ge p n.minFac with g | g
      · -- then `p³ ≤ x`
        exfalso
        have g1 : p * p * p ≤ n * p :=
          Nat.mul_le_mul_right _ (le_trans (Nat.mul_le_mul (by omega) (by omega)) hqq)
        have e : p ^ 3 = p * p * p := by ring
        have := hcube p hp (by omega)
        omega
      · apply hcube _ hq
        have g1 : n.minFac * n.minFac * n.minFac ≤ n * p := Nat.mul_le_mul hqq g
        have e : n.minFac ^ 3 = n.minFac * n.minFac * n.minFac := by ring
        omega
    obtain ⟨i, g1, g2, g3⟩ := hP.mem_of_le hq (by omega : a < primes.length) hqa
    have hi2 : 2 ≤ i := by
      by_contra hcon
      have e1 : i = 1 := by omega
      rw [e1] at g3
      have e2 : primes.getD 1 0 = 2 :=
        prime_eq_of_primeCounting_eq (hP.prime (le_refl _) (by omega)) Nat.prime_two
          (by rw [hP.count (le_refl _) (by omega)]; decide)
      have : 2 ∣ n := by
        rw [← e2, g3]
        exact hqd
      omega
    exact ⟨i, hi2, by omega, by rw [g3]; exact hqd, by rw [g3]; exact hqq⟩

/-- The value of `P2(x, a)` when the primes `q` with `q³ ≤ x` are among the
first `a` primes. -/
theorem P2_eq_sum {primes : List Nat} (hP : IsPrimeTable primes) (x a fuel : Nat)
    (hlen : primes.length = a + 1)
    (hcube : ∀ q, q.Prime → q ^ 3 ≤ x → q ≤ primes.getD a 0)
    (hf : 4 * x ≤ fuel) :
    P2 fuel x a primes = some (∑ i in Finset.Ioc a (Nat.primeCounting (isqrt x)),
      ((Nat.primeCounting (x / (0 :: primesieve.generate_primes (isqrt x)).getD i 0) : Int)
        - ((i : Int) - 1))) := by
  have hL := primesieve.isPrimeTable_generate (isqrt x)
  have hLlen := primesieve.table_length (isqrt x)
  generalize hLe : (0 :: primesieve.generate_primes (isqrt x)) = L at *
  generalize hBe : Nat.primeCounting (isqrt x) = B at *
  unfold P2 pi_legendre
  dsimp only
  rw [hBe]
  by_cases hba : B ≤ a
  · rw [if_pos hba, Finset.Ioc_eq_empty (by omega), Finset.sum_empty]
  · rw [if_neg hba]
    have hprev : primesieve.previous_prime (isqrt x + 1) = L.getD B 0 := by
      rw [← hBe]
      exact hL.previous_prime_succ (isqrt x) (by omega) (by omega)
    have hpB := hL.prime (by omega : 1 ≤ B) (by omega)
    rw [hprev, if_neg hpB.pos.ne']
    -- the primes of the stops
    have hLB : L.getD B 0 ≤ isqrt x := by
      rw [← hBe]
      exact hL.le_of_primeCounting (isqrt x) (by omega) (by omega)
    have hsq : ∀ i, a < i → i ≤ B → L.getD i 0 * L.getD i 0 ≤ x := by
      intro i g1 g2
      have g3 := hL.le_of_le g2 (by omega : B < L.length)
      exact (PhiCache.le_isqrt_iff x _).1 (by omega)
    have hsmin : ∀ i, a < i → i ≤ B → 2 ≤ x / L.getD i 0 := by
      intro i g1 g2
      have g3 := hL.prime (by omega : 1 ≤ i) (by omega)
      have g4 := (Nat.le_div_iff_mul_le g3.pos).2 (hsq i g1 g2)
      have := g3.two_le
      omega
    have hsmax : ∀ i, a < i → i ≤ B → x / L.getD i 0 ≤ x / L.getD (a + 1) 0 := by
      intro i g1 g2
      exact Nat.div_le_div_left (hL.le_of_le (by omega) (by omega))
        (hL.prime (by omega) (by omega)).pos
    have hpa1 := hL.prime (by omega : 1 ≤ a + 1) (by omega)
    have haL : primes.getD a 0 = L.getD a 0 := hP.getD_eq hL (by omega) (by omega)
    have hlt : L.getD a 0 < L.getD (a + 1) 0 := hL.lt_of_lt (by omega) (by omega)
    generalize hlime : (if a > 0 then x / primes.getD a 0 else x) = limit
    have hlim : x / L.getD (a + 1) 0 ≤ limit ∧ 4 ≤ limit ∧ limit ≤ x := by
      rw [← hlime]
      by_cases ha0 : a > 0
      · rw [if_pos ha0, haL]
        have hpa := hL.prime (by omega : 1 ≤ a) (by omega)
        refine ⟨Nat.div_le_div_left (by omega) hpa.pos, ?_, Nat.div_le_self _ _⟩
        rw [Nat.le_div_iff_mul_le hpa.pos]
        have g1 := hsq (a + 1) (by omega) (by omega)
        have g2 : (L.getD a 0 + 1) * (L.getD a 0 + 1) ≤ L.getD (a + 1) 0 * L.getD (a + 1) 0 :=
          Nat.mul_le_mul (by omega) (by omega)
        have g3 : L.getD a 0 * 2 ≤ L.getD a 0 * L.getD a 0 :=
          Nat.mul_le_mul_left _ hpa.two_le
        have e : (L.getD a 0 + 1) * (L.getD a 0 + 1)
            = L.getD a 0 * L.getD a 0 + 2 * L.getD a 0 + 1 := by ring
        omega
      · rw [if_neg ha0]
        refine ⟨Nat.div_le_self _ _, ?_, le_refl _⟩
        have g1 := hsq (a + 1) (by omega) (by omega)
        have g2 : 2 * 2 ≤ L.getD (a + 1) 0 * L.getD (a + 1) 0 :=
          Nat.mul_le_mul hpa1.two_le hpa1.two_le
        omega
    have hs2 : 2 ≤ isqrt limit := (PhiCache.le_isqrt_iff limit 2).2 (by omega)
    have hsl : isqrt limit ≤ limit := Nat.sqrt_le_self limit
    obtain ⟨hseg, hseg0, hsegle⟩ := next_power_of_2_spec (isqrt limit) hs2
    generalize next_power_of_2 (isqrt limit) = seg at *
    have hsem : ∀ n, n % 2 = 1 → 3 ≤ n → n ≤ x / L.getD (a + 1) 0 →
        (P2_crossed primes n ↔ ¬ n.Prime) := by
      intro n g1 g2 g3
      exact P2_crossed_iff hP x a (L.getD (a + 1) 0) hlen hcube hpa1 (by omega) n g1 g2 g3
    have hnext : P2_next_ok primes seg 3
        ((List.range' 1 (primes.length - 1)).foldl (fun (next : List Nat) i =>
          next.set i ((isquare (primes.getD i 0) - 3) % seg))
          (List.replicate primes.length 0)) := by
      refine ⟨by rw [foldl_set_length (fun i => (isquare (primes.getD i 0) - 3) % seg),
        List.length_replicate], ?_⟩
      intro i g1 g2
      have g3 := (hP.odd_of_two_le g1 g2).2
      have g4 : 3 * 3 ≤ primes.getD i 0 * primes.getD i 0 := Nat.mul_le_mul g3 g3
      refine ⟨fun g => by omega, fun _ => ?_⟩
      have g5 := foldl_set_getD (fun i => (isquare (primes.getD i 0) - 3) % seg) id
        (List.range' 1 (primes.length - 1)) (List.replicate primes.length 0) i
        (by rw [List.length_replicate]; exact g2)
      rw [if_pos ⟨i, by rw [List.mem_range']; exact ⟨i - 1, by omega, by omega⟩, rfl⟩] at g5
      exact g5
    have e1 : ((Nat.primeCounting (3 - 1) : Nat) : Int) = 1 := by decide
    have key := P2_segments_spec hP hL x a limit seg (x / L.getD (a + 1) 0) B (by omega) hseg
      hseg0 (by rw [← hBe]; exact le_trans (primeCounting_le_self _) (Nat.sqrt_le_self x))
      hsem hsmax hsmin hlim.1 fuel 3
      ((List.range' 1 (primes.length - 1)).foldl (fun (next : List Nat) i =>
          next.set i ((isquare (primes.getD i 0) - 3) % seg))
          (List.replicate primes.length 0)) B 0 (by omega) (le_refl _) (by decide)
      (Dvd.intro_left 0 (by simp)) (by omega) hnext (by omega) (le_refl _)
      (by have := hsmin B (by omega) (le_refl _); omega)
    rw [e1, Finset.Ioc_self, Finset.sum_empty] at key
    exact key
theorem next_power_of_2_four : next_power_of_2 4 = 4 := by
  unfold next_power_of_2
  have h : Nat.clog 2 (2 ^ 2) = 2 := Nat.clog_pow 2 2 (by decide)
  have e : (2 : Nat) ^ 2 = 4 := by decide
  rw [e] at h
  rw [h, e]

theorem P2_eighteen : P2 72 18 0 [0] = some 7 := by
  have e1 : isqrt 18 = 4 := isqrt_eq 18 4 (by decide) (by decide)
  have e3 : Nat.primeCounting 4 = 2 := by decide
  have e4 : primesieve.previous_prime 5 = 3 := by decide
  unfold P2 pi_legendre
  simp only [e1, next_power_of_2_four, e3, e4, gt_iff_lt, lt_self_iff_false, if_false]
  decide

theorem P2_naive_eighteen : Pk_naive [0] 2 18 0 = 6 := by
  have e : Pk_naive [0] 2 18 0 = Pk_naive PhiTiny.primes_ 2 18 0 := rfl
  have hb : ∀ q, q.Prime → q * q ≤ 18 → q ≤ PhiTiny.primes_.getD 2 0 := by
    intro q hq hqq
    show q ≤ 3
    by_contra hcon
    have h1 : q ≤ 4 := by
      by_contra hcon2
      have := Nat.mul_le_mul (by omega : 5 ≤ q) (by omega : 5 ≤ q)
      omega
    have h2 : q = 4 := by omega
    rw [h2] at hq
    exact absurd hq (by decide)
  rw [e, P2_naive_eq_sum isPrimeTable_tiny 18 0 2 (by decide) (by decide) hb]
  decide

theorem isPrimeTable_three : IsPrimeTable [0, 2, 3] := by
  refine ⟨rfl, ?_⟩
  intro i h1 h2
  have h3 : i < 3 := h2
  interval_cases i
  · exact ⟨Nat.prime_two, by decide⟩
  · exact ⟨Nat.prime_three, by decide⟩

/-- Where `P2` is right: when every prime `q` with `q³ ≤ x` is among the
first `a` primes, that is for `a ≥ π(x^(1/3))`, `P2(x, a)` returns the
number of integers `≤ x` with exactly 2 prime factors each exceeding the
`a`-th prime, which is `Σ_{i = a + 1}^{π(√x)} (π(x / p_i) - (i - 1))`. -/
theorem P2_correct {primes : List Nat} (hP : IsPrimeTable primes) (x a fuel : Nat)
    (hlen : primes.length = a + 1)
    (hcube : ∀ q, q.Prime → q ^ 3 ≤ x → q ≤ primes.getD a 0)
    (hf : 4 * x ≤ fuel) :
    P2 fuel x a primes = some (Pk_naive primes 2 x a : Int) ∧
    P2 fuel x a primes = some (∑ i in Finset.Ioc a (Nat.primeCounting (isqrt x)),
      ((Nat.primeCounting (x / (0 :: primesieve.generate_primes (isqrt x)).getD i 0) : Int)
        - ((i : Int) - 1))) := by
  refine ⟨?_, P2_eq_sum hP x a fuel hlen hcube hf⟩
  rw [P2_eq_sum hP x a fuel hlen hcube hf, P2_naive_eq_int_sum hP x a (by omega)]

theorem P2_correct_witness :
    P2 400 100 2 [0, 2, 3] = some (Pk_naive [0, 2, 3] 2 100 2 : Int) ∧
    P2 400 100 2 [0, 2, 3] = some (∑ i in Finset.Ioc 2 (Nat.primeCounting (isqrt 100)),
      ((Nat.primeCounting (100 / (0 :: primesieve.generate_primes (isqrt 100)).getD i 0) : Int)
        - ((i : Int) - 1))) :=
  P2_correct isPrimeTable_three 100 2 400 rfl
    (by
      intro q hq hq3
      show q ≤ 3
      by_contra hcon
      have h1 : q ≤ 4 := by
        by_contra hcon2
        have : 5 ^ 3 ≤ q ^ 3 := Nat.pow_le_pow_left (by omega) 3
        omega
      have h2 : q = 4 := by omega
      rw [h2] at hq
      exact absurd hq (by decide))
    (by decide)

/-- C23: `P2` does not keep to its documentation for small `a`.
`P2(18, 0)` returns 7, but six integers `≤ 18` have exactly 2 prime factors
(4, 6, 9, 10, 14, 15), and 6 is what `P2_lehmer(18, 0)` returns. The sieve
of `P2` is crossed off with the first `a` primes only: with `a = 0` nothing
is crossed off and, at the stop `18 / 2 = 9`, 9 is counted as a prime. -/
theorem P2_small_a_wrong :
    P2 72 18 0 [0] = some 7 ∧ Pk_naive [0] 2 18 0 = 6 ∧
    P2 72 18 0 [0] ≠ some (Pk_naive [0] 2 18 0 : Int) ∧
    P2_lehmer 18 0 [0, 1] = 6 := by
  refine ⟨P2_eighteen, P2_naive_eighteen, ?_, ?_⟩
  · rw [P2_eighteen, P2_naive_eighteen]
    decide
  · have e : P2_lehmer_iterations 18 0 = 2 := by
      unfold P2_lehmer_iterations
      dsimp only
      rw [pi_bsearch_generate, min_self,
        isqrt_eq 18 4 (by decide) (by decide)]
      decide
    have h := P2_lehmer_eq_naive isPrimeTable_tiny 18 0 (by decide) [0, 1]
      (by rw [e]; decide)
    have e2 : Pk_naive PhiTiny.primes_ 2 18 0 = Pk_naive [0] 2 18 0 := rfl
    rw [h, e2, P2_naive_eighteen]
    rfl

/-! ### The sign of `phi` -/

namespace PhiCache

/-- The second loop with `-SIGN`, entered with the negated sum, returns the
negated value. -/
theorem phi_loop2_neg (s : State) (sign : Int) (x a sqrtx : Nat) :
    ∀ (n i : Nat) (sum : Int),
      phi_loop2 s (-sign) x a sqrtx n i (-sum) =
        (phi_loop2 s sign x a sqrtx n i sum).map (fun r => -r) := by
  intro n
  induction n with
  | zero =>
    intro i sum
    rfl
  | succ n ih =>
    intro i sum
    rw [phi_loop2, phi_loop2]
    by_cases h1 : i ≤ a
    · rw [if_pos h1, if_pos h1]
      by_cases h2 : s.primes_.getD i 0 > sqrtx
      · rw [if_pos h2, if_pos h2, Option.map_some']
        congr 1
        ring
      · rw [if_neg h2, if_neg h2]
        dsimp only
        rw [← ih]
        congr 1
        ring
    · rw [if_neg h1, if_neg h1, Option.map_some']
      congr 1
      ring

/-- The first loop with `-SIGN`, entered with the negated sum and with
recursive calls that return negated values, returns the negated value and
the same cache. -/
theorem phi_loop1_neg (rec rec' : Nat → Nat → State → Option (Int × State)) (sign : Int)
    (x a sqrtx : Nat)
    (hrec : ∀ x' a' t, rec' x' a' t = (rec x' a' t).map (fun r => (-r.1, r.2))) :
    ∀ (n i : Nat) (sum : Int) (s : State),
      phi_loop1 rec' (-sign) x a sqrtx n i (-sum) s =
        (phi_loop1 rec sign x a sqrtx n i sum s).map (fun r => (-r.1, r.2)) := by
  intro n
  induction n with
  | zero =>
    intro i sum s
    rfl
  | succ n ih =>
    intro i sum s
    rw [phi_loop1, phi_loop1]
    by_cases h1 : i ≤ a
    · rw [if_pos h1, if_pos h1]
      by_cases h2 : s.primes_.getD i 0 > sqrtx
      · rw [if_pos h2, if_pos h2, Option.map_some']
        dsimp only
        congr 2
        ring
      · rw [if_neg h2, if_neg h2]
        dsimp only
        by_cases h3 : is_pix s (x / s.primes_.getD i 0) (i - 1) = true
        · rw [if_pos h3, if_pos h3]
          have e : -sum + ((s.pi_.getD (x / s.primes_.getD i 0) 0 : Int) - i + 2) * - -sign
              = -(sum + ((s.pi_.getD (x / s.primes_.getD i 0) 0 : Int) - i + 2) * -sign) := by
            ring
          rw [e, phi_loop2_neg]
          cases phi_loop2 s sign x a sqrtx (a + 1) (i + 1)
            (sum + ((s.pi_.getD (x / s.primes_.getD i 0) 0 : Int) - i + 2) * -sign) with
          | none => rfl
          | some r => rfl
        · rw [if_neg h3, if_neg h3]
          by_cases h4 : is_cached s (x / s.primes_.getD i 0) (i - 1) = true
          · rw [if_pos h4, if_pos h4, ← ih]
            congr 1
            ring
          · rw [if_neg h4, if_neg h4, hrec]
            cases rec (x / s.primes_.getD i 0) (i - 1) s with
            | none => rfl
            | some r =>
              obtain ⟨v, t⟩ := r
              rw [Option.map_some']
              dsimp only
              rw [← ih]
              congr 1
              ring
    · rw [if_neg h1, if_neg h1, Option.map_some']
      dsimp only
      congr 2
      ring

/-- `phi<-SIGN>(x, a)` returns the negated value of `phi<SIGN>(x, a)` and
leaves the same cache behind, on every cache and for every bound on the
depth of the recursion. -/
theorem phi_fuel_neg : ∀ (fuel : Nat) (sign : Int) (x a : Nat) (s : State),
    phi_fuel fuel (-sign) x a s = (phi_fuel fuel sign x a s).map (fun r => (-r.1, r.2)) := by
  intro fuel
  induction fuel with
  | zero =>
    intro sign x a s
    rfl
  | succ fuel ih =>
    intro sign x a s
    rw [phi_fuel, phi_fuel]
    by_cases h1 : x ≤ s.primes_.getD a 0
    · rw [if_pos h1, if_pos h1]
      rfl
    rw [if_neg h1, if_neg h1]
    by_cases h2 : PhiTiny.is_phi_tiny a = true
    · rw [if_pos h2, if_pos h2, Option.map_some']
      dsimp only
      congr 2
      ring
    rw [if_neg h2, if_neg h2]
    by_cases h3 : is_pix s x a = true
    · rw [if_pos h3, if_pos h3, Option.map_some']
      dsimp only
      congr 2
      ring
    rw [if_neg h3, if_neg h3]
    cases (if s.max_a_cached_ < min a s.max_a_ ∧ x ≤ s.max_x_ then
        init_cache s (min a s.max_a_) else some s) with
    | none => rfl
    | some t =>
      dsimp only
      by_cases h4 : is_cached t x a = true
      · rw [if_pos h4, if_pos h4, Option.map_some']
        dsimp only
        congr 2
        ring
      rw [if_neg h4, if_neg h4]
      have e : (if is_cached t x (max PhiTiny.max_a (min t.max_a_cached_ a)) = true then
            phi_cache t x (max PhiTiny.max_a (min t.max_a_cached_ a)) * -sign
          else PhiTiny.phi_tiny x PhiTiny.max_a * -sign)
          = -(if is_cached t x (max PhiTiny.max_a (min t.max_a_cached_ a)) = true then
            phi_cache t x (max PhiTiny.max_a (min t.max_a_cached_ a)) * sign
          else PhiTiny.phi_tiny x PhiTiny.max_a * sign) := by
        split_ifs <;> ring
      rw [e]
      exact phi_loop1_neg (phi_fuel fuel (-sign)) (phi_fuel fuel (- -sign)) sign x a (isqrt x)
        (fun x' a' t' => ih (-sign) x' a' t') _ _ _ t

end PhiCache

namespace PhiCache

/-- Legendre's recurrence unrolled from `c` to `a`:
`φ(x, a) = φ(x, c) - Σ_{c < i ≤ a} φ(x / p_i, i - 1)`. -/
theorem phi_naive_unroll {primes : List Nat} (h : IsPrimeTable primes) (x c : Nat) :
    ∀ (n : Nat), c + n < primes.length →
      (phi_naive primes x (c + n) : Int) = phi_naive primes x c
        - ∑ i in Finset.Ioc c (c + n), (phi_naive primes (x / primes.getD i 0) (i - 1) : Int) := by
  intro n
  induction n with
  | zero =>
    intro _
    simp
  | succ n ih =>
    intro hlen
    have e : Finset.Ioc c (c + (n + 1)) = insert (c + (n + 1)) (Finset.Ioc c (c + n)) := by
      ext i
      simp only [Finset.mem_Ioc, Finset.mem_insert]
      omega
    rw [e, Finset.sum_insert (by simp), ← phi_naive_step_int h x (c + (n + 1)) (by omega) hlen]
    have e2 : c + (n + 1) - 1 = c + n := by omega
    rw [e2, ih (by omega)]
    ring

/-- C31 (as the code has it): the sign is an exact negation, on every
cache and for every `x` and `a`: `phi<-SIGN>(x, a)` returns the negated
value of `phi<SIGN>(x, a)` and leaves the same cache behind. And on a cache
that satisfies its invariant, for `x ≥ 1`, `x ≥ primes[a]` and `c ≤ a`,
the values returned satisfy
`phi<SIGN>(x, a) = phi<SIGN>(x, c) + Σ_{i = c + 1}^{a} phi<-SIGN>(x / primes[i], i - 1)`,
each being `±φ`, which is the recurrence
`φ(x, a) = φ(x, a - 1) - φ(x / p_a, a - 1)` unrolled. -/
theorem phi_sign_discipline (sign : Int) :
    (∀ (s : State) (x a : Nat),
      phi (-sign) x a s = (phi sign x a s).map (fun r => (-r.1, r.2))) ∧
    (∀ (s : State) (x a : Nat) (fuel : Nat),
      phi_fuel fuel (-1) x a s = (phi_fuel fuel 1 x a s).map (fun r => (-r.1, r.2))) ∧
    ∀ (s : State) (x a c : Nat), Valid s → c ≤ a → a + 1 < s.primes_.length → 1 ≤ x →
      s.primes_.getD a 0 ≤ x →
      ∃ (va vc : Int) (w : Nat → Int),
        (∃ s', phi sign x a s = some (va, s')) ∧
        (∀ t, Valid t → t.primes_ = s.primes_ → ∃ t', phi sign x c t = some (vc, t')) ∧
        (∀ i, c < i → i ≤ a → ∀ t, Valid t → t.primes_ = s.primes_ →
          ∃ t', phi (-sign) (x / s.primes_.getD i 0) (i - 1) t = some (w i, t')) ∧
        va = vc + ∑ i in Finset.Ioc c a, w i ∧
        va = phi_naive s.primes_ x a * sign ∧ vc = phi_naive s.primes_ x c * sign ∧
        (∀ i, c < i → i ≤ a →
          w i = phi_naive s.primes_ (x / s.primes_.getD i 0) (i - 1) * -sign) ∧
        (1 ≤ a → (phi_naive s.primes_ x a : Int) = phi_naive s.primes_ x (a - 1)
          - phi_naive s.primes_ (x / s.primes_.getD a 0) (a - 1)) := by
  refine ⟨fun s x a => phi_fuel_neg (a + 1) sign x a s,
    fun s x a fuel => phi_fuel_neg fuel 1 x a s, ?_⟩
  intro s x a c hv hc hlen hx1 hxa
  refine ⟨phi_naive s.primes_ x a * sign, phi_naive s.primes_ x c * sign,
    fun i => phi_naive s.primes_ (x / s.primes_.getD i 0) (i - 1) * -sign, ?_, ?_, ?_, ?_,
    rfl, rfl, fun _ _ _ => rfl, ?_⟩
  · obtain ⟨s', h1, _⟩ := phi_spec sign x a s hv hx1 hlen
    exact ⟨s', h1⟩
  · intro t ht hp
    obtain ⟨t', h1, _⟩ := phi_spec sign x c t ht hx1 (by rw [hp]; omega)
    rw [hp] at h1
    exact ⟨t', h1⟩
  · intro i hi1 hi2 t ht hp
    have hpi := hv.primes.prime (by omega : 1 ≤ i) (by omega)
    have hle := hv.primes.le_of_le hi2 (by omega : a < s.primes_.length)
    have hq : 1 ≤ x / s.primes_.getD i 0 :=
      (Nat.le_div_iff_mul_le hpi.pos).2 (by omega)
    obtain ⟨t', h1, _⟩ := phi_spec (-sign) (x / s.primes_.getD i 0) (i - 1) t ht hq
      (by rw [hp]; omega)
    rw [hp] at h1
    exact ⟨t', h1⟩
  · have h1 := phi_naive_unroll hv.primes x c (a - c) (by omega)
    have e : c + (a - c) = a := by omega
    rw [e] at h1
    rw [h1, Finset.sum_congr rfl (fun i _ => (by ring :
      (phi_naive s.primes_ (x / s.primes_.getD i 0) (i - 1) : Int) * -sign
        = -sign * (phi_naive s.primes_ (x / s.primes_.getD i 0) (i - 1) : Int))),
      ← Finset.mul_sum]
    ring
  · intro ha1
    rw [← phi_naive_step_int hv.primes x a ha1 (by omega)]

theorem phi_sign_discipline_witness :
    ∃ (va vc : Int) (w : Nat → Int),
      (∃ s', phi 1 1000 7 (new 1000 7 [0, 2, 3, 5, 7, 11, 13, 17, 19]
        [0, 0, 1, 2, 2, 3, 3, 4, 4, 4, 4]) = some (va, s')) ∧
      (∀ t, Valid t → t.primes_ = (new 1000 7 [0, 2, 3, 5, 7, 11, 13, 17, 19]
          [0, 0, 1, 2, 2, 3, 3, 4, 4, 4, 4]).primes_ →
        ∃ t', phi 1 1000 6 t = some (vc, t')) ∧
      (∀ i, 6 < i → i ≤ 7 → ∀ t, Valid t → t.primes_ = (new 1000 7
          [0, 2, 3, 5, 7, 11, 13, 17, 19] [0, 0, 1, 2, 2, 3, 3, 4, 4, 4, 4]).primes_ →
        ∃ t', phi (-1) (1000 / (new 1000 7 [0, 2, 3, 5, 7, 11, 13, 17, 19]
          [0, 0, 1, 2, 2, 3, 3, 4, 4, 4, 4]).primes_.getD i 0) (i - 1) t = some (w i, t')) ∧
      va = vc + ∑ i in Finset.Ioc 6 7, w i :=
  have hv := (valid_new 1000 7 [0, 2, 3, 5, 7, 11, 13, 17, 19]
    [0, 0, 1, 2, 2, 3, 3, 4, 4, 4, 4] isPrimeTable_nine isPiTable_small (by decide)).1
  match (phi_sign_discipline 1).2.2 (new 1000 7 [0, 2, 3, 5, 7, 11, 13, 17, 19]
    [0, 0, 1, 2, 2, 3, 3, 4, 4, 4, 4]) 1000 7 6 hv (by decide) (by decide) (by decide)
    (by decide) with
  | ⟨va, vc, w, h1, h2, h3, h4, _⟩ => ⟨va, vc, w, h1, h2, h3, h4⟩

/-- C31 as stated fails below `primes[a]`: for `x = 1`, `a = 7` and `c = 6`
all three calls return through the guard `x <= primes[a]`, `phi<+1>(1, 7)`
and `phi<+1>(1, 6)` with 1 and `phi<-1>(1 / 17, 6) = phi<-1>(0, 6)` with
-1, so that the sum is 0 and not 1. -/
theorem phi_sum_fails_below_prime :
    (phi 1 1 7 (new 1000 7 [0, 2, 3, 5, 7, 11, 13, 17, 19]
      [0, 0, 1, 2, 2, 3, 3, 4, 4, 4, 4])).map Prod.fst = some 1 ∧
    (phi 1 1 6 (new 1000 7 [0, 2, 3, 5, 7, 11, 13, 17, 19]
      [0, 0, 1, 2, 2, 3, 3, 4, 4, 4, 4])).map Prod.fst = some 1 ∧
    (phi (-1) (1 / [0, 2, 3, 5, 7, 11, 13, 17, 19].getD 7 0) 6
      (new 1000 7 [0, 2, 3, 5, 7, 11, 13, 17, 19]
      [0, 0, 1, 2, 2, 3, 3, 4, 4, 4, 4])).map Prod.fst = some (-1) ∧
    (1 : Int) ≠ 1 + ∑ _i in Finset.Ioc 6 7, (-1 : Int) := by
  refine ⟨rfl, rfl, rfl, ?_⟩
  decide

end PhiCache

/-! ### The cache does not change what `phi` returns -/

namespace PhiCache

/-- Every cache state that is reached satisfies the invariant of the cache
and holds the two tables it was constructed over. -/
theorem Reachable.valid {primes pi : List Nat} (hpt : IsPrimeTable primes)
    (hpi : IsPiTable pi) (hlen : 0 < primes.length) {s : State}
    (h : Reachable primes pi s) : Valid s ∧ s.primes_ = primes ∧ s.pi_ = pi := by
  induction h with
  | init x a => exact valid_new x a primes pi hpt hpi hlen
  | step s s' sign x a r _ ha hr ih =>
    obtain ⟨hv, hp, hq⟩ := ih
    rcases Nat.eq_zero_or_pos x with hx | hx
    · subst hx
      unfold phi at hr
      rw [phi_fuel, if_pos (Nat.zero_le _)] at hr
      simp only [Option.some.injEq, Prod.mk.injEq] at hr
      rw [← hr.2]
      exact ⟨hv, hp, hq⟩
    · obtain ⟨t, h1, h2, h3, h4⟩ := phi_spec sign x a s hv hx (by rw [hp]; exact ha)
      rw [h1] at hr
      simp only [Option.some.injEq, Prod.mk.injEq] at hr
      rw [← hr.2]
      exact ⟨h2, h3.trans hp, h4.trans hq⟩

/-- C32: the cache is transparent. Over a table of primes that reaches
`primes[a + 1]` and a correct pi-table, for every `x ≥ 1` the call
`phi<SIGN>(x, a)` returns the same value on a `PhiCache` with caching
disabled (`max_a_ = 0`) as on a `PhiCache` in any state `s` that is
reached from a constructor by calls of `phi` (where
`max_a_cached_ ≤ max_a_`), whatever part of the cache is filled in `s`;
the value is `SIGN * φ(x, a)`. The disabled cache is left as it was, and
the state that the call leaves behind on the other one is reached as well,
so that the same holds for every later call, after `init_cache` has
extended the cache. -/
theorem cache_transparent (primes pi : List Nat) (hpt : IsPrimeTable primes)
    (hpi : IsPiTable pi) (s₀ s : State) (h₀ : Reachable primes pi s₀) (hd : s₀.max_a_ = 0)
    (h : Reachable primes pi s) (sign : Int) (x a : Nat) (hx : 1 ≤ x)
    (hlen : a + 1 < primes.length) :
    s.max_a_cached_ ≤ s.max_a_ ∧
    ∃ r t, phi sign x a s₀ = some (r, s₀) ∧ phi sign x a s = some (r, t) ∧
      Reachable primes pi t ∧ r = phi_naive primes x a * sign := by
  obtain ⟨hv₀, hp₀, _⟩ := Reachable.valid hpt hpi (by omega) h₀
  obtain ⟨hv, hp, _⟩ := Reachable.valid hpt hpi (by omega) h
  obtain ⟨t₀, h1, _⟩ := phi_spec sign x a s₀ hv₀ hx (by rw [hp₀]; exact hlen)
  obtain ⟨t, h2, _⟩ := phi_spec sign x a s hv hx (by rw [hp]; exact hlen)
  have e : t₀ = s₀ := phi_fuel_disabled (a + 1) sign x a s₀ _ t₀ hd h1
  rw [e, hp₀] at h1
  rw [hp] at h2
  exact ⟨hv.cached, _, t, h1, h2, Reachable.step s t sign x a _ h hlen h2, rfl⟩

theorem cache_transparent_witness :
    (new 100 3 [0, 2, 3, 5, 7, 11, 13, 17, 19] [0, 0, 1, 2, 2, 3, 3, 4, 4, 4, 4]).max_a_ = 0 ∧
    (new 3686400 37 [0, 2, 3, 5, 7, 11, 13, 17, 19]
      [0, 0, 1, 2, 2, 3, 3, 4, 4, 4, 4]).max_a_ = 7 ∧
    ∃ r t,
      phi 1 1000 7 (new 100 3 [0, 2, 3, 5, 7, 11, 13, 17, 19]
          [0, 0, 1, 2, 2, 3, 3, 4, 4, 4, 4]) =
        some (r, new 100 3 [0, 2, 3, 5, 7, 11, 13, 17, 19] [0, 0, 1, 2, 2, 3, 3, 4, 4, 4, 4]) ∧
      phi 1 1000 7 (new 3686400 37 [0, 2, 3, 5, 7, 11, 13, 17, 19]
          [0, 0, 1, 2, 2, 3, 3, 4, 4, 4, 4]) = some (r, t) ∧
      Reachable [0, 2, 3, 5, 7, 11, 13, 17, 19] [0, 0, 1, 2, 2, 3, 3, 4, 4, 4, 4] t ∧
      r = phi_naive [0, 2, 3, 5, 7, 11, 13, 17, 19] 1000 7 * 1 :=
  ⟨by rfl, by rw [new_example],
    (cache_transparent [0, 2, 3, 5, 7, 11, 13, 17, 19] [0, 0, 1, 2, 2, 3, 3, 4, 4, 4, 4]
      isPrimeTable_nine isPiTable_small _ _ (Reachable.init 100 3) (by rfl)
      (Reachable.init 3686400 37) 1 1000 7 (by decide) (by decide)).2⟩

end PhiCache

/-! ### Additivity of `count_default` and the reads of `count(stop)` -/

namespace Sieve

/-- C33: range counting is additive. For every sieve content and all
`start ≤ mid < stop` with `stop` inside the segment (`stop` below 240 times
the number of words),
`count_default(start, mid) + count_default(mid + 1, stop) = count_default(start, stop)`. -/
theorem count_default_additive (sieve64 : List Nat) (start mid stop : Nat)
    (h1 : start ≤ mid) (h2 : mid < stop) (hstop : stop < 240 * sieve64.length) :
    count_default sieve64 start mid + count_default sieve64 (mid + 1) stop =
      count_default sieve64 start stop := by
  rw [count_default_eq_set_bits_aux sieve64 start mid (by omega),
    count_default_eq_set_bits_aux sieve64 (mid + 1) stop hstop,
    count_default_eq_set_bits_aux sieve64 start stop hstop]
  exact set_bits_split sieve64 start mid stop (by omega) (by omega)

theorem count_default_additive_witness :
    count_default [18446744073709551615, 5] 230 240 +
        count_default [18446744073709551615, 5] (240 + 1) 250 =
      count_default [18446744073709551615, 5] 230 250 :=
  count_default_additive [18446744073709551615, 5] 230 240 250 (by decide) (by decide)
    (by decide)

/-- Every read of the while loop is the read of a block that ends at or
before `stop`. -/
theorem count_loop_reads_bound (stop : Nat) :
    ∀ (fuel : Nat) (s : State),
      s.counter_.stop = (s.counter_.i + 1) * s.counter_.dist →
      ∀ k ∈ count_loop_reads fuel stop s, (k + 1) * s.counter_.dist ≤ stop := by
  intro fuel
  induction fuel with
  | zero =>
    intro s _ k hk
    simp [count_loop_reads] at hk
  | succ fuel ih =>
    intro s hinv k hk
    rw [count_loop_reads] at hk
    split_ifs at hk with hle
    · dsimp only at hk
      rcases List.mem_cons.1 hk with rfl | hk
      · rw [← hinv]
        exact hle
      · have hstep : s.counter_.stop + s.counter_.dist =
            (s.counter_.i + 1 + 1) * s.counter_.dist := by
          rw [hinv, Nat.add_mul (s.counter_.i + 1) 1, Nat.one_mul]
        have hb := ih { s with
          counter_ := { s.counter_ with
            stop := s.counter_.stop + s.counter_.dist
            sum := s.counter_.sum + s.counter_.counter.getD s.counter_.i 0
            i := s.counter_.i + 1 }
          count_ := s.counter_.sum + s.counter_.counter.getD s.counter_.i 0 } hstep k hk
        exact hb
    · simp at hk

/-- The reads of the while loop are those of the blocks that the loop
consumes, `counter_.i` before the loop up to `counter_.i` after it. -/
theorem count_loop_reads_eq (stop : Nat) :
    ∀ (fuel start : Nat) (s : State) (start' : Nat) (s' : State),
      count_loop fuel stop start s = some (start', s') →
      count_loop_reads fuel stop s =
        List.range' s.counter_.i (s'.counter_.i - s.counter_.i) ∧
      s.counter_.i ≤ s'.counter_.i := by
  intro fuel
  induction fuel with
  | zero =>
    intro start s start' s' h
    simp [count_loop] at h
  | succ fuel ih =>
    intro start s start' s' h
    rw [count_loop] at h
    rw [count_loop_reads]
    split_ifs at h ⊢ with hle
    · dsimp only at h ⊢
      obtain ⟨e1, e2⟩ := ih _ _ _ _ h
      dsimp only at e1 e2
      rw [e1]
      obtain ⟨n, hn⟩ : ∃ n, s'.counter_.i - s.counter_.i = n + 1 :=
        ⟨s'.counter_.i - s.counter_.i - 1, by omega⟩
      have e3 : s'.counter_.i - (s.counter_.i + 1) = n := by omega
      rw [hn, e3, List.range'_succ]
      exact ⟨rfl, by omega⟩
    · simp only [Option.some.injEq, Prod.mk.injEq] at h
      rw [← h.2]
      simp

/-- The words that `count_default(start, stop)` reads are words up to that
of `stop`. -/
theorem count_default_reads_bound (start stop : Nat) :
    ∀ q ∈ count_default_reads start stop, q ≤ stop / 240 := by
  intro q hq
  unfold count_default_reads at hq
  split_ifs at hq with hgt
  · simp at hq
  · dsimp only at hq
    have hdiv : start / 240 ≤ stop / 240 := Nat.div_le_div_right (by omega)
    rcases List.mem_cons.1 hq with rfl | hq
    · exact hdiv
    · rcases List.mem_cons.1 hq with rfl | hq
      · exact le_refl _
      · rw [List.mem_range'_1] at hq
        omega

/-- One call `count(stop)` from a cursor with
`counter.stop = (counter.i + 1) * counter.dist`: it returns, keeps the sieve
and `counter.dist`, and leaves a cursor of the same kind. -/
theorem count_cursor_step (s : State) (stop : Nat) (hdist : 0 < s.counter_.dist)
    (hinv : s.counter_.stop = (s.counter_.i + 1) * s.counter_.dist) :
    ∃ start s1 r s',
      count_loop (stop + 2) stop (s.prev_stop_ + 1) { s with prev_stop_ := stop } =
        some (start, s1) ∧
      count s stop = some (r, s') ∧
      s'.sieve64 = s.sieve64 ∧ s'.counter_.dist = s.counter_.dist ∧
      s'.counter_.counter = s.counter_.counter ∧
      s'.counter_.stop = (s'.counter_.i + 1) * s'.counter_.dist := by
  obtain ⟨start, s1, h1, h2, h3, h4, h5, h6, h7, h8, h9, h10⟩ :=
    count_loop_cursor (stop + 2) stop (s.prev_stop_ + 1)
      { s with prev_stop_ := stop } ⟨by omega, fun _ => by omega⟩ hdist
  dsimp only at h2 h3 h4 h5 h7 h8
  refine ⟨start, s1, s1.count_ + count_range s1.sieve64 start stop,
    { s1 with count_ := s1.count_ + count_range s1.sieve64 start stop },
    h1, ?_, h2, h4, h5, ?_⟩
  · unfold count
    dsimp only
    rw [h1]
  · show s1.counter_.stop = (s1.counter_.i + 1) * s1.counter_.dist
    rw [h8, hinv, h4, ← Nat.add_mul]
    congr 1
    omega

theorem count_reads_spec (n dist : Nat) (hdist : 0 < dist) :
    ∀ (stops : List Nat) (s : State), s.counter_.dist = dist → s.sieve64.length = n →
      s.counter_.stop = (s.counter_.i + 1) * s.counter_.dist →
      (∀ stop ∈ stops, stop < 240 * n) →
      ∃ rs, count_reads s stops = some rs ∧ rs.length = stops.length ∧
        ∀ r ∈ rs, (∀ i ∈ r.1, i < ceil_div (240 * n) dist) ∧ (∀ q ∈ r.2, q < n) := by
  intro stops
  induction stops with
  | nil =>
    intro s _ _ _ _
    exact ⟨[], rfl, rfl, fun r hr => absurd hr (List.not_mem_nil _)⟩
  | cons stop stops ih =>
    intro s hd hn hinv hst
    obtain ⟨start, s1, r, s', h1, h2, h3, h4, _, h6⟩ :=
      count_cursor_step s stop (by omega) hinv
    obtain ⟨rs, i1, i2, i3⟩ := ih s' (by rw [h4, hd]) (by rw [h3, hn]) h6
      (fun t ht => hst t (List.mem_cons_of_mem _ ht))
    have hs := hst stop (List.mem_cons_self _ _)
    refine ⟨(count_loop_reads (stop + 2) stop { s with prev_stop_ := stop },
      count_default_reads start stop) :: rs, ?_, ?_, ?_⟩
    · unfold count_reads
      rw [h1, h2]
      dsimp only
      rw [i1]
    · rw [List.length_cons, List.length_cons, i2]
    · intro q hq
      rcases List.mem_cons.1 hq with rfl | hq
      · constructor
        · intro i hi
          have hb := count_loop_reads_bound stop (stop + 2) { s with prev_stop_ := stop } hinv i hi
          dsimp only at hb
          rw [hd] at hb
          unfold ceil_div
          refine (Nat.le_div_iff_mul_le hdist).2 ?_
          generalize (i + 1) * dist = m at hb ⊢
          omega
        · intro w hw
          have hb := count_default_reads_bound start stop w hw
          have : stop / 240 < n := Nat.div_lt_of_lt_mul hs
          omega
      · exact i3 q hq

/-- C34: no read of `count(stop)` is out of range. Starting from a freshly
reset cursor (`counter.i = 0`, `counter.stop = counter.dist`) with
`counter.dist > 0`, in calls `count(s₁)`, `count(s₂)`, … with every
`sₖ < segment_size`, every call returns, every access
`counter_[counter_.i]` of the while loop has
`counter_.i < ceil_div(segment_size, counter.dist)`, and every word that
`count(start, stop)` reads (`start / 240`, `stop / 240` and the words in
between; none when `start > stop`) has an index below
`segment_size / 240`, the number of words of the sieve. The order of the
stops plays no part in this. -/
theorem count_reads_in_range (s : State) (stops : List Nat) (hfresh : FreshCursor s)
    (hdist : 0 < s.counter_.dist) (hstops : ∀ stop ∈ stops, stop < segment_size s) :
    ∃ rs, count_reads s stops = some rs ∧ rs.length = stops.length ∧
      ∀ r ∈ rs,
        (∀ i ∈ r.1, i < ceil_div (segment_size s) s.counter_.dist) ∧
        (∀ q ∈ r.2, q < segment_size s / 240 ∧ q < s.sieve64.length) := by
  obtain ⟨_, _, _, f4, f5⟩ := hfresh
  obtain ⟨rs, h1, h2, h3⟩ := count_reads_spec s.sieve64.length s.counter_.dist hdist stops s
    rfl rfl (by rw [f5, f4]; omega) hstops
  refine ⟨rs, h1, h2, fun r hr => ⟨(h3 r hr).1, fun q hq => ?_⟩⟩
  have e : segment_size s / 240 = s.sieve64.length := by
    unfold segment_size
    exact Nat.mul_div_cancel_left _ (by decide)
  rw [e]
  exact ⟨(h3 r hr).2 q hq, (h3 r hr).2 q hq⟩

theorem count_reads_in_range_witness :
    FreshCursor ⟨0, 0, 0, 0, [18446744073709551615, 5], [], ⟨240, 240, 8, 0, 0, [64, 2]⟩⟩ ∧
    ∃ rs, count_reads
        ⟨0, 0, 0, 0, [18446744073709551615, 5], [], ⟨240, 240, 8, 0, 0, [64, 2]⟩⟩
        [7, 7, 250, 479] = some rs ∧
      rs.length = [7, 7, 250, 479].length ∧
      ∀ r ∈ rs, (∀ i ∈ r.1, i < ceil_div (segment_size
          ⟨0, 0, 0, 0, [18446744073709551615, 5], [], ⟨240, 240, 8, 0, 0, [64, 2]⟩⟩) 240) ∧
        (∀ q ∈ r.2, q < segment_size
          ⟨0, 0, 0, 0, [18446744073709551615, 5], [], ⟨240, 240, 8, 0, 0, [64, 2]⟩⟩ / 240 ∧
          q < 2) :=
  have hfresh : FreshCursor
      ⟨0, 0, 0, 0, [18446744073709551615, 5], [], ⟨240, 240, 8, 0, 0, [64, 2]⟩⟩ :=
    ⟨rfl, rfl, rfl, rfl, rfl⟩
  ⟨hfresh,
    count_reads_in_range
      ⟨0, 0, 0, 0, [18446744073709551615, 5], [], ⟨240, 240, 8, 0, 0, [64, 2]⟩⟩
      [7, 7, 250, 479] hfresh (by decide) (by decide)⟩

end Sieve

